import Mathlib

/-!
B+ tree index (`b_plus_tree.cpp`, `index_iterator.cpp`)

A shallow embedding of the tree engine and of the range iterator.

* A node pointer of the source is represented by the id of the page that holds the node,
  so `GetPageId()` is the identity and every access goes through the page table.
* The buffer pool is the page table `pages` together with the allocation counter
  `next_page_id`; pin counts and latch modes are not part of this layer.
* The transaction object lives in the state (`txn`); the `Transaction *` argument of the
  source is the flag `transaction`, `false` standing for `nullptr`.
* Loops and recursions of the source take a `fuel` argument; running out of it is the
  fault `out_of_fuel`. The fault `null_pointer` is the dereference of a null pointer and
  `bad_cast` the use of a page as the wrong kind of node.
* The fault `out_of_range` is an access at an index that the container or the node does not
  have. `at(0)` on an empty page set throws in the source. A slot past the size of a node is
  another matter: the source reads it without a check and goes on with what the slot holds.
  The slot arrays belong to the node pages, which are not among the sources at hand, so the
  model has no value for such a read and stops there. A run that ends in `out_of_range` at a
  node is a run that the sources at hand do not determine; it is not a crash of the program.
-/

namespace BPlusTree

/-- Modelled from the spec: page ids are integers (`page_id_t` is declared in the headers of
the buffer pool, which are not part of the sources at hand). -/
abbrev page_id_t := Int
/-- The key type of the template, instantiated at the integers with their order as the
comparator. -/
abbrev KeyType := Int
/-- The value type of the template (record ids in the source), instantiated at the
integers. -/
abbrev ValueType := Int
/-- A `(key, value)` pair of a leaf, as `MappingType` in `index_iterator.h`. -/
abbrev MappingType := KeyType × ValueType

/-- Modelled from the spec: `INVALID_PAGE_ID` is the reserved sentinel of the buffer pool
(its declaration is not part of the sources at hand). -/
def INVALID_PAGE_ID : page_id_t := -1

/-- The ways in which a run of the model ends without a result: the fuel is used up, the
source dereferences a null pointer, the access is at an index that is not there (for a slot
past the size of a node the source reads on, and the model has no value for the slot), or a
page is used as the wrong kind of node. -/
inductive Fault where
  | out_of_fuel
  | null_pointer
  | out_of_range
  | bad_cast
deriving DecidableEq, Repr

/-- The kind of operation that a descent serves (`ActionType` of the source). -/
inductive ActionType where
  | SEARCH
  | INSERT
  | DELETE
deriving DecidableEq, Repr

/-! ## Node pages -/

/-- Modelled from the spec: a leaf node, its header fields and its sorted slot array
(`b_plus_tree_leaf_page` is not part of the sources at hand). -/
structure LeafPage where
  parent_page_id : page_id_t
  max_size : Nat
  next_page_id : page_id_t
  array : List MappingType
deriving DecidableEq, Repr

/-- Modelled from the spec: an internal node; slot `i` is `(key_i, child_i)` and the key of
slot 0 is unused (`b_plus_tree_internal_page` is not part of the sources at hand). -/
structure InternalPage where
  parent_page_id : page_id_t
  max_size : Nat
  array : List (KeyType × page_id_t)
deriving DecidableEq, Repr

/-- Modelled from the spec: the common header view of a node; `IsLeafPage` tells the two
kinds apart. -/
inductive BPlusTreePage where
  | leaf (p : LeafPage)
  | internal (p : InternalPage)
deriving DecidableEq, Repr

namespace LeafPage

/-- Modelled from the spec: `Init(page_id, parent_id, max_size)` of a leaf. -/
def Init (parent_id : page_id_t) (max_size : Nat) : LeafPage :=
  { parent_page_id := parent_id, max_size := max_size, next_page_id := INVALID_PAGE_ID,
    array := [] }

/-- Modelled from the spec: `GetSize`, the number of slots in use. -/
def GetSize (p : LeafPage) : Nat := p.array.length

/-- Modelled from the spec: `min_size = ⌈(max_size − 1)/2⌉` for a leaf. -/
def GetMinSize (p : LeafPage) : Nat := (p.max_size - 1 + 1) / 2

/-- Modelled from the spec: the first slot whose key is `>= key` (the size when none). -/
def KeyIndexIn (key : KeyType) : List MappingType → Nat
  | [] => 0
  | e :: es => if key ≤ e.1 then 0 else KeyIndexIn key es + 1

/-- Modelled from the spec: leaf `KeyIndex(key)`. -/
def KeyIndex (p : LeafPage) (key : KeyType) : Nat := KeyIndexIn key p.array

/-- Modelled from the spec: leaf `Lookup`, the value stored under `key`. -/
def LookupIn (key : KeyType) : List MappingType → Option ValueType
  | [] => none
  | e :: es => if e.1 = key then some e.2 else LookupIn key es

/-- Modelled from the spec: leaf `Lookup(key, &value)`; `none` is the result `false`. -/
def Lookup (p : LeafPage) (key : KeyType) : Option ValueType := LookupIn key p.array

/-- Modelled from the spec: leaf `Insert`, keeping the slots sorted by key. -/
def InsertIn (key : KeyType) (value : ValueType) : List MappingType → List MappingType
  | [] => [(key, value)]
  | e :: es => if key ≤ e.1 then (key, value) :: e :: es else e :: InsertIn key value es

/-- Modelled from the spec: leaf `Insert(key, value)`. -/
def Insert (p : LeafPage) (key : KeyType) (value : ValueType) : LeafPage :=
  { p with array := InsertIn key value p.array }

/-- Modelled from the spec: `RemoveAndDeleteRecord`, dropping the slot of `key` if any. -/
def RemoveIn (key : KeyType) : List MappingType → List MappingType
  | [] => []
  | e :: es => if e.1 = key then es else e :: RemoveIn key es

/-- Modelled from the spec: leaf `RemoveAndDeleteRecord(key)`. -/
def RemoveAndDeleteRecord (p : LeafPage) (key : KeyType) : LeafPage :=
  { p with array := RemoveIn key p.array }

/-- Modelled from the spec: leaf `KeyAt(index)`. An index past the size reads a slot that is
not in use; the source makes the read without a check, the model has no value for the slot
and stops with `out_of_range`. -/
def KeyAt (p : LeafPage) (index : Nat) : Except Fault KeyType :=
  match p.array.get? index with
  | some e => .ok e.1
  | none => .error .out_of_range

/-- Modelled from the spec: leaf `GetItem(index)`. An index outside the slots in use reads a
slot that is not in use; the source (`operator*`, lines 51-54 of `index_iterator.cpp`) makes
the read without a check and returns what the slot holds, the model has no value for the
slot and stops with `out_of_range`. -/
def GetItem (p : LeafPage) (index : Int) : Except Fault MappingType :=
  if index < 0 then .error .out_of_range
  else match p.array.get? index.toNat with
    | some e => .ok e
    | none => .error .out_of_range

end LeafPage

namespace InternalPage

/-- Modelled from the spec: `Init(page_id, parent_id, max_size)` of an internal node. -/
def Init (parent_id : page_id_t) (max_size : Nat) : InternalPage :=
  { parent_page_id := parent_id, max_size := max_size, array := [] }

/-- Modelled from the spec: `GetSize`, the number of child pointers. -/
def GetSize (p : InternalPage) : Nat := p.array.length

/-- Modelled from the spec: `min_size = ⌈max_size/2⌉` for an internal node. -/
def GetMinSize (p : InternalPage) : Nat := (p.max_size + 1) / 2

/-- Modelled from the spec: internal `KeyAt(index)`. An index past the size reads a slot
that is not in use; the source makes the read without a check, the model has no value for
the slot and stops with `out_of_range`. -/
def KeyAt (p : InternalPage) (index : Nat) : Except Fault KeyType :=
  match p.array.get? index with
  | some e => .ok e.1
  | none => .error .out_of_range

/-- Modelled from the spec: internal `ValueAt(index)`. An index past the size reads a slot
that is not in use; the source makes the read without a check (line 291 of
`b_plus_tree.cpp` for the sibling of a node whose parent has one child) and goes on with
what the slot holds, the model has no value for the slot and stops with `out_of_range`. -/
def ValueAt (p : InternalPage) (index : Nat) : Except Fault page_id_t :=
  match p.array.get? index with
  | some e => .ok e.2
  | none => .error .out_of_range

/-- Modelled from the spec: the slots with the key of slot `index` set to `key`. -/
def SetKeyAtIn (key : KeyType) : Nat → List (KeyType × page_id_t) → List (KeyType × page_id_t)
  | _, [] => []
  | 0, e :: es => (key, e.2) :: es
  | i + 1, e :: es => e :: SetKeyAtIn key i es

/-- Modelled from the spec: internal `SetKeyAt(index, key)`. -/
def SetKeyAt (p : InternalPage) (index : Nat) (key : KeyType) : Except Fault InternalPage :=
  if index < p.array.length then .ok { p with array := SetKeyAtIn key index p.array }
  else .error .out_of_range

/-- Modelled from the spec: the index of the first slot whose child pointer is `value`. -/
def ValueIndexIn (value : page_id_t) : List (KeyType × page_id_t) → Option Nat
  | [] => none
  | e :: es => if e.2 = value then some 0 else (ValueIndexIn value es).map (· + 1)

/-- Modelled from the spec: `ValueIndex`, the slot whose child pointer is `value`; a child
that is not there is a fault. -/
def ValueIndex (p : InternalPage) (value : page_id_t) : Except Fault Nat :=
  match ValueIndexIn value p.array with
  | some i => .ok i
  | none => .error .out_of_range

/-- Scan of the real separators (slots `1 ..`): the child of the last slot whose key is
`<= key`, starting from the child `cur` of the slot before. -/
def LookupFrom (key : KeyType) (cur : page_id_t) : List (KeyType × page_id_t) → page_id_t
  | [] => cur
  | e :: es => if e.1 ≤ key then LookupFrom key e.2 es else cur

/-- Modelled from the spec: internal `Lookup(key)`, the child whose key range holds `key`
(keys of `child_{i-1}` are `< key_i`, keys of `child_i` are `>= key_i`). -/
def Lookup (p : InternalPage) (key : KeyType) : Except Fault page_id_t :=
  match p.array with
  | [] => .error .out_of_range
  | e :: es => .ok (LookupFrom key e.2 es)

/-- Modelled from the spec: `PopulateNewRoot`, the two slots `(⊥, old)` and `(key, new)`;
the unused key of slot 0 is stored as `0`. -/
def PopulateNewRoot (p : InternalPage) (old_value : page_id_t) (new_key : KeyType)
    (new_value : page_id_t) : InternalPage :=
  { p with array := [(0, old_value), (new_key, new_value)] }

/-- Modelled from the spec: the slots with `(new_key, new_value)` right after the slot whose
child pointer is `old_value`. -/
def InsertAfterIn (old_value : page_id_t) (new_key : KeyType) (new_value : page_id_t) :
    List (KeyType × page_id_t) → Option (List (KeyType × page_id_t))
  | [] => none
  | e :: es =>
    if e.2 = old_value then some (e :: (new_key, new_value) :: es)
    else (InsertAfterIn old_value new_key new_value es).map (e :: ·)

/-- Modelled from the spec: `InsertNodeAfter`, a new slot right after the slot whose child is
`old_value`; an `old_value` that is not there is a fault. -/
def InsertNodeAfter (p : InternalPage) (old_value : page_id_t) (new_key : KeyType)
    (new_value : page_id_t) : Except Fault InternalPage :=
  match InsertAfterIn old_value new_key new_value p.array with
  | some arr => .ok { p with array := arr }
  | none => .error .out_of_range

/-- Modelled from the spec: `Remove(index)` of an internal node. -/
def Remove (p : InternalPage) (index : Nat) : Except Fault InternalPage :=
  if index < p.array.length then .ok { p with array := p.array.eraseIdx index }
  else .error .out_of_range

end InternalPage

namespace BPlusTreePage

/-- Modelled from the spec: `IsLeafPage`. -/
def IsLeafPage : BPlusTreePage → Bool
  | leaf _ => true
  | internal _ => false

/-- Modelled from the spec: `GetSize` on the common header. -/
def GetSize : BPlusTreePage → Nat
  | leaf p => p.GetSize
  | internal p => p.GetSize

/-- Modelled from the spec: `GetMaxSize` on the common header. -/
def GetMaxSize : BPlusTreePage → Nat
  | leaf p => p.max_size
  | internal p => p.max_size

/-- Modelled from the spec: `GetMinSize`, by the formula of the kind of node. -/
def GetMinSize : BPlusTreePage → Nat
  | leaf p => p.GetMinSize
  | internal p => p.GetMinSize

/-- Modelled from the spec: `GetParentPageId`. -/
def GetParentPageId : BPlusTreePage → page_id_t
  | leaf p => p.parent_page_id
  | internal p => p.parent_page_id

/-- Modelled from the spec: `SetParentPageId`. -/
def SetParentPageId (parent_id : page_id_t) : BPlusTreePage → BPlusTreePage
  | leaf p => leaf { p with parent_page_id := parent_id }
  | internal p => internal { p with parent_page_id := parent_id }

/-- Modelled from the spec: the root is the node whose parent is `INVALID_PAGE_ID`. -/
def IsRootPage (n : BPlusTreePage) : Bool := n.GetParentPageId == INVALID_PAGE_ID

end BPlusTreePage

/-! ## Transaction, buffer pool and tree state -/

/-- A `Page *` held in the page set of a transaction: the virtual root of the tree or a
frame of the buffer pool. -/
inductive PageRef where
  | virtual_root_page
  | frame (page_id : page_id_t)
deriving DecidableEq, Repr

/-- Modelled from the spec: `Page::GetPageId`; the virtual root is a page object outside the
buffer pool, whose id is `INVALID_PAGE_ID`. -/
def PageRef.GetPageId : PageRef → page_id_t
  | virtual_root_page => INVALID_PAGE_ID
  | frame page_id => page_id

/-- Modelled from the spec: the transaction accumulates the pages whose latch it holds
(oldest first) and the ids of the pages to delete. -/
structure Transaction where
  page_set : List PageRef
  deleted_page_set : List page_id_t
deriving DecidableEq, Repr

/-- The state of the index and of what it works on: the buffer pool (`pages`,
`next_page_id`), the record of the index in the header page, the transaction object, and
the fields `root_page_id_`, `leaf_max_size_`, `internal_max_size_` of `BPlusTree`. -/
structure State where
  pages : page_id_t → Option BPlusTreePage
  next_page_id : page_id_t
  header_record : Option page_id_t
  txn : Transaction
  root_page_id_ : page_id_t
  leaf_max_size_ : Nat
  internal_max_size_ : Nat

/-- The constructor `BPlusTree(name, buffer_pool_manager, comparator, leaf_max_size,
internal_max_size)` over an empty pool whose page 0 is the header page. -/
def State.new (leaf_max_size internal_max_size : Nat) : State :=
  { pages := fun _ => none, next_page_id := 1, header_record := none,
    txn := { page_set := [], deleted_page_set := [] },
    root_page_id_ := INVALID_PAGE_ID,
    leaf_max_size_ := leaf_max_size, internal_max_size_ := internal_max_size }

/-- A write through a node pointer: the page `page_id` now holds the node `n`. -/
def State.setPage (s : State) (page_id : page_id_t) (n : BPlusTreePage) : State :=
  { s with pages := fun q => if q = page_id then some n else s.pages q }

/-- Modelled from the spec: `FetchPage`; a page that is not in the pool is `nullptr`, and
the source dereferences the result at once. -/
def FetchPage (s : State) (page_id : page_id_t) : Except Fault BPlusTreePage :=
  match s.pages page_id with
  | some n => .ok n
  | none => .error .null_pointer

/-- `FetchPage` followed by the cast of the page data to a leaf node. -/
def FetchLeaf (s : State) (page_id : page_id_t) : Except Fault LeafPage :=
  match s.pages page_id with
  | some (.leaf p) => .ok p
  | some (.internal _) => .error .bad_cast
  | none => .error .null_pointer

/-- `FetchPage` followed by the cast of the page data to an internal node. -/
def FetchInternal (s : State) (page_id : page_id_t) : Except Fault InternalPage :=
  match s.pages page_id with
  | some (.internal p) => .ok p
  | some (.leaf _) => .error .bad_cast
  | none => .error .null_pointer

/-- Modelled from the spec: `NewPage` hands out a page id that was never used. -/
def NewPage (s : State) : page_id_t × State :=
  (s.next_page_id, { s with next_page_id := s.next_page_id + 1 })

/-- Modelled from the spec: `DeletePage` drops the page from the pool. -/
def DeletePage (s : State) (page_id : page_id_t) : State :=
  { s with pages := fun q => if q = page_id then none else s.pages q }

/-- Modelled from the spec: `Transaction::AddIntoPageSet`. -/
def AddIntoPageSet (s : State) (page : PageRef) : State :=
  { s with txn := { s.txn with page_set := s.txn.page_set ++ [page] } }

/-- Modelled from the spec: `Transaction::AddIntoDeletedPageSet`. -/
def AddIntoDeletedPageSet (s : State) (page_id : page_id_t) : State :=
  { s with txn := { s.txn with deleted_page_set := page_id :: s.txn.deleted_page_set } }

/-- `SetParentPageId` on the node of a fetched page, as done by the internal move
primitives and by the tree engine. -/
def SetParent (s : State) (page_id parent_id : page_id_t) : Except Fault State :=
  match s.pages page_id with
  | some n => .ok (s.setPage page_id (n.SetParentPageId parent_id))
  | none => .error .null_pointer

/-- Modelled from the spec: the re-pointing of the moved children, one after the other. -/
def SetParents (parent_id : page_id_t) : List page_id_t → State → Except Fault State
  | [], s => .ok s
  | c :: cs, s =>
    match SetParent s c parent_id with
    | .ok s1 => SetParents parent_id cs s1
    | .error e => .error e

/-! ## Move primitives of the node pages -/

/-- A write to the leaf node of the page `page_id`. -/
def WriteLeaf (s : State) (page_id : page_id_t) (p : LeafPage) : State :=
  s.setPage page_id (.leaf p)

/-- A write to the internal node of the page `page_id`. -/
def WriteInternal (s : State) (page_id : page_id_t) (p : InternalPage) : State :=
  s.setPage page_id (.internal p)

/-- Modelled from the spec: leaf `MoveHalfTo`, the upper half of the slots (from slot
`size / 2` on) goes to the end of `recipient`. -/
def LeafMoveHalfTo (s : State) (node recipient : page_id_t) : Except Fault State := do
  let p ← FetchLeaf s node
  let r ← FetchLeaf s recipient
  let start := p.array.length / 2
  let s1 := WriteLeaf s recipient { r with array := r.array ++ p.array.drop start }
  pure (WriteLeaf s1 node { p with array := p.array.take start })

/-- Modelled from the spec: leaf `MoveAllTo`, all slots go to the end of `recipient`. -/
def LeafMoveAllTo (s : State) (node recipient : page_id_t) : Except Fault State := do
  let p ← FetchLeaf s node
  let r ← FetchLeaf s recipient
  let s1 := WriteLeaf s recipient { r with array := r.array ++ p.array }
  pure (WriteLeaf s1 node { p with array := [] })

/-- Modelled from the spec: leaf `MoveFirstToEndOf`. -/
def LeafMoveFirstToEndOf (s : State) (node recipient : page_id_t) : Except Fault State := do
  let p ← FetchLeaf s node
  let r ← FetchLeaf s recipient
  match p.array with
  | [] => .error .out_of_range
  | e :: es =>
    let s1 := WriteLeaf s recipient { r with array := r.array ++ [e] }
    pure (WriteLeaf s1 node { p with array := es })

/-- Modelled from the spec: leaf `MoveLastToFrontOf`. -/
def LeafMoveLastToFrontOf (s : State) (node recipient : page_id_t) : Except Fault State := do
  let p ← FetchLeaf s node
  let r ← FetchLeaf s recipient
  match p.array.getLast? with
  | none => .error .out_of_range
  | some e =>
    let s1 := WriteLeaf s recipient { r with array := e :: r.array }
    pure (WriteLeaf s1 node { p with array := p.array.dropLast })

/-- Modelled from the spec: internal `MoveHalfTo`, the upper half of the slots (from slot
`size / 2` on) goes to the end of `recipient`, and every moved child is re-pointed to
`recipient` through the buffer pool. -/
def InternalMoveHalfTo (s : State) (node recipient : page_id_t) : Except Fault State := do
  let p ← FetchInternal s node
  let r ← FetchInternal s recipient
  let start := p.array.length / 2
  let moved := p.array.drop start
  let s1 := WriteInternal s recipient { r with array := r.array ++ moved }
  let s2 := WriteInternal s1 node { p with array := p.array.take start }
  SetParents recipient (moved.map (·.2)) s2

/-- Modelled from the spec: internal `MoveAllTo(recipient, middle_key)`, the separator
`middle_key` of the parent becomes the key of slot 0, then all slots go to the end of
`recipient` and the moved children are re-pointed. -/
def InternalMoveAllTo (s : State) (node recipient : page_id_t) (middle_key : KeyType) :
    Except Fault State := do
  let p ← FetchInternal s node
  let r ← FetchInternal s recipient
  let moved := InternalPage.SetKeyAtIn middle_key 0 p.array
  let s1 := WriteInternal s recipient { r with array := r.array ++ moved }
  let s2 := WriteInternal s1 node { p with array := [] }
  SetParents recipient (moved.map (·.2)) s2

/-- Modelled from the spec: internal `MoveFirstToEndOf(recipient, middle_key)`, the first
child goes to the end of `recipient` under the key `middle_key` and is re-pointed. -/
def InternalMoveFirstToEndOf (s : State) (node recipient : page_id_t) (middle_key : KeyType) :
    Except Fault State := do
  let p ← FetchInternal s node
  let r ← FetchInternal s recipient
  match p.array with
  | [] => .error .out_of_range
  | e :: es =>
    let s1 := WriteInternal s recipient { r with array := r.array ++ [(middle_key, e.2)] }
    let s2 := WriteInternal s1 node { p with array := es }
    SetParent s2 e.2 recipient

/-- Modelled from the spec: internal `MoveLastToFrontOf(recipient, middle_key)`, the last
slot goes to the front of `recipient`, whose former first child now stands under the key
`middle_key`; the moved child is re-pointed. -/
def InternalMoveLastToFrontOf (s : State) (node recipient : page_id_t) (middle_key : KeyType) :
    Except Fault State := do
  let p ← FetchInternal s node
  let r ← FetchInternal s recipient
  match p.array.getLast? with
  | none => .error .out_of_range
  | some e =>
    let s1 := WriteInternal s recipient
      { r with array := e :: InternalPage.SetKeyAtIn middle_key 0 r.array }
    let s2 := WriteInternal s1 node { p with array := p.array.dropLast }
    SetParent s2 e.2 recipient

/-! ## The tree engine (`b_plus_tree.cpp`) -/

/-- `BPlusTree::IsEmpty`. -/
def IsEmpty (s : State) : Bool := s.root_page_id_ == INVALID_PAGE_ID

/-- `BPlusTree::IsSafe` (b_plus_tree.cpp, lines 531-545). -/
def IsSafe (action_type : ActionType) (node : BPlusTreePage) : Bool :=
  match action_type with
  | .SEARCH => true
  | .INSERT => decide (node.GetSize < node.GetMaxSize - 1)
  | .DELETE => decide (node.GetSize > node.GetMinSize)

/-- Modelled from the spec: the header page keeps one record per index name;
`InsertRecord` refuses a name that has a record and `UpdateRecord` one that has none. -/
def UpdateRootPageId (s : State) (insert_record : Bool) : State :=
  if insert_record then
    match s.header_record with
    | none => { s with header_record := some s.root_page_id_ }
    | some _ => s
  else
    match s.header_record with
    | none => s
    | some _ => { s with header_record := some s.root_page_id_ }

/-- The loop of `Unlock` over the page set. -/
def UnlockLoop : List PageRef → State → State
  | [], s => s
  | page :: rest, s =>
    let curPid := page.GetPageId
    if curPid ∈ s.txn.deleted_page_set then
      let s1 := DeletePage s curPid
      UnlockLoop rest
        { s1 with txn := { s1.txn with
            deleted_page_set := s1.txn.deleted_page_set.filter (· ≠ curPid) } }
    else UnlockLoop rest s

/-- `BPlusTree::Unlock` (lines 565-591): `at(0)` on an empty page set is the fault
`out_of_range`, the virtual root is popped when it is first, and the loop runs over the
rest. -/
def Unlock (_action_type : ActionType) (transaction : Bool) (s : State) : Except Fault State :=
  if !transaction then .error .null_pointer
  else
    match s.txn.page_set with
    | [] => .error .out_of_range
    | page :: rest =>
      let page_set := if page = .virtual_root_page then rest else page :: rest
      let s1 := UnlockLoop page_set s
      .ok { s1 with txn := { s1.txn with page_set := [] } }

/-- `BPlusTree::Lock` (lines 547-563). -/
def Lock (action_type : ActionType) (page : PageRef) (transaction : Bool) (s : State) :
    Except Fault State :=
  match page with
  | .virtual_root_page =>
    if transaction then .ok (AddIntoPageSet s page) else .error .null_pointer
  | .frame page_id => do
    let node ← FetchPage s page_id
    let s1 ← if IsSafe action_type node then Unlock action_type transaction s else pure s
    if transaction then pure (AddIntoPageSet s1 page) else .error .null_pointer

/-- The descent of `FindLeafPage` without a transaction, from a page to fetch. -/
def FindLeafPage.unlatched (key : KeyType) (leftMost : Bool) :
    Nat → State → page_id_t → Except Fault page_id_t
  | 0, _, _ => .error .out_of_fuel
  | fuel + 1, s, page_id => do
    match ← FetchPage s page_id with
    | .leaf _ => pure page_id
    | .internal internal_page =>
      let next_page_id ←
        (if leftMost then internal_page.ValueAt 0 else internal_page.Lookup key)
      FindLeafPage.unlatched key leftMost fuel s next_page_id

/-- The descent of `FindLeafPage` with a transaction, from a page that is fetched and
locked. -/
def FindLeafPage.latched (key : KeyType) (leftMost : Bool) (action_type : ActionType) :
    Nat → State → page_id_t → Except Fault (page_id_t × State)
  | 0, _, _ => .error .out_of_fuel
  | fuel + 1, s, page_id => do
    match ← FetchPage s page_id with
    | .leaf _ => pure (page_id, s)
    | .internal internal_page =>
      let next_page_id ←
        (if leftMost then internal_page.ValueAt 0 else internal_page.Lookup key)
      let _ ← FetchPage s next_page_id
      let s1 ← Lock action_type (.frame next_page_id) true s
      FindLeafPage.latched key leftMost action_type fuel s1 next_page_id

/-- `BPlusTree::FindLeafPage` (lines 490-529); `none` is the result `nullptr`. -/
def FindLeafPage (fuel : Nat) (key : KeyType) (leftMost : Bool) (transaction : Bool)
    (action_type : ActionType) (s : State) : Except Fault (Option page_id_t × State) :=
  if IsEmpty s then pure (none, s)
  else if !transaction then do
    let page ← FindLeafPage.unlatched key leftMost fuel s s.root_page_id_
    pure (some page, s)
  else do
    let next_page_id := s.root_page_id_
    let s1 ← Lock action_type .virtual_root_page transaction s
    let _ ← FetchPage s1 s1.root_page_id_
    let s2 ← Lock action_type (.frame s1.root_page_id_) transaction s1
    let (leaf, s3) ← FindLeafPage.latched key leftMost action_type fuel s2 next_page_id
    let _ ← FetchPage s3 leaf
    pure (some leaf, s3)

/-- `BPlusTree::GetValue` (lines 48-66); the result vector is passed in and returned. -/
def GetValue (fuel : Nat) (key : KeyType) (result : List ValueType) (transaction : Bool)
    (s : State) : Except Fault (Bool × List ValueType × State) := do
  let (page, s1) ← FindLeafPage fuel key false transaction .SEARCH s
  match page with
  | none => pure (false, result, s1)
  | some page_id =>
    let leaf_page ← FetchLeaf s1 page_id
    match leaf_page.Lookup key with
    | some value_temp =>
      let s2 ← if transaction then Unlock .SEARCH transaction s1 else pure s1
      pure (true, result ++ [value_temp], s2)
    | none =>
      let s2 ← if transaction then Unlock .SEARCH transaction s1 else pure s1
      pure (false, result, s2)

/-- `BPlusTree::StartNewTree` (lines 100-108). -/
def StartNewTree (key : KeyType) (value : ValueType) (s : State) : State :=
  let (page_id, s1) := NewPage s
  let s2 := { s1 with root_page_id_ := page_id }
  let s3 := UpdateRootPageId s2 true
  let leaf_page := LeafPage.Init INVALID_PAGE_ID s3.leaf_max_size_
  WriteLeaf s3 s3.root_page_id_ (leaf_page.Insert key value)

/-- `Split(node)`: the new page and the state in which it holds the upper half. -/
def Split (s : State) (node : page_id_t) : Except Fault (page_id_t × State) := do
  let (new_page_id, s1) := NewPage s
  match ← FetchPage s1 node with
  | .leaf p =>
    let s2 := WriteLeaf s1 new_page_id (LeafPage.Init p.parent_page_id s1.leaf_max_size_)
    let s3 ← LeafMoveHalfTo s2 node new_page_id
    pure (new_page_id, s3)
  | .internal p =>
    let s2 := WriteInternal s1 new_page_id
      (InternalPage.Init p.parent_page_id s1.internal_max_size_)
    let s3 ← InternalMoveHalfTo s2 node new_page_id
    pure (new_page_id, s3)

/-- `BPlusTree::InsertIntoParent` (lines 189-233). -/
def InsertIntoParent (transaction : Bool) :
    Nat → State → page_id_t → KeyType → page_id_t → Except Fault State
  | 0, _, _, _, _ => .error .out_of_fuel
  | fuel + 1, s, old_node, key, new_node => do
    let old ← FetchPage s old_node
    if old.GetParentPageId = INVALID_PAGE_ID then
      let (new_root_page_id, s1) := NewPage s
      let s2 := UpdateRootPageId { s1 with root_page_id_ := new_root_page_id } false
      let internal_page := InternalPage.Init INVALID_PAGE_ID s2.internal_max_size_
      let s3 := WriteInternal s2 new_root_page_id
        (internal_page.PopulateNewRoot old_node key new_node)
      let s4 ← SetParent s3 old_node new_root_page_id
      let s5 ← SetParent s4 new_node new_root_page_id
      if transaction then Unlock .INSERT transaction s5 else pure s5
    else
      let parent_id := old.GetParentPageId
      let internal_page ← FetchInternal s parent_id
      if internal_page.GetSize < internal_page.max_size - 1 then
        let internal_page1 ← internal_page.InsertNodeAfter old_node key new_node
        let s1 := WriteInternal s parent_id internal_page1
        if transaction then Unlock .INSERT transaction s1 else pure s1
      else
        let internal_page1 ← internal_page.InsertNodeAfter old_node key new_node
        let s1 := WriteInternal s parent_id internal_page1
        let (new_page, s2) ← Split s1 parent_id
        let new_internal ← FetchInternal s2 new_page
        let temp_key ← new_internal.KeyAt 0
        InsertIntoParent transaction fuel s2 parent_id temp_key new_page

/-- `BPlusTree::InsertIntoLeaf` (lines 118-153). -/
def InsertIntoLeaf (fuel : Nat) (key : KeyType) (value : ValueType) (transaction : Bool)
    (s : State) : Except Fault (Bool × State) := do
  let (page, s1) ← FindLeafPage fuel key false transaction .INSERT s
  match page with
  | none => .error .null_pointer
  | some page_id =>
    let leaf_page ← FetchLeaf s1 page_id
    match leaf_page.Lookup key with
    | some _ =>
      let s2 ← if transaction then Unlock .INSERT transaction s1 else pure s1
      pure (false, s2)
    | none =>
      if leaf_page.GetSize < leaf_page.max_size - 1 then
        let s2 := WriteLeaf s1 page_id (leaf_page.Insert key value)
        let s3 ← if transaction then Unlock .INSERT transaction s2 else pure s2
        pure (true, s3)
      else
        let s2 := WriteLeaf s1 page_id (leaf_page.Insert key value)
        let (new_page_id, s3) ← Split s2 page_id
        let leaf1 ← FetchLeaf s3 page_id
        let new_leaf ← FetchLeaf s3 new_page_id
        let s4 := WriteLeaf s3 new_page_id { new_leaf with next_page_id := leaf1.next_page_id }
        let s5 := WriteLeaf s4 page_id { leaf1 with next_page_id := new_page_id }
        let new_leaf1 ← FetchLeaf s5 new_page_id
        let sep ← new_leaf1.KeyAt 0
        let s6 ← InsertIntoParent transaction fuel s5 page_id sep new_page_id
        pure (true, s6)

/-- `BPlusTree::Insert` (lines 78-93). -/
def Insert (fuel : Nat) (key : KeyType) (value : ValueType) (transaction : Bool)
    (s : State) : Except Fault (Bool × State) :=
  if IsEmpty s then do
    let s1 ← Lock .INSERT .virtual_root_page transaction s
    let s2 := StartNewTree key value s1
    let s3 ← Unlock .INSERT transaction s2
    pure (true, s3)
  else InsertIntoLeaf fuel key value transaction s

/-- `BPlusTree::AdjustRoot` (lines 413-433). -/
def AdjustRoot (s : State) (old_root_node : page_id_t) : Except Fault (Bool × State) := do
  match ← FetchPage s old_root_node with
  | .leaf _ =>
    let s1 := UpdateRootPageId { s with root_page_id_ := INVALID_PAGE_ID } false
    pure (true, s1)
  | .internal old_root =>
    let child ← old_root.ValueAt 0
    let s1 := UpdateRootPageId { s with root_page_id_ := child } false
    let s2 ← SetParent s1 s1.root_page_id_ INVALID_PAGE_ID
    pure (true, s2)

/-- `BPlusTree::Redistribute` (lines 372-402). -/
def Redistribute (s : State) (neighbor_node node : page_id_t) (index : Nat) :
    Except Fault State := do
  let n ← FetchPage s node
  let parent_id := n.GetParentPageId
  let parent_node ← FetchInternal s parent_id
  if index ≠ 0 then
    match n with
    | .internal _ =>
      let neighbor ← FetchInternal s neighbor_node
      let key_m ← neighbor.KeyAt (neighbor.GetSize - 1)
      let middle_key ← parent_node.KeyAt index
      let s1 ← InternalMoveLastToFrontOf s neighbor_node node middle_key
      let parent1 ← FetchInternal s1 parent_id
      let parent2 ← parent1.SetKeyAt index key_m
      pure (WriteInternal s1 parent_id parent2)
    | .leaf _ =>
      let neighbor ← FetchLeaf s neighbor_node
      let key_m ← neighbor.KeyAt (neighbor.GetSize - 1)
      let s1 ← LeafMoveLastToFrontOf s neighbor_node node
      let parent1 ← FetchInternal s1 parent_id
      let parent2 ← parent1.SetKeyAt index key_m
      pure (WriteInternal s1 parent_id parent2)
  else
    match n with
    | .internal _ =>
      let neighbor ← FetchInternal s neighbor_node
      let key_m ← neighbor.KeyAt 1
      let middle_key ← parent_node.KeyAt (index + 1)
      let s1 ← InternalMoveFirstToEndOf s neighbor_node node middle_key
      let parent1 ← FetchInternal s1 parent_id
      let parent2 ← parent1.SetKeyAt (index + 1) key_m
      pure (WriteInternal s1 parent_id parent2)
    | .leaf _ =>
      let neighbor ← FetchLeaf s neighbor_node
      let key_m ← neighbor.KeyAt 1
      let s1 ← LeafMoveFirstToEndOf s neighbor_node node
      let parent1 ← FetchInternal s1 parent_id
      let parent2 ← parent1.SetKeyAt (index + 1) key_m
      pure (WriteInternal s1 parent_id parent2)

/-- `Coalesce(&neighbor_node, &node, parent, index, transaction)`; `recurse` stands for the
call of `CoalesceOrRedistribute` on the parent. -/
def Coalesce (recurse : State → page_id_t → Except Fault (Bool × State)) (transaction : Bool)
    (s : State) (neighbor_node node : page_id_t) (index : Nat) :
    Except Fault (Bool × State) := do
  let n ← FetchPage s node
  let parent_id := n.GetParentPageId
  let _ ← FetchInternal s parent_id
  let (neighbor_node, node, index) :=
    if index = 0 then (node, neighbor_node, 1) else (neighbor_node, node, index)
  let s1 ←
    match ← FetchPage s node with
    | .internal _ => do
      let parent_page ← FetchInternal s parent_id
      let middle_key ← parent_page.KeyAt index
      InternalMoveAllTo s node neighbor_node middle_key
    | .leaf _ => do
      let s1 ← LeafMoveAllTo s node neighbor_node
      let neighbor ← FetchLeaf s1 neighbor_node
      let absorbed ← FetchLeaf s1 node
      pure (WriteLeaf s1 neighbor_node { neighbor with next_page_id := absorbed.next_page_id })
  let parent_page ← FetchInternal s1 parent_id
  let slot ← parent_page.ValueIndex node
  let parent_page1 ← parent_page.Remove slot
  let s2 := WriteInternal s1 parent_id parent_page1
  let s3 := if transaction then AddIntoDeletedPageSet s2 node else DeletePage s2 node
  if parent_page1.GetSize < parent_page1.GetMinSize then recurse s3 parent_id
  else pure (false, s3)

/-- `BPlusTree::CoalesceOrRedistribute` (lines 272-311). -/
def CoalesceOrRedistribute (transaction : Bool) :
    Nat → State → page_id_t → Except Fault (Bool × State)
  | 0, _, _ => .error .out_of_fuel
  | fuel + 1, s, node => do
    let n ← FetchPage s node
    if n.IsRootPage then
      let (del, s1) ← AdjustRoot s node
      if del then
        if transaction then pure (true, AddIntoDeletedPageSet s1 node)
        else pure (true, DeletePage s1 node)
      else pure (true, s1)
    else
      let parent_page ← FetchInternal s n.GetParentPageId
      let index ← parent_page.ValueIndex node
      let sibling_page_id ←
        (if index = 0 then parent_page.ValueAt (index + 1) else parent_page.ValueAt (index - 1))
      let sibling_node ← FetchPage s sibling_page_id
      if !transaction then .error .null_pointer
      else
        let s1 := AddIntoPageSet s (.frame sibling_page_id)
        if sibling_node.GetSize + n.GetSize > n.GetMaxSize then
          let s2 ← Redistribute s1 sibling_page_id node index
          pure (false, s2)
        else
          let (_, s2) ← Coalesce (CoalesceOrRedistribute transaction fuel) transaction s1
            sibling_page_id node index
          pure (if index = 0 then false else true, s2)

/-- `BPlusTree::Remove` (lines 245-261). -/
def Remove (fuel : Nat) (key : KeyType) (transaction : Bool) (s : State) :
    Except Fault State :=
  if IsEmpty s then pure s
  else do
    let (page, s1) ← FindLeafPage fuel key false transaction .DELETE s
    match page with
    | none => .error .null_pointer
    | some page_id =>
      let leaf_page ← FetchLeaf s1 page_id
      let leaf_page1 := leaf_page.RemoveAndDeleteRecord key
      let s2 := WriteLeaf s1 page_id leaf_page1
      if leaf_page1.GetSize ≥ leaf_page1.GetMinSize then
        if transaction then Unlock .DELETE transaction s2 else pure s2
      else
        let (_, s3) ← CoalesceOrRedistribute transaction fuel s2 page_id
        Unlock .DELETE transaction s3

/-! ## The range iterator (`index_iterator.cpp`) -/

/-- The iterator: `leaf_page = none` is the null leaf of the end iterator (`end()` is
`endIterator`, `operator*` is `deref`, `operator++` is `next`). -/
structure IndexIterator where
  leaf_page : Option page_id_t
  index : Int
  max_size : Nat
deriving DecidableEq, Repr

namespace IndexIterator

/-- `IndexIterator::isEnd`. -/
def isEnd (it : IndexIterator) : Bool := it.leaf_page.isNone

/-- `operator*`: the assertion on the leaf and `GetItem(index)`. -/
def deref (s : State) (it : IndexIterator) : Except Fault MappingType :=
  match it.leaf_page with
  | none => .error .null_pointer
  | some page_id => do
    let leaf ← FetchLeaf s page_id
    leaf.GetItem it.index

/-- `operator++`. -/
def next (s : State) (it : IndexIterator) : Except Fault IndexIterator :=
  match it.leaf_page with
  | none => pure it
  | some page_id => do
    let leaf ← FetchLeaf s page_id
    if it.index < (leaf.GetSize : Int) - 1 then
      pure { it with index := it.index + 1 }
    else if leaf.next_page_id ≠ INVALID_PAGE_ID then
      let next_leaf ← FetchLeaf s leaf.next_page_id
      pure { leaf_page := some leaf.next_page_id, index := 0, max_size := next_leaf.max_size }
    else
      pure { it with leaf_page := none, index := 0 }

end IndexIterator

/-- `BPlusTree::begin` (lines 443-448); the result `nullptr` of `FindLeafPage` is
dereferenced, which is the fault `null_pointer`. -/
def begin (fuel : Nat) (s : State) : Except Fault IndexIterator := do
  let (page, s1) ← FindLeafPage fuel 0 true false .SEARCH s
  match page with
  | none => .error .null_pointer
  | some page_id =>
    let left_most_leaf_page ← FetchLeaf s1 page_id
    pure { leaf_page := some page_id, index := 0, max_size := left_most_leaf_page.max_size }

/-- `BPlusTree::Begin(key)` (lines 455-460). -/
def Begin (fuel : Nat) (key : KeyType) (s : State) : Except Fault IndexIterator := do
  let (page, s1) ← FindLeafPage fuel key false false .SEARCH s
  match page with
  | none => .error .null_pointer
  | some page_id =>
    let leaf_page ← FetchLeaf s1 page_id
    pure { leaf_page := some page_id, index := leaf_page.KeyIndex key,
           max_size := leaf_page.max_size }

/-- `BPlusTree::end` (lines 467-481). -/
def endIterator (s : State) : IndexIterator :=
  { leaf_page := none, index := 0, max_size := s.leaf_max_size_ }

end BPlusTree

namespace BPlusTree

/-! ## Runs of the public interface -/

/-- A sequence of `Insert` calls, each key stored with the paired value. -/
def InsertAll (fuel : Nat) (transaction : Bool) :
    List (KeyType × ValueType) → State → Except Fault State
  | [], s => .ok s
  | kv :: rest, s =>
    match Insert fuel kv.1 kv.2 transaction s with
    | .ok (_, s1) => InsertAll fuel transaction rest s1
    | .error e => .error e

/-- What a caller sees of `GetValue(key)` on an empty result vector. -/
def Find (fuel : Nat) (key : KeyType) (transaction : Bool) (s : State) :
    Except Fault (Bool × List ValueType) :=
  match GetValue fuel key [] transaction s with
  | .ok (found, result, _) => .ok (found, result)
  | .error e => .error e

/-! ## The tree that a page table holds

`Tree h` is the shape of a balanced tree of height `h` together with the contents of its
pages; `Rep pages h t parent` says that the page table holds the tree `t` under the parent
pointer `parent`. -/

structure ALeaf where
  id : page_id_t
  max_size : Nat
  next : page_id_t
  arr : List MappingType
deriving DecidableEq, Repr

structure ANode (α : Type) where
  id : page_id_t
  max_size : Nat
  kids : List (KeyType × α)

def Tree : Nat → Type
  | 0 => ALeaf
  | h + 1 => ANode (Tree h)

def Tree.pid : (h : Nat) → Tree h → page_id_t
  | 0, (t : ALeaf) => t.id
  | _ + 1, (t : ANode _) => t.id

/-- The slot array of the internal page of a node: keys and child page ids. -/
def slotsOf (h : Nat) (kids : List (KeyType × Tree h)) : List (KeyType × page_id_t) :=
  kids.map fun e => (e.1, Tree.pid h e.2)

/-- The page ids of a tree, the root first. -/
def Tree.ids : (h : Nat) → Tree h → List page_id_t
  | 0, (t : ALeaf) => [t.id]
  | h + 1, (t : ANode (Tree h)) => t.id :: t.kids.flatMap fun e => Tree.ids h e.2

def Rep (pages : page_id_t → Option BPlusTreePage) :
    (h : Nat) → Tree h → page_id_t → Prop
  | 0, (t : ALeaf), parent =>
    pages t.id = some (.leaf
      { parent_page_id := parent, max_size := t.max_size, next_page_id := t.next,
        array := t.arr })
  | h + 1, (t : ANode (Tree h)), parent =>
    pages t.id = some (.internal
      { parent_page_id := parent, max_size := t.max_size, array := slotsOf h t.kids }) ∧
    ∀ e ∈ t.kids, Rep pages h e.2 t.id

/-- Every internal node has a child. -/
def Tree.Ok : (h : Nat) → Tree h → Prop
  | 0, _ => True
  | h + 1, (t : ANode (Tree h)) => t.kids ≠ [] ∧ ∀ e ∈ t.kids, Tree.Ok h e.2

/-- The slots before the chosen child, the chosen slot and the slots after it, for the scan
of internal `Lookup` that has reached the slot `cur`. -/
def chooseFrom {α : Type} (key : KeyType) (pre : List (KeyType × α)) (cur : KeyType × α) :
    List (KeyType × α) → List (KeyType × α) × (KeyType × α) × List (KeyType × α)
  | [] => (pre, cur, [])
  | e :: es => if e.1 ≤ key then chooseFrom key (pre ++ [cur]) e es else (pre, cur, e :: es)

/-- The child that `FindLeafPage` descends into: slot 0 when `leftMost`, the slot of internal
`Lookup(key)` otherwise. -/
def choose {α : Type} (key : KeyType) (leftMost : Bool) :
    List (KeyType × α) → Option (List (KeyType × α) × (KeyType × α) × List (KeyType × α))
  | [] => none
  | e :: es => if leftMost then some ([], e, es) else some (chooseFrom key [] e es)

/-- The leaf of the tree that the descent of `FindLeafPage` ends in. -/
def Tree.findLeaf (key : KeyType) (leftMost : Bool) : (h : Nat) → Tree h → Option ALeaf
  | 0, (t : ALeaf) => some t
  | h + 1, (t : ANode (Tree h)) =>
    match choose key leftMost t.kids with
    | none => none
    | some (_, cur, _) => Tree.findLeaf key leftMost h cur.2

/-- The state with another page set in its transaction. -/
def State.withPageSet (s : State) (page_set : List PageRef) : State :=
  { s with txn := { s.txn with page_set := page_set } }

/-- The state with another page table. -/
def State.withPages (s : State) (pages : page_id_t → Option BPlusTreePage) : State :=
  { s with pages := pages }

/-- The pool holds pages only under ids that `NewPage` has handed out. -/
def Dom (s : State) : Prop :=
  ∀ x, s.pages x ≠ none → 0 ≤ x ∧ x < s.next_page_id

/-- The page that holds the root of a tree. -/
def Tree.page : (h : Nat) → Tree h → page_id_t → BPlusTreePage
  | 0, (t : ALeaf), parent =>
    .leaf { parent_page_id := parent, max_size := t.max_size, next_page_id := t.next,
            array := t.arr }
  | h + 1, (t : ANode (Tree h)), parent =>
    .internal { parent_page_id := parent, max_size := t.max_size, array := slotsOf h t.kids }

/-- `IsSafe` on the root of a tree (the parent pointer plays no part). -/
def Tree.safe (action_type : ActionType) (h : Nat) (t : Tree h) : Bool :=
  IsSafe action_type (Tree.page h t INVALID_PAGE_ID)

/-- The page set after `Lock` of a page, in a transaction that has nothing to delete. -/
def heldAfter (safe : Bool) (page_set : List PageRef) (page_id : page_id_t) : List PageRef :=
  (if safe then [] else page_set) ++ [.frame page_id]

/-- The page set that the latched descent leaves, from the page set held at the root of
the tree. -/
def Tree.held (action_type : ActionType) (key : KeyType) (leftMost : Bool) :
    (h : Nat) → Tree h → List PageRef → List PageRef
  | 0, _, page_set => page_set
  | h + 1, (t : ANode (Tree h)), page_set =>
    match choose key leftMost t.kids with
    | none => page_set
    | some (_, cur, _) =>
      Tree.held action_type key leftMost h cur.2
        (heldAfter (Tree.safe action_type h cur.2) page_set (Tree.pid h cur.2))

/-- The quiescent state `s` holds the tree `t` of height `h`: the root page id is the id of
`t`, the page table represents `t` without any page used twice, and the transaction holds
no page. -/
structure Holds (s : State) (h : Nat) (t : Tree h) : Prop where
  root : s.root_page_id_ = Tree.pid h t
  rep : Rep s.pages h t INVALID_PAGE_ID
  nodup : (Tree.ids h t).Nodup
  ok : Tree.Ok h t
  dom : Dom s
  page_set : s.txn.page_set = []
  deleted : s.txn.deleted_page_set = []

/-- The quiescent state `s` holds the empty tree. -/
structure HoldsEmpty (s : State) : Prop where
  root : s.root_page_id_ = INVALID_PAGE_ID
  dom : Dom s
  next_nonneg : 0 ≤ s.next_page_id
  page_set : s.txn.page_set = []
  deleted : s.txn.deleted_page_set = []

/-- The page set that latched `FindLeafPage` leaves on the tree `t` at the root. -/
def Tree.heldRoot (action_type : ActionType) (key : KeyType) (leftMost : Bool) (h : Nat)
    (t : Tree h) : List PageRef :=
  Tree.held action_type key leftMost h t
    (heldAfter (Tree.safe action_type h t) [.virtual_root_page] (Tree.pid h t))

/-! ## Insertion on trees -/

/-- The outcome of an insertion below a node: the subtree in place, or the subtree split in
two with the separator to hand to the parent. -/
inductive InsRes (α : Type) where
  | done (t : α)
  | split (l : α) (sep : KeyType) (r : α)

/-- The key of the first slot (`KeyAt(0)`), `0` on an empty array. -/
def firstKey {α : Type} : List (KeyType × α) → KeyType
  | [] => 0
  | e :: _ => e.1

/-- `InsertIntoLeaf` on the leaf found: the pair is placed, and the leaf is split when it
held `max_size - 1` pairs or more; the new leaf takes the page id `next`. -/
def ALeaf.ins (lmax : Nat) (key : KeyType) (value : ValueType) (t : ALeaf)
    (next : page_id_t) : InsRes ALeaf × page_id_t :=
  let arr := LeafPage.InsertIn key value t.arr
  if t.arr.length < t.max_size - 1 then (.done { t with arr := arr }, next)
  else
    let start := arr.length / 2
    (.split { t with arr := arr.take start, next := next } (firstKey (arr.drop start))
      { id := next, max_size := lmax, next := t.next, arr := arr.drop start }, next + 1)

/-- The insertion below a node of height `h`, with the page ids handed out from `next` on:
the outcome and the next free page id. -/
def Tree.ins (lmax imax : Nat) (key : KeyType) (value : ValueType) :
    (h : Nat) → Tree h → page_id_t → InsRes (Tree h) × page_id_t
  | 0, (t : ALeaf), next => ALeaf.ins lmax key value t next
  | h + 1, (t : ANode (Tree h)), next =>
    match choose key false t.kids with
    | none => (.done t, next)
    | some (pre, cur, post) =>
      match Tree.ins lmax imax key value h cur.2 next with
      | (.done c, next1) => (.done { t with kids := pre ++ (cur.1, c) :: post }, next1)
      | (.split l sep r, next1) =>
        let kids := pre ++ (cur.1, l) :: (sep, r) :: post
        if t.kids.length < t.max_size - 1 then (.done { t with kids := kids }, next1)
        else
          let start := kids.length / 2
          (.split { t with kids := kids.take start } (firstKey (kids.drop start))
            { id := next1, max_size := imax, kids := kids.drop start }, next1 + 1)

/-- The page ids of an outcome. -/
def InsRes.ids (h : Nat) : InsRes (Tree h) → List page_id_t
  | .done t => Tree.ids h t
  | .split l _ r => Tree.ids h l ++ Tree.ids h r

/-- What is left of `InsertIntoLeaf` once the outcome below a node is in the page table:
`Unlock`, or `InsertIntoParent` for the two halves. -/
def insCont (fuel : Nat) (h : Nat) : InsRes (Tree h) → State → Except Fault (Bool × State)
  | .done _, s => do
    let s3 ← Unlock .INSERT true s
    pure (true, s3)
  | .split l sep r, s => do
    let s6 ← InsertIntoParent true fuel s (Tree.pid h l) sep (Tree.pid h r)
    pure (true, s6)

/-- The part of `InsertIntoLeaf` after the duplicate check, on the leaf `page_id` whose node
is `leaf_page`. -/
def InsertIntoLeaf.place (fuel : Nat) (key : KeyType) (value : ValueType) (transaction : Bool)
    (s1 : State) (page_id : page_id_t) (leaf_page : LeafPage) : Except Fault (Bool × State) :=
  if leaf_page.GetSize < leaf_page.max_size - 1 then do
    let s2 := WriteLeaf s1 page_id (leaf_page.Insert key value)
    let s3 ← if transaction then Unlock .INSERT transaction s2 else pure s2
    pure (true, s3)
  else do
    let s2 := WriteLeaf s1 page_id (leaf_page.Insert key value)
    let (new_page_id, s3) ← Split s2 page_id
    let leaf1 ← FetchLeaf s3 page_id
    let new_leaf ← FetchLeaf s3 new_page_id
    let s4 := WriteLeaf s3 new_page_id { new_leaf with next_page_id := leaf1.next_page_id }
    let s5 := WriteLeaf s4 page_id { leaf1 with next_page_id := new_page_id }
    let new_leaf1 ← FetchLeaf s5 new_page_id
    let sep ← new_leaf1.KeyAt 0
    let s6 ← InsertIntoParent transaction fuel s5 page_id sep new_page_id
    pure (true, s6)

/-- The tree after `Insert` of a key that is not there, with its height. -/
def Tree.insRoot (lmax imax : Nat) (key : KeyType) (value : ValueType) (h : Nat) (t : Tree h)
    (next : page_id_t) : (Σ h1 : Nat, Tree h1) × page_id_t :=
  match Tree.ins lmax imax key value h t next with
  | (.done t1, next1) => (⟨h, t1⟩, next1)
  | (.split l sep r, next1) =>
    (⟨h + 1, ({ id := next1, max_size := imax, kids := [(0, l), (sep, r)] } : ANode (Tree h))⟩,
      next1 + 1)

/-- All page ids of a tree are below `n`. -/
def Tree.Below (h : Nat) (t : Tree h) (n : page_id_t) : Prop :=
  ∀ x ∈ Tree.ids h t, 0 ≤ x ∧ x < n

/-- The page ids below the slots of a node. -/
def kidsIds (h : Nat) (kids : List (KeyType × Tree h)) : List page_id_t :=
  kids.flatMap fun e => Tree.ids h e.2

/-- The page id that stays the root of the subtree in an outcome. -/
def InsRes.rootId (h : Nat) : InsRes (Tree h) → page_id_t
  | .done t => Tree.pid h t
  | .split l _ _ => Tree.pid h l

def InsRes.Ok (h : Nat) : InsRes (Tree h) → Prop
  | .done t => Tree.Ok h t
  | .split l _ r => Tree.Ok h l ∧ Tree.Ok h r

/-- The page ids of an outcome: those of the subtree and the ones handed out, none twice. -/
structure InsFacts (h : Nat) (t : Tree h) (next : page_id_t)
    (r : InsRes (Tree h) × page_id_t) : Prop where
  sub : ∀ x ∈ InsRes.ids h r.1, x ∈ Tree.ids h t ∨ (next ≤ x ∧ x < r.2)
  nodup : (InsRes.ids h r.1).Nodup
  ok : InsRes.Ok h r.1

/-- The two states agree on everything but the page table and the allocation counter. -/
structure Same (s s1 : State) : Prop where
  root : s1.root_page_id_ = s.root_page_id_
  header : s1.header_record = s.header_record
  txn : s1.txn = s.txn
  lmax : s1.leaf_max_size_ = s.leaf_max_size_
  imax : s1.internal_max_size_ = s.internal_max_size_

/-- What a step of the insertion leaves alone: everything but the page table and the
allocation counter, and in the page table the pages that are neither below the node (`ids`)
nor new. -/
structure InsPost (s s1 : State) (ids : List page_id_t) : Prop where
  same : Same s s1
  frame : ∀ x, x ∉ ids → x < s.next_page_id → s1.pages x = s.pages x
  dom : Dom s1

/-- The page table represents an outcome under the parent pointer `parent`. -/
def RepRes (pages : page_id_t → Option BPlusTreePage) (h : Nat) :
    InsRes (Tree h) → page_id_t → Prop
  | .done t, parent => Rep pages h t parent
  | .split l _ r, parent => Rep pages h l parent ∧ Rep pages h r parent

/-! ## Key order -/

/-- The key `k` respects the lower bound `lo` of a node (`none`: no bound). -/
def LoOk (lo : Option KeyType) (k : KeyType) : Prop := ∀ l, lo = some l → l ≤ k

/-- The key `k` respects the upper bound `hi` of a node (`none`: no bound). -/
def HiOk (hi : Option KeyType) (k : KeyType) : Prop := ∀ u, hi = some u → k < u

def Bnd (lo hi : Option KeyType) : Prop := ∀ l u, lo = some l → hi = some u → l ≤ u

/-- The slots of a leaf: keys strictly increasing, all within the bounds. -/
def LeafOrd (arr : List MappingType) (lo hi : Option KeyType) : Prop :=
  (arr.map (·.1)).Pairwise (· < ·) ∧ ∀ e ∈ arr, LoOk lo e.1 ∧ HiOk hi e.1

/-- The slots of an internal node: the child of slot `i` holds the keys from `key_i` (from
the lower bound of the node for slot 0, whose key is unused) up to `key_{i+1}` (up to the
upper bound of the node for the last slot). -/
def KidsOrd {α : Type} (P : α → Option KeyType → Option KeyType → Prop) :
    Option KeyType → Option KeyType → List (KeyType × α) → Prop
  | _, _, [] => True
  | lo, hi, [e] => P e.2 lo hi
  | lo, hi, e :: e1 :: rest => P e.2 lo (some e1.1) ∧ KidsOrd P (some e1.1) hi (e1 :: rest)

/-- The subtree-range invariant of the tree, between the bounds `lo` and `hi`. -/
def Tree.Ord : (h : Nat) → Tree h → Option KeyType → Option KeyType → Prop
  | 0, (t : ALeaf), lo, hi => Bnd lo hi ∧ LeafOrd t.arr lo hi
  | h + 1, (t : ANode (Tree h)), lo, hi => Bnd lo hi ∧ KidsOrd (Tree.Ord h) lo hi t.kids

/-- The pairs of a tree, leaf after leaf from the left. -/
def Tree.entries : (h : Nat) → Tree h → List MappingType
  | 0, (t : ALeaf) => t.arr
  | h + 1, (t : ANode (Tree h)) => t.kids.flatMap fun e => Tree.entries h e.2

/-- The leaves of a tree from the left. -/
def Tree.leaves : (h : Nat) → Tree h → List ALeaf
  | 0, (t : ALeaf) => [t]
  | h + 1, (t : ANode (Tree h)) => t.kids.flatMap fun e => Tree.leaves h e.2

/-- The order invariant of an outcome. -/
def InsRes.Ord (h : Nat) : InsRes (Tree h) → Option KeyType → Option KeyType → Prop
  | .done t, lo, hi => Tree.Ord h t lo hi
  | .split l sep r, lo, hi => Tree.Ord h l lo (some sep) ∧ Tree.Ord h r (some sep) hi

def InsRes.entries (h : Nat) : InsRes (Tree h) → List MappingType
  | .done t => Tree.entries h t
  | .split l _ r => Tree.entries h l ++ Tree.entries h r

/-- The lower bound of the chosen child: that of the node for slot 0, the key of the slot
otherwise. -/
def loOf {α : Type} (lo : Option KeyType) (pre : List (KeyType × α)) (k : KeyType) :
    Option KeyType :=
  match pre with
  | [] => lo
  | _ :: _ => some k

/-- The upper bound of the chosen child: the key of the next slot, that of the node for the
last slot. -/
def hiOf {α : Type} (hi : Option KeyType) (post : List (KeyType × α)) : Option KeyType :=
  match post with
  | [] => hi
  | e :: _ => some e.1

/-- The pairs below the slots of a node. -/
def kidsEntries (h : Nat) (kids : List (KeyType × Tree h)) : List MappingType :=
  kids.flatMap fun e => Tree.entries h e.2

/-- The leaves below the slots of a node. -/
def kidsLeaves (h : Nat) (kids : List (KeyType × Tree h)) : List ALeaf :=
  kids.flatMap fun e => Tree.leaves h e.2

/-! ## Well-formed states and the walk of the iterator -/

/-- The quiescent state `s` is well formed and holds the pairs `es` on `levels` levels: it
is the empty tree, or it holds a tree of height `levels - 1` that satisfies the order
invariant and has the pairs `es` in its leaves. -/
def WellFormed (s : State) (es : List MappingType) (levels : Nat) : Prop :=
  (HoldsEmpty s ∧ es = [] ∧ levels = 0) ∨
    ∃ (h : Nat) (t : Tree h),
      Holds s h t ∧ Tree.Ord h t none none ∧ es = Tree.entries h t ∧ levels = h + 1

/-- The pairs that a loop `for (; !it.isEnd(); ++it) out.push_back(*it)` collects. -/
def walkFrom : Nat → State → IndexIterator → Except Fault (List MappingType)
  | 0, _, _ => .error .out_of_fuel
  | fuel + 1, s, it =>
    if it.isEnd then .ok []
    else
      match it.deref s with
      | .error e => .error e
      | .ok e =>
        match it.next s with
        | .error e1 => .error e1
        | .ok it1 =>
          match walkFrom fuel s it1 with
          | .error e2 => .error e2
          | .ok rest => .ok (e :: rest)

/-- The keys that the walk of the iterator from `begin()` to the end yields. -/
def Walk (fuel : Nat) (s : State) : Except Fault (List KeyType) :=
  match begin fuel s with
  | .error e => .error e
  | .ok it =>
    match walkFrom fuel s it with
    | .error e => .error e
    | .ok es => .ok (es.map (·.1))

/-! ## Removal and the states that the calls reach -/

/-- What is left of `Remove` once the subtree with the root `node` has its pages in place:
`CoalesceOrRedistribute` from `node` upwards when the node has underflowed, then `Unlock`. -/
def remCont (fuel : Nat) (under : Bool) (node : page_id_t) (s : State) : Except Fault State :=
  if under then
    match CoalesceOrRedistribute true fuel s node with
    | .ok r => Unlock .DELETE true r.2
    | .error e => .error e
  else Unlock .DELETE true s

/-- A path of `d` child pointers leads from the page `p` down to a leaf. -/
inductive Path (pages : page_id_t → Option BPlusTreePage) : page_id_t → Nat → Prop
  | leaf {p : page_id_t} {l : LeafPage} : pages p = some (.leaf l) → Path pages p 0
  | step {p c : page_id_t} {n : InternalPage} {d : Nat} :
    pages p = some (.internal n) → c ∈ n.array.map (·.2) → Path pages c d →
    Path pages p (d + 1)

/-- The states that calls of `Insert` and `Remove` (with a transaction, and that return)
reach from the empty tree of the constructor. -/
inductive Reachable (leaf_max_size internal_max_size : Nat) : State → Prop
  | new : Reachable leaf_max_size internal_max_size (State.new leaf_max_size internal_max_size)
  | insert {s s1 : State} {fuel : Nat} {key : KeyType} {value : ValueType} {inserted : Bool} :
    Reachable leaf_max_size internal_max_size s →
    Insert fuel key value true s = .ok (inserted, s1) →
    Reachable leaf_max_size internal_max_size s1
  | remove {s s1 : State} {fuel : Nat} {key : KeyType} :
    Reachable leaf_max_size internal_max_size s →
    Remove fuel key true s = .ok s1 →
    Reachable leaf_max_size internal_max_size s1

/-- The quiescent state holds the empty tree or some tree. -/
def Good (s : State) : Prop :=
  HoldsEmpty s ∨ ∃ (h : Nat) (t : Tree h), Holds s h t

/-- The fields of the state that the rebalancing below the root leaves alone. -/
structure Fixed (s s1 : State) : Prop where
  root : s1.root_page_id_ = s.root_page_id_
  header : s1.header_record = s.header_record
  next : s1.next_page_id = s.next_page_id
  lmax : s1.leaf_max_size_ = s.leaf_max_size_
  imax : s1.internal_max_size_ = s.internal_max_size_

/-- The slots of a node with the key of slot 0 set to `k`, as the internal move primitives
do with the separator that comes down from the parent. -/
def rekey {α : Type} (k : KeyType) : List (KeyType × α) → List (KeyType × α)
  | [] => []
  | e :: es => (k, e.2) :: es

/-- The size of the root node of a tree, as `GetSize` reads it from its page. -/
def Tree.size (h : Nat) (t : Tree h) : Nat := (Tree.page h t INVALID_PAGE_ID).GetSize

/-- The maximum size of the root node of a tree. -/
def Tree.maxSize (h : Nat) (t : Tree h) : Nat := (Tree.page h t INVALID_PAGE_ID).GetMaxSize

/-- The minimum size of the root node of a tree. -/
def Tree.minSize (h : Nat) (t : Tree h) : Nat := (Tree.page h t INVALID_PAGE_ID).GetMinSize

/-- The outcome of one rebalancing step for the child `node` of `P` with the sibling `sib`:
the state `s2` represents the node `P1` in the place of `P`, and `under1` tells whether
`P1` has underflowed in its turn. -/
structure StepPost (s s2 : State) (h : Nat) (P P1 : ANode (Tree h)) (parent : page_id_t)
    (node sib : page_id_t) (under1 : Bool) : Prop where
  rep : Rep s2.pages (h + 1) P1 parent
  id : P1.id = P.id
  max : P1.max_size = P.max_size
  nodup : (Tree.ids (h + 1) P1).Nodup
  sub : ∀ x ∈ Tree.ids (h + 1) P1, x ∈ Tree.ids (h + 1) P
  ok : Tree.Ok (h + 1) P1
  frame : ∀ x, x ∉ Tree.ids (h + 1) P → s2.pages x = s.pages x
  fixed : Fixed s s2
  page_set : s2.txn.page_set = s.txn.page_set ++ [.frame sib]
  deleted : s2.txn.deleted_page_set = s.txn.deleted_page_set ∨
    ∃ d, s2.txn.deleted_page_set = d :: s.txn.deleted_page_set ∧ d ∈ Tree.ids (h + 1) P ∧
      d ∉ Tree.ids (h + 1) P1 ∧ (d = node ∨ d = sib)
  small : under1 = true →
    P1.kids.length < (P.max_size + 1) / 2 ∧ P1.kids.length + 1 = P.kids.length

/-- The cascade of `Remove` has reached the root of the subtree `t`: from the state `s0`
after the descent (with the page set `ps` held when the root of `t` was locked) it has led to
the state `s3`, which represents `t1` in the place of `t`; `under` tells whether the root of
`t1` has underflowed. -/
structure Up (s0 s3 : State) (h : Nat) (t t1 : Tree h) (parent : page_id_t)
    (ps : List PageRef) (under : Bool) : Prop where
  rep : Rep s3.pages h t1 parent
  pid : Tree.pid h t1 = Tree.pid h t
  max : Tree.maxSize h t1 = Tree.maxSize h t
  nodup : (Tree.ids h t1).Nodup
  sub : ∀ x ∈ Tree.ids h t1, x ∈ Tree.ids h t
  ok : Tree.Ok h t1
  frame : ∀ x, x ∉ Tree.ids h t → s3.pages x = s0.pages x
  fixed : Fixed s0 s3
  grows : ∃ extra, s3.txn.page_set = s0.txn.page_set ++ extra
  deleted : ∀ x ∈ s3.txn.deleted_page_set,
    x ∈ Tree.ids h t ∧ x ∉ Tree.ids h t1 ∧ PageRef.frame x ∈ s3.txn.page_set
  held : under = true → ∃ extra, s3.txn.page_set = ps ++ extra
  small : under = true → Tree.size h t1 < Tree.minSize h t1
  notSafe : under = true → Tree.safe .DELETE h t = false

/-- The slots of the root node of a tree: the pairs of a leaf, the keys and child page ids
of an internal node. -/
def Tree.slots : (h : Nat) → Tree h → List (KeyType × Int)
  | 0, (t : ALeaf) => t.arr
  | h + 1, (t : ANode (Tree h)) => slotsOf h t.kids

/-! ## States given by their pages -/

/-- The page stored under `page_id` in a list of pages. -/
def lookupPage (page_id : page_id_t) : List (page_id_t × BPlusTreePage) → Option BPlusTreePage
  | [] => none
  | e :: rest => if page_id = e.1 then some e.2 else lookupPage page_id rest

/-- The quiescent state whose pool holds the listed pages, with the root page id, the next
page id to hand out and the two maximum sizes of the tree. -/
def State.ofList (pages : List (page_id_t × BPlusTreePage)) (root_page_id next_page_id : page_id_t)
    (leaf_max_size internal_max_size : Nat) : State :=
  { pages := fun q => lookupPage q pages, next_page_id := next_page_id,
    header_record := some root_page_id, txn := { page_set := [], deleted_page_set := [] },
    root_page_id_ := root_page_id, leaf_max_size_ := leaf_max_size,
    internal_max_size_ := internal_max_size }

/-! ## Calls to the buffer pool

The functions of this section are the ones of the tree engine and of the iterator again,
with the list of the calls to the buffer pool that touch a pin count or delete a page, in
the order in which the source makes them. The calls that the move primitives of the node
pages make to re-point a moved child are not listed (they are not part of the sources at
hand). -/

/-- Modelled from the spec: a call to the buffer pool (`NewPage` and `FetchPage` pin the
page once, `UnpinPage` gives one pin back). -/
inductive PoolCall where
  | NewPage (page_id : page_id_t)
  | FetchPage (page_id : page_id_t)
  | UnpinPage (page_id : page_id_t) (is_dirty : Bool)
  | DeletePage (page_id : page_id_t)
deriving DecidableEq, Repr

/-- Modelled from the spec: `HEADER_PAGE_ID`, the page that holds the records of the
indexes. -/
def HEADER_PAGE_ID : page_id_t := 0

/-- The number of pins that the calls take on the page `page_id`. -/
def pins (page_id : page_id_t) : List PoolCall → Nat
  | [] => 0
  | .NewPage q :: rest => (if q = page_id then 1 else 0) + pins page_id rest
  | .FetchPage q :: rest => (if q = page_id then 1 else 0) + pins page_id rest
  | _ :: rest => pins page_id rest

/-- The number of pins that the calls give back on the page `page_id`. -/
def unpins (page_id : page_id_t) : List PoolCall → Nat
  | [] => 0
  | .UnpinPage q _ :: rest => (if q = page_id then 1 else 0) + unpins page_id rest
  | _ :: rest => unpins page_id rest

/-- The number of pins that an iterator holds on the page `page_id`: one on its current
leaf, if it has one. -/
def IndexIterator.pinsOn (it : IndexIterator) (page_id : page_id_t) : Nat :=
  if it.leaf_page = some page_id then 1 else 0

namespace Traced

/-- `operator++` with its calls to the buffer pool. -/
def next (s : State) (it : IndexIterator) : Except Fault (IndexIterator × List PoolCall) :=
  match it.leaf_page with
  | none => pure (it, [])
  | some page_id => do
    let leaf ← FetchLeaf s page_id
    if it.index < (leaf.GetSize : Int) - 1 then
      pure ({ it with index := it.index + 1 }, [])
    else if leaf.next_page_id ≠ INVALID_PAGE_ID then
      let next_leaf ← FetchLeaf s leaf.next_page_id
      pure ({ leaf_page := some leaf.next_page_id, index := 0, max_size := next_leaf.max_size },
        [.UnpinPage page_id true, .FetchPage leaf.next_page_id])
    else
      pure ({ it with leaf_page := none, index := 0 }, [.UnpinPage page_id true])

/-- The descent of `FindLeafPage` without a transaction, from the page `page_id` that has
been fetched, with the calls made so far. -/
def unlatched (key : KeyType) (leftMost : Bool) :
    Nat → State → page_id_t → List PoolCall → Except Fault (page_id_t × List PoolCall)
  | 0, _, _, _ => .error .out_of_fuel
  | fuel + 1, s, page_id, calls => do
    match ← FetchPage s page_id with
    | .leaf _ => pure (page_id, calls)
    | .internal internal_page =>
      let next_page_id ←
        (if leftMost then internal_page.ValueAt 0 else internal_page.Lookup key)
      unlatched key leftMost fuel s next_page_id
        (calls ++ [.UnpinPage page_id false, .FetchPage next_page_id])

/-- `BPlusTree::begin` with its calls to the buffer pool. -/
def begin (fuel : Nat) (s : State) : Except Fault (IndexIterator × List PoolCall) :=
  if IsEmpty s then .error .null_pointer
  else do
    let (page_id, calls) ← unlatched 0 true fuel s s.root_page_id_ [.FetchPage s.root_page_id_]
    let left_most_leaf_page ← FetchLeaf s page_id
    pure ({ leaf_page := some page_id, index := 0, max_size := left_most_leaf_page.max_size },
      calls)

/-- `BPlusTree::Begin(key)` with its calls to the buffer pool. -/
def Begin (fuel : Nat) (key : KeyType) (s : State) :
    Except Fault (IndexIterator × List PoolCall) :=
  if IsEmpty s then .error .null_pointer
  else do
    let (page_id, calls) ←
      unlatched key false fuel s s.root_page_id_ [.FetchPage s.root_page_id_]
    let leaf_page ← FetchLeaf s page_id
    pure ({ leaf_page := some page_id, index := leaf_page.KeyIndex key,
            max_size := leaf_page.max_size }, calls)

/-- The loop of `Unlock` with its calls to the buffer pool. -/
def UnlockLoop (action_type : ActionType) :
    List PageRef → State → List PoolCall → State × List PoolCall
  | [], s, calls => (s, calls)
  | page :: rest, s, calls =>
    let curPid := page.GetPageId
    let calls1 := calls ++ [.UnpinPage curPid (action_type != .SEARCH)]
    if curPid ∈ s.txn.deleted_page_set then
      let s1 := DeletePage s curPid
      UnlockLoop action_type rest
        { s1 with txn := { s1.txn with
            deleted_page_set := s1.txn.deleted_page_set.filter (· ≠ curPid) } }
        (calls1 ++ [.DeletePage curPid])
    else UnlockLoop action_type rest s calls1

/-- `BPlusTree::Unlock` with its calls to the buffer pool. -/
def Unlock (action_type : ActionType) (transaction : Bool) (s : State) (calls : List PoolCall) :
    Except Fault (State × List PoolCall) :=
  if !transaction then .error .null_pointer
  else
    match s.txn.page_set with
    | [] => .error .out_of_range
    | page :: rest =>
      let page_set := if page = .virtual_root_page then rest else page :: rest
      let r := UnlockLoop action_type page_set s calls
      .ok ({ r.1 with txn := { r.1.txn with page_set := [] } }, r.2)

/-- `BPlusTree::Lock` with the calls of the `Unlock` it may run. -/
def Lock (action_type : ActionType) (page : PageRef) (transaction : Bool) (s : State)
    (calls : List PoolCall) : Except Fault (State × List PoolCall) :=
  match page with
  | .virtual_root_page =>
    if transaction then .ok (AddIntoPageSet s page, calls) else .error .null_pointer
  | .frame page_id => do
    let node ← FetchPage s page_id
    let r ← if IsSafe action_type node then Unlock action_type transaction s calls
      else pure (s, calls)
    if transaction then pure (AddIntoPageSet r.1 page, r.2) else .error .null_pointer

/-- The descent of `FindLeafPage` with a transaction, with its calls to the buffer pool. -/
def latched (key : KeyType) (leftMost : Bool) (action_type : ActionType) :
    Nat → State → List PoolCall → page_id_t → Except Fault (page_id_t × State × List PoolCall)
  | 0, _, _, _ => .error .out_of_fuel
  | fuel + 1, s, calls, page_id => do
    match ← FetchPage s page_id with
    | .leaf _ => pure (page_id, s, calls)
    | .internal internal_page =>
      let next_page_id ←
        (if leftMost then internal_page.ValueAt 0 else internal_page.Lookup key)
      let _ ← FetchPage s next_page_id
      let r ← Lock action_type (.frame next_page_id) true s (calls ++ [.FetchPage next_page_id])
      latched key leftMost action_type fuel r.1 r.2 next_page_id

/-- `BPlusTree::FindLeafPage` with its calls to the buffer pool; with a transaction the
last line fetches the leaf a second time. -/
def FindLeafPage (fuel : Nat) (key : KeyType) (leftMost : Bool) (transaction : Bool)
    (action_type : ActionType) (s : State) (calls : List PoolCall) :
    Except Fault (Option page_id_t × State × List PoolCall) :=
  if IsEmpty s then pure (none, s, calls)
  else if !transaction then do
    let r ← unlatched key leftMost fuel s s.root_page_id_
      (calls ++ [.FetchPage s.root_page_id_])
    pure (some r.1, s, r.2)
  else do
    let next_page_id := s.root_page_id_
    let r1 ← Lock action_type .virtual_root_page transaction s calls
    let _ ← FetchPage r1.1 r1.1.root_page_id_
    let r2 ← Lock action_type (.frame r1.1.root_page_id_) transaction r1.1
      (r1.2 ++ [.FetchPage r1.1.root_page_id_])
    let r3 ← latched key leftMost action_type fuel r2.1 r2.2 next_page_id
    let _ ← FetchPage r3.2.1 r3.1
    pure (some r3.1, r3.2.1, r3.2.2 ++ [.FetchPage r3.1])

/-- `BPlusTree::AdjustRoot` with its calls to the buffer pool (`UpdateRootPageId` fetches
and unpins the header page). -/
def AdjustRoot (s : State) (calls : List PoolCall) (old_root_node : page_id_t) :
    Except Fault (Bool × State × List PoolCall) := do
  match ← FetchPage s old_root_node with
  | .leaf _ =>
    let s1 := UpdateRootPageId { s with root_page_id_ := INVALID_PAGE_ID } false
    pure (true, s1, calls ++ [.UnpinPage old_root_node true, .FetchPage HEADER_PAGE_ID,
      .UnpinPage HEADER_PAGE_ID true])
  | .internal old_root =>
    let child ← old_root.ValueAt 0
    let s1 := UpdateRootPageId { s with root_page_id_ := child } false
    let s2 ← SetParent s1 s1.root_page_id_ INVALID_PAGE_ID
    pure (true, s2, calls ++ [.FetchPage HEADER_PAGE_ID, .UnpinPage HEADER_PAGE_ID true,
      .FetchPage s1.root_page_id_, .UnpinPage s1.root_page_id_ true,
      .UnpinPage old_root_node true])

/-- `BPlusTree::Redistribute` with its calls to the buffer pool: the parent is fetched, and
at the end the parent, the sibling and the node are unpinned. -/
def Redistribute (s : State) (calls : List PoolCall) (neighbor_node node : page_id_t)
    (index : Nat) : Except Fault (State × List PoolCall) := do
  let n ← FetchPage s node
  let s1 ← BPlusTree.Redistribute s neighbor_node node index
  pure (s1, calls ++ [.FetchPage n.GetParentPageId, .UnpinPage n.GetParentPageId true,
    .UnpinPage neighbor_node true, .UnpinPage node true])

/-- `Coalesce` with its calls to the buffer pool; `recurse` stands for the call of
`CoalesceOrRedistribute` on the parent. -/
def Coalesce (recurse : State → List PoolCall → page_id_t →
      Except Fault (Bool × State × List PoolCall)) (transaction : Bool)
    (s : State) (calls : List PoolCall) (neighbor_node node : page_id_t) (index : Nat) :
    Except Fault (Bool × State × List PoolCall) := do
  let n ← FetchPage s node
  let parent_id := n.GetParentPageId
  let _ ← FetchInternal s parent_id
  let calls1 := calls ++ [.FetchPage parent_id]
  let (neighbor_node, node, index) :=
    if index = 0 then (node, neighbor_node, 1) else (neighbor_node, node, index)
  let s1 ←
    match ← FetchPage s node with
    | .internal _ => do
      let parent_page ← FetchInternal s parent_id
      let middle_key ← parent_page.KeyAt index
      InternalMoveAllTo s node neighbor_node middle_key
    | .leaf _ => do
      let s1 ← LeafMoveAllTo s node neighbor_node
      let neighbor ← FetchLeaf s1 neighbor_node
      let absorbed ← FetchLeaf s1 node
      pure (WriteLeaf s1 neighbor_node { neighbor with next_page_id := absorbed.next_page_id })
  let parent_page ← FetchInternal s1 parent_id
  let slot ← parent_page.ValueIndex node
  let parent_page1 ← parent_page.Remove slot
  let s2 := WriteInternal s1 parent_id parent_page1
  let calls2 := calls1 ++ [.UnpinPage node true, .UnpinPage neighbor_node true]
  let r := if transaction then (AddIntoDeletedPageSet s2 node, calls2)
    else (DeletePage s2 node, calls2 ++ [.DeletePage node])
  if parent_page1.GetSize < parent_page1.GetMinSize then recurse r.1 r.2 parent_id
  else pure (false, r.1, r.2 ++ [.UnpinPage parent_id true])

/-- `BPlusTree::CoalesceOrRedistribute` with its calls to the buffer pool. -/
def CoalesceOrRedistribute (transaction : Bool) :
    Nat → State → List PoolCall → page_id_t → Except Fault (Bool × State × List PoolCall)
  | 0, _, _, _ => .error .out_of_fuel
  | fuel + 1, s, calls, node => do
    let n ← FetchPage s node
    if n.IsRootPage then
      let r ← AdjustRoot s calls node
      if r.1 then
        if transaction then pure (true, AddIntoDeletedPageSet r.2.1 node, r.2.2)
        else pure (true, DeletePage r.2.1 node, r.2.2 ++ [.DeletePage node])
      else pure (true, r.2.1, r.2.2)
    else
      let parent_page ← FetchInternal s n.GetParentPageId
      let index ← parent_page.ValueIndex node
      let sibling_page_id ←
        (if index = 0 then parent_page.ValueAt (index + 1) else parent_page.ValueAt (index - 1))
      let sibling_node ← FetchPage s sibling_page_id
      let calls1 := calls ++ [.FetchPage n.GetParentPageId,
        .UnpinPage n.GetParentPageId false, .FetchPage sibling_page_id]
      if !transaction then .error .null_pointer
      else
        let s1 := AddIntoPageSet s (.frame sibling_page_id)
        if sibling_node.GetSize + n.GetSize > n.GetMaxSize then
          let r ← Redistribute s1 calls1 sibling_page_id node index
          pure (false, r.1, r.2)
        else
          let r ← Coalesce (CoalesceOrRedistribute transaction fuel) transaction s1 calls1
            sibling_page_id node index
          pure (if index = 0 then false else true, r.2.1, r.2.2)

/-- `BPlusTree::Remove` with its calls to the buffer pool. -/
def Remove (fuel : Nat) (key : KeyType) (transaction : Bool) (s : State) :
    Except Fault (State × List PoolCall) :=
  if IsEmpty s then pure (s, [])
  else do
    let r ← FindLeafPage fuel key false transaction .DELETE s []
    match r.1 with
    | none => .error .null_pointer
    | some page_id =>
      let leaf_page ← FetchLeaf r.2.1 page_id
      let leaf_page1 := leaf_page.RemoveAndDeleteRecord key
      let s2 := WriteLeaf r.2.1 page_id leaf_page1
      if leaf_page1.GetSize ≥ leaf_page1.GetMinSize then
        let calls2 := r.2.2 ++ [.UnpinPage page_id true]
        if transaction then Unlock .DELETE transaction s2 calls2 else pure (s2, calls2)
      else
        let r3 ← CoalesceOrRedistribute transaction fuel s2 r.2.2 page_id
        Unlock .DELETE transaction r3.2.1 r3.2.2

/-- `BPlusTree::GetValue` with its calls to the buffer pool. -/
def GetValue (fuel : Nat) (key : KeyType) (result : List ValueType) (transaction : Bool)
    (s : State) : Except Fault (Bool × List ValueType × State × List PoolCall) := do
  let r ← FindLeafPage fuel key false transaction .SEARCH s []
  match r.1 with
  | none => pure (false, result, r.2.1, r.2.2)
  | some page_id =>
    let leaf_page ← FetchLeaf r.2.1 page_id
    let calls1 := r.2.2 ++ [.UnpinPage page_id false]
    match leaf_page.Lookup key with
    | some value_temp =>
      let r2 ← if transaction then Unlock .SEARCH transaction r.2.1 calls1
        else pure (r.2.1, calls1)
      pure (true, result ++ [value_temp], r2.1, r2.2)
    | none =>
      let r2 ← if transaction then Unlock .SEARCH transaction r.2.1 calls1
        else pure (r.2.1, calls1)
      pure (false, result, r2.1, r2.2)

/-- `BPlusTree::StartNewTree` with its calls to the buffer pool. -/
def StartNewTree (key : KeyType) (value : ValueType) (s : State) (calls : List PoolCall) :
    State × List PoolCall :=
  let s1 := BPlusTree.StartNewTree key value s
  (s1, calls ++ [.NewPage s1.root_page_id_, .FetchPage HEADER_PAGE_ID,
    .UnpinPage HEADER_PAGE_ID true, .UnpinPage s1.root_page_id_ true])

/-- `Split(node)` with its call of `NewPage`. -/
def Split (s : State) (calls : List PoolCall) (node : page_id_t) :
    Except Fault (page_id_t × State × List PoolCall) := do
  let r ← BPlusTree.Split s node
  pure (r.1, r.2, calls ++ [.NewPage r.1])

/-- `BPlusTree::InsertIntoParent` with its calls to the buffer pool. -/
def InsertIntoParent (transaction : Bool) :
    Nat → State → List PoolCall → page_id_t → KeyType → page_id_t →
      Except Fault (State × List PoolCall)
  | 0, _, _, _, _, _ => .error .out_of_fuel
  | fuel + 1, s, calls, old_node, key, new_node => do
    let old ← FetchPage s old_node
    if old.GetParentPageId = INVALID_PAGE_ID then
      let (new_root_page_id, s1) := NewPage s
      let s2 := UpdateRootPageId { s1 with root_page_id_ := new_root_page_id } false
      let internal_page := InternalPage.Init INVALID_PAGE_ID s2.internal_max_size_
      let s3 := WriteInternal s2 new_root_page_id
        (internal_page.PopulateNewRoot old_node key new_node)
      let s4 ← SetParent s3 old_node new_root_page_id
      let s5 ← SetParent s4 new_node new_root_page_id
      let calls1 := calls ++ [.NewPage new_root_page_id, .FetchPage HEADER_PAGE_ID,
        .UnpinPage HEADER_PAGE_ID true, .UnpinPage new_node true,
        .UnpinPage new_root_page_id true, .UnpinPage old_node true]
      if transaction then Unlock .INSERT transaction s5 calls1 else pure (s5, calls1)
    else
      let parent_id := old.GetParentPageId
      let internal_page ← FetchInternal s parent_id
      let calls1 := calls ++ [.FetchPage parent_id]
      if internal_page.GetSize < internal_page.max_size - 1 then
        let internal_page1 ← internal_page.InsertNodeAfter old_node key new_node
        let s1 := WriteInternal s parent_id internal_page1
        let calls2 := calls1 ++ [.UnpinPage new_node true, .UnpinPage old_node true,
          .UnpinPage parent_id true]
        if transaction then Unlock .INSERT transaction s1 calls2 else pure (s1, calls2)
      else
        let internal_page1 ← internal_page.InsertNodeAfter old_node key new_node
        let s1 := WriteInternal s parent_id internal_page1
        let r ← Split s1 calls1 parent_id
        let new_internal ← FetchInternal r.2.1 r.1
        let temp_key ← new_internal.KeyAt 0
        InsertIntoParent transaction fuel r.2.1
          (r.2.2 ++ [.UnpinPage new_node true, .UnpinPage old_node true]) parent_id temp_key r.1

/-- `BPlusTree::InsertIntoLeaf` with its calls to the buffer pool. -/
def InsertIntoLeaf (fuel : Nat) (key : KeyType) (value : ValueType) (transaction : Bool)
    (s : State) : Except Fault (Bool × State × List PoolCall) := do
  let r ← FindLeafPage fuel key false transaction .INSERT s []
  match r.1 with
  | none => .error .null_pointer
  | some page_id =>
    let leaf_page ← FetchLeaf r.2.1 page_id
    match leaf_page.Lookup key with
    | some _ =>
      let calls1 := r.2.2 ++ [.UnpinPage page_id false]
      let r2 ← if transaction then Unlock .INSERT transaction r.2.1 calls1
        else pure (r.2.1, calls1)
      pure (false, r2.1, r2.2)
    | none =>
      if leaf_page.GetSize < leaf_page.max_size - 1 then
        let s2 := WriteLeaf r.2.1 page_id (leaf_page.Insert key value)
        let calls1 := r.2.2 ++ [.UnpinPage page_id true]
        let r3 ← if transaction then Unlock .INSERT transaction s2 calls1 else pure (s2, calls1)
        pure (true, r3.1, r3.2)
      else
        let s2 := WriteLeaf r.2.1 page_id (leaf_page.Insert key value)
        let r3 ← Split s2 r.2.2 page_id
        let leaf1 ← FetchLeaf r3.2.1 page_id
        let new_leaf ← FetchLeaf r3.2.1 r3.1
        let s4 := WriteLeaf r3.2.1 r3.1 { new_leaf with next_page_id := leaf1.next_page_id }
        let s5 := WriteLeaf s4 page_id { leaf1 with next_page_id := r3.1 }
        let new_leaf1 ← FetchLeaf s5 r3.1
        let sep ← new_leaf1.KeyAt 0
        let r6 ← InsertIntoParent transaction fuel s5 r3.2.2 page_id sep r3.1
        pure (true, r6.1, r6.2)

/-- `BPlusTree::Insert` with its calls to the buffer pool. -/
def Insert (fuel : Nat) (key : KeyType) (value : ValueType) (transaction : Bool)
    (s : State) : Except Fault (Bool × State × List PoolCall) :=
  if IsEmpty s then do
    let r1 ← Lock .INSERT .virtual_root_page transaction s []
    let r2 := StartNewTree key value r1.1 r1.2
    let r3 ← Unlock .INSERT transaction r2.1 r2.2
    pure (true, r3.1, r3.2)
  else InsertIntoLeaf fuel key value transaction s

end Traced

/-- The tree of the scenarios S1 and S4 of the specification: leaf and internal maximum
size 4, the leaves `[1, 2]` (page 1) and `[3, 4]` (page 2) under the root `[_, 3]`
(page 3). -/
def State.twoLeaves : State :=
  State.ofList
    [(1, .leaf { parent_page_id := 3, max_size := 4, next_page_id := 2,
                 array := [(1, 1), (2, 2)] }),
     (2, .leaf { parent_page_id := 3, max_size := 4, next_page_id := -1,
                 array := [(3, 3), (4, 4)] }),
     (3, .internal { parent_page_id := -1, max_size := 4, array := [(0, 1), (3, 2)] })]
    3 4 4 4

/-- The tree of `State.twoLeaves`. -/
def Tree.twoLeaves : Tree 1 :=
  ANode.mk 3 4 [((0, ALeaf.mk 1 4 2 [(1, 1), (2, 2)]) : KeyType × Tree 0),
    ((3, ALeaf.mk 2 4 (-1) [(3, 3), (4, 4)]) : KeyType × Tree 0)]

/-! ## Latches

The functions of this section are `Lock`, `Unlock` and `FindLeafPage` again, with the list
of the calls that they make on the latch of a page and on the buffer pool, in the order in
which the source makes them. -/

/-- Modelled from the spec: a call on the latch of a page object (`RLatch`, `WLatch`,
`RUnlatch`, `WUnlatch`) or a call to the buffer pool. -/
inductive Event where
  | RLatch (page : PageRef)
  | WLatch (page : PageRef)
  | RUnlatch (page : PageRef)
  | WUnlatch (page : PageRef)
  | pool (call : PoolCall)
deriving DecidableEq, Repr

/-- The calls to the buffer pool among the events. -/
def poolCalls : List Event → List PoolCall
  | [] => []
  | .pool call :: rest => call :: poolCalls rest
  | _ :: rest => poolCalls rest

/-- The number of times that the events latch the page `page`. -/
def latches (page : PageRef) : List Event → Nat
  | [] => 0
  | .RLatch p :: rest => (if p = page then 1 else 0) + latches page rest
  | .WLatch p :: rest => (if p = page then 1 else 0) + latches page rest
  | _ :: rest => latches page rest

/-- The number of times that the events unlatch the page `page`. -/
def unlatches (page : PageRef) : List Event → Nat
  | [] => 0
  | .RUnlatch p :: rest => (if p = page then 1 else 0) + unlatches page rest
  | .WUnlatch p :: rest => (if p = page then 1 else 0) + unlatches page rest
  | _ :: rest => unlatches page rest

/-- The pages that the loop of `Unlock` runs over: the page set without the virtual root
when it is first. -/
def released : List PageRef → List PageRef
  | .virtual_root_page :: rest => rest
  | page_set => page_set

/-- The number of pins that `Unlock` gives back on the page `page_id` for a page set. -/
def heldPins (page_id : page_id_t) (page_set : List PageRef) : Nat :=
  ((released page_set).map PageRef.GetPageId).count page_id

namespace Latched

/-- The loop of `Unlock` (lines 575-588) with its events. -/
def UnlockLoop (action_type : ActionType) :
    List PageRef → State → List Event → State × List Event
  | [], s, events => (s, events)
  | page :: rest, s, events =>
    let curPid := page.GetPageId
    let events1 := events ++
      (if action_type = .SEARCH then [.RUnlatch page, .pool (.UnpinPage curPid false)]
       else [.WUnlatch page, .pool (.UnpinPage curPid true)])
    if curPid ∈ s.txn.deleted_page_set then
      let s1 := DeletePage s curPid
      UnlockLoop action_type rest
        { s1 with txn := { s1.txn with
            deleted_page_set := s1.txn.deleted_page_set.filter (· ≠ curPid) } }
        (events1 ++ [.pool (.DeletePage curPid)])
    else UnlockLoop action_type rest s events1

/-- `BPlusTree::Unlock` (lines 565-591) with its events. -/
def Unlock (action_type : ActionType) (transaction : Bool) (s : State) (events : List Event) :
    Except Fault (State × List Event) :=
  if !transaction then .error .null_pointer
  else
    match s.txn.page_set with
    | [] => .error .out_of_range
    | page :: rest =>
      let r :=
        if page = .virtual_root_page then
          UnlockLoop action_type rest s
            (events ++ [if action_type = .SEARCH then .RUnlatch page else .WUnlatch page])
        else UnlockLoop action_type (page :: rest) s events
      .ok ({ r.1 with txn := { r.1.txn with page_set := [] } }, r.2)

/-- `BPlusTree::Lock` (lines 547-563) with its events. -/
def Lock (action_type : ActionType) (page : PageRef) (transaction : Bool) (s : State)
    (events : List Event) : Except Fault (State × List Event) :=
  let events1 := events ++ [if action_type = .SEARCH then .RLatch page else .WLatch page]
  match page with
  | .virtual_root_page =>
    if transaction then .ok (AddIntoPageSet s page, events1) else .error .null_pointer
  | .frame page_id => do
    let node ← FetchPage s page_id
    let r ← if IsSafe action_type node then Unlock action_type transaction s events1
      else pure (s, events1)
    if transaction then pure (AddIntoPageSet r.1 page, r.2) else .error .null_pointer

/-- The descent of `FindLeafPage` with a transaction (lines 517-527), with its events. -/
def latched (key : KeyType) (leftMost : Bool) (action_type : ActionType) :
    Nat → State → List Event → page_id_t → Except Fault (page_id_t × State × List Event)
  | 0, _, _, _ => .error .out_of_fuel
  | fuel + 1, s, events, page_id => do
    match ← FetchPage s page_id with
    | .leaf _ => pure (page_id, s, events)
    | .internal internal_page =>
      let next_page_id ←
        (if leftMost then internal_page.ValueAt 0 else internal_page.Lookup key)
      let _ ← FetchPage s next_page_id
      let r ← Lock action_type (.frame next_page_id) true s
        (events ++ [.pool (.FetchPage next_page_id)])
      latched key leftMost action_type fuel r.1 r.2 next_page_id

/-- `BPlusTree::FindLeafPage` with a transaction (lines 512-528), with its events; the last
line fetches the leaf a second time. -/
def FindLeafPage (fuel : Nat) (key : KeyType) (leftMost : Bool) (action_type : ActionType)
    (s : State) (events : List Event) :
    Except Fault (Option page_id_t × State × List Event) :=
  if IsEmpty s then pure (none, s, events)
  else do
    let next_page_id := s.root_page_id_
    let r1 ← Lock action_type .virtual_root_page true s events
    let _ ← FetchPage r1.1 r1.1.root_page_id_
    let r2 ← Lock action_type (.frame r1.1.root_page_id_) true r1.1
      (r1.2 ++ [.pool (.FetchPage r1.1.root_page_id_)])
    let r3 ← latched key leftMost action_type fuel r2.1 r2.2 next_page_id
    let _ ← FetchPage r3.2.1 r3.1
    pure (some r3.1, r3.2.1, r3.2.2 ++ [.pool (.FetchPage r3.1)])

end Latched

/-! ## The page set of latch crabbing, in the words of the specification -/

/-- The pages on the way from the root of the tree to the leaf of the key, each with the
verdict of `IsSafe` on it. -/
def Tree.path (action_type : ActionType) (key : KeyType) (leftMost : Bool) :
    (h : Nat) → Tree h → List (page_id_t × Bool)
  | 0, (t : ALeaf) => [(t.id, Tree.safe action_type 0 t)]
  | h + 1, (t : ANode (Tree h)) =>
    (t.id, Tree.safe action_type (h + 1) t) ::
      match choose key leftMost t.kids with
      | none => []
      | some (_, cur, _) => Tree.path action_type key leftMost h cur.2

/-- The pages of a path from its deepest safe node on, if it has a safe node. -/
def fromDeepestSafe : List (page_id_t × Bool) → Option (List page_id_t)
  | [] => none
  | (page_id, safe) :: rest =>
    match fromDeepestSafe rest with
    | some pages => some pages
    | none => if safe then some (page_id :: rest.map (·.1)) else none

/-- Modelled from the spec: the page set after the latched descent along a path, oldest
first: the pages from the deepest safe node down to the leaf, or the virtual root and the
whole path when no node of the path is safe. -/
def crabbed (path : List (page_id_t × Bool)) : List PageRef :=
  match fromDeepestSafe path with
  | some pages => pages.map .frame
  | none => .virtual_root_page :: path.map (fun e => .frame e.1)

/-- Modelled from the spec: the events of `Unlock` on the pages of a page set, oldest
first, for the ids scheduled for deletion: every page is unlatched and unpinned, and is
deleted after that when its id is scheduled, which takes the id off the schedule. -/
def releaseEvents (action_type : ActionType) : List PageRef → List page_id_t → List Event
  | [], _ => []
  | page :: rest, deleted =>
    [if action_type = .SEARCH then .RUnlatch page else .WUnlatch page,
      .pool (.UnpinPage page.GetPageId (action_type != .SEARCH))] ++
    (if page.GetPageId ∈ deleted then
      .pool (.DeletePage page.GetPageId) ::
        releaseEvents action_type rest (deleted.filter (· ≠ page.GetPageId))
     else releaseEvents action_type rest deleted)

/-- Modelled from the spec: the events of `Unlock` on a page set: the virtual root, if it
is first, is unlatched without an unpin, then the other pages are released. -/
def unlockEvents (action_type : ActionType) (page_set : List PageRef)
    (deleted : List page_id_t) : List Event :=
  match page_set with
  | .virtual_root_page :: rest =>
    (if action_type = .SEARCH then .RUnlatch .virtual_root_page
      else .WUnlatch .virtual_root_page) :: releaseEvents action_type rest deleted
  | page_set => releaseEvents action_type page_set deleted

/-! ## Nodes with at least two children -/

/-- Every internal node of the tree has a maximum size of at least 4 and at least two
children. -/
def Tree.Wide : (h : Nat) → Tree h → Prop
  | 0, _ => True
  | h + 1, (t : ANode (Tree h)) =>
    4 ≤ t.max_size ∧ 2 ≤ t.kids.length ∧ ∀ e ∈ t.kids, Tree.Wide h e.2

/-- As `Tree.Wide`, with nothing said on the number of children of the root node. -/
def Tree.KidsWide : (h : Nat) → Tree h → Prop
  | 0, _ => True
  | h + 1, (t : ANode (Tree h)) => 4 ≤ t.max_size ∧ ∀ e ∈ t.kids, Tree.Wide h e.2

/-- The quiescent state `s` is well formed and holds the pairs `es` on `levels` levels, the
internal maximum size of the tree is at least 4, and every internal node has a maximum size
of at least 4 and at least two children. -/
def WellFormedWide (s : State) (es : List MappingType) (levels : Nat) : Prop :=
  4 ≤ s.internal_max_size_ ∧
    ((HoldsEmpty s ∧ es = [] ∧ levels = 0) ∨
      ∃ (h : Nat) (t : Tree h),
        Holds s h t ∧ Tree.Ord h t none none ∧ Tree.Wide h t ∧ es = Tree.entries h t ∧
          levels = h + 1)

/-! ## The leaves of a reachable tree -/

/-- Every leaf of the tree satisfies `Q`. -/
def Tree.All (Q : ALeaf → Prop) : (h : Nat) → Tree h → Prop
  | 0, (t : ALeaf) => Q t
  | h + 1, (t : ANode (Tree h)) => ∀ e ∈ t.kids, Tree.All Q h e.2

/-- The leaf has the maximum size `lm` and holds at most `lm` pairs. -/
def LeafCap (lm : Nat) (L : ALeaf) : Prop := L.max_size = lm ∧ L.arr.length ≤ lm

/-- The page `q` is the page `p` or lies below it along the child pointers. -/
inductive Below (pages : page_id_t → Option BPlusTreePage) : page_id_t → page_id_t → Prop
  | self (p : page_id_t) : Below pages p p
  | step {p c q : page_id_t} {n : InternalPage} :
    pages p = some (.internal n) → c ∈ n.array.map (·.2) → Below pages c q →
    Below pages p q

/-- The states that calls of `Insert` alone (with a transaction, and that return) reach from
the empty tree of the constructor. -/
inductive InsertReachable (leaf_max_size internal_max_size : Nat) : State → Prop
  | new : InsertReachable leaf_max_size internal_max_size
      (State.new leaf_max_size internal_max_size)
  | insert {s s1 : State} {fuel : Nat} {key : KeyType} {value : ValueType} {inserted : Bool} :
    InsertReachable leaf_max_size internal_max_size s →
    Insert fuel key value true s = .ok (inserted, s1) →
    InsertReachable leaf_max_size internal_max_size s1

end BPlusTree

namespace BPlusTree

/-! ## The `Except` monad -/

@[simp] theorem ok_bind {ε α β : Type} (a : α) (f : α → Except ε β) :
    (Except.ok a >>= f) = f a := rfl

@[simp] theorem error_bind {ε α β : Type} (e : ε) (f : α → Except ε β) :
    ((Except.error e : Except ε α) >>= f) = Except.error e := rfl

@[simp] theorem pure_eq_ok {ε α : Type} (a : α) : (pure a : Except ε α) = Except.ok a := rfl

theorem bind_eq_ok {ε α β : Type} {x : Except ε α} {f : α → Except ε β} {b : β} :
    (x >>= f) = Except.ok b ↔ ∃ a, x = Except.ok a ∧ f a = Except.ok b := by
  cases x with
  | error e => simp
  | ok a => simp

@[simp] theorem Tree.pid_zero (t : ALeaf) : Tree.pid 0 t = t.id := rfl

@[simp] theorem Tree.pid_succ (h : Nat) (t : ANode (Tree h)) : Tree.pid (h + 1) t = t.id := rfl

/-! ## Basic facts on the representation -/

theorem Tree.pid_mem_ids : ∀ (h : Nat) (t : Tree h), Tree.pid h t ∈ Tree.ids h t
  | 0, _ => by simp [Tree.pid, Tree.ids]
  | _ + 1, _ => by simp [Tree.pid, Tree.ids]

theorem Tree.ids_kid_subset {h : Nat} (t : ANode (Tree h)) {e : KeyType × Tree h}
    (he : e ∈ t.kids) {x : page_id_t} (hx : x ∈ Tree.ids h e.2) :
    x ∈ Tree.ids (h + 1) t := by
  simp only [Tree.ids, List.mem_cons, List.mem_flatMap]
  exact Or.inr ⟨e, he, hx⟩

/-- The representation only reads the pages of the tree. -/
theorem Rep.frame {pages pages' : page_id_t → Option BPlusTreePage} :
    ∀ (h : Nat) (t : Tree h) (parent : page_id_t), Rep pages h t parent →
      (∀ x ∈ Tree.ids h t, pages' x = pages x) → Rep pages' h t parent
  | 0, t, parent, hr, hf => by
    simp only [Rep] at hr ⊢
    rw [hf _ (by simp [Tree.ids])]
    exact hr
  | h + 1, t, parent, hr, hf => by
    simp only [Rep] at hr ⊢
    refine ⟨?_, fun e he => ?_⟩
    · rw [hf _ (by simp [Tree.ids])]
      exact hr.1
    · exact Rep.frame h e.2 _ (hr.2 e he) fun x hx => hf x (Tree.ids_kid_subset t he hx)

theorem Rep.page_some {pages : page_id_t → Option BPlusTreePage} :
    ∀ (h : Nat) (t : Tree h) (parent : page_id_t), Rep pages h t parent →
      ∀ x ∈ Tree.ids h t, pages x ≠ none
  | 0, t, parent, hr, x, hx => by
    simp only [Rep] at hr
    simp only [Tree.ids, List.mem_singleton] at hx
    subst hx
    simp [hr]
  | h + 1, t, parent, hr, x, hx => by
    simp only [Rep] at hr
    simp only [Tree.ids, List.mem_cons, List.mem_flatMap] at hx
    rcases hx with rfl | ⟨e, he, hx⟩
    · simp [hr.1]
    · exact Rep.page_some h e.2 _ (hr.2 e he) x hx

/-! ## The descent of `FindLeafPage` -/

theorem chooseFrom_append {α : Type} (key : KeyType) :
    ∀ (rest pre : List (KeyType × α)) (cur : KeyType × α),
      (chooseFrom key pre cur rest).1 ++ (chooseFrom key pre cur rest).2.1 ::
        (chooseFrom key pre cur rest).2.2 = pre ++ cur :: rest
  | [], pre, cur => by simp [chooseFrom]
  | e :: es, pre, cur => by
    simp only [chooseFrom]
    split
    · rw [chooseFrom_append key es (pre ++ [cur]) e]; simp
    · rfl

theorem chooseFrom_lookup (key : KeyType) (h : Nat) :
    ∀ (rest pre : List (KeyType × Tree h)) (cur : KeyType × Tree h),
      InternalPage.LookupFrom key (Tree.pid h cur.2) (slotsOf h rest) =
        Tree.pid h (chooseFrom key pre cur rest).2.1.2
  | [], pre, cur => by simp [chooseFrom, slotsOf, InternalPage.LookupFrom]
  | e :: es, pre, cur => by
    simp only [chooseFrom, slotsOf, List.map_cons, InternalPage.LookupFrom]
    split
    · exact chooseFrom_lookup key h es (pre ++ [cur]) e
    · rfl

theorem unlatched_descent (s : State) (key : KeyType) (leftMost : Bool) :
    ∀ (h : Nat) (t : Tree h) (parent : page_id_t), Rep s.pages h t parent →
      ∀ L, Tree.findLeaf key leftMost h t = some L → ∀ fuel, h < fuel →
        FindLeafPage.unlatched key leftMost fuel s (Tree.pid h t) = .ok L.id
  | 0, t, parent, hr, L, hL, fuel, hf => by
    obtain ⟨f, rfl⟩ : ∃ f, fuel = f + 1 := ⟨fuel - 1, by omega⟩
    simp only [Rep] at hr
    simp only [Tree.findLeaf, Option.some.injEq] at hL
    subst hL
    simp [FindLeafPage.unlatched, FetchPage, hr]

  | h + 1, t, parent, hr, L, hL, fuel, hf => by
    obtain ⟨f, rfl⟩ : ∃ f, fuel = f + 1 := ⟨fuel - 1, by omega⟩
    simp only [Rep] at hr
    simp only [Tree.findLeaf] at hL
    cases hk : t.kids with
    | nil => simp [hk, choose] at hL
    | cons e es =>
      simp only [hk, choose] at hL
      have hslots : slotsOf h t.kids = (e.1, Tree.pid h e.2) :: slotsOf h es := by
        simp [hk, slotsOf]
      cases leftMost with
      | true =>
        simp only [if_true] at hL
        have := unlatched_descent s key true h e.2 _ (hr.2 e (by simp [hk])) L hL f (by omega)
        simp [FindLeafPage.unlatched, FetchPage, hr.1, hslots, InternalPage.ValueAt]
        exact this
      | false =>
        simp only [Bool.false_eq_true, if_false] at hL
        have hmem : (chooseFrom key [] e es).2.1 ∈ t.kids := by
          rw [hk]
          have := chooseFrom_append key es [] e
          simp only [List.nil_append] at this
          rw [← this]
          simp
        have := unlatched_descent s key false h _ _ (hr.2 _ hmem) L hL f (by omega)
        simp [FindLeafPage.unlatched, FetchPage, hr.1, hslots, InternalPage.Lookup,
          chooseFrom_lookup key h es [] e]
        exact this

theorem Rep.page_eq {pages : page_id_t → Option BPlusTreePage} :
    ∀ (h : Nat) (t : Tree h) (parent : page_id_t), Rep pages h t parent →
      pages (Tree.pid h t) = some (Tree.page h t parent)
  | 0, _, _, hr => hr
  | _ + 1, _, _, hr => hr.1

theorem IsSafe_page (action_type : ActionType) :
    ∀ (h : Nat) (t : Tree h) (parent : page_id_t),
      IsSafe action_type (Tree.page h t parent) = Tree.safe action_type h t
  | 0, _, _ => rfl
  | _ + 1, _, _ => rfl

@[simp] theorem withPageSet_pages (s : State) (ps : List PageRef) :
    (s.withPageSet ps).pages = s.pages := rfl

@[simp] theorem withPageSet_page_set (s : State) (ps : List PageRef) :
    (s.withPageSet ps).txn.page_set = ps := rfl

@[simp] theorem withPageSet_deleted (s : State) (ps : List PageRef) :
    (s.withPageSet ps).txn.deleted_page_set = s.txn.deleted_page_set := rfl

@[simp] theorem withPageSet_withPageSet (s : State) (ps ps' : List PageRef) :
    (s.withPageSet ps).withPageSet ps' = s.withPageSet ps' := rfl

theorem withPageSet_self (s : State) : s.withPageSet s.txn.page_set = s := rfl

theorem UnlockLoop_nothing : ∀ (ps : List PageRef) (s : State),
    s.txn.deleted_page_set = [] → UnlockLoop ps s = s
  | [], _, _ => rfl
  | p :: ps, s, hd => by
    simp only [UnlockLoop, hd, List.not_mem_nil, if_false]
    exact UnlockLoop_nothing ps s hd

theorem Unlock_ok (action_type : ActionType) (s : State) (hps : s.txn.page_set ≠ [])
    (hd : s.txn.deleted_page_set = []) :
    Unlock action_type true s = .ok (s.withPageSet []) := by
  cases hp : s.txn.page_set with
  | nil => exact absurd hp hps
  | cons p ps =>
    simp only [Unlock, hp, Bool.not_true, Bool.false_eq_true, if_false]
    rw [UnlockLoop_nothing _ s hd]
    rfl

theorem Lock_frame (action_type : ActionType) (s : State) (page_id : page_id_t)
    (n : BPlusTreePage) (hn : s.pages page_id = some n) (hps : s.txn.page_set ≠ [])
    (hd : s.txn.deleted_page_set = []) :
    Lock action_type (.frame page_id) true s =
      .ok (s.withPageSet (heldAfter (IsSafe action_type n) s.txn.page_set page_id)) := by
  simp only [Lock, FetchPage, hn, ok_bind, heldAfter]
  cases hsafe : IsSafe action_type n with
  | true =>
    simp only [if_true, Unlock_ok action_type s hps hd, ok_bind]
    rfl
  | false =>
    simp only [Bool.false_eq_true, if_false, pure_eq_ok, ok_bind, if_true]
    rfl

theorem choose_eq {α : Type} {key : KeyType} {leftMost : Bool} {kids pre post : List (KeyType × α)}
    {cur : KeyType × α} (hc : choose key leftMost kids = some (pre, cur, post)) :
    kids = pre ++ cur :: post := by
  cases kids with
  | nil => simp [choose] at hc
  | cons e es =>
    cases leftMost with
    | true =>
      simp only [choose, if_true, Option.some.injEq, Prod.mk.injEq] at hc
      obtain ⟨rfl, rfl, rfl⟩ := hc
      rfl
    | false =>
      simp only [choose, Bool.false_eq_true, if_false, Option.some.injEq] at hc
      have := chooseFrom_append key es [] e
      rw [hc] at this
      simpa using this.symm

theorem choose_next {key : KeyType} {leftMost : Bool} {h : Nat}
    {kids pre post : List (KeyType × Tree h)} {cur : KeyType × Tree h}
    (hc : choose key leftMost kids = some (pre, cur, post)) (p : InternalPage)
    (hp : p.array = slotsOf h kids) :
    (if leftMost = true then p.ValueAt 0 else p.Lookup key) = .ok (Tree.pid h cur.2) := by
  cases kids with
  | nil => simp [choose] at hc
  | cons e es =>
    cases leftMost with
    | true =>
      simp only [choose, if_true, Option.some.injEq, Prod.mk.injEq] at hc
      obtain ⟨rfl, rfl, rfl⟩ := hc
      simp [InternalPage.ValueAt, hp, slotsOf]
    | false =>
      simp only [choose, Bool.false_eq_true, if_false, Option.some.injEq] at hc
      have := chooseFrom_lookup key h es [] e
      rw [hc] at this
      simp only [Bool.false_eq_true, if_false, InternalPage.Lookup, hp, slotsOf, List.map_cons]
      rw [← this]
      rfl

theorem latched_descent (key : KeyType) (leftMost : Bool) (action_type : ActionType) :
    ∀ (h : Nat) (t : Tree h) (parent : page_id_t) (s : State), Rep s.pages h t parent →
      s.txn.page_set ≠ [] → s.txn.deleted_page_set = [] →
      ∀ L, Tree.findLeaf key leftMost h t = some L → ∀ fuel, h < fuel →
        FindLeafPage.latched key leftMost action_type fuel s (Tree.pid h t) =
          .ok (L.id, s.withPageSet (Tree.held action_type key leftMost h t s.txn.page_set))
  | 0, t, parent, s, hr, hps, hd, L, hL, fuel, hf => by
    obtain ⟨f, rfl⟩ : ∃ f, fuel = f + 1 := ⟨fuel - 1, by omega⟩
    simp only [Rep] at hr
    simp only [Tree.findLeaf, Option.some.injEq] at hL
    subst hL
    simp [FindLeafPage.latched, FetchPage, hr, Tree.held, withPageSet_self]
  | h + 1, t, parent, s, hr, hps, hd, L, hL, fuel, hf => by
    obtain ⟨f, rfl⟩ : ∃ f, fuel = f + 1 := ⟨fuel - 1, by omega⟩
    simp only [Rep] at hr
    simp only [Tree.findLeaf] at hL
    cases hc : choose key leftMost t.kids with
    | none => simp [hc] at hL
    | some r =>
      obtain ⟨pre, cur, post⟩ := r
      simp only [hc] at hL
      have hk := choose_eq hc
      have hmem : cur ∈ t.kids := by rw [hk]; simp
      have hrc := hr.2 cur hmem
      have hnext := choose_next hc
        { parent_page_id := parent, max_size := t.max_size, array := slotsOf h t.kids } rfl
      have hpc := Rep.page_eq h cur.2 _ hrc
      have hlock := Lock_frame action_type s (Tree.pid h cur.2) _ hpc hps hd
      rw [IsSafe_page] at hlock
      have ih := latched_descent key leftMost action_type h cur.2 t.id
        (s.withPageSet (heldAfter (Tree.safe action_type h cur.2) s.txn.page_set (Tree.pid h cur.2)))
        hrc (by simp [heldAfter]) hd L hL f (by omega)
      simp only [FindLeafPage.latched, FetchPage, Tree.pid_succ, hr.1, ok_bind]
      rw [hnext]
      simp only [ok_bind, hpc, hlock]
      rw [ih]
      simp [Tree.held, hc]

@[simp] theorem withPageSet_root (s : State) (ps : List PageRef) :
    (s.withPageSet ps).root_page_id_ = s.root_page_id_ := rfl

@[simp] theorem withPageSet_next (s : State) (ps : List PageRef) :
    (s.withPageSet ps).next_page_id = s.next_page_id := rfl

@[simp] theorem withPageSet_leaf_max (s : State) (ps : List PageRef) :
    (s.withPageSet ps).leaf_max_size_ = s.leaf_max_size_ := rfl

@[simp] theorem withPageSet_internal_max (s : State) (ps : List PageRef) :
    (s.withPageSet ps).internal_max_size_ = s.internal_max_size_ := rfl

@[simp] theorem withPageSet_header (s : State) (ps : List PageRef) :
    (s.withPageSet ps).header_record = s.header_record := rfl

theorem Tree.findLeaf_some (key : KeyType) (leftMost : Bool) :
    ∀ (h : Nat) (t : Tree h), Tree.Ok h t → ∃ L, Tree.findLeaf key leftMost h t = some L
  | 0, t, _ => ⟨t, rfl⟩
  | h + 1, t, hok => by
    simp only [Tree.Ok] at hok
    cases hk : t.kids with
    | nil => exact absurd hk hok.1
    | cons e es =>
      have : ∃ r, choose key leftMost t.kids = some r := by
        rw [hk]; cases leftMost <;> simp [choose]
      obtain ⟨⟨pre, cur, post⟩, hc⟩ := this
      have hmem : cur ∈ t.kids := by rw [choose_eq hc]; simp
      obtain ⟨L, hL⟩ := Tree.findLeaf_some key leftMost h cur.2 (hok.2 cur hmem)
      exact ⟨L, by simp [Tree.findLeaf, hc, hL]⟩

theorem Tree.findLeaf_rep {pages : page_id_t → Option BPlusTreePage} (key : KeyType)
    (leftMost : Bool) :
    ∀ (h : Nat) (t : Tree h) (parent : page_id_t), Rep pages h t parent →
      ∀ L, Tree.findLeaf key leftMost h t = some L →
        (∃ p, Rep pages 0 L p) ∧ L.id ∈ Tree.ids h t
  | 0, t, parent, hr, L, hL => by
    simp only [Tree.findLeaf, Option.some.injEq] at hL
    subst hL
    exact ⟨⟨parent, hr⟩, by simp [Tree.ids]⟩
  | h + 1, t, parent, hr, L, hL => by
    simp only [Rep] at hr
    simp only [Tree.findLeaf] at hL
    cases hc : choose key leftMost t.kids with
    | none => simp [hc] at hL
    | some r =>
      obtain ⟨pre, cur, post⟩ := r
      simp only [hc] at hL
      have hmem : cur ∈ t.kids := by rw [choose_eq hc]; simp
      obtain ⟨h1, h2⟩ := Tree.findLeaf_rep key leftMost h cur.2 _ (hr.2 cur hmem) L hL
      exact ⟨h1, Tree.ids_kid_subset t hmem h2⟩

theorem Lock_virtual_root (action_type : ActionType) (s : State) :
    Lock action_type .virtual_root_page true s =
      .ok (s.withPageSet (s.txn.page_set ++ [.virtual_root_page])) := by
  simp [Lock, AddIntoPageSet, State.withPageSet]

theorem Holds.root_ne {s : State} {h : Nat} {t : Tree h} (hs : Holds s h t) :
    s.root_page_id_ ≠ INVALID_PAGE_ID := by
  have h1 := Rep.page_some h t _ hs.rep _ (Tree.pid_mem_ids h t)
  have h2 := hs.dom _ h1
  obtain ⟨h3, -⟩ := h2
  rw [hs.root]
  intro h4
  rw [h4] at h3
  exact absurd h3 (by decide)

theorem FindLeafPage_latched {s : State} {h : Nat} {t : Tree h} (hs : Holds s h t)
    (key : KeyType) (leftMost : Bool) (action_type : ActionType) {L : ALeaf}
    (hL : Tree.findLeaf key leftMost h t = some L) {fuel : Nat} (hf : h < fuel) :
    FindLeafPage fuel key leftMost true action_type s =
      .ok (some L.id, s.withPageSet (Tree.heldRoot action_type key leftMost h t)) := by
  have hne := hs.root_ne
  have hpr := Rep.page_eq h t _ hs.rep
  have hlock := Lock_frame action_type (s.withPageSet [.virtual_root_page]) (Tree.pid h t) _
    (by simpa using hpr) (by simp) (by simpa using hs.deleted)
  rw [IsSafe_page] at hlock
  have hdesc := latched_descent key leftMost action_type h t INVALID_PAGE_ID
    ((s.withPageSet [.virtual_root_page]).withPageSet
      (heldAfter (Tree.safe action_type h t) [.virtual_root_page] (Tree.pid h t)))
    (by simpa using hs.rep) (by simp [heldAfter]) (by simpa using hs.deleted) L hL fuel hf
  obtain ⟨⟨p, hLr⟩, -⟩ := Tree.findLeaf_rep key leftMost h t _ hs.rep L hL
  simp only [Rep] at hLr
  simp only [FindLeafPage, IsEmpty, beq_iff_eq, hne, if_false, Bool.not_true,
    Bool.false_eq_true, Lock_virtual_root, hs.page_set, List.nil_append, ok_bind]
  simp only [withPageSet_page_set, withPageSet_withPageSet] at hlock hdesc
  simp only [withPageSet_root, hs.root, FetchPage, withPageSet_pages, hpr, ok_bind, hlock, hdesc,
    hLr, pure_eq_ok, Tree.heldRoot]

theorem FindLeafPage_unlatched {s : State} {h : Nat} {t : Tree h} (hs : Holds s h t)
    (key : KeyType) (leftMost : Bool) (action_type : ActionType) {L : ALeaf}
    (hL : Tree.findLeaf key leftMost h t = some L) {fuel : Nat} (hf : h < fuel) :
    FindLeafPage fuel key leftMost false action_type s = .ok (some L.id, s) := by
  have hne := hs.root_ne
  have hdesc := unlatched_descent s key leftMost h t _ hs.rep L hL fuel hf
  simp only [FindLeafPage, IsEmpty, beq_iff_eq, hne, if_false, Bool.not_false, if_true]
  simp only [hs.root, hdesc, ok_bind, pure_eq_ok]

theorem FindLeafPage_empty {s : State} (hroot : s.root_page_id_ = INVALID_PAGE_ID) (fuel : Nat)
    (key : KeyType) (leftMost transaction : Bool) (action_type : ActionType) :
    FindLeafPage fuel key leftMost transaction action_type s = .ok (none, s) := by
  simp [FindLeafPage, IsEmpty, hroot]

theorem heldAfter_ne_nil (safe : Bool) (ps : List PageRef) (page_id : page_id_t) :
    heldAfter safe ps page_id ≠ [] := by
  simp [heldAfter]

theorem Tree.held_ne_nil (action_type : ActionType) (key : KeyType) (leftMost : Bool) :
    ∀ (h : Nat) (t : Tree h) (ps : List PageRef), ps ≠ [] →
      Tree.held action_type key leftMost h t ps ≠ []
  | 0, _, _, hps => hps
  | h + 1, t, ps, hps => by
    simp only [Tree.held]
    split
    · exact hps
    · exact Tree.held_ne_nil action_type key leftMost h _ _ (heldAfter_ne_nil _ _ _)

theorem Tree.heldRoot_ne_nil (action_type : ActionType) (key : KeyType) (leftMost : Bool)
    (h : Nat) (t : Tree h) : Tree.heldRoot action_type key leftMost h t ≠ [] :=
  Tree.held_ne_nil action_type key leftMost h t _ (heldAfter_ne_nil _ _ _)

theorem Holds.withPageSet_nil {s : State} {h : Nat} {t : Tree h} (hs : Holds s h t) :
    s.withPageSet [] = s := by
  rw [← hs.page_set]
  rfl

/-- `GetValue` on a state that holds a tree: the answer is the leaf `Lookup` in the leaf that
the descent ends in, and the state is left as it was. -/
theorem GetValue_holds {s : State} {h : Nat} {t : Tree h} (hs : Holds s h t) (key : KeyType)
    (result : List ValueType) (transaction : Bool) {L : ALeaf}
    (hL : Tree.findLeaf key false h t = some L) {fuel : Nat} (hf : h < fuel) :
    GetValue fuel key result transaction s =
      .ok (match LeafPage.LookupIn key L.arr with
        | some v => (true, result ++ [v], s)
        | none => (false, result, s)) := by
  obtain ⟨⟨p, hLr⟩, -⟩ := Tree.findLeaf_rep key false h t _ hs.rep L hL
  simp only [Rep] at hLr
  cases transaction with
  | true =>
    have hun := Unlock_ok .SEARCH (s.withPageSet (Tree.heldRoot .SEARCH key false h t))
      (by simpa using Tree.heldRoot_ne_nil .SEARCH key false h t) (by simpa using hs.deleted)
    simp only [withPageSet_withPageSet, hs.withPageSet_nil] at hun
    simp only [GetValue, FindLeafPage_latched hs key false .SEARCH hL hf, ok_bind, FetchLeaf,
      withPageSet_pages, hLr, LeafPage.Lookup, if_true, hun]
    cases LeafPage.LookupIn key L.arr <;> simp
  | false =>
    simp only [GetValue, FindLeafPage_unlatched hs key false .SEARCH hL hf, ok_bind, FetchLeaf,
      hLr, LeafPage.Lookup, Bool.false_eq_true, if_false, pure_eq_ok]
    cases LeafPage.LookupIn key L.arr <;> simp

theorem GetValue_empty {s : State} (hroot : s.root_page_id_ = INVALID_PAGE_ID) (fuel : Nat)
    (key : KeyType) (result : List ValueType) (transaction : Bool) :
    GetValue fuel key result transaction s = .ok (false, result, s) := by
  simp [GetValue, FindLeafPage_empty hroot]

/-! ## Insertion of a key that is there -/

theorem InsertIntoLeaf_duplicate {s : State} {h : Nat} {t : Tree h} (hs : Holds s h t)
    (key : KeyType) (value : ValueType) (transaction : Bool) {L : ALeaf}
    (hL : Tree.findLeaf key false h t = some L) {v0 : ValueType}
    (hv : LeafPage.LookupIn key L.arr = some v0) {fuel : Nat} (hf : h < fuel) :
    Insert fuel key value transaction s = .ok (false, s) := by
  obtain ⟨⟨p, hLr⟩, -⟩ := Tree.findLeaf_rep key false h t _ hs.rep L hL
  simp only [Rep] at hLr
  have hne := hs.root_ne
  simp only [Insert, IsEmpty, beq_iff_eq, hne, if_false, Bool.false_eq_true]
  cases transaction with
  | true =>
    have hun := Unlock_ok .INSERT (s.withPageSet (Tree.heldRoot .INSERT key false h t))
      (by simpa using Tree.heldRoot_ne_nil .INSERT key false h t) (by simpa using hs.deleted)
    simp only [withPageSet_withPageSet, hs.withPageSet_nil] at hun
    simp only [InsertIntoLeaf, FindLeafPage_latched hs key false .INSERT hL hf, ok_bind, FetchLeaf,
      withPageSet_pages, hLr, LeafPage.Lookup, hv, if_true, hun, pure_eq_ok]
  | false =>
    simp only [InsertIntoLeaf, FindLeafPage_unlatched hs key false .INSERT hL hf, ok_bind,
      FetchLeaf, hLr, LeafPage.Lookup, hv, Bool.false_eq_true, if_false, pure_eq_ok]

theorem State.new_holdsEmpty (leaf_max_size internal_max_size : Nat) :
    HoldsEmpty (State.new leaf_max_size internal_max_size) :=
  { root := rfl, dom := fun _ hx => absurd rfl hx, next_nonneg := Int.one_nonneg, page_set := rfl,
    deleted := rfl }

end BPlusTree

namespace BPlusTree

/-! ## Page ids of an insertion -/

theorem nodup_replace_middle {α : Type} {A C C1 B : List α} (h : (A ++ C ++ B).Nodup)
    (hC : C1.Nodup) (hsub : ∀ x ∈ C1, x ∈ C ∨ (x ∉ A ∧ x ∉ B)) : (A ++ C1 ++ B).Nodup := by
  simp only [List.nodup_append, List.disjoint_left, List.mem_append] at h ⊢
  obtain ⟨⟨hA, -, hAC⟩, hB, hACB⟩ := h
  refine ⟨⟨hA, hC, fun a ha ha1 => ?_⟩, hB, fun a ha hb => ?_⟩
  · rcases hsub a ha1 with h1 | h1
    · exact hAC ha h1
    · exact h1.1 ha
  · rcases ha with ha | ha
    · exact hACB (Or.inl ha) hb
    · rcases hsub a ha with h1 | h1
      · exact hACB (Or.inr h1) hb
      · exact h1.2 hb

theorem Tree.ids_zero (t : ALeaf) : Tree.ids 0 t = [t.id] := rfl

theorem Tree.ids_succ (h : Nat) (t : ANode (Tree h)) :
    Tree.ids (h + 1) t = t.id :: kidsIds h t.kids := rfl

@[simp] theorem kidsIds_nil (h : Nat) : kidsIds h [] = [] := rfl

@[simp] theorem kidsIds_cons (h : Nat) (e : KeyType × Tree h) (es : List (KeyType × Tree h)) :
    kidsIds h (e :: es) = Tree.ids h e.2 ++ kidsIds h es := rfl

@[simp] theorem kidsIds_append (h : Nat) (a b : List (KeyType × Tree h)) :
    kidsIds h (a ++ b) = kidsIds h a ++ kidsIds h b := by
  simp [kidsIds]

theorem kidsIds_take_drop (h : Nat) (n : Nat) (k : List (KeyType × Tree h)) :
    kidsIds h (k.take n) ++ kidsIds h (k.drop n) = kidsIds h k := by
  rw [← kidsIds_append, List.take_append_drop]

theorem mem_kidsIds {h : Nat} {k : List (KeyType × Tree h)} {x : page_id_t} :
    x ∈ kidsIds h k ↔ ∃ e ∈ k, x ∈ Tree.ids h e.2 := by
  simp [kidsIds]

theorem Tree.ins_rootId (lmax imax : Nat) (key : KeyType) (value : ValueType) :
    ∀ (h : Nat) (t : Tree h) (next : page_id_t),
      InsRes.rootId h (Tree.ins lmax imax key value h t next).1 = Tree.pid h t
  | 0, t, next => by
    simp only [Tree.ins, ALeaf.ins]
    split <;> rfl
  | h + 1, t, next => by
    simp only [Tree.ins]
    split
    · rfl
    · split
      · rfl
      · split <;> rfl

theorem Tree.ins_next_le (lmax imax : Nat) (key : KeyType) (value : ValueType) :
    ∀ (h : Nat) (t : Tree h) (next : page_id_t),
      next ≤ (Tree.ins lmax imax key value h t next).2
  | 0, t, next => by
    simp only [Tree.ins, ALeaf.ins]
    split
    · exact le_refl _
    · show next ≤ next + 1
      linarith
  | h + 1, t, next => by
    simp only [Tree.ins]
    split
    · exact le_refl _
    · rename_i pre cur post hc
      have ih := Tree.ins_next_le lmax imax key value h cur.2 next
      split
      · rename_i c next1 heq
        rw [heq] at ih
        exact ih
      · rename_i l sep r next1 heq
        rw [heq] at ih
        split
        · exact ih
        · show next ≤ next1 + 1
          have : next ≤ next1 := ih
          linarith

theorem Tree.ok_kids {h : Nat} {t : ANode (Tree h)} (hok : Tree.Ok (h + 1) t) :
    t.kids ≠ [] ∧ ∀ e ∈ t.kids, Tree.Ok h e.2 := hok

theorem Tree.ins_facts (lmax imax : Nat) (key : KeyType) (value : ValueType) :
    ∀ (h : Nat) (t : Tree h) (next : page_id_t), (Tree.ids h t).Nodup → Tree.Below h t next →
      Tree.Ok h t → InsFacts h t next (Tree.ins lmax imax key value h t next)
  | 0, t, next, hnd, hb, hok => by
    have hlt : t.id < next := (hb t.id (by simp [Tree.ids])).2
    simp only [Tree.ins, ALeaf.ins]
    split
    · exact ⟨fun x hx => Or.inl hx, hnd, trivial⟩
    · refine ⟨fun x hx => ?_, ?_, ⟨trivial, trivial⟩⟩
      · simp only [InsRes.ids, Tree.ids, List.mem_append, List.mem_singleton] at hx ⊢
        rcases hx with rfl | rfl
        · exact Or.inl rfl
        · exact Or.inr ⟨le_refl _, by linarith⟩
      · simp only [InsRes.ids, Tree.ids, List.singleton_append, List.nodup_cons,
          List.mem_singleton, List.not_mem_nil, not_false_eq_true, List.nodup_nil, and_true]
        exact ne_of_lt hlt
  | h + 1, t, next, hnd, hb, hok => by
    obtain ⟨hne, hokk⟩ := Tree.ok_kids hok
    simp only [Tree.ins]
    split
    · exact ⟨fun x hx => Or.inl hx, hnd, hok⟩
    · rename_i pre cur post hc
      have hk := choose_eq hc
      have hmem : cur ∈ t.kids := by rw [hk]; simp
      have hids : Tree.ids (h + 1) t =
          t.id :: (kidsIds h pre ++ Tree.ids h cur.2 ++ kidsIds h post) := by
        rw [Tree.ids_succ, hk]; simp
      rw [hids] at hnd
      have hndc : (Tree.ids h cur.2).Nodup := by
        have := (List.nodup_cons.1 hnd).2
        simp only [List.nodup_append] at this
        exact this.1.2.1
      have hbc : Tree.Below h cur.2 next := fun x hx => hb x (Tree.ids_kid_subset t hmem hx)
      have ih := Tree.ins_facts lmax imax key value h cur.2 next hndc hbc (hokk cur hmem)
      have hle := Tree.ins_next_le lmax imax key value h cur.2 next
      -- the ids below the node once the outcome of the child is in place
      have hb' : ∀ x ∈ t.id :: (kidsIds h pre ++ Tree.ids h cur.2 ++ kidsIds h post),
          0 ≤ x ∧ x < next := by
        rw [← hids]; exact hb
      have inA : ∀ x ∈ kidsIds h pre,
          x ∈ kidsIds h pre ++ Tree.ids h cur.2 ++ kidsIds h post := fun x hx =>
        List.mem_append.2 (Or.inl (List.mem_append.2 (Or.inl hx)))
      have inC : ∀ x ∈ Tree.ids h cur.2,
          x ∈ kidsIds h pre ++ Tree.ids h cur.2 ++ kidsIds h post := fun x hx =>
        List.mem_append.2 (Or.inl (List.mem_append.2 (Or.inr hx)))
      have inB : ∀ x ∈ kidsIds h post,
          x ∈ kidsIds h pre ++ Tree.ids h cur.2 ++ kidsIds h post := fun x hx =>
        List.mem_append.2 (Or.inr hx)
      have hold : ∀ x ∈ kidsIds h pre ++ Tree.ids h cur.2 ++ kidsIds h post, x < next :=
        fun x hx => (hb' x (List.mem_cons_of_mem _ hx)).2
      have hcore : (t.id :: (kidsIds h pre ++
          InsRes.ids h (Tree.ins lmax imax key value h cur.2 next).1 ++ kidsIds h post)).Nodup := by
        rw [List.nodup_cons] at hnd ⊢
        refine ⟨fun hx => ?_, nodup_replace_middle hnd.2 ih.nodup fun x hx => ?_⟩
        · simp only [List.mem_append] at hx
          rcases hx with (hx | hx) | hx
          · exact hnd.1 (inA _ hx)
          · rcases ih.sub _ hx with h1 | h1
            · exact hnd.1 (inC _ h1)
            · have := (hb' t.id (List.mem_cons_self _ _)).2
              linarith [h1.1]
          · exact hnd.1 (inB _ hx)
        · rcases ih.sub _ hx with h1 | h1
          · exact Or.inl h1
          · refine Or.inr ⟨fun hx1 => ?_, fun hx1 => ?_⟩
            · have := hold x (inA _ hx1)
              linarith [h1.1]
            · have := hold x (inB _ hx1)
              linarith [h1.1]
      have hsubcore : ∀ x ∈ t.id :: (kidsIds h pre ++
          InsRes.ids h (Tree.ins lmax imax key value h cur.2 next).1 ++ kidsIds h post),
          x ∈ t.id :: (kidsIds h pre ++ Tree.ids h cur.2 ++ kidsIds h post) ∨
            (next ≤ x ∧ x < (Tree.ins lmax imax key value h cur.2 next).2) := by
        intro x hx
        simp only [List.mem_cons, List.mem_append] at hx ⊢
        rcases hx with hx | (hx | hx) | hx
        · exact Or.inl (Or.inl hx)
        · exact Or.inl (Or.inr (Or.inl (Or.inl hx)))
        · rcases ih.sub _ hx with h1 | h1
          · exact Or.inl (Or.inr (Or.inl (Or.inr h1)))
          · exact Or.inr h1
        · exact Or.inl (Or.inr (Or.inr hx))
      have hokpre : ∀ e ∈ pre, Tree.Ok h e.2 := fun e he => hokk e (by rw [hk]; simp [he])
      have hokpost : ∀ e ∈ post, Tree.Ok h e.2 := fun e he => hokk e (by rw [hk]; simp [he])
      rw [← hids] at hsubcore
      split
      · rename_i c next1 heq
        rw [heq] at hcore hsubcore ih
        refine ⟨fun x hx => hsubcore x ?_, ?_, ?_, ?_⟩
        · simpa [InsRes.ids, Tree.ids_succ] using hx
        · simpa [InsRes.ids, Tree.ids_succ] using hcore
        · simp
        · intro e he
          simp only [List.mem_append, List.mem_cons] at he
          rcases he with he | rfl | he
          · exact hokpre e he
          · exact ih.ok
          · exact hokpost e he
      · rename_i l sep r next1 heq
        rw [heq] at hcore hsubcore ih hle
        simp only [InsRes.ids] at hcore hsubcore
        have hokK : ∀ e ∈ pre ++ (cur.1, l) :: (sep, r) :: post, Tree.Ok h e.2 := by
          intro e he
          simp only [List.mem_append, List.mem_cons] at he
          rcases he with he | rfl | rfl | he
          · exact hokpre e he
          · exact ih.ok.1
          · exact ih.ok.2
          · exact hokpost e he
        have hKids : kidsIds h (pre ++ (cur.1, l) :: (sep, r) :: post) =
            kidsIds h pre ++ (Tree.ids h l ++ Tree.ids h r) ++ kidsIds h post := by
          simp
        split
        · refine ⟨fun x hx => hsubcore x ?_, ?_, ?_, hokK⟩
          · simpa [InsRes.ids, Tree.ids_succ] using hx
          · simpa [InsRes.ids, Tree.ids_succ] using hcore
          · simp
        · rw [← hKids] at hcore hsubcore
          have hlen : 2 ≤ (pre ++ (cur.1, l) :: (sep, r) :: post).length := by
            simp only [List.length_append, List.length_cons]; omega
          generalize pre ++ (cur.1, l) :: (sep, r) :: post = K at hcore hsubcore hokK hlen ⊢
          have hperm : List.Perm (InsRes.ids (h + 1) (InsRes.split
              ({ t with kids := K.take (K.length / 2) } : ANode (Tree h)) (firstKey (K.drop (K.length / 2)))
              ({ id := next1, max_size := imax, kids := K.drop (K.length / 2) } : ANode (Tree h))))
              (next1 :: t.id :: kidsIds h K) := by
            simp only [InsRes.ids, Tree.ids_succ]
            rw [← kidsIds_take_drop h (K.length / 2) K]
            have := @List.perm_middle _ next1 (t.id :: kidsIds h (K.take (K.length / 2)))
              (kidsIds h (K.drop (K.length / 2)))
            simpa using this
          have hfresh : ∀ x ∈ t.id :: kidsIds h K, x < next1 := by
            intro x hx
            rcases hsubcore x hx with h1 | h1
            · have := (hb x h1).2
              linarith
            · exact h1.2
          refine ⟨fun x hx => ?_, ?_, ?_, ?_⟩
          · have hx1 := hperm.mem_iff.1 hx
            rcases List.mem_cons.1 hx1 with rfl | hx2
            · exact Or.inr ⟨hle, by show x < x + 1; linarith⟩
            · rcases hsubcore x hx2 with h1 | h1
              · exact Or.inl h1
              · exact Or.inr ⟨h1.1, by show x < next1 + 1; linarith [h1.2]⟩
          · refine hperm.symm.nodup_iff.1 (List.nodup_cons.2 ⟨fun hx => ?_, hcore⟩)
            exact absurd (hfresh _ hx) (lt_irrefl _)
          · refine ⟨?_, fun e he => hokK e (List.mem_of_mem_take he)⟩
            intro h0
            have := congrArg List.length h0
            simp only [List.length_take, List.length_nil] at this
            omega
          · refine ⟨?_, fun e he => hokK e (List.mem_of_mem_drop he)⟩
            intro h0
            have := congrArg List.length h0
            simp only [List.length_drop, List.length_nil] at this
            omega

end BPlusTree

namespace BPlusTree

/-! ## Writes to the page table -/

@[simp] theorem setPage_pages (s : State) (p : page_id_t) (n : BPlusTreePage) (x : page_id_t) :
    (s.setPage p n).pages x = if x = p then some n else s.pages x := rfl

@[simp] theorem setPage_next (s : State) (p : page_id_t) (n : BPlusTreePage) :
    (s.setPage p n).next_page_id = s.next_page_id := rfl

@[simp] theorem setPage_root (s : State) (p : page_id_t) (n : BPlusTreePage) :
    (s.setPage p n).root_page_id_ = s.root_page_id_ := rfl

@[simp] theorem setPage_header (s : State) (p : page_id_t) (n : BPlusTreePage) :
    (s.setPage p n).header_record = s.header_record := rfl

@[simp] theorem setPage_txn (s : State) (p : page_id_t) (n : BPlusTreePage) :
    (s.setPage p n).txn = s.txn := rfl

@[simp] theorem setPage_leaf_max (s : State) (p : page_id_t) (n : BPlusTreePage) :
    (s.setPage p n).leaf_max_size_ = s.leaf_max_size_ := rfl

@[simp] theorem setPage_internal_max (s : State) (p : page_id_t) (n : BPlusTreePage) :
    (s.setPage p n).internal_max_size_ = s.internal_max_size_ := rfl

theorem Dom.setPage_dom {s : State} (hd : Dom s) {p : page_id_t} (n : BPlusTreePage)
    (hp : 0 ≤ p ∧ p < s.next_page_id) : Dom (s.setPage p n) := by
  intro x hx
  simp only [setPage_pages] at hx
  by_cases hxp : x = p
  · subst hxp; exact hp
  · rw [if_neg hxp] at hx
    exact hd x hx

theorem SetParent_ok {s : State} {c : page_id_t} {n : BPlusTreePage} (hn : s.pages c = some n)
    (parent : page_id_t) :
    SetParent s c parent = .ok (s.setPage c (n.SetParentPageId parent)) := by
  simp [SetParent, hn]

/-- Re-pointing the root of a subtree to another parent. -/
theorem Rep.reparent {pages : page_id_t → Option BPlusTreePage} :
    ∀ (h : Nat) (t : Tree h) (parent parent1 : page_id_t), Rep pages h t parent →
      (Tree.ids h t).Nodup →
      Rep (fun x => if x = Tree.pid h t then some (Tree.page h t parent1) else pages x) h t parent1
  | 0, t, parent, parent1, hr, _ => by
    simp [Rep, Tree.page]
  | h + 1, t, parent, parent1, hr, hnd => by
    simp only [Rep] at hr ⊢
    refine ⟨by simp [Tree.page], fun e he => ?_⟩
    refine Rep.frame h e.2 _ (hr.2 e he) fun x hx => ?_
    have : x ≠ ANode.id t := by
      rintro rfl
      rw [Tree.ids_succ, List.nodup_cons] at hnd
      exact hnd.1 (mem_kidsIds.2 ⟨e, he, hx⟩)
    simp [this]

theorem SetParentPageId_page :
    ∀ (h : Nat) (t : Tree h) (parent parent1 : page_id_t),
      (Tree.page h t parent).SetParentPageId parent1 = Tree.page h t parent1
  | 0, _, _, _ => rfl
  | _ + 1, _, _, _ => rfl

theorem Same.refl (s : State) : Same s s := ⟨rfl, rfl, rfl, rfl, rfl⟩

theorem Same.trans_same {a b c : State} (h1 : Same a b) (h2 : Same b c) : Same a c :=
  ⟨h2.root.trans h1.root, h2.header.trans h1.header, h2.txn.trans h1.txn,
    h2.lmax.trans h1.lmax, h2.imax.trans h1.imax⟩

theorem Same.setPage_same (s : State) (p : page_id_t) (n : BPlusTreePage) : Same s (s.setPage p n) :=
  ⟨rfl, rfl, rfl, rfl, rfl⟩

theorem firstKey_eq_get {α : Type} {l : List (KeyType × α)} (hl : l ≠ []) :
    ∃ e, l.get? 0 = some e ∧ e.1 = firstKey l := by
  cases l with
  | nil => exact absurd rfl hl
  | cons e es => exact ⟨e, rfl, rfl⟩

theorem InsertIn_length (key : KeyType) (value : ValueType) :
    ∀ arr : List MappingType, (LeafPage.InsertIn key value arr).length = arr.length + 1
  | [] => rfl
  | e :: es => by
    simp only [LeafPage.InsertIn]
    split
    · rfl
    · simp [InsertIn_length key value es]

theorem FetchLeaf_ok {s : State} {x : page_id_t} {p : LeafPage}
    (h : s.pages x = some (.leaf p)) : FetchLeaf s x = .ok p := by
  simp [FetchLeaf, h]

theorem FetchInternal_ok {s : State} {x : page_id_t} {p : InternalPage}
    (h : s.pages x = some (.internal p)) : FetchInternal s x = .ok p := by
  simp [FetchInternal, h]

theorem FetchPage_ok {s : State} {x : page_id_t} {n : BPlusTreePage}
    (h : s.pages x = some n) : FetchPage s x = .ok n := by
  simp [FetchPage, h]

/-- `Split` of a leaf. -/
theorem Split_leaf {s : State} {node : page_id_t} {p : LeafPage}
    (hp : s.pages node = some (.leaf p)) (hne : node ≠ s.next_page_id) :
    ∃ s1, Split s node = .ok (s.next_page_id, s1) ∧ Same s s1 ∧
      s1.next_page_id = s.next_page_id + 1 ∧
      s1.pages s.next_page_id = some (.leaf
        { parent_page_id := p.parent_page_id, max_size := s.leaf_max_size_,
          next_page_id := INVALID_PAGE_ID, array := p.array.drop (p.array.length / 2) }) ∧
      s1.pages node = some (.leaf { p with array := p.array.take (p.array.length / 2) }) ∧
      ∀ x, x ≠ node → x ≠ s.next_page_id → s1.pages x = s.pages x := by
  have hne' : s.next_page_id ≠ node := Ne.symm hne
  have h1 : FetchPage { s with next_page_id := s.next_page_id + 1 } node = .ok (.leaf p) :=
    FetchPage_ok hp
  simp only [Split, NewPage, h1, ok_bind, LeafMoveHalfTo, WriteLeaf, FetchLeaf, setPage_pages,
    if_neg hne, hp, if_true, LeafPage.Init, List.nil_append, pure_eq_ok]
  refine ⟨_, rfl, ⟨rfl, rfl, rfl, rfl, rfl⟩, rfl, ?_, ?_, fun x h1 h2 => ?_⟩
  · simp [hne']
  · simp
  · simp [h1, h2]

theorem place_leaf (key : KeyType) (value : ValueType) (s : State) (L : ALeaf)
    (parent : page_id_t) (fuel : Nat)
    (hb : 0 ≤ L.id ∧ L.id < s.next_page_id) (hd : Dom s) :
    ∃ s1, InsertIntoLeaf.place fuel key value true s L.id
          { parent_page_id := parent, max_size := L.max_size, next_page_id := L.next,
            array := L.arr } =
        insCont fuel 0 (ALeaf.ins s.leaf_max_size_ key value L s.next_page_id).1 s1 ∧
      s1.next_page_id = (ALeaf.ins s.leaf_max_size_ key value L s.next_page_id).2 ∧
      InsPost s s1 [L.id] ∧
      RepRes s1.pages 0 (ALeaf.ins s.leaf_max_size_ key value L s.next_page_id).1 parent := by
  have hne : L.id ≠ s.next_page_id := ne_of_lt hb.2
  by_cases hsz : L.arr.length < L.max_size - 1
  · refine ⟨WriteLeaf s L.id (LeafPage.Insert
      { parent_page_id := parent, max_size := L.max_size, next_page_id := L.next,
        array := L.arr } key value), ?_, ?_, ?_, ?_⟩
    · simp [InsertIntoLeaf.place, LeafPage.GetSize, hsz, ALeaf.ins, insCont]
    · simp [ALeaf.ins, hsz, WriteLeaf]
    · refine ⟨Same.setPage_same _ _ _, fun x hx _ => ?_, Dom.setPage_dom hd _ hb⟩
      simp only [List.mem_singleton] at hx
      simp [WriteLeaf, hx]
    · simp [ALeaf.ins, hsz, RepRes, Rep, WriteLeaf, LeafPage.Insert]
  · have hdrop : (LeafPage.InsertIn key value L.arr).drop
        ((LeafPage.InsertIn key value L.arr).length / 2) ≠ [] := by
      intro h0
      have := congrArg List.length h0
      simp only [List.length_drop, List.length_nil, InsertIn_length] at this
      omega
    obtain ⟨e, he, hek⟩ := firstKey_eq_get hdrop
    obtain ⟨s3, hsplit, hsame, hnext, hnew, hold, hframe⟩ :=
      @Split_leaf (WriteLeaf s L.id (LeafPage.Insert
        { parent_page_id := parent, max_size := L.max_size, next_page_id := L.next,
          array := L.arr } key value)) L.id
        (LeafPage.Insert
          { parent_page_id := parent, max_size := L.max_size, next_page_id := L.next,
            array := L.arr } key value)
        (by simp [WriteLeaf]) (by simpa [WriteLeaf] using hne)
    simp only [WriteLeaf, setPage_next, setPage_leaf_max, LeafPage.Insert] at hsplit hnext hnew hold hframe
    refine ⟨(s3.setPage s.next_page_id (.leaf
        { parent_page_id := parent, max_size := s.leaf_max_size_, next_page_id := L.next,
          array := (LeafPage.InsertIn key value L.arr).drop
            ((LeafPage.InsertIn key value L.arr).length / 2) })).setPage L.id (.leaf
        { parent_page_id := parent, max_size := L.max_size, next_page_id := s.next_page_id,
          array := (LeafPage.InsertIn key value L.arr).take
            ((LeafPage.InsertIn key value L.arr).length / 2) }), ?_, ?_, ?_, ?_⟩
    · have h5 : ((s3.setPage s.next_page_id (.leaf
          { parent_page_id := parent, max_size := s.leaf_max_size_, next_page_id := L.next,
            array := (LeafPage.InsertIn key value L.arr).drop
              ((LeafPage.InsertIn key value L.arr).length / 2) })).setPage L.id (.leaf
          { parent_page_id := parent, max_size := L.max_size, next_page_id := s.next_page_id,
            array := (LeafPage.InsertIn key value L.arr).take
              ((LeafPage.InsertIn key value L.arr).length / 2) })).pages s.next_page_id =
          some (.leaf
            { parent_page_id := parent, max_size := s.leaf_max_size_, next_page_id := L.next,
              array := (LeafPage.InsertIn key value L.arr).drop
                ((LeafPage.InsertIn key value L.arr).length / 2) }) := by
        simp [hne.symm]
      simp only [InsertIntoLeaf.place, LeafPage.GetSize, hsz, if_false, WriteLeaf, LeafPage.Insert,
        hsplit, ok_bind, FetchLeaf_ok hold, FetchLeaf_ok hnew, FetchLeaf_ok h5,
        LeafPage.KeyAt, he, hek, ALeaf.ins, insCont, Tree.pid_zero]
    · simp [ALeaf.ins, hsz, hnext]
    · refine ⟨?_, fun x hx hlt => ?_, ?_⟩
      · exact Same.trans_same (Same.trans_same (Same.setPage_same _ _ _) hsame)
          (Same.trans_same (Same.setPage_same _ _ _) (Same.setPage_same _ _ _))
      · simp only [List.mem_singleton] at hx
        have hx2 : x ≠ s.next_page_id := ne_of_lt hlt
        simp [hx, hx2, hframe x hx hx2]
      · intro x hx
        simp only [setPage_pages, setPage_next, hnext] at hx ⊢
        by_cases h1 : x = L.id
        · subst h1; exact ⟨hb.1, by linarith [hb.2]⟩
        · by_cases h2 : x = s.next_page_id
          · subst h2; exact ⟨by linarith [hb.1, hb.2], by linarith⟩
          · rw [if_neg h1, if_neg h2, hframe x h1 h2] at hx
            simp only [setPage_pages, if_neg h1] at hx
            have := hd x hx
            exact ⟨this.1, by linarith [this.2]⟩
    · simp [ALeaf.ins, hsz, RepRes, Rep, hne, hne.symm]

theorem SetParentPageId_idem (parent : page_id_t) (n : BPlusTreePage) :
    (n.SetParentPageId parent).SetParentPageId parent = n.SetParentPageId parent := by
  cases n <;> rfl

theorem SetParents_ok (parent : page_id_t) :
    ∀ (cs : List page_id_t) (s : State), (∀ c ∈ cs, s.pages c ≠ none) →
      ∃ s1, SetParents parent cs s = .ok s1 ∧ Same s s1 ∧ s1.next_page_id = s.next_page_id ∧
        ∀ x, s1.pages x =
          if x ∈ cs then (s.pages x).map (BPlusTreePage.SetParentPageId parent) else s.pages x
  | [], s, _ => ⟨s, rfl, Same.refl s, rfl, fun x => by simp⟩
  | c :: cs, s, hcs => by
    obtain ⟨n, hn⟩ : ∃ n, s.pages c = some n :=
      Option.ne_none_iff_exists'.1 (hcs c (List.mem_cons_self _ _))
    have hcs' : ∀ c' ∈ cs, (s.setPage c (n.SetParentPageId parent)).pages c' ≠ none := by
      intro c' hc'
      simp only [setPage_pages]
      split
      · simp
      · exact hcs c' (List.mem_cons_of_mem _ hc')
    obtain ⟨s1, h1, h2, h3, h4⟩ := SetParents_ok parent cs _ hcs'
    refine ⟨s1, ?_, Same.trans_same (Same.setPage_same _ _ _) h2, h3, fun x => ?_⟩
    · simp only [SetParents, SetParent_ok hn, h1]
    · rw [h4 x]
      simp only [setPage_pages, List.mem_cons]
      by_cases hxc : x = c
      · subst hxc
        simp [hn, SetParentPageId_idem]
      · simp [hxc]

/-- `Split` of an internal node: the upper half of the slots moves to the new page, and the
children below them are re-pointed to it. -/
theorem Split_internal {s : State} {node : page_id_t} {p : InternalPage}
    (hp : s.pages node = some (.internal p)) (hne : node ≠ s.next_page_id)
    (hkids : ∀ c ∈ (p.array.drop (p.array.length / 2)).map (·.2),
      s.pages c ≠ none ∧ c ≠ node ∧ c ≠ s.next_page_id) :
    ∃ s1, Split s node = .ok (s.next_page_id, s1) ∧ Same s s1 ∧
      s1.next_page_id = s.next_page_id + 1 ∧
      s1.pages s.next_page_id = some (.internal
        { parent_page_id := p.parent_page_id, max_size := s.internal_max_size_,
          array := p.array.drop (p.array.length / 2) }) ∧
      s1.pages node = some (.internal { p with array := p.array.take (p.array.length / 2) }) ∧
      ∀ x, x ≠ node → x ≠ s.next_page_id → s1.pages x =
        if x ∈ (p.array.drop (p.array.length / 2)).map (·.2) then
          (s.pages x).map (BPlusTreePage.SetParentPageId s.next_page_id)
        else s.pages x := by
  have hne' : s.next_page_id ≠ node := Ne.symm hne
  have h1 : FetchPage { s with next_page_id := s.next_page_id + 1 } node = .ok (.internal p) :=
    FetchPage_ok hp
  obtain ⟨s1, hs1, hsame, hnext, hpages⟩ := SetParents_ok s.next_page_id
    ((p.array.drop (p.array.length / 2)).map (·.2))
    (((({ s with next_page_id := s.next_page_id + 1 } : State).setPage s.next_page_id
      (.internal
        { parent_page_id := p.parent_page_id, max_size := s.internal_max_size_,
          array := [] })).setPage s.next_page_id
      (.internal
        { parent_page_id := p.parent_page_id, max_size := s.internal_max_size_,
          array := p.array.drop (p.array.length / 2) })).setPage node
      (.internal { p with array := p.array.take (p.array.length / 2) }))
    (by
      intro c hc
      obtain ⟨hc1, hc2, hc3⟩ := hkids c hc
      simpa [hc2, hc3] using hc1)
  refine ⟨s1, ?_, ?_, ?_, ?_, ?_, ?_⟩
  · simp only [Split, NewPage, h1, ok_bind, InternalMoveHalfTo, WriteInternal, FetchInternal,
      setPage_pages, if_neg hne, hp, if_true, InternalPage.Init, List.nil_append, pure_eq_ok, hs1]
  · exact ⟨hsame.root, hsame.header, hsame.txn, hsame.lmax, hsame.imax⟩
  · rw [hnext]; rfl
  · have : s.next_page_id ∉ (p.array.drop (p.array.length / 2)).map (·.2) :=
      fun hc => (hkids _ hc).2.2 rfl
    rw [hpages, if_neg this]
    simp [hne']
  · have : node ∉ (p.array.drop (p.array.length / 2)).map (·.2) :=
      fun hc => (hkids _ hc).2.1 rfl
    rw [hpages, if_neg this]
    simp
  · intro x hx1 hx2
    rw [hpages]
    simp only [setPage_pages, if_neg hx1, if_neg hx2]

@[simp] theorem slotsOf_nil (h : Nat) : slotsOf h [] = [] := rfl

@[simp] theorem slotsOf_cons (h : Nat) (e : KeyType × Tree h) (es : List (KeyType × Tree h)) :
    slotsOf h (e :: es) = (e.1, Tree.pid h e.2) :: slotsOf h es := rfl

@[simp] theorem slotsOf_append (h : Nat) (a b : List (KeyType × Tree h)) :
    slotsOf h (a ++ b) = slotsOf h a ++ slotsOf h b := by
  simp [slotsOf]

@[simp] theorem slotsOf_length (h : Nat) (a : List (KeyType × Tree h)) :
    (slotsOf h a).length = a.length := by
  simp [slotsOf]

theorem slotsOf_take (h : Nat) (n : Nat) (a : List (KeyType × Tree h)) :
    slotsOf h (a.take n) = (slotsOf h a).take n := by
  simp [slotsOf, List.map_take]

theorem slotsOf_drop (h : Nat) (n : Nat) (a : List (KeyType × Tree h)) :
    slotsOf h (a.drop n) = (slotsOf h a).drop n := by
  simp [slotsOf, List.map_drop]

theorem firstKey_slotsOf (h : Nat) (a : List (KeyType × Tree h)) :
    firstKey (slotsOf h a) = firstKey a := by
  cases a <;> rfl

theorem mem_slotsOf_snd {h : Nat} {a : List (KeyType × Tree h)} {c : page_id_t} :
    c ∈ (slotsOf h a).map (·.2) ↔ ∃ e ∈ a, Tree.pid h e.2 = c := by
  simp [slotsOf]

theorem InsertAfterIn_slots (h : Nat) (sep : KeyType) (new_value : page_id_t)
    (cur : KeyType × Tree h) (post : List (KeyType × Tree h)) :
    ∀ pre : List (KeyType × Tree h), (∀ e ∈ pre, Tree.pid h e.2 ≠ Tree.pid h cur.2) →
      InternalPage.InsertAfterIn (Tree.pid h cur.2) sep new_value (slotsOf h (pre ++ cur :: post)) =
        some (slotsOf h pre ++ (cur.1, Tree.pid h cur.2) :: (sep, new_value) :: slotsOf h post)
  | [], _ => by
    rw [List.nil_append, slotsOf_cons]
    simp only [InternalPage.InsertAfterIn, if_true, slotsOf_nil, List.nil_append]
  | e :: pre, hpre => by
    have h1 : Tree.pid h e.2 ≠ Tree.pid h cur.2 := hpre e (List.mem_cons_self _ _)
    have ih := InsertAfterIn_slots h sep new_value cur post pre
      fun e' he' => hpre e' (List.mem_cons_of_mem _ he')
    rw [List.cons_append, slotsOf_cons]
    simp only [InternalPage.InsertAfterIn, if_neg h1, ih, Option.map_some', slotsOf_cons,
      List.cons_append]

theorem GetParentPageId_page :
    ∀ (h : Nat) (t : Tree h) (parent : page_id_t),
      (Tree.page h t parent).GetParentPageId = parent
  | 0, _, _ => rfl
  | _ + 1, _, _ => rfl

/-- The representation of a subtree whose root page has been re-pointed. -/
theorem Rep.repoint {pages pages1 : page_id_t → Option BPlusTreePage} :
    ∀ (h : Nat) (t : Tree h) (parent parent1 : page_id_t), Rep pages h t parent →
      (Tree.ids h t).Nodup → pages1 (Tree.pid h t) = some (Tree.page h t parent1) →
      (∀ x ∈ Tree.ids h t, x ≠ Tree.pid h t → pages1 x = pages x) → Rep pages1 h t parent1
  | 0, t, parent, parent1, _, _, h1, _ => h1
  | h + 1, t, parent, parent1, hr, hnd, h1, h2 => by
    simp only [Rep] at hr ⊢
    refine ⟨h1, fun e he => ?_⟩
    refine Rep.frame h e.2 _ (hr.2 e he) fun x hx => ?_
    refine h2 x (Tree.ids_kid_subset t he hx) ?_
    rintro rfl
    rw [Tree.ids_succ, List.nodup_cons] at hnd
    exact hnd.1 (mem_kidsIds.2 ⟨e, he, hx⟩)

/-- One call of `InsertIntoParent` on a node that has a parent. -/
theorem InsertIntoParent_step {s : State} {fuel : Nat} {old_node new_node : page_id_t}
    {key : KeyType} {n : BPlusTreePage} {p : InternalPage}
    (hold : s.pages old_node = some n) (hpid : n.GetParentPageId ≠ INVALID_PAGE_ID)
    (hp : s.pages n.GetParentPageId = some (.internal p))
    {arr : List (KeyType × page_id_t)}
    (hins : InternalPage.InsertAfterIn old_node key new_node p.array = some arr) :
    InsertIntoParent true (fuel + 1) s old_node key new_node =
      if p.array.length < p.max_size - 1 then
        Unlock .INSERT true (WriteInternal s n.GetParentPageId { p with array := arr })
      else
        (Split (WriteInternal s n.GetParentPageId { p with array := arr }) n.GetParentPageId >>=
          fun r => FetchInternal r.2 r.1 >>= fun new_internal =>
            new_internal.KeyAt 0 >>= fun temp_key =>
              InsertIntoParent true fuel r.2 n.GetParentPageId temp_key r.1) := by
  simp only [InsertIntoParent, FetchPage_ok hold, ok_bind, if_neg hpid, FetchInternal_ok hp,
    InternalPage.GetSize, InternalPage.InsertNodeAfter, hins, if_true]

theorem SetParentPageId_ne_none (parent : page_id_t) (o : Option BPlusTreePage) :
    o.map (BPlusTreePage.SetParentPageId parent) ≠ none ↔ o ≠ none := by
  cases o <;> simp

theorem kidsIds_unique {h : Nat} : ∀ {K : List (KeyType × Tree h)}, (kidsIds h K).Nodup →
    ∀ {e e1 : KeyType × Tree h}, e ∈ K → e1 ∈ K → ∀ {x : page_id_t}, x ∈ Tree.ids h e.2 →
      x ∈ Tree.ids h e1.2 → e = e1
  | [], _, _, _, he, _, _, _, _ => absurd he (List.not_mem_nil _)
  | k :: K, hnd, e, e1, he, he1, x, hx, hx1 => by
    rw [kidsIds_cons, List.nodup_append, List.disjoint_left] at hnd
    rcases List.mem_cons.1 he with rfl | he'
    · rcases List.mem_cons.1 he1 with rfl | he1'
      · rfl
      · exact absurd (mem_kidsIds.2 ⟨e1, he1', hx1⟩) (hnd.2.2 hx)
    · rcases List.mem_cons.1 he1 with rfl | he1'
      · exact absurd (mem_kidsIds.2 ⟨e, he', hx⟩) (hnd.2.2 hx1)
      · exact kidsIds_unique hnd.2.1 he' he1' hx hx1

theorem kidsIds_nodup_kid {h : Nat} : ∀ {K : List (KeyType × Tree h)}, (kidsIds h K).Nodup →
    ∀ {e : KeyType × Tree h}, e ∈ K → (Tree.ids h e.2).Nodup
  | [], _, _, he => absurd he (List.not_mem_nil _)
  | k :: K, hnd, e, he => by
    rw [kidsIds_cons, List.nodup_append] at hnd
    rcases List.mem_cons.1 he with rfl | he'
    · exact hnd.1
    · exact kidsIds_nodup_kid hnd.2.1 he'

/-- `Split` of an internal node whose children are represented: both halves are
represented afterwards, the upper one under the new page. -/
theorem Split_node {s : State} {h : Nat} (t : ANode (Tree h)) (parent : page_id_t)
    (hp : s.pages t.id = some (.internal
      { parent_page_id := parent, max_size := t.max_size, array := slotsOf h t.kids }))
    (hkids : ∀ e ∈ t.kids, Rep s.pages h e.2 t.id)
    (hnd : ((t.id :: kidsIds h (t.kids.take (t.kids.length / 2))) ++
      (s.next_page_id :: kidsIds h (t.kids.drop (t.kids.length / 2)))).Nodup)
    (hd : Dom s) (hlen : 2 ≤ t.kids.length) :
    ∃ s1, Split s t.id = .ok (s.next_page_id, s1) ∧ Same s s1 ∧
      s1.next_page_id = s.next_page_id + 1 ∧
      Rep s1.pages (h + 1)
        ({ t with kids := t.kids.take (t.kids.length / 2) } : ANode (Tree h)) parent ∧
      Rep s1.pages (h + 1)
        ({ id := s.next_page_id, max_size := s.internal_max_size_,
           kids := t.kids.drop (t.kids.length / 2) } : ANode (Tree h)) parent ∧
      (∀ x, x ≠ t.id → x ≠ s.next_page_id → x ∉ kidsIds h t.kids → s1.pages x = s.pages x) ∧
      Dom s1 ∧
      (FetchInternal s1 s.next_page_id >>= fun p => p.KeyAt 0) =
        .ok (firstKey (t.kids.drop (t.kids.length / 2))) := by
  -- what the absence of duplicates says
  have hnd' := hnd
  rw [List.nodup_append] at hnd'
  obtain ⟨hndl, hndr, hdisj⟩ := hnd'
  rw [List.nodup_cons] at hndl hndr
  rw [List.disjoint_left] at hdisj
  have hinK : ∀ x, x ∈ kidsIds h t.kids ↔
      x ∈ kidsIds h (t.kids.take (t.kids.length / 2)) ∨
        x ∈ kidsIds h (t.kids.drop (t.kids.length / 2)) := by
    intro x
    rw [← kidsIds_take_drop h (t.kids.length / 2) t.kids, List.mem_append]
  have htK : t.id ∉ kidsIds h t.kids := by
    intro hx
    rcases (hinK _).1 hx with hx | hx
    · exact hndl.1 hx
    · exact hdisj (List.mem_cons_self _ _) (List.mem_cons_of_mem _ hx)
  have hnK : s.next_page_id ∉ kidsIds h t.kids := by
    intro hx
    rcases (hinK _).1 hx with hx | hx
    · exact hdisj (List.mem_cons_of_mem _ hx) (List.mem_cons_self _ _)
    · exact hndr.1 hx
  have htn : t.id ≠ s.next_page_id := fun he =>
    hdisj (List.mem_cons_self _ _) (by rw [he]; exact List.mem_cons_self _ _)
  have hmoved : ∀ c ∈ ((slotsOf h t.kids).drop ((slotsOf h t.kids).length / 2)).map (·.2),
      ∃ e ∈ t.kids.drop (t.kids.length / 2), Tree.pid h e.2 = c := by
    intro c hc
    rw [slotsOf_length, ← slotsOf_drop] at hc
    exact mem_slotsOf_snd.1 hc
  obtain ⟨s1, hsplit, hsame, hnext, hnew, hold, hframe⟩ := Split_internal hp htn (by
    intro c hc
    obtain ⟨e, he, rfl⟩ := hmoved c hc
    have heK : e ∈ t.kids := List.mem_of_mem_drop he
    have hin : Tree.pid h e.2 ∈ kidsIds h t.kids :=
      mem_kidsIds.2 ⟨e, heK, Tree.pid_mem_ids h e.2⟩
    refine ⟨Rep.page_some h e.2 _ (hkids e heK) _ (Tree.pid_mem_ids h e.2), ?_, ?_⟩
    · rintro heq; exact htK (heq ▸ hin)
    · rintro heq; exact hnK (heq ▸ hin))
  simp only at hnew hold
  rw [slotsOf_length] at hnew hold hframe
  rw [← slotsOf_drop] at hnew hframe
  rw [← slotsOf_take] at hold
  have hmovedK : ∀ x, x ∈ (slotsOf h (t.kids.drop (t.kids.length / 2))).map (·.2) →
      x ∈ kidsIds h (t.kids.drop (t.kids.length / 2)) := by
    intro x hx
    obtain ⟨e, he, rfl⟩ := mem_slotsOf_snd.1 hx
    exact mem_kidsIds.2 ⟨e, he, Tree.pid_mem_ids h e.2⟩
  refine ⟨s1, hsplit, hsame, hnext, ?_, ?_, ?_, ?_, ?_⟩
  · simp only [Rep]
    refine ⟨hold, fun e he => ?_⟩
    have heK : e ∈ t.kids := List.mem_of_mem_take he
    refine Rep.frame h e.2 _ (hkids e heK) fun x hx => ?_
    have hxK : x ∈ kidsIds h t.kids := mem_kidsIds.2 ⟨e, heK, hx⟩
    have hxT : x ∈ kidsIds h (t.kids.take (t.kids.length / 2)) := mem_kidsIds.2 ⟨e, he, hx⟩
    rw [hframe x (fun hx1 => htK (hx1 ▸ hxK)) (fun hx1 => hnK (hx1 ▸ hxK)), if_neg]
    intro hm
    exact hdisj (List.mem_cons_of_mem _ hxT) (List.mem_cons_of_mem _ (hmovedK x hm))
  · simp only [Rep]
    refine ⟨hnew, fun e he => ?_⟩
    have heK : e ∈ t.kids := List.mem_of_mem_drop he
    have hpin : Tree.pid h e.2 ∈ kidsIds h t.kids :=
      mem_kidsIds.2 ⟨e, heK, Tree.pid_mem_ids h e.2⟩
    refine Rep.repoint h e.2 t.id _ (hkids e heK) (kidsIds_nodup_kid hndr.2 he) ?_ fun x hx hne => ?_
    · rw [hframe _ (fun hx1 => htK (hx1 ▸ hpin)) (fun hx1 => hnK (hx1 ▸ hpin)),
        if_pos (mem_slotsOf_snd.2 ⟨e, he, rfl⟩), Rep.page_eq h e.2 _ (hkids e heK)]
      simp [SetParentPageId_page]
    · have hxK : x ∈ kidsIds h t.kids := mem_kidsIds.2 ⟨e, heK, hx⟩
      rw [hframe x (fun hx1 => htK (hx1 ▸ hxK)) (fun hx1 => hnK (hx1 ▸ hxK)), if_neg]
      intro hm
      obtain ⟨e1, he1, rfl⟩ := mem_slotsOf_snd.1 hm
      have := kidsIds_unique hndr.2 he he1 hx (Tree.pid_mem_ids h e1.2)
      exact hne (by rw [this])
  · intro x h1 h2 h3
    rw [hframe x h1 h2, if_neg]
    exact fun hm => h3 ((hinK x).2 (Or.inr (hmovedK x hm)))
  · have htd := hd t.id (by rw [hp]; simp)
    intro x hx
    rw [hnext]
    by_cases h1 : x = t.id
    · subst h1; exact ⟨htd.1, by linarith [htd.2]⟩
    · by_cases h2 : x = s.next_page_id
      · subst h2; exact ⟨by linarith [htd.1, htd.2], by linarith⟩
      · rw [hframe x h1 h2] at hx
        have hx' : s.pages x ≠ none := by
          split at hx
          · exact (SetParentPageId_ne_none _ _).1 hx
          · exact hx
        have := hd x hx'
        exact ⟨this.1, by linarith [this.2]⟩
  · have hdrop : t.kids.drop (t.kids.length / 2) ≠ [] := by
      intro h0
      have := congrArg List.length h0
      simp only [List.length_drop, List.length_nil] at this
      omega
    have hdrop' : slotsOf h (t.kids.drop (t.kids.length / 2)) ≠ [] := by
      intro h0
      have := congrArg List.length h0
      simp only [slotsOf_length, List.length_nil] at this
      exact hdrop (List.length_eq_zero.1 this)
    obtain ⟨e, he, hek⟩ := firstKey_eq_get hdrop'
    rw [FetchInternal_ok hnew]
    simp only [ok_bind, InternalPage.KeyAt, he, hek, firstKey_slotsOf]

end BPlusTree

namespace BPlusTree

/-! ## `InsertIntoLeaf` and `InsertIntoParent` on a represented tree -/

theorem ins_refines (key : KeyType) (value : ValueType) :
    ∀ (h : Nat) (t : Tree h) (parent : page_id_t) (s : State) (fuel : Nat),
      Rep s.pages h t parent → (Tree.ids h t).Nodup → Tree.Below h t s.next_page_id →
      Tree.Ok h t → Dom s → h ≤ fuel →
      ∀ L, Tree.findLeaf key false h t = some L → ∀ lp, s.pages L.id = some (.leaf lp) →
      ∃ s1, InsertIntoLeaf.place fuel key value true s L.id lp =
          insCont (fuel - h) h (Tree.ins s.leaf_max_size_ s.internal_max_size_ key value h t
            s.next_page_id).1 s1 ∧
        s1.next_page_id = (Tree.ins s.leaf_max_size_ s.internal_max_size_ key value h t
            s.next_page_id).2 ∧
        InsPost s s1 (Tree.ids h t) ∧
        RepRes s1.pages h (Tree.ins s.leaf_max_size_ s.internal_max_size_ key value h t
            s.next_page_id).1 parent
  | 0, t, parent, s, fuel, hr, _, hb, _, hd, _, L, hL, lp, hlp => by
    simp only [Tree.findLeaf, Option.some.injEq] at hL
    subst hL
    simp only [Rep] at hr
    rw [hr] at hlp
    simp only [Option.some.injEq, BPlusTreePage.leaf.injEq] at hlp
    subst hlp
    exact place_leaf key value s t parent fuel (hb _ (by simp [Tree.ids])) hd
  | h + 1, t, parent, s, fuel, hr, hnd, hb, hok, hd, hf, L, hL, lp, hlp => by
    obtain ⟨hne, hokk⟩ := Tree.ok_kids hok
    have hfacts := Tree.ins_facts s.leaf_max_size_ s.internal_max_size_ key value (h + 1) t
      s.next_page_id hnd hb hok
    simp only [Tree.findLeaf] at hL
    simp only [Rep] at hr
    cases hc : choose key false t.kids with
    | none => simp [hc] at hL
    | some r0 =>
      obtain ⟨pre, cur, post⟩ := r0
      simp only [hc] at hL
      have hk := choose_eq hc
      have hmem : cur ∈ t.kids := by rw [hk]; simp
      have hids : Tree.ids (h + 1) t =
          t.id :: (kidsIds h pre ++ Tree.ids h cur.2 ++ kidsIds h post) := by
        rw [Tree.ids_succ, hk]; simp
      have hndc : (Tree.ids h cur.2).Nodup := by
        rw [hids] at hnd
        have := (List.nodup_cons.1 hnd).2
        simp only [List.nodup_append] at this
        exact this.1.2.1
      have hbc : Tree.Below h cur.2 s.next_page_id :=
        fun x hx => hb x (Tree.ids_kid_subset t hmem hx)
      have hcfacts := Tree.ins_facts s.leaf_max_size_ s.internal_max_size_ key value h cur.2
        s.next_page_id hndc hbc (hokk cur hmem)
      have hcle := Tree.ins_next_le s.leaf_max_size_ s.internal_max_size_ key value h cur.2
        s.next_page_id
      have hcroot := Tree.ins_rootId s.leaf_max_size_ s.internal_max_size_ key value h cur.2
        s.next_page_id
      obtain ⟨s1, hplace, hnext1, hpost1, hrep1⟩ := ins_refines key value h cur.2 t.id s fuel
        (hr.2 cur hmem) hndc hbc (hokk cur hmem) hd (by omega) L hL lp hlp
      -- the pages outside the chosen subtree
      have hdisj : ∀ x, x = t.id ∨ x ∈ kidsIds h pre ∨ x ∈ kidsIds h post →
          x ∉ Tree.ids h cur.2 := by
        intro x hx hxc
        rw [hids, List.nodup_cons] at hnd
        obtain ⟨hn1, hn2⟩ := hnd
        simp only [List.nodup_append, List.disjoint_left, List.mem_append] at hn1 hn2
        rcases hx with rfl | hx | hx
        · exact hn1 (Or.inl (Or.inr hxc))
        · exact hn2.1.2.2 hx hxc
        · exact hn2.2.2 (Or.inr hxc) hx
      have hold : ∀ x, x = t.id ∨ x ∈ kidsIds h pre ∨ x ∈ kidsIds h post →
          s1.pages x = s.pages x := by
        intro x hx
        refine hpost1.frame x (hdisj x hx) (hb x ?_).2
        rw [hids]
        rcases hx with rfl | hx | hx
        · exact List.mem_cons_self _ _
        · exact List.mem_cons_of_mem _ (List.mem_append.2 (Or.inl (List.mem_append.2 (Or.inl hx))))
        · exact List.mem_cons_of_mem _ (List.mem_append.2 (Or.inr hx))
      have ht1 : s1.pages t.id = some (.internal
          { parent_page_id := parent, max_size := t.max_size, array := slotsOf h t.kids }) := by
        rw [hold _ (Or.inl rfl)]; exact hr.1
      have hrpre : ∀ e ∈ pre, Rep s1.pages h e.2 t.id := fun e he =>
        Rep.frame h e.2 _ (hr.2 e (by rw [hk]; simp [he])) fun x hx =>
          hold x (Or.inr (Or.inl (mem_kidsIds.2 ⟨e, he, hx⟩)))
      have hrpost : ∀ e ∈ post, Rep s1.pages h e.2 t.id := fun e he =>
        Rep.frame h e.2 _ (hr.2 e (by rw [hk]; simp [he])) fun x hx =>
          hold x (Or.inr (Or.inr (mem_kidsIds.2 ⟨e, he, hx⟩)))
      have hframe1 : ∀ x, x ∉ Tree.ids (h + 1) t → x < s.next_page_id →
          s1.pages x = s.pages x := fun x hx hlt =>
        hpost1.frame x (fun hxc => hx (Tree.ids_kid_subset t hmem hxc)) hlt
      have htid : (0 : page_id_t) ≤ t.id ∧ t.id < s.next_page_id :=
        hb _ (by rw [hids]; exact List.mem_cons_self _ _)
      simp only [Tree.ins, hc] at hfacts ⊢
      rw [hplace]
      cases hres : Tree.ins s.leaf_max_size_ s.internal_max_size_ key value h cur.2
          s.next_page_id with
      | mk resc nextc =>
        rw [hres] at hcfacts hcle hcroot hnext1 hrep1 hfacts
        simp only at hcle hnext1 hrep1 hfacts hcroot ⊢
        cases resc with
        | done c =>
          simp only [InsRes.rootId] at hcroot
          refine ⟨s1, rfl, hnext1, ⟨hpost1.same, hframe1, hpost1.dom⟩, ?_⟩
          simp only [RepRes, Rep] at hrep1 ⊢
          refine ⟨?_, fun e he => ?_⟩
          · rw [ht1, hk]
            simp [hcroot]
          · simp only [List.mem_append, List.mem_cons] at he
            rcases he with he | rfl | he
            · exact hrpre e he
            · exact hrep1
            · exact hrpost e he
        | split l sep r =>
          simp only [InsRes.rootId] at hcroot
          simp only [RepRes] at hrep1
          obtain ⟨hrl, hrr⟩ := hrep1
          have hpl := Rep.page_eq h l _ hrl
          have hfuel : fuel - h = (fuel - (h + 1)) + 1 := by omega
          have hpre_ne : ∀ e ∈ pre, Tree.pid h e.2 ≠ Tree.pid h cur.2 := by
            intro e he heq
            exact hdisj _ (Or.inr (Or.inl (mem_kidsIds.2 ⟨e, he, Tree.pid_mem_ids h e.2⟩)))
              (heq ▸ Tree.pid_mem_ids h cur.2)
          have hins := InsertAfterIn_slots h sep (Tree.pid h r) cur post pre hpre_ne
          rw [← hk, ← hcroot] at hins
          have hslots : slotsOf h pre ++ (cur.1, Tree.pid h l) :: (sep, Tree.pid h r) ::
              slotsOf h post = slotsOf h (pre ++ (cur.1, l) :: (sep, r) :: post) := by
            simp
          rw [hslots] at hins
          have hKrep : ∀ e ∈ pre ++ (cur.1, l) :: (sep, r) :: post, Rep s1.pages h e.2 t.id := by
            intro e he
            simp only [List.mem_append, List.mem_cons] at he
            rcases he with he | rfl | rfl | he
            · exact hrpre e he
            · exact hrl
            · exact hrr
            · exact hrpost e he
          have hstep := @InsertIntoParent_step s1 (fuel - (h + 1)) (Tree.pid h l) (Tree.pid h r)
            sep (Tree.page h l t.id) _ hpl
            (by rw [GetParentPageId_page]; intro h0; rw [h0] at htid; exact absurd htid.1 (by decide))
            (by rw [GetParentPageId_page]; exact ht1) _ hins
          rw [GetParentPageId_page] at hstep
          simp only [insCont, hfuel, hstep, slotsOf_length]
          by_cases hroom : t.kids.length < t.max_size - 1
          · simp only [hroom, if_true] at hfacts ⊢
            have hnd2 := hfacts.nodup
            simp only [InsRes.ids, Tree.ids_succ, List.nodup_cons] at hnd2
            refine ⟨_, rfl, hnext1, ⟨Same.trans_same hpost1.same (Same.setPage_same _ _ _), ?_, ?_⟩, ?_⟩
            · intro x hx hlt
              have hxt : x ≠ t.id := fun h0 => hx (by rw [h0, hids]; exact List.mem_cons_self _ _)
              simp only [WriteInternal, setPage_pages, if_neg hxt]
              exact hframe1 x hx hlt
            · exact Dom.setPage_dom hpost1.dom _ ⟨htid.1, by rw [hnext1]; linarith [htid.2]⟩
            · simp only [RepRes, Rep]
              refine ⟨by simp [WriteInternal], fun e he => ?_⟩
              refine Rep.frame h e.2 _ (hKrep e he) fun x hx => ?_
              have hxt : x ≠ t.id := fun h0 => hnd2.1 (h0 ▸ mem_kidsIds.2 ⟨e, he, hx⟩)
              simp [WriteInternal, hxt]
          · simp only [hroom, if_false] at hfacts ⊢
            have hnd2 := hfacts.nodup
            simp only [InsRes.ids, Tree.ids_succ] at hnd2
            have hnd3 := hnd2
            rw [List.nodup_append, List.nodup_cons, List.nodup_cons, List.disjoint_left] at hnd3
            obtain ⟨⟨htT, -⟩, -, hdj⟩ := hnd3
            have htK : ∀ e ∈ pre ++ (cur.1, l) :: (sep, r) :: post, t.id ∉ Tree.ids h e.2 := by
              intro e he hx
              have := mem_kidsIds.2 ⟨e, he, hx⟩
              rw [← kidsIds_take_drop h ((pre ++ (cur.1, l) :: (sep, r) :: post).length / 2),
                List.mem_append] at this
              rcases this with h1 | h1
              · exact htT h1
              · exact hdj (List.mem_cons_self _ _) (List.mem_cons_of_mem _ h1)
            have hlen : 2 ≤ (pre ++ (cur.1, l) :: (sep, r) :: post).length := by
              simp only [List.length_append, List.length_cons]; omega
            have hdom1 : Dom (WriteInternal s1 t.id
                { parent_page_id := parent, max_size := t.max_size,
                  array := slotsOf h (pre ++ (cur.1, l) :: (sep, r) :: post) }) :=
              Dom.setPage_dom hpost1.dom _ ⟨htid.1, by rw [hnext1]; linarith [htid.2]⟩
            obtain ⟨s2, hsplit, hsame2, hnext2, hrepl, hrepr, hframe2, hdom2, hkey⟩ :=
              @Split_node (WriteInternal s1 t.id
                { parent_page_id := parent, max_size := t.max_size,
                  array := slotsOf h (pre ++ (cur.1, l) :: (sep, r) :: post) }) h
                ({ id := t.id, max_size := t.max_size,
                   kids := pre ++ (cur.1, l) :: (sep, r) :: post } : ANode (Tree h)) parent
                (by simp [WriteInternal])
                (by
                  intro e he
                  refine Rep.frame h e.2 _ (hKrep e he) fun x hx => ?_
                  have hxt : x ≠ t.id := fun h0 => htK e he (h0 ▸ hx)
                  simp [WriteInternal, hxt])
                (by simpa [WriteInternal, hnext1] using hnd2)
                hdom1 hlen
            simp only [WriteInternal, setPage_next, hnext1, setPage_internal_max,
              hpost1.same.imax] at hsplit hnext2 hrepl hrepr hframe2 hkey
            obtain ⟨pnew, hfetch, hkeyat⟩ := bind_eq_ok.1 hkey
            refine ⟨s2, ?_, hnext2, ⟨?_, ?_, hdom2⟩, ⟨hrepl, hrepr⟩⟩
            · simp only [WriteInternal, hsplit, ok_bind, hfetch, hkeyat, Tree.pid_succ]
            · exact Same.trans_same hpost1.same (Same.trans_same (Same.setPage_same _ _ _) hsame2)
            · intro x hx hlt
              have hxt : x ≠ t.id := fun h0 => hx (by rw [h0, hids]; exact List.mem_cons_self _ _)
              have hxn : x ≠ nextc := ne_of_lt (lt_of_lt_of_le hlt hcle)
              rw [hframe2 x hxt hxn ?_]
              · simp only [setPage_pages, if_neg hxt]
                exact hframe1 x hx hlt
              · intro hxK
                simp only [kidsIds_append, kidsIds_cons, List.mem_append] at hxK
                have hsub := hcfacts.sub
                simp only [InsRes.ids, List.mem_append] at hsub
                have hin : ∀ y, y ∈ kidsIds h pre ∨ y ∈ Tree.ids h cur.2 ∨ y ∈ kidsIds h post →
                    y ∈ Tree.ids (h + 1) t := by
                  intro y hy
                  rw [hids]
                  refine List.mem_cons_of_mem _ ?_
                  simp only [List.mem_append]
                  tauto
                rcases hxK with h1 | h1 | h1 | h1
                · exact hx (hin x (Or.inl h1))
                · rcases hsub x (Or.inl h1) with h2 | h2
                  · exact hx (hin x (Or.inr (Or.inl h2)))
                  · exact absurd hlt (not_lt.2 h2.1)
                · rcases hsub x (Or.inr h1) with h2 | h2
                  · exact hx (hin x (Or.inr (Or.inl h2)))
                  · exact absurd hlt (not_lt.2 h2.1)
                · exact hx (hin x (Or.inr (Or.inr h1)))

@[simp] theorem UpdateRootPageId_pages (s : State) (b : Bool) :
    (UpdateRootPageId s b).pages = s.pages := by
  unfold UpdateRootPageId; split <;> split <;> rfl

@[simp] theorem UpdateRootPageId_next (s : State) (b : Bool) :
    (UpdateRootPageId s b).next_page_id = s.next_page_id := by
  unfold UpdateRootPageId; split <;> split <;> rfl

@[simp] theorem UpdateRootPageId_root (s : State) (b : Bool) :
    (UpdateRootPageId s b).root_page_id_ = s.root_page_id_ := by
  unfold UpdateRootPageId; split <;> split <;> rfl

@[simp] theorem UpdateRootPageId_txn (s : State) (b : Bool) :
    (UpdateRootPageId s b).txn = s.txn := by
  unfold UpdateRootPageId; split <;> split <;> rfl

@[simp] theorem UpdateRootPageId_leaf_max (s : State) (b : Bool) :
    (UpdateRootPageId s b).leaf_max_size_ = s.leaf_max_size_ := by
  unfold UpdateRootPageId; split <;> split <;> rfl

@[simp] theorem UpdateRootPageId_internal_max (s : State) (b : Bool) :
    (UpdateRootPageId s b).internal_max_size_ = s.internal_max_size_ := by
  unfold UpdateRootPageId; split <;> split <;> rfl

/-- `InsertIntoParent` on the root: a new root is made over the two halves. -/
theorem InsertIntoParent_root {s : State} {fuel : Nat} {old_node new_node : page_id_t}
    {key : KeyType} {n m : BPlusTreePage}
    (hold : s.pages old_node = some n) (hpar : n.GetParentPageId = INVALID_PAGE_ID)
    (hnew : s.pages new_node = some m) (hne : old_node ≠ new_node)
    (hon : old_node ≠ s.next_page_id) (hnn : new_node ≠ s.next_page_id) :
    ∃ s1, InsertIntoParent true (fuel + 1) s old_node key new_node = Unlock .INSERT true s1 ∧
      s1.root_page_id_ = s.next_page_id ∧ s1.next_page_id = s.next_page_id + 1 ∧
      s1.txn = s.txn ∧ s1.leaf_max_size_ = s.leaf_max_size_ ∧
      s1.internal_max_size_ = s.internal_max_size_ ∧
      s1.pages s.next_page_id = some (.internal
        { parent_page_id := INVALID_PAGE_ID, max_size := s.internal_max_size_,
          array := [(0, old_node), (key, new_node)] }) ∧
      s1.pages old_node = some (n.SetParentPageId s.next_page_id) ∧
      s1.pages new_node = some (m.SetParentPageId s.next_page_id) ∧
      ∀ x, x ≠ s.next_page_id → x ≠ old_node → x ≠ new_node → s1.pages x = s.pages x := by
  have h1 : (WriteInternal
      (UpdateRootPageId { (NewPage s).2 with root_page_id_ := (NewPage s).1 } false)
      (NewPage s).1
      ((InternalPage.Init INVALID_PAGE_ID
        (UpdateRootPageId { (NewPage s).2 with root_page_id_ := (NewPage s).1 }
          false).internal_max_size_).PopulateNewRoot old_node key new_node)).pages old_node =
      some n := by
    simp [WriteInternal, NewPage, hon, hold]
  have h2 := SetParent_ok h1 (NewPage s).1
  have h3 : ((WriteInternal
      (UpdateRootPageId { (NewPage s).2 with root_page_id_ := (NewPage s).1 } false)
      (NewPage s).1
      ((InternalPage.Init INVALID_PAGE_ID
        (UpdateRootPageId { (NewPage s).2 with root_page_id_ := (NewPage s).1 }
          false).internal_max_size_).PopulateNewRoot old_node key new_node)).setPage old_node
      (n.SetParentPageId (NewPage s).1)).pages new_node = some m := by
    simp [WriteInternal, NewPage, hnn, hne.symm, hnew]
  have h4 := SetParent_ok h3 (NewPage s).1
  refine ⟨((WriteInternal
      (UpdateRootPageId { (NewPage s).2 with root_page_id_ := (NewPage s).1 } false)
      (NewPage s).1
      ((InternalPage.Init INVALID_PAGE_ID
        (UpdateRootPageId { (NewPage s).2 with root_page_id_ := (NewPage s).1 }
          false).internal_max_size_).PopulateNewRoot old_node key new_node)).setPage old_node
      (n.SetParentPageId (NewPage s).1)).setPage new_node (m.SetParentPageId (NewPage s).1),
    ?_, ?_, ?_, ?_, ?_, ?_, ?_, ?_, ?_, ?_⟩
  · simp only [InsertIntoParent, FetchPage_ok hold, ok_bind, hpar, if_true, h2, h4]
  · simp [WriteInternal, NewPage]
  · simp [WriteInternal, NewPage]
  · simp [WriteInternal, NewPage]
  · simp [WriteInternal, NewPage]
  · simp [WriteInternal, NewPage]
  · simp [WriteInternal, NewPage, hnn.symm, hon.symm, InternalPage.Init,
      InternalPage.PopulateNewRoot]
  · simp [WriteInternal, NewPage, hne]
  · simp [WriteInternal, NewPage]
  · intro x hx1 hx2 hx3
    simp [WriteInternal, NewPage, hx1, hx2, hx3]

theorem InsertIntoLeaf_place {s s1 : State} {fuel : Nat} {key : KeyType} {value : ValueType}
    {transaction : Bool} {page_id : page_id_t} {lp : LeafPage}
    (hfind : FindLeafPage fuel key false transaction .INSERT s = .ok (some page_id, s1))
    (hlp : s1.pages page_id = some (.leaf lp)) (hv : lp.Lookup key = none) :
    InsertIntoLeaf fuel key value transaction s =
      InsertIntoLeaf.place fuel key value transaction s1 page_id lp := by
  simp only [InsertIntoLeaf, hfind, ok_bind, FetchLeaf_ok hlp, hv, InsertIntoLeaf.place]

/-- `Insert` of a key that is not in the tree: the state holds the tree with the key. -/
theorem Insert_new {s : State} {h : Nat} {t : Tree h} (hs : Holds s h t) (key : KeyType)
    (value : ValueType) {L : ALeaf} (hL : Tree.findLeaf key false h t = some L)
    (hv : LeafPage.LookupIn key L.arr = none) {fuel : Nat} (hf : h < fuel) :
    ∃ s1, Insert fuel key value true s = .ok (true, s1) ∧
      Holds s1 (Tree.insRoot s.leaf_max_size_ s.internal_max_size_ key value h t
          s.next_page_id).1.1
        (Tree.insRoot s.leaf_max_size_ s.internal_max_size_ key value h t s.next_page_id).1.2 ∧
      s1.next_page_id =
        (Tree.insRoot s.leaf_max_size_ s.internal_max_size_ key value h t s.next_page_id).2 ∧
      s1.leaf_max_size_ = s.leaf_max_size_ ∧ s1.internal_max_size_ = s.internal_max_size_ := by
  obtain ⟨⟨p, hLr⟩, hLin⟩ := Tree.findLeaf_rep key false h t _ hs.rep L hL
  simp only [Rep] at hLr
  have hb : Tree.Below h t s.next_page_id := fun x hx =>
    hs.dom x (Rep.page_some h t _ hs.rep x hx)
  have hfacts := Tree.ins_facts s.leaf_max_size_ s.internal_max_size_ key value h t
    s.next_page_id hs.nodup hb hs.ok
  have hroot := Tree.ins_rootId s.leaf_max_size_ s.internal_max_size_ key value h t
    s.next_page_id
  have hle := Tree.ins_next_le s.leaf_max_size_ s.internal_max_size_ key value h t
    s.next_page_id
  obtain ⟨s1, hplace, hnext1, hpost1, hrep1⟩ := ins_refines key value h t INVALID_PAGE_ID
    (s.withPageSet (Tree.heldRoot .INSERT key false h t)) fuel hs.rep hs.nodup hb hs.ok hs.dom
    (by omega) L hL _ hLr
  simp only [withPageSet_leaf_max, withPageSet_internal_max, withPageSet_next] at hplace hnext1 hrep1
  have hins : Insert fuel key value true s =
      insCont (fuel - h) h (Tree.ins s.leaf_max_size_ s.internal_max_size_ key value h t
        s.next_page_id).1 s1 := by
    simp only [Insert, IsEmpty, beq_iff_eq, hs.root_ne, if_false, Bool.false_eq_true]
    rw [InsertIntoLeaf_place (FindLeafPage_latched hs key false .INSERT hL hf) hLr hv, hplace]
  have htxn1 : s1.txn.page_set ≠ [] ∧ s1.txn.deleted_page_set = [] := by
    rw [hpost1.same.txn]
    exact ⟨Tree.heldRoot_ne_nil .INSERT key false h t, hs.deleted⟩
  rw [hins]
  simp only [Tree.insRoot]
  cases hres : Tree.ins s.leaf_max_size_ s.internal_max_size_ key value h t s.next_page_id with
  | mk res next1 =>
    rw [hres] at hfacts hroot hle hnext1 hrep1
    simp only at hnext1 hrep1 hroot hle
    cases res with
    | done t1 =>
      simp only [InsRes.rootId] at hroot
      simp only [RepRes] at hrep1
      refine ⟨s1.withPageSet [], ?_, ?_, hnext1, hpost1.same.lmax, hpost1.same.imax⟩
      · simp only [insCont, Unlock_ok .INSERT s1 htxn1.1 htxn1.2, ok_bind, pure_eq_ok]
      · exact
          { root := by
              rw [withPageSet_root, hpost1.same.root, withPageSet_root, hs.root, hroot]
            rep := hrep1
            nodup := hfacts.nodup
            ok := hfacts.ok
            dom := hpost1.dom
            page_set := rfl
            deleted := htxn1.2 }
    | split l sep r =>
      simp only [InsRes.rootId] at hroot
      simp only [RepRes] at hrep1
      obtain ⟨hrl, hrr⟩ := hrep1
      have hnd := hfacts.nodup
      simp only [InsRes.ids, List.nodup_append, List.disjoint_left] at hnd
      obtain ⟨hndl, hndr, hdisj⟩ := hnd
      have hbelow : ∀ x, x ∈ Tree.ids h l ∨ x ∈ Tree.ids h r → 0 ≤ x ∧ x < next1 := by
        intro x hx
        have := hpost1.dom x (by
          rcases hx with hx | hx
          · exact Rep.page_some h l _ hrl x hx
          · exact Rep.page_some h r _ hrr x hx)
        rwa [hnext1] at this
      have hl1 := hbelow _ (Or.inl (Tree.pid_mem_ids h l))
      have hr1 := hbelow _ (Or.inr (Tree.pid_mem_ids h r))
      have hfuel : fuel - h = (fuel - h - 1) + 1 := by omega
      obtain ⟨s2, hip, hroot2, hnext2, htxn2, hlmax2, himax2, hpn, hpo, hpw, hframe2⟩ :=
        @InsertIntoParent_root s1 (fuel - h - 1) (Tree.pid h l) (Tree.pid h r) sep
          (Tree.page h l INVALID_PAGE_ID) (Tree.page h r INVALID_PAGE_ID)
          (Rep.page_eq h l _ hrl) (GetParentPageId_page h l _) (Rep.page_eq h r _ hrr)
          (fun heq => hdisj (Tree.pid_mem_ids h l) (heq ▸ Tree.pid_mem_ids h r))
          (by rw [hnext1]; exact ne_of_lt hl1.2) (by rw [hnext1]; exact ne_of_lt hr1.2)
      rw [hnext1] at hroot2 hnext2 hpn hpo hpw hframe2
      rw [SetParentPageId_page] at hpo hpw
      have htxn3 : s2.txn.page_set ≠ [] ∧ s2.txn.deleted_page_set = [] := by
        rw [htxn2]; exact htxn1
      refine ⟨s2.withPageSet [], ?_, ?_, by rw [withPageSet_next, hnext2],
        by rw [withPageSet_leaf_max, hlmax2, hpost1.same.lmax, withPageSet_leaf_max],
        by rw [withPageSet_internal_max, himax2, hpost1.same.imax, withPageSet_internal_max]⟩
      · rw [insCont, hfuel, hip, Unlock_ok .INSERT s2 htxn3.1 htxn3.2]
        rfl
      · have hrl2 : Rep s2.pages h l next1 := by
          refine Rep.repoint h l _ _ hrl hndl hpo fun x hx hne => ?_
          exact hframe2 x (ne_of_lt (hbelow x (Or.inl hx)).2) hne
            (fun heq => hdisj hx (heq ▸ Tree.pid_mem_ids h r))
        have hrr2 : Rep s2.pages h r next1 := by
          refine Rep.repoint h r _ _ hrr hndr hpw fun x hx hne => ?_
          exact hframe2 x (ne_of_lt (hbelow x (Or.inr hx)).2)
            (fun heq => hdisj (heq ▸ Tree.pid_mem_ids h l) hx) hne
        exact
          { root := by rw [withPageSet_root, hroot2]; rfl
            rep := by
              simp only [Rep, withPageSet_pages]
              refine ⟨?_, ?_⟩
              · rw [hpn, hpost1.same.imax]; rfl
              · intro e he
                simp only [List.mem_cons, List.mem_singleton, List.not_mem_nil, or_false] at he
                rcases he with rfl | rfl
                · exact hrl2
                · exact hrr2
            nodup := by
              simp only [Tree.ids_succ, kidsIds_cons, kidsIds_nil, List.append_nil,
                List.nodup_cons, List.mem_append, List.nodup_append, List.disjoint_left]
              refine ⟨fun hx => ?_, hndl, hndr, fun x hx => hdisj hx⟩
              exact absurd (hbelow _ hx).2 (lt_irrefl _)
            ok := by
              refine ⟨by simp, fun e he => ?_⟩
              simp only [List.mem_cons, List.mem_singleton, List.not_mem_nil, or_false] at he
              rcases he with rfl | rfl
              · exact hfacts.ok.1
              · exact hfacts.ok.2
            dom := by
              intro x hx
              rw [withPageSet_next, hnext2]
              rw [withPageSet_pages] at hx
              by_cases h1 : x = next1
              · subst h1; exact ⟨by linarith [hl1.1, hl1.2], by linarith⟩
              · by_cases h2 : x = Tree.pid h l
                · subst h2; exact ⟨hl1.1, by linarith [hl1.2]⟩
                · by_cases h3 : x = Tree.pid h r
                  · subst h3; exact ⟨hr1.1, by linarith [hr1.2]⟩
                  · rw [hframe2 x h1 h2 h3] at hx
                    have := hpost1.dom x hx
                    rw [hnext1] at this
                    exact ⟨this.1, by linarith [this.2]⟩
            page_set := rfl
            deleted := htxn3.2 }

/-- `Insert` into the empty tree: the root becomes a leaf with the one pair. -/
theorem Insert_empty {s : State} (hs : HoldsEmpty s) (fuel : Nat) (key : KeyType)
    (value : ValueType) :
    ∃ s1, Insert fuel key value true s = .ok (true, s1) ∧
      Holds s1 0
        ({ id := s.next_page_id, max_size := s.leaf_max_size_, next := INVALID_PAGE_ID,
           arr := [(key, value)] } : ALeaf) ∧
      s1.next_page_id = s.next_page_id + 1 ∧
      s1.leaf_max_size_ = s.leaf_max_size_ ∧ s1.internal_max_size_ = s.internal_max_size_ := by
  have hun := Unlock_ok .INSERT
    (StartNewTree key value (s.withPageSet [.virtual_root_page]))
    (by simp [StartNewTree, NewPage, WriteLeaf])
    (by simp [StartNewTree, NewPage, WriteLeaf, hs.deleted])
  refine ⟨(StartNewTree key value (s.withPageSet [.virtual_root_page])).withPageSet [],
    ?_, ?_, ?_, ?_, ?_⟩
  · simp only [Insert, IsEmpty, hs.root, beq_self_eq_true, if_true, Lock_virtual_root,
      hs.page_set, List.nil_append, ok_bind, hun, pure_eq_ok]
  · exact
      { root := by simp [StartNewTree, NewPage, WriteLeaf]
        rep := by
          simp [Rep, StartNewTree, NewPage, WriteLeaf, LeafPage.Init, LeafPage.Insert,
            LeafPage.InsertIn]
        nodup := by simp [Tree.ids]
        ok := trivial
        dom := by
          intro x hx
          simp only [withPageSet_pages, withPageSet_next, StartNewTree, NewPage, WriteLeaf,
            setPage_pages, setPage_next, UpdateRootPageId_pages, UpdateRootPageId_next,
            UpdateRootPageId_root] at hx ⊢
          by_cases h1 : x = s.next_page_id
          · subst h1; exact ⟨hs.next_nonneg, by linarith⟩
          · rw [if_neg h1] at hx
            have := hs.dom x hx
            exact ⟨this.1, by linarith [this.2]⟩
        page_set := rfl
        deleted := by simp [StartNewTree, NewPage, WriteLeaf, hs.deleted] }
  · simp [StartNewTree, NewPage, WriteLeaf]
  · simp [StartNewTree, NewPage, WriteLeaf]
  · simp [StartNewTree, NewPage, WriteLeaf]

end BPlusTree

namespace BPlusTree

/-! ## Key order of an insertion -/

theorem Bnd.trans_bnd {lo hi : Option KeyType} {k : KeyType} (h1 : Bnd lo (some k))
    (h2 : Bnd (some k) hi) : Bnd lo hi :=
  fun l u hl hu => le_trans (h1 l k hl rfl) (h2 k u rfl hu)

theorem KidsOrd.cons2 {α : Type} {P : α → Option KeyType → Option KeyType → Prop}
    {lo hi : Option KeyType} {e e1 : KeyType × α} {rest : List (KeyType × α)} :
    KidsOrd P lo hi (e :: e1 :: rest) ↔
      P e.2 lo (some e1.1) ∧ KidsOrd P (some e1.1) hi (e1 :: rest) := Iff.rfl

theorem KidsOrd.single {α : Type} {P : α → Option KeyType → Option KeyType → Prop}
    {lo hi : Option KeyType} {e : KeyType × α} : KidsOrd P lo hi [e] ↔ P e.2 lo hi := Iff.rfl

/-- The order of the slots of a node splits at any slot. -/
theorem KidsOrd.append {α : Type} {P : α → Option KeyType → Option KeyType → Prop}
    {hi : Option KeyType} {b : KeyType × α} {B : List (KeyType × α)} :
    ∀ {A : List (KeyType × α)} {lo : Option KeyType}, A ≠ [] →
      (KidsOrd P lo hi (A ++ b :: B) ↔
        KidsOrd P lo (some b.1) A ∧ KidsOrd P (some b.1) hi (b :: B))
  | [], _, hA => absurd rfl hA
  | [a], lo, _ => by
    simp only [List.singleton_append, KidsOrd.cons2, KidsOrd.single]
  | a :: a1 :: A, lo, _ => by
    have ih := @KidsOrd.append α P hi b B (a1 :: A) (some a1.1) (by simp)
    simp only [List.cons_append, KidsOrd.cons2] at ih ⊢
    rw [ih]
    exact and_assoc.symm

theorem KidsOrd.zip_nil {α : Type} {P : α → Option KeyType → Option KeyType → Prop}
    {lo hi : Option KeyType} {cur : KeyType × α} {post : List (KeyType × α)} :
    KidsOrd P lo hi (cur :: post) ↔
      P cur.2 lo (hiOf hi post) ∧ KidsOrd P (some (firstKey post)) hi post := by
  cases post with
  | nil => simp [KidsOrd, hiOf]
  | cons e rest => simp [KidsOrd, hiOf, firstKey]

/-- The order of the slots of a node, seen from one slot. -/
theorem KidsOrd.zip {α : Type} {P : α → Option KeyType → Option KeyType → Prop}
    {lo hi : Option KeyType} {cur : KeyType × α} {post : List (KeyType × α)}
    {pre : List (KeyType × α)} :
    KidsOrd P lo hi (pre ++ cur :: post) ↔
      KidsOrd P lo (some cur.1) pre ∧ P cur.2 (loOf lo pre cur.1) (hiOf hi post) ∧
        KidsOrd P (some (firstKey post)) hi post := by
  cases pre with
  | nil =>
    rw [List.nil_append, KidsOrd.zip_nil]
    simp [KidsOrd, loOf]
  | cons a pre =>
    rw [KidsOrd.append (by simp), @KidsOrd.zip_nil α P (some cur.1) hi cur post]
    simp [loOf]

theorem chooseFrom_lo {α : Type} (key : KeyType) :
    ∀ (rest pre0 : List (KeyType × α)) (cur0 : KeyType × α) (lo : Option KeyType),
      LoOk (loOf lo pre0 cur0.1) key →
      LoOk (loOf lo (chooseFrom key pre0 cur0 rest).1 (chooseFrom key pre0 cur0 rest).2.1.1) key
  | [], _, _, _, h => h
  | e :: es, pre0, cur0, lo, _ => by
    simp only [chooseFrom]
    split
    · rename_i hle
      refine chooseFrom_lo key es (pre0 ++ [cur0]) e lo ?_
      cases pre0 <;> exact fun l hl => by cases hl; exact hle
    · assumption

theorem chooseFrom_hi {α : Type} (key : KeyType) (hi : Option KeyType) (hkey : HiOk hi key) :
    ∀ (rest pre0 : List (KeyType × α)) (cur0 : KeyType × α),
      HiOk (hiOf hi (chooseFrom key pre0 cur0 rest).2.2) key
  | [], _, _ => hkey
  | e :: es, pre0, cur0 => by
    simp only [chooseFrom]
    split
    · exact chooseFrom_hi key hi hkey es (pre0 ++ [cur0]) e
    · rename_i hle
      exact fun u hu => by cases hu; exact lt_of_not_le hle

theorem choose_bounds {α : Type} {key : KeyType} {kids pre post : List (KeyType × α)}
    {cur : KeyType × α} (hc : choose key false kids = some (pre, cur, post))
    {lo hi : Option KeyType} (hlo : LoOk lo key) (hhi : HiOk hi key) :
    LoOk (loOf lo pre cur.1) key ∧ HiOk (hiOf hi post) key := by
  cases kids with
  | nil => simp [choose] at hc
  | cons e es =>
    simp only [choose, Bool.false_eq_true, if_false, Option.some.injEq] at hc
    have h1 := chooseFrom_lo key es [] e lo hlo
    have h2 := chooseFrom_hi key hi hhi es [] e
    rw [hc] at h1 h2
    exact ⟨h1, h2⟩

theorem Tree.Ord.bounded : ∀ {h : Nat} {t : Tree h} {lo hi : Option KeyType},
    Tree.Ord h t lo hi → Bnd lo hi
  | 0, _, _, _, ho => ho.1
  | _ + 1, _, _, _, ho => ho.1

theorem LoOk.widen_lo {lo : Option KeyType} {k x : KeyType} (hx : LoOk (some k) x)
    (hb : Bnd lo (some k)) : LoOk lo x :=
  fun l hl => le_trans (hb l k hl rfl) (hx k rfl)

theorem HiOk.widen_hi {hi : Option KeyType} {k x : KeyType} (hx : HiOk (some k) x)
    (hb : Bnd (some k) hi) : HiOk hi x :=
  fun u hu => lt_of_lt_of_le (hx k rfl) (hb k u rfl hu)

theorem KidsOrd.kids_bounded {α : Type} {P : α → Option KeyType → Option KeyType → Prop}
    (hP : ∀ c a b, P c a b → Bnd a b) :
    ∀ {kids : List (KeyType × α)} {lo hi : Option KeyType}, kids ≠ [] →
      KidsOrd P lo hi kids → Bnd lo hi
  | [], _, _, hne, _ => absurd rfl hne
  | [e], _, _, _, ho => hP _ _ _ ho
  | e :: e1 :: rest, _, _, _, ho =>
    Bnd.trans_bnd (hP _ _ _ ho.1) (KidsOrd.kids_bounded hP (by simp) ho.2)

theorem Tree.entries_zero (t : ALeaf) : Tree.entries 0 t = t.arr := rfl

theorem Tree.entries_succ (h : Nat) (t : ANode (Tree h)) :
    Tree.entries (h + 1) t = kidsEntries h t.kids := rfl

@[simp] theorem kidsEntries_nil (h : Nat) : kidsEntries h [] = [] := rfl

@[simp] theorem kidsEntries_cons (h : Nat) (e : KeyType × Tree h)
    (es : List (KeyType × Tree h)) :
    kidsEntries h (e :: es) = Tree.entries h e.2 ++ kidsEntries h es := rfl

@[simp] theorem kidsEntries_append (h : Nat) (a b : List (KeyType × Tree h)) :
    kidsEntries h (a ++ b) = kidsEntries h a ++ kidsEntries h b := by
  simp [kidsEntries]

theorem kidsEntries_take_drop (h : Nat) (n : Nat) (k : List (KeyType × Tree h)) :
    kidsEntries h (k.take n) ++ kidsEntries h (k.drop n) = kidsEntries h k := by
  rw [← kidsEntries_append, List.take_append_drop]

/-- The pairs below the slots of a node lie within the bounds of the node. -/
theorem kidsEntries_bounds {h : Nat}
    (ih : ∀ (t : Tree h) (lo hi : Option KeyType), Tree.Ord h t lo hi →
      ∀ e ∈ Tree.entries h t, LoOk lo e.1 ∧ HiOk hi e.1) :
    ∀ (kids : List (KeyType × Tree h)) (lo hi : Option KeyType),
      KidsOrd (Tree.Ord h) lo hi kids → ∀ e ∈ kidsEntries h kids, LoOk lo e.1 ∧ HiOk hi e.1
  | [], _, _, _, e, he => absurd he (List.not_mem_nil _)
  | [c], lo, hi, ho, e, he => by
    simp only [kidsEntries_cons, kidsEntries_nil, List.append_nil] at he
    exact ih c.2 lo hi ho e he
  | c :: c1 :: rest, lo, hi, ho, e, he => by
    obtain ⟨ho1, ho2⟩ := ho
    have hb2 : Bnd (some c1.1) hi := KidsOrd.kids_bounded (fun _ _ _ => Tree.Ord.bounded) (by simp) ho2
    rw [kidsEntries_cons, List.mem_append] at he
    rcases he with he | he
    · have := ih c.2 _ _ ho1 e he
      exact ⟨this.1, HiOk.widen_hi this.2 hb2⟩
    · have := kidsEntries_bounds ih (c1 :: rest) _ _ ho2 e he
      exact ⟨LoOk.widen_lo this.1 (Tree.Ord.bounded ho1), this.2⟩

theorem Tree.Ord.entries_bounds : ∀ (h : Nat) (t : Tree h) (lo hi : Option KeyType),
    Tree.Ord h t lo hi → ∀ e ∈ Tree.entries h t, LoOk lo e.1 ∧ HiOk hi e.1
  | 0, _, _, _, ho, e, he => ho.2.2 e he
  | h + 1, t, lo, hi, ho, e, he =>
    kidsEntries_bounds (Tree.Ord.entries_bounds h) t.kids lo hi ho.2 e he

/-- At the child that the descent chooses, the pairs to the left are below the key and the
pairs to the right above it. -/
theorem choose_sides {h : Nat} {key : KeyType} {kids pre post : List (KeyType × Tree h)}
    {cur : KeyType × Tree h} (hc : choose key false kids = some (pre, cur, post))
    {lo hi : Option KeyType} (ho : KidsOrd (Tree.Ord h) lo hi kids) (hlo : LoOk lo key)
    (hhi : HiOk hi key) :
    (∀ e ∈ kidsEntries h pre, e.1 < key) ∧ (∀ e ∈ kidsEntries h post, key < e.1) ∧
      LoOk (loOf lo pre cur.1) key ∧ HiOk (hiOf hi post) key := by
  obtain ⟨hb1, hb2⟩ := choose_bounds hc hlo hhi
  rw [choose_eq hc, KidsOrd.zip] at ho
  obtain ⟨hpre, -, hpost⟩ := ho
  refine ⟨fun e he => ?_, fun e he => ?_, hb1, hb2⟩
  · cases pre with
    | nil => exact absurd he (List.not_mem_nil _)
    | cons a pre =>
      have h1 := (kidsEntries_bounds (Tree.Ord.entries_bounds h) _ _ _ hpre e he).2
      exact lt_of_lt_of_le (h1 _ rfl) (hb1 _ rfl)
  · cases post with
    | nil => exact absurd he (List.not_mem_nil _)
    | cons a post =>
      have h1 := (kidsEntries_bounds (Tree.Ord.entries_bounds h) _ _ _ hpost e he).1
      exact lt_of_lt_of_le (hb2 _ rfl) (h1 _ rfl)

theorem InsertIn_append_left (key : KeyType) (value : ValueType) (X : List MappingType) :
    ∀ A : List MappingType, (∀ a ∈ A, a.1 < key) →
      LeafPage.InsertIn key value (A ++ X) = A ++ LeafPage.InsertIn key value X
  | [], _ => rfl
  | a :: A, hA => by
    have h1 : ¬ key ≤ a.1 := not_le.2 (hA a (List.mem_cons_self _ _))
    have ih := InsertIn_append_left key value X A fun x hx => hA x (List.mem_cons_of_mem _ hx)
    rw [List.cons_append]
    simp only [LeafPage.InsertIn, if_neg h1, ih, List.cons_append]

theorem InsertIn_append_right (key : KeyType) (value : ValueType) (C : List MappingType)
    (hC : ∀ c ∈ C, key < c.1) :
    ∀ B : List MappingType,
      LeafPage.InsertIn key value (B ++ C) = LeafPage.InsertIn key value B ++ C
  | [] => by
    cases C with
    | nil => rfl
    | cons c C =>
      have : key ≤ c.1 := le_of_lt (hC c (List.mem_cons_self _ _))
      simp [LeafPage.InsertIn, this]
  | b :: B => by
    have ih := InsertIn_append_right key value C hC B
    rw [List.cons_append]
    simp only [LeafPage.InsertIn]
    split
    · rfl
    · rw [ih]; rfl

theorem mem_InsertIn (key : KeyType) (value : ValueType) (e : MappingType) :
    ∀ arr : List MappingType, e ∈ LeafPage.InsertIn key value arr ↔ e = (key, value) ∨ e ∈ arr
  | [] => by simp [LeafPage.InsertIn]
  | a :: arr => by
    simp only [LeafPage.InsertIn]
    split
    · simp
    · simp only [List.mem_cons, mem_InsertIn key value e arr]
      tauto

theorem LookupIn_none {key : KeyType} :
    ∀ {arr : List MappingType}, LeafPage.LookupIn key arr = none ↔ ∀ e ∈ arr, e.1 ≠ key
  | [] => by simp [LeafPage.LookupIn]
  | a :: arr => by
    simp only [LeafPage.LookupIn]
    split
    · rename_i h; simp [h]
    · rename_i h; simp [h, LookupIn_none]

theorem LookupIn_some {key : KeyType} {value : ValueType} :
    ∀ {arr : List MappingType}, (arr.map (·.1)).Pairwise (· < ·) → (key, value) ∈ arr →
      LeafPage.LookupIn key arr = some value
  | [], _, h => absurd h (List.not_mem_nil _)
  | a :: arr, hp, h => by
    simp only [List.map_cons, List.pairwise_cons] at hp
    simp only [LeafPage.LookupIn]
    rcases List.mem_cons.1 h with rfl | h'
    · simp
    · have : a.1 ≠ key := by
        have := hp.1 key (List.mem_map.2 ⟨(key, value), h', rfl⟩)
        exact ne_of_lt this
      rw [if_neg this]
      exact LookupIn_some hp.2 h'

theorem InsertIn_pairwise (key : KeyType) (value : ValueType) :
    ∀ arr : List MappingType, (arr.map (·.1)).Pairwise (· < ·) → (∀ e ∈ arr, e.1 ≠ key) →
      ((LeafPage.InsertIn key value arr).map (·.1)).Pairwise (· < ·)
  | [], _, _ => by simp [LeafPage.InsertIn]
  | a :: arr, hp, hne => by
    simp only [List.map_cons, List.pairwise_cons] at hp
    simp only [LeafPage.InsertIn]
    split
    · rename_i hle
      have hlt : key < a.1 := lt_of_le_of_ne hle (Ne.symm (hne a (List.mem_cons_self _ _)))
      simp only [List.map_cons, List.pairwise_cons, List.mem_cons, forall_eq_or_imp]
      exact ⟨⟨hlt, fun x hx => lt_trans hlt (hp.1 x hx)⟩, hp.1, hp.2⟩
    · rename_i hle
      have ih := InsertIn_pairwise key value arr hp.2
        fun e he => hne e (List.mem_cons_of_mem _ he)
      simp only [List.map_cons, List.pairwise_cons]
      refine ⟨fun x hx => ?_, ih⟩
      obtain ⟨e, he, rfl⟩ := List.mem_map.1 hx
      rcases (mem_InsertIn key value e arr).1 he with rfl | he'
      · exact lt_of_not_le hle
      · exact hp.1 _ (List.mem_map.2 ⟨e, he', rfl⟩)

theorem ALeaf.ins_leaf_ord (lmax : Nat) (key : KeyType) (value : ValueType) (t : ALeaf)
    (next : page_id_t) {lo hi : Option KeyType} (ho : Tree.Ord 0 t lo hi) (hlo : LoOk lo key)
    (hhi : HiOk hi key) (habs : LeafPage.LookupIn key t.arr = none) :
    InsRes.Ord 0 (ALeaf.ins lmax key value t next).1 lo hi ∧
      InsRes.entries 0 (ALeaf.ins lmax key value t next).1 =
        LeafPage.InsertIn key value t.arr := by
  obtain ⟨hb, hp, hbd⟩ := ho
  have hp' := InsertIn_pairwise key value t.arr hp (LookupIn_none.1 habs)
  have hbd' : ∀ e ∈ LeafPage.InsertIn key value t.arr, LoOk lo e.1 ∧ HiOk hi e.1 := by
    intro e he
    rcases (mem_InsertIn key value e t.arr).1 he with rfl | he'
    · exact ⟨hlo, hhi⟩
    · exact hbd e he'
  simp only [ALeaf.ins]
  split
  · exact ⟨⟨hb, hp', hbd'⟩, rfl⟩
  · have hlen := InsertIn_length key value t.arr
    obtain ⟨d, D, hD⟩ : ∃ d D, (LeafPage.InsertIn key value t.arr).drop
        ((LeafPage.InsertIn key value t.arr).length / 2) = d :: D := by
      cases hd : (LeafPage.InsertIn key value t.arr).drop
          ((LeafPage.InsertIn key value t.arr).length / 2) with
      | nil =>
        have := congrArg List.length hd
        simp only [List.length_drop, List.length_nil] at this
        omega
      | cons d D => exact ⟨d, D, rfl⟩
    have hTD := List.take_append_drop ((LeafPage.InsertIn key value t.arr).length / 2)
      (LeafPage.InsertIn key value t.arr)
    rw [hD] at hTD ⊢
    generalize (LeafPage.InsertIn key value t.arr).take
      ((LeafPage.InsertIn key value t.arr).length / 2) = T at hTD ⊢
    rw [← hTD] at hp' hbd'
    simp only [List.map_append, List.map_cons, List.pairwise_append, List.pairwise_cons,
      List.mem_map, List.mem_cons, forall_exists_index, and_imp] at hp'
    obtain ⟨hpT, ⟨hdD, hpD⟩, hTD'⟩ := hp'
    have hd := hbd' d (by simp)
    refine ⟨⟨⟨fun l u hl hu => ?_, hpT, fun e he => ⟨(hbd' e (by simp [he])).1, ?_⟩⟩,
      ⟨fun l u hl hu => ?_, ?_, fun e he => ⟨?_, (hbd' e (by simp [he])).2⟩⟩⟩, ?_⟩
    · cases hu; exact hd.1 l hl
    · intro u hu
      cases hu
      exact hTD' e.1 e he rfl d.1 (Or.inl rfl)
    · cases hl; exact le_of_lt (hd.2 u hu)
    · simp only [List.map_cons, List.pairwise_cons, List.mem_map, forall_exists_index, and_imp]
      exact ⟨hdD, hpD⟩
    · intro l hl
      cases hl
      rcases List.mem_cons.1 he with rfl | he'
      · exact le_refl _
      · exact le_of_lt (hdD e.1 e he' rfl)
    · simp only [InsRes.entries, Tree.entries_zero, hTD]

theorem drop_half_cons {α : Type} {K : List α} (hlen : 2 ≤ K.length) :
    K.take (K.length / 2) ≠ [] ∧ ∃ b B, K.drop (K.length / 2) = b :: B := by
  refine ⟨fun h0 => ?_, ?_⟩
  · have := congrArg List.length h0
    simp only [List.length_take, List.length_nil] at this
    omega
  · cases hd : K.drop (K.length / 2) with
    | nil =>
      have := congrArg List.length hd
      simp only [List.length_drop, List.length_nil] at this
      omega
    | cons b B => exact ⟨b, B, rfl⟩

/-- The insertion keeps the order invariant, and the pairs of the outcome are the pairs of
the tree with the new pair at its place. -/
theorem Tree.ins_ord (lmax imax : Nat) (key : KeyType) (value : ValueType) :
    ∀ (h : Nat) (t : Tree h) (next : page_id_t) (lo hi : Option KeyType) (L : ALeaf),
      Tree.Ord h t lo hi → LoOk lo key → HiOk hi key →
      Tree.findLeaf key false h t = some L → LeafPage.LookupIn key L.arr = none →
      InsRes.Ord h (Tree.ins lmax imax key value h t next).1 lo hi ∧
        InsRes.entries h (Tree.ins lmax imax key value h t next).1 =
          LeafPage.InsertIn key value (Tree.entries h t)
  | 0, t, next, lo, hi, L, ho, hlo, hhi, hL, habs => by
    have : t = L := by simpa [Tree.findLeaf] using hL
    subst this
    exact ALeaf.ins_leaf_ord lmax key value t next ho hlo hhi habs
  | h + 1, t, next, lo, hi, L, ho, hlo, hhi, hL, habs => by
    obtain ⟨hb, hko⟩ := ho
    simp only [Tree.ins]
    cases hc : choose key false t.kids with
    | none => simp [Tree.findLeaf, hc] at hL
    | some r0 =>
      obtain ⟨pre, cur, post⟩ := r0
      have hk := choose_eq hc
      obtain ⟨hEpre, hEpost, hlo1, hhi1⟩ := choose_sides hc hko hlo hhi
      have hz := hko
      rw [hk, KidsOrd.zip] at hz
      obtain ⟨hopre, hocur, hopost⟩ := hz
      have hL1 : Tree.findLeaf key false h cur.2 = some L := by
        simpa [Tree.findLeaf, hc] using hL
      obtain ⟨ihO, ihE⟩ :=
        Tree.ins_ord lmax imax key value h cur.2 next _ _ L hocur hlo1 hhi1 hL1 habs
      have hent : kidsEntries h pre ++ LeafPage.InsertIn key value (Tree.entries h cur.2) ++
          kidsEntries h post = LeafPage.InsertIn key value (Tree.entries (h + 1) t) := by
        rw [Tree.entries_succ, hk, kidsEntries_append, kidsEntries_cons,
          InsertIn_append_left key value _ _ hEpre, InsertIn_append_right key value _ hEpost,
          List.append_assoc]
      simp only
      cases hres : Tree.ins lmax imax key value h cur.2 next with
      | mk resc nextc =>
        rw [hres] at ihO ihE
        cases resc with
        | done c =>
          simp only [InsRes.Ord, InsRes.entries] at ihO ihE ⊢
          refine ⟨⟨hb, ?_⟩, ?_⟩
          · exact (@KidsOrd.zip _ _ lo hi (cur.1, c) post pre).2 ⟨hopre, ihO, hopost⟩
          · rw [Tree.entries_succ, ← hent, ← ihE]
            simp
        | split l sep r =>
          simp only [InsRes.Ord, InsRes.entries] at ihO ihE
          have hK : KidsOrd (Tree.Ord h) lo hi (pre ++ (cur.1, l) :: (sep, r) :: post) := by
            refine (@KidsOrd.zip _ _ lo hi (cur.1, l) ((sep, r) :: post) pre).2
              ⟨hopre, ihO.1, ?_⟩
            exact (@KidsOrd.zip_nil _ _ (some sep) hi (sep, r) post).2 ⟨ihO.2, hopost⟩
          have hKE : kidsEntries h (pre ++ (cur.1, l) :: (sep, r) :: post) =
              LeafPage.InsertIn key value (Tree.entries (h + 1) t) := by
            rw [← hent, ← ihE]
            simp
          simp only
          split
          · exact ⟨⟨hb, hK⟩, hKE⟩
          · have hlen : 2 ≤ (pre ++ (cur.1, l) :: (sep, r) :: post).length := by
              simp only [List.length_append, List.length_cons]; omega
            obtain ⟨hT, b, B, hD⟩ := drop_half_cons hlen
            have hTD := List.take_append_drop
              ((pre ++ (cur.1, l) :: (sep, r) :: post).length / 2)
              (pre ++ (cur.1, l) :: (sep, r) :: post)
            simp only [InsRes.Ord, InsRes.entries, Tree.entries_succ]
            rw [kidsEntries_take_drop, hKE, hD]
            rw [← hTD, hD, KidsOrd.append hT] at hK
            refine ⟨⟨⟨?_, hK.1⟩, ⟨?_, hK.2⟩⟩, rfl⟩
            · exact KidsOrd.kids_bounded (fun _ _ _ => Tree.Ord.bounded) hT hK.1
            · exact KidsOrd.kids_bounded (fun _ _ _ => Tree.Ord.bounded) (by simp) hK.2

theorem LookupIn_append_left {key : KeyType} :
    ∀ (A B : List MappingType), (∀ a ∈ A, a.1 ≠ key) →
      LeafPage.LookupIn key (A ++ B) = LeafPage.LookupIn key B
  | [], _, _ => rfl
  | a :: A, B, hA => by
    rw [List.cons_append]
    simp only [LeafPage.LookupIn, if_neg (hA a (List.mem_cons_self _ _))]
    exact LookupIn_append_left A B fun x hx => hA x (List.mem_cons_of_mem _ hx)

theorem LookupIn_append_right {key : KeyType} (C : List MappingType) (hC : ∀ c ∈ C, c.1 ≠ key) :
    ∀ B : List MappingType, LeafPage.LookupIn key (B ++ C) = LeafPage.LookupIn key B
  | [] => by simpa using LookupIn_none.2 hC
  | b :: B => by
    rw [List.cons_append]
    simp only [LeafPage.LookupIn, LookupIn_append_right C hC B]

/-- The leaf that the descent reaches answers for the whole tree. -/
theorem Tree.findLeaf_lookup (key : KeyType) :
    ∀ (h : Nat) (t : Tree h) (lo hi : Option KeyType) (L : ALeaf),
      Tree.Ord h t lo hi → LoOk lo key → HiOk hi key →
      Tree.findLeaf key false h t = some L →
      LeafPage.LookupIn key L.arr = LeafPage.LookupIn key (Tree.entries h t)
  | 0, t, lo, hi, L, _, _, _, hL => by
    have : t = L := by simpa [Tree.findLeaf] using hL
    subst this
    rfl
  | h + 1, t, lo, hi, L, ho, hlo, hhi, hL => by
    cases hc : choose key false t.kids with
    | none => simp [Tree.findLeaf, hc] at hL
    | some r0 =>
      obtain ⟨pre, cur, post⟩ := r0
      have hk := choose_eq hc
      obtain ⟨hEpre, hEpost, hlo1, hhi1⟩ := choose_sides hc ho.2 hlo hhi
      have hz := ho.2
      rw [hk, KidsOrd.zip] at hz
      have hL1 : Tree.findLeaf key false h cur.2 = some L := by
        simpa [Tree.findLeaf, hc] using hL
      rw [Tree.findLeaf_lookup key h cur.2 _ _ L hz.2.1 hlo1 hhi1 hL1, Tree.entries_succ, hk,
        kidsEntries_append, kidsEntries_cons,
        LookupIn_append_left _ _ fun a ha => ne_of_lt (hEpre a ha),
        LookupIn_append_right _ fun c hc => ne_of_gt (hEpost c hc)]

theorem kidsEntries_sorted {h : Nat}
    (ih : ∀ (t : Tree h) (lo hi : Option KeyType), Tree.Ord h t lo hi →
      ((Tree.entries h t).map (·.1)).Pairwise (· < ·)) :
    ∀ (kids : List (KeyType × Tree h)) (lo hi : Option KeyType),
      KidsOrd (Tree.Ord h) lo hi kids → ((kidsEntries h kids).map (·.1)).Pairwise (· < ·)
  | [], _, _, _ => by simp [kidsEntries_nil]
  | [c], lo, hi, ho => by
    simp only [kidsEntries_cons, kidsEntries_nil, List.append_nil]
    exact ih c.2 lo hi ho
  | c :: c1 :: rest, lo, hi, ho => by
    obtain ⟨ho1, ho2⟩ := ho
    rw [kidsEntries_cons, List.map_append, List.pairwise_append]
    refine ⟨ih c.2 _ _ ho1, kidsEntries_sorted ih (c1 :: rest) _ _ ho2, ?_⟩
    intro a ha b hb
    obtain ⟨ea, hea, rfl⟩ := List.mem_map.1 ha
    obtain ⟨eb, heb, rfl⟩ := List.mem_map.1 hb
    have h1 := (Tree.Ord.entries_bounds h c.2 _ _ ho1 ea hea).2 c1.1 rfl
    have h2 := (kidsEntries_bounds (Tree.Ord.entries_bounds h) (c1 :: rest) _ _ ho2 eb heb).1
      c1.1 rfl
    exact lt_of_lt_of_le h1 h2

/-- The pairs of an ordered tree come with strictly increasing keys. -/
theorem Tree.Ord.entries_sorted : ∀ (h : Nat) (t : Tree h) (lo hi : Option KeyType),
    Tree.Ord h t lo hi → ((Tree.entries h t).map (·.1)).Pairwise (· < ·)
  | 0, _, _, _, ho => ho.2.1
  | h + 1, t, lo, hi, ho =>
    kidsEntries_sorted (Tree.Ord.entries_sorted h) t.kids lo hi ho.2

end BPlusTree

namespace BPlusTree

/-- The insertion at the root keeps the order invariant, puts the new pair at its place and
adds at most one level. -/
theorem Tree.insRoot_ord (lmax imax : Nat) (key : KeyType) (value : ValueType) (h : Nat)
    (t : Tree h) (next : page_id_t) {L : ALeaf} (ho : Tree.Ord h t none none)
    (hL : Tree.findLeaf key false h t = some L) (habs : LeafPage.LookupIn key L.arr = none) :
    Tree.Ord (Tree.insRoot lmax imax key value h t next).1.1
        (Tree.insRoot lmax imax key value h t next).1.2 none none ∧
      Tree.entries (Tree.insRoot lmax imax key value h t next).1.1
          (Tree.insRoot lmax imax key value h t next).1.2 =
        LeafPage.InsertIn key value (Tree.entries h t) ∧
      (Tree.insRoot lmax imax key value h t next).1.1 ≤ h + 1 := by
  have hlo : LoOk none key := fun _ hl => by cases hl
  have hhi : HiOk none key := fun _ hu => by cases hu
  obtain ⟨hO, hE⟩ := Tree.ins_ord lmax imax key value h t next none none L ho hlo hhi hL habs
  simp only [Tree.insRoot]
  cases hres : Tree.ins lmax imax key value h t next with
  | mk res next1 =>
    rw [hres] at hO hE
    cases res with
    | done t1 => exact ⟨hO, hE, Nat.le_succ h⟩
    | split l sep r =>
      simp only [InsRes.Ord, InsRes.entries] at hO hE
      refine ⟨?_, ?_, le_refl _⟩
      · show Bnd none none ∧ Tree.Ord h l none (some sep) ∧ Tree.Ord h r (some sep) none
        exact ⟨fun _ _ hl => (by cases hl), hO.1, hO.2⟩
      rw [← hE, Tree.entries_succ]
      simp [kidsEntries]

theorem Tree.Ord.lookup {h : Nat} {t : Tree h} (ho : Tree.Ord h t none none) {key : KeyType} {L : ALeaf}
    (hL : Tree.findLeaf key false h t = some L) :
    LeafPage.LookupIn key L.arr = LeafPage.LookupIn key (Tree.entries h t) :=
  Tree.findLeaf_lookup key h t none none L ho (fun _ hl => by cases hl)
    (fun _ hu => by cases hu) hL

/-- `Insert` of a key that is not there, on a well-formed state. -/
theorem Insert_wellFormed {s : State} {es : List MappingType} {levels : Nat}
    (hw : WellFormed s es levels) (key : KeyType) (value : ValueType)
    (habs : ∀ e ∈ es, e.1 ≠ key) {fuel : Nat} (hf : levels ≤ fuel) :
    ∃ s1 levels1, Insert fuel key value true s = .ok (true, s1) ∧
      WellFormed s1 (LeafPage.InsertIn key value es) levels1 ∧ 1 ≤ levels1 ∧
      levels1 ≤ levels + 1 ∧ s1.leaf_max_size_ = s.leaf_max_size_ ∧
      s1.internal_max_size_ = s.internal_max_size_ := by
  rcases hw with ⟨he, rfl, rfl⟩ | ⟨h, t, hs, ho, rfl, rfl⟩
  · obtain ⟨s1, h1, h2, -, h4, h5⟩ := Insert_empty he fuel key value
    refine ⟨s1, 1, h1, Or.inr ⟨0, _, h2, ?_, rfl, rfl⟩, le_refl _, le_refl _, h4, h5⟩
    exact ⟨fun _ _ hl => (by cases hl), (by simp), fun e _ => ⟨fun _ hl => (by cases hl),
      fun _ hu => (by cases hu)⟩⟩
  · obtain ⟨L, hL⟩ := Tree.findLeaf_some key false h t hs.ok
    have hv : LeafPage.LookupIn key L.arr = none := by
      rw [Tree.Ord.lookup ho hL]
      exact LookupIn_none.2 habs
    obtain ⟨s1, h1, h2, -, h4, h5⟩ := Insert_new hs key value hL hv (Nat.lt_of_succ_le hf)
    obtain ⟨hO, hE, hH⟩ := Tree.insRoot_ord s.leaf_max_size_ s.internal_max_size_ key value h t
      s.next_page_id ho hL hv
    exact ⟨s1, _, h1, Or.inr ⟨_, _, h2, hO, hE.symm, rfl⟩, Nat.succ_le_succ (Nat.zero_le _),
      Nat.succ_le_succ hH, h4, h5⟩

/-- `GetValue` on a well-formed state looks the key up among the pairs of the tree. -/
theorem GetValue_wellFormed {s : State} {es : List MappingType} {levels : Nat}
    (hw : WellFormed s es levels) (key : KeyType) (result : List ValueType)
    (transaction : Bool) {fuel : Nat} (hf : levels ≤ fuel) :
    GetValue fuel key result transaction s =
      .ok (match LeafPage.LookupIn key es with
        | some v => (true, result ++ [v], s)
        | none => (false, result, s)) := by
  rcases hw with ⟨he, rfl, rfl⟩ | ⟨h, t, hs, ho, rfl, rfl⟩
  · simpa [LeafPage.LookupIn] using GetValue_empty he.root fuel key result transaction
  · obtain ⟨L, hL⟩ := Tree.findLeaf_some key false h t hs.ok
    have hg := GetValue_holds hs key result transaction hL (Nat.lt_of_succ_le hf)
    rw [Tree.Ord.lookup ho hL] at hg
    exact hg

/-- `Insert` of a key that is there, on a well-formed state. -/
theorem Insert_duplicate_wellFormed {s : State} {es : List MappingType} {levels : Nat}
    (hw : WellFormed s es levels) (key : KeyType) (value : ValueType) (transaction : Bool)
    {v0 : ValueType} (hv : LeafPage.LookupIn key es = some v0) {fuel : Nat}
    (hf : levels ≤ fuel) :
    Insert fuel key value transaction s = .ok (false, s) := by
  rcases hw with ⟨he, rfl, rfl⟩ | ⟨h, t, hs, ho, rfl, rfl⟩
  · simp [LeafPage.LookupIn] at hv
  · obtain ⟨L, hL⟩ := Tree.findLeaf_some key false h t hs.ok
    rw [← Tree.Ord.lookup ho hL] at hv
    exact InsertIntoLeaf_duplicate hs key value transaction hL hv (Nat.lt_of_succ_le hf)

theorem WellFormed.sorted {s : State} {es : List MappingType} {levels : Nat}
    (hw : WellFormed s es levels) : (es.map (·.1)).Pairwise (· < ·) := by
  rcases hw with ⟨-, rfl, -⟩ | ⟨h, t, -, ho, rfl, -⟩
  · simp
  · exact Tree.Ord.entries_sorted h t none none ho

theorem LookupIn_InsertIn (key : KeyType) (value : ValueType) (es : List MappingType)
    (hs : (es.map (·.1)).Pairwise (· < ·)) (habs : ∀ e ∈ es, e.1 ≠ key) :
    LeafPage.LookupIn key (LeafPage.InsertIn key value es) = some value :=
  LookupIn_some (InsertIn_pairwise key value es hs habs)
    ((mem_InsertIn key value (key, value) es).2 (Or.inl rfl))

theorem State.new_wellFormed (leaf_max_size internal_max_size : Nat) :
    WellFormed (State.new leaf_max_size internal_max_size) [] 0 :=
  Or.inl ⟨State.new_holdsEmpty leaf_max_size internal_max_size, rfl, rfl⟩

/-- Whatever the state, a call of `GetValue` that returns has appended one value and
returned true, or appended nothing and returned false. -/
theorem GetValue_shape (fuel : Nat) (key : KeyType) (result : List ValueType)
    (transaction : Bool) (s : State) {found : Bool} {res : List ValueType} {s1 : State}
    (hg : GetValue fuel key result transaction s = .ok (found, res, s1)) :
    (found = true ∧ ∃ v, res = result ++ [v]) ∨ (found = false ∧ res = result) := by
  unfold GetValue at hg
  obtain ⟨⟨page, s0⟩, -, hg⟩ := bind_eq_ok.1 hg
  cases page with
  | none =>
    simp only [pure_eq_ok, Except.ok.injEq, Prod.mk.injEq] at hg
    exact Or.inr ⟨hg.1.symm, hg.2.1.symm⟩
  | some page_id =>
    simp only at hg
    obtain ⟨leaf_page, -, hg⟩ := bind_eq_ok.1 hg
    cases hl : leaf_page.Lookup key with
    | none =>
      rw [hl] at hg
      simp only at hg
      split at hg <;>
      · obtain ⟨s2, -, hg⟩ := bind_eq_ok.1 hg
        simp only [pure_eq_ok, Except.ok.injEq, Prod.mk.injEq] at hg
        exact Or.inr ⟨hg.1.symm, hg.2.1.symm⟩
    | some v =>
      rw [hl] at hg
      simp only at hg
      split at hg <;>
      · obtain ⟨s2, -, hg⟩ := bind_eq_ok.1 hg
        simp only [pure_eq_ok, Except.ok.injEq, Prod.mk.injEq] at hg
        exact Or.inl ⟨hg.1.symm, v, hg.2.1.symm⟩

end BPlusTree

namespace BPlusTree

/-- The loop of `Unlock`: the pages of the page set that are scheduled for deletion are
dropped from the pool and from the schedule. -/
theorem UnlockLoop_spec : ∀ (ps : List PageRef) (s : State),
    (∀ x, (UnlockLoop ps s).pages x =
      if x ∈ s.txn.deleted_page_set ∧ x ∈ ps.map PageRef.GetPageId then none else s.pages x) ∧
    (∀ x, x ∈ (UnlockLoop ps s).txn.deleted_page_set ↔
      x ∈ s.txn.deleted_page_set ∧ x ∉ ps.map PageRef.GetPageId) ∧
    (UnlockLoop ps s).txn.page_set = s.txn.page_set ∧
    (UnlockLoop ps s).next_page_id = s.next_page_id ∧
    (UnlockLoop ps s).header_record = s.header_record ∧
    (UnlockLoop ps s).root_page_id_ = s.root_page_id_ ∧
    (UnlockLoop ps s).leaf_max_size_ = s.leaf_max_size_ ∧
    (UnlockLoop ps s).internal_max_size_ = s.internal_max_size_
  | [], s => by simp [UnlockLoop]
  | p :: ps, s => by
    simp only [UnlockLoop]
    split
    · rename_i hin
      obtain ⟨h1, h2, h3, h4, h5, h6, h7, h8⟩ := UnlockLoop_spec ps
        { DeletePage s p.GetPageId with txn := { (DeletePage s p.GetPageId).txn with
            deleted_page_set :=
              (DeletePage s p.GetPageId).txn.deleted_page_set.filter (· ≠ p.GetPageId) } }
      refine ⟨fun x => ?_, fun x => ?_, h3, h4, h5, h6, h7, h8⟩
      · rw [h1 x]
        simp only [DeletePage, List.mem_filter, List.map_cons, List.mem_cons, decide_eq_true_eq]
        by_cases hx : x = p.GetPageId
        · subst hx
          simp [hin]
        · simp [hx]
      · rw [h2 x]
        simp only [DeletePage, List.mem_filter, List.map_cons, List.mem_cons, decide_eq_true_eq]
        by_cases hx : x = p.GetPageId
        · subst hx
          simp
        · simp [hx]
    · rename_i hin
      obtain ⟨h1, h2, h3, h4, h5, h6, h7, h8⟩ := UnlockLoop_spec ps s
      refine ⟨fun x => ?_, fun x => ?_, h3, h4, h5, h6, h7, h8⟩
      · rw [h1 x]
        simp only [List.map_cons, List.mem_cons]
        by_cases hx : x = p.GetPageId
        · subst hx
          simp [hin]
        · simp [hx]
      · rw [h2 x]
        simp only [List.map_cons, List.mem_cons]
        by_cases hx : x = p.GetPageId
        · subst hx
          simp [hin]
        · simp [hx]

/-- `Unlock` at the end of `Remove`: every page scheduled for deletion is in the page set,
so all of them leave the pool and the transaction is left without pages. -/
theorem Unlock_deleting (action_type : ActionType) (s : State) (hps : s.txn.page_set ≠ [])
    (hd : ∀ x ∈ s.txn.deleted_page_set, PageRef.frame x ∈ s.txn.page_set) :
    ∃ s1, Unlock action_type true s = .ok s1 ∧
      (∀ x, s1.pages x = if x ∈ s.txn.deleted_page_set then none else s.pages x) ∧
      s1.txn.page_set = [] ∧ s1.txn.deleted_page_set = [] ∧
      s1.next_page_id = s.next_page_id ∧ s1.header_record = s.header_record ∧
      s1.root_page_id_ = s.root_page_id_ ∧ s1.leaf_max_size_ = s.leaf_max_size_ ∧
      s1.internal_max_size_ = s.internal_max_size_ := by
  cases hp : s.txn.page_set with
  | nil => exact absurd hp hps
  | cons p ps =>
    have hcover : ∀ x ∈ s.txn.deleted_page_set,
        x ∈ (if p = .virtual_root_page then ps else p :: ps).map PageRef.GetPageId := by
      intro x hx
      have hm := hd x hx
      rw [hp] at hm
      split
      · rename_i hv
        subst hv
        rcases List.mem_cons.1 hm with h0 | h0
        · cases h0
        · exact List.mem_map.2 ⟨_, h0, rfl⟩
      · exact List.mem_map.2 ⟨_, hm, rfl⟩
    obtain ⟨h1, h2, h3, h4, h5, h6, h7, h8⟩ :=
      UnlockLoop_spec (if p = .virtual_root_page then ps else p :: ps) s
    refine ⟨{ UnlockLoop (if p = .virtual_root_page then ps else p :: ps) s with
        txn := { (UnlockLoop (if p = .virtual_root_page then ps else p :: ps) s).txn with
          page_set := [] } },
      by simp only [Unlock, hp, Bool.not_true, Bool.false_eq_true, if_false],
      fun x => ?_, rfl, ?_, h4, h5, h6, h7, h8⟩
    · show (UnlockLoop _ s).pages x = _
      rw [h1 x]
      by_cases hx : x ∈ s.txn.deleted_page_set
      · simp [hx, hcover x hx]
      · simp [hx]
    · show (UnlockLoop _ s).txn.deleted_page_set = []
      refine List.eq_nil_iff_forall_not_mem.2 fun x hx => ?_
      have := (h2 x).1 hx
      exact this.2 (hcover x this.1)

theorem ValueIndexIn_slots (h : Nat) (cur : KeyType × Tree h) (post : List (KeyType × Tree h)) :
    ∀ pre : List (KeyType × Tree h), (∀ e ∈ pre, Tree.pid h e.2 ≠ Tree.pid h cur.2) →
      InternalPage.ValueIndexIn (Tree.pid h cur.2) (slotsOf h (pre ++ cur :: post)) =
        some pre.length
  | [], _ => by
    rw [List.nil_append, slotsOf_cons]
    simp [InternalPage.ValueIndexIn]
  | e :: pre, hpre => by
    have h1 : Tree.pid h e.2 ≠ Tree.pid h cur.2 := hpre e (List.mem_cons_self _ _)
    have ih := ValueIndexIn_slots h cur post pre fun e' he' => hpre e' (List.mem_cons_of_mem _ he')
    rw [List.cons_append, slotsOf_cons]
    simp only [InternalPage.ValueIndexIn, if_neg h1, ih, Option.map_some', List.length_cons]

/-- The roots of the children before a child are other pages than its root. -/
theorem kidsIds_pre_ne {h : Nat} {pre post : List (KeyType × Tree h)} {cur : KeyType × Tree h}
    (hnd : (kidsIds h (pre ++ cur :: post)).Nodup) :
    ∀ e ∈ pre, Tree.pid h e.2 ≠ Tree.pid h cur.2 := by
  intro e he heq
  have h1 : e = cur := kidsIds_unique hnd (List.mem_append_left _ he)
    (List.mem_append_right _ (List.mem_cons_self _ _)) (Tree.pid_mem_ids h e.2)
    (heq ▸ Tree.pid_mem_ids h cur.2)
  subst h1
  rw [kidsIds_append, kidsIds_cons, List.nodup_append, List.disjoint_left] at hnd
  exact hnd.2.2 (mem_kidsIds.2 ⟨e, he, Tree.pid_mem_ids h e.2⟩)
    (List.mem_append_left _ (Tree.pid_mem_ids h e.2))

theorem nodup_surgery {x : page_id_t} {X M M1 Y : List page_id_t}
    (hnd : (x :: (X ++ M ++ Y)).Nodup) (h1 : M1.Nodup) (hsub : M1 ⊆ M) :
    (x :: (X ++ M1 ++ Y)).Nodup := by
  simp only [List.nodup_cons, List.nodup_append, List.mem_append, List.disjoint_left,
    not_or] at hnd ⊢
  obtain ⟨⟨⟨hxX, hxM⟩, hxY⟩, ⟨⟨hX, hM, hXM⟩, hY, hXMY⟩⟩ := hnd
  refine ⟨⟨⟨hxX, fun hm => hxM (hsub hm)⟩, hxY⟩, ⟨⟨hX, h1, fun a ha hm => hXM ha (hsub hm)⟩, hY,
    fun a ha => ?_⟩⟩
  rcases ha with ha | ha
  · exact hXMY (Or.inl ha)
  · exact hXMY (Or.inr (hsub ha))

/-- Local surgery on the children of a node: the slots `mid` give way to the slots `mid1`,
whose subtrees are represented in the new page table, and nothing else has changed. -/
theorem Rep.surgery {pages pages1 : page_id_t → Option BPlusTreePage} {h : Nat}
    (P : ANode (Tree h)) (parent : page_id_t) (X Y mid mid1 K1 : List (KeyType × Tree h))
    (hk : P.kids = X ++ mid ++ Y) (hk1 : K1 = X ++ mid1 ++ Y) (hr : Rep pages (h + 1) P parent)
    (hnd : (Tree.ids (h + 1) P).Nodup)
    (hP : pages1 P.id = some (.internal
      { parent_page_id := parent, max_size := P.max_size, array := slotsOf h K1 }))
    (hmid : ∀ e ∈ mid1, Rep pages1 h e.2 P.id)
    (hframe : ∀ x, x ∉ kidsIds h mid → x ≠ P.id → pages1 x = pages x) :
    Rep pages1 (h + 1) ({ P with kids := K1 } : ANode (Tree h)) parent := by
  subst hk1
  simp only [Rep] at hr ⊢
  rw [Tree.ids_succ, hk, List.nodup_cons] at hnd
  obtain ⟨hPid, hnd⟩ := hnd
  simp only [kidsIds_append, List.nodup_append, List.disjoint_left, List.mem_append] at hnd hPid
  refine ⟨hP, fun e he => ?_⟩
  have hold : ∀ e ∈ X ++ Y, Rep pages1 h e.2 P.id := by
    intro e he
    have hin : e ∈ P.kids := by
      rw [hk]
      rcases List.mem_append.1 he with h1 | h1
      · exact List.mem_append_left _ (List.mem_append_left _ h1)
      · exact List.mem_append_right _ h1
    refine Rep.frame h e.2 _ (hr.2 e hin) fun x hx => hframe x ?_ ?_
    · rcases List.mem_append.1 he with h1 | h1
      · exact fun hm => hnd.1.2.2 (mem_kidsIds.2 ⟨e, h1, hx⟩) hm
      · exact fun hm => hnd.2.2 (Or.inr hm) (mem_kidsIds.2 ⟨e, h1, hx⟩)
    · rintro rfl
      rcases List.mem_append.1 he with h1 | h1
      · exact hPid (Or.inl (Or.inl (mem_kidsIds.2 ⟨e, h1, hx⟩)))
      · exact hPid (Or.inr (mem_kidsIds.2 ⟨e, h1, hx⟩))
  rcases List.mem_append.1 he with h1 | h1
  · rcases List.mem_append.1 h1 with h2 | h2
    · exact hold e (List.mem_append_left _ h2)
    · exact hmid e h2
  · exact hold e (List.mem_append_right _ h1)

end BPlusTree

namespace BPlusTree

/-! ## The rebalancing steps on two neighbouring leaves -/

theorem eraseIdx_slots (h : Nat) (a b : KeyType × Tree h) (Y : List (KeyType × Tree h)) :
    ∀ X : List (KeyType × Tree h),
      (slotsOf h (X ++ a :: b :: Y)).eraseIdx (X.length + 1) = slotsOf h (X ++ a :: Y)
  | [] => by
    rw [List.nil_append, slotsOf_cons, slotsOf_cons, List.nil_append, slotsOf_cons]
    rfl
  | x :: X => by
    have ih := eraseIdx_slots h a b Y X
    rw [List.cons_append, slotsOf_cons, List.length_cons, List.eraseIdx_cons_succ, ih,
      List.cons_append, slotsOf_cons]

theorem ValueIndexIn_second {h : Nat} {X Y : List (KeyType × Tree h)} {a b : KeyType × Tree h}
    (hnd : (kidsIds h (X ++ a :: b :: Y)).Nodup) :
    InternalPage.ValueIndexIn (Tree.pid h b.2) (slotsOf h (X ++ a :: b :: Y)) =
      some (X.length + 1) := by
  have hk : X ++ a :: b :: Y = (X ++ [a]) ++ b :: Y := by simp
  rw [hk] at hnd ⊢
  rw [ValueIndexIn_slots h b Y (X ++ [a]) (kidsIds_pre_ne hnd)]
  simp

/-- The facts about two neighbouring leaves `A`, `B` below the node `P`. -/
theorem pair_leaf_facts {s : State} {P : ANode (Tree 0)} {parent : page_id_t}
    {X Y : List (KeyType × Tree 0)} {ka kb : KeyType} {A B : ALeaf}
    (hk : P.kids = X ++ ((ka, A) : KeyType × Tree 0) :: ((kb, B) : KeyType × Tree 0) :: Y) (hr : Rep s.pages 1 P parent)
    (hnd : (Tree.ids 1 P).Nodup) :
    s.pages P.id = some (.internal
      { parent_page_id := parent, max_size := P.max_size, array := slotsOf 0 P.kids }) ∧
    s.pages A.id = some (.leaf
      { parent_page_id := P.id, max_size := A.max_size, next_page_id := A.next,
        array := A.arr }) ∧
    s.pages B.id = some (.leaf
      { parent_page_id := P.id, max_size := B.max_size, next_page_id := B.next,
        array := B.arr }) ∧
    A.id ≠ B.id ∧ A.id ≠ P.id ∧ B.id ≠ P.id := by
  simp only [Rep] at hr
  have hA := hr.2 (ka, A) (by rw [hk]; simp)
  have hB := hr.2 (kb, B) (by rw [hk]; simp)
  simp only [Rep] at hA hB
  rw [Tree.ids_succ, hk, List.nodup_cons] at hnd
  simp only [kidsIds_append, kidsIds_cons, Tree.ids_zero, List.nodup_append, List.mem_append,
    List.disjoint_left, List.mem_singleton, List.mem_cons, List.singleton_append,
    List.nodup_cons, not_or] at hnd
  refine ⟨hr.1, hA, hB, ?_, ?_, ?_⟩
  · intro h
    exact hnd.2.2.1.1.1 h
  · intro h
    exact hnd.1.2.1 h.symm
  · intro h
    exact hnd.1.2.2.1 h.symm

/-- `Coalesce` of two neighbouring leaves `A`, `B` below the node `P` (called for the node
`B` with its left sibling `A`, or for the first child `A` with its right sibling `B`): `A`
takes the pairs and the next pointer of `B`, the slot of `B` leaves `P`, and `B` is
scheduled for deletion. -/
theorem Coalesce_leaf (recurse : State → page_id_t → Except Fault (Bool × State)) {s : State}
    {P : ANode (Tree 0)} {parent : page_id_t} {X Y : List (KeyType × Tree 0)} {ka kb : KeyType}
    {A B : ALeaf}
    (hk : P.kids = X ++ ((ka, A) : KeyType × Tree 0) :: ((kb, B) : KeyType × Tree 0) :: Y)
    (hr : Rep s.pages 1 P parent) (hnd : (Tree.ids 1 P).Nodup)
    {neighbor_node node : page_id_t} {index : Nat}
    (hargs : (neighbor_node = A.id ∧ node = B.id ∧ index = X.length + 1) ∨
      (neighbor_node = B.id ∧ node = A.id ∧ index = 0)) :
    ∃ s3, Coalesce recurse true s neighbor_node node index =
        (if (X ++ ((ka, A) : KeyType × Tree 0) :: Y).length < (P.max_size + 1) / 2 then
          recurse s3 P.id else .ok (false, s3)) ∧
      Rep s3.pages 1 ({ P with kids := X ++ ((ka,
        ({ id := A.id, max_size := A.max_size, next := B.next, arr := A.arr ++ B.arr } : ALeaf)) :
          KeyType × Tree 0) :: Y } : ANode (Tree 0)) parent ∧
      (∀ x, x ∉ Tree.ids 1 P → s3.pages x = s.pages x) ∧
      s3.txn.page_set = s.txn.page_set ∧
      s3.txn.deleted_page_set = B.id :: s.txn.deleted_page_set ∧ Fixed s s3 := by
  obtain ⟨hP, hA, hB, hAB, hAP, hBP⟩ := pair_leaf_facts hk hr hnd
  have hidx : InternalPage.ValueIndexIn B.id
      (slotsOf 0 X ++ (ka, A.id) :: (kb, B.id) :: slotsOf 0 Y) = some (X.length + 1) := by
    rw [Tree.ids_succ, hk, List.nodup_cons] at hnd
    simpa [slotsOf_append, slotsOf_cons] using
      @ValueIndexIn_second 0 X Y ((ka, A) : KeyType × Tree 0) ((kb, B) : KeyType × Tree 0) hnd.2
  have herase : (slotsOf 0 X ++ (ka, A.id) :: (kb, B.id) :: slotsOf 0 Y).eraseIdx
      (X.length + 1) = slotsOf 0 X ++ (ka, A.id) :: slotsOf 0 Y := by
    simpa [slotsOf_append, slotsOf_cons] using
      eraseIdx_slots 0 ((ka, A) : KeyType × Tree 0) ((kb, B) : KeyType × Tree 0) Y X
  have hlt : X.length + 1 < X.length + (Y.length + 1 + 1) := by omega
  refine ⟨AddIntoDeletedPageSet (WriteInternal (WriteLeaf (WriteLeaf (WriteLeaf s A.id
      { parent_page_id := P.id, max_size := A.max_size, next_page_id := A.next,
        array := A.arr ++ B.arr }) B.id
      { parent_page_id := P.id, max_size := B.max_size, next_page_id := B.next,
        array := [] }) A.id
      { parent_page_id := P.id, max_size := A.max_size, next_page_id := B.next,
        array := A.arr ++ B.arr }) P.id
      { parent_page_id := parent, max_size := P.max_size,
        array := slotsOf 0 (X ++ ((ka, A) : KeyType × Tree 0) :: Y) }) B.id, ?_, ?_, ?_, rfl, rfl,
    ⟨rfl, rfl, rfl, rfl, rfl⟩⟩
  · rcases hargs with ⟨rfl, rfl, rfl⟩ | ⟨rfl, rfl, rfl⟩
    · simp [Coalesce, FetchPage, FetchLeaf, FetchInternal, hP, hA, hB, hAB, hAP, hBP,
        Ne.symm hAB, Ne.symm hAP, Ne.symm hBP, LeafMoveAllTo, WriteLeaf, WriteInternal,
        BPlusTreePage.GetParentPageId, InternalPage.ValueIndex, hidx, InternalPage.Remove,
        hlt, herase, InternalPage.GetSize, InternalPage.GetMinSize, hk, slotsOf_length]
    · simp [Coalesce, FetchPage, FetchLeaf, FetchInternal, hP, hA, hB, hAB, hAP, hBP,
        Ne.symm hAB, Ne.symm hAP, Ne.symm hBP, LeafMoveAllTo, WriteLeaf, WriteInternal,
        BPlusTreePage.GetParentPageId, InternalPage.ValueIndex, hidx, InternalPage.Remove,
        hlt, herase, InternalPage.GetSize, InternalPage.GetMinSize, hk, slotsOf_length]
  · refine Rep.surgery P parent X Y
      [((ka, A) : KeyType × Tree 0), ((kb, B) : KeyType × Tree 0)]
      [((ka, ({ id := A.id, max_size := A.max_size, next := B.next, arr := A.arr ++ B.arr } :
        ALeaf)) : KeyType × Tree 0)] _ (by simp [hk]) (by simp) hr hnd ?_ ?_ ?_
    · simp [AddIntoDeletedPageSet, WriteInternal, WriteLeaf, slotsOf_append, slotsOf_cons]
    · intro e he
      simp only [List.mem_singleton] at he
      subst he
      simp [Rep, AddIntoDeletedPageSet, WriteInternal, WriteLeaf, hAP]
    · intro x hx hxP
      simp only [kidsIds_cons, kidsIds_nil, Tree.ids_zero, List.append_nil, List.singleton_append,
        List.mem_cons, List.mem_singleton, not_or, List.not_mem_nil, or_false] at hx
      simp [AddIntoDeletedPageSet, WriteInternal, WriteLeaf, hxP, hx.1, hx.2]
  · intro x hx
    rw [Tree.ids_succ, hk] at hx
    simp only [kidsIds_append, kidsIds_cons, Tree.ids_zero, List.mem_cons, List.mem_append,
      List.mem_singleton, not_or, List.singleton_append] at hx
    simp [AddIntoDeletedPageSet, WriteInternal, WriteLeaf, hx.1, hx.2.2.1, hx.2.2.2.1]

theorem SetKeyAtIn_second (k : KeyType) (a : KeyType × page_id_t) (kb : KeyType) (b : page_id_t)
    (rest : List (KeyType × page_id_t)) :
    ∀ L : List (KeyType × page_id_t),
      InternalPage.SetKeyAtIn k (L.length + 1) (L ++ a :: (kb, b) :: rest) =
        L ++ a :: (k, b) :: rest
  | [] => rfl
  | x :: L => by
    rw [List.cons_append, List.length_cons]
    simp only [InternalPage.SetKeyAtIn, SetKeyAtIn_second k a kb b rest L, List.cons_append]

/-- `Redistribute` for the leaf `B` with its left sibling `A`: the last pair of `A` moves to
the front of `B` and its key becomes the separator of `B` in the parent. -/
theorem Redistribute_leaf_left {s s2 : State} {P : ANode (Tree 0)} {parent : page_id_t}
    {X Y : List (KeyType × Tree 0)} {ka kb : KeyType} {A B : ALeaf}
    (hk : P.kids = X ++ ((ka, A) : KeyType × Tree 0) :: ((kb, B) : KeyType × Tree 0) :: Y)
    (hr : Rep s.pages 1 P parent) (hnd : (Tree.ids 1 P).Nodup)
    (hred : Redistribute s A.id B.id (X.length + 1) = .ok s2) :
    ∃ (arrA arrB : List MappingType) (kb1 : KeyType),
      Rep s2.pages 1 ({ P with kids := X ++ ((ka,
        ({ id := A.id, max_size := A.max_size, next := A.next, arr := arrA } : ALeaf)) :
          KeyType × Tree 0) :: ((kb1,
        ({ id := B.id, max_size := B.max_size, next := B.next, arr := arrB } : ALeaf)) :
          KeyType × Tree 0) :: Y } : ANode (Tree 0)) parent ∧
      (∀ x, x ∉ Tree.ids 1 P → s2.pages x = s.pages x) ∧ s2.txn = s.txn ∧ Fixed s s2 := by
  obtain ⟨hP, hA, hB, hAB, hAP, hBP⟩ := pair_leaf_facts hk hr hnd
  have hset : ∀ k : KeyType, InternalPage.SetKeyAtIn k (X.length + 1)
      (slotsOf 0 X ++ (ka, A.id) :: (kb, B.id) :: slotsOf 0 Y) =
        slotsOf 0 X ++ (ka, A.id) :: (k, B.id) :: slotsOf 0 Y := fun k => by
    simpa [slotsOf_length] using SetKeyAtIn_second k (ka, A.id) kb B.id (slotsOf 0 Y) (slotsOf 0 X)
  have hlt : X.length + 1 < X.length + (Y.length + 1 + 1) := by omega
  rcases List.eq_nil_or_concat A.arr with hnil | ⟨init, e, hcat⟩
  · simp [Redistribute, FetchPage, FetchLeaf, FetchInternal, hP, hA, hB,
      BPlusTreePage.GetParentPageId, LeafPage.KeyAt, LeafPage.GetSize, hnil] at hred
  · simp [Redistribute, FetchPage, FetchLeaf, FetchInternal, hP, hA, hB, hAB, hAP, hBP,
      Ne.symm hAB, Ne.symm hAP, Ne.symm hBP, BPlusTreePage.GetParentPageId, LeafPage.KeyAt,
      LeafPage.GetSize, hcat, LeafMoveLastToFrontOf, WriteLeaf, WriteInternal,
      InternalPage.SetKeyAt, hk, slotsOf_length, hlt, hset] at hred
    subst hred
    refine ⟨init, e :: B.arr, e.1, ?_, ?_, rfl, ⟨rfl, rfl, rfl, rfl, rfl⟩⟩
    · refine Rep.surgery P parent X Y
        [((ka, A) : KeyType × Tree 0), ((kb, B) : KeyType × Tree 0)] _ _ (by simp [hk])
        (List.append_assoc X [_, _] Y).symm hr hnd ?_ ?_ ?_
      · simp [slotsOf_append, slotsOf_cons]
      · intro e1 he1
        simp only [List.mem_cons, List.mem_singleton, List.not_mem_nil, or_false] at he1
        rcases he1 with rfl | rfl
        · simp [Rep, hAP, hAB, Ne.symm hAB]
        · simp [Rep, hBP, hAB, Ne.symm hAB]
      · intro x hx hxP
        simp only [kidsIds_cons, kidsIds_nil, Tree.ids_zero, List.append_nil,
          List.singleton_append, List.mem_cons, List.mem_singleton, not_or, List.not_mem_nil,
          or_false] at hx
        simp [hxP, hx.1, hx.2]
    · intro x hx
      rw [Tree.ids_succ, hk] at hx
      simp only [kidsIds_append, kidsIds_cons, Tree.ids_zero, List.mem_cons, List.mem_append,
        List.mem_singleton, not_or, List.singleton_append] at hx
      simp [hx.1, hx.2.2.1, hx.2.2.2.1]

/-- `Redistribute` for the first leaf `A` with its right sibling `B`: the first pair of `B`
moves to the end of `A` and the key of the second pair of `B` becomes the separator. -/
theorem Redistribute_leaf_right {s s2 : State} {P : ANode (Tree 0)} {parent : page_id_t}
    {Y : List (KeyType × Tree 0)} {ka kb : KeyType} {A B : ALeaf}
    (hk : P.kids = ((ka, A) : KeyType × Tree 0) :: ((kb, B) : KeyType × Tree 0) :: Y)
    (hr : Rep s.pages 1 P parent) (hnd : (Tree.ids 1 P).Nodup)
    (hred : Redistribute s B.id A.id 0 = .ok s2) :
    ∃ (arrA arrB : List MappingType) (kb1 : KeyType),
      Rep s2.pages 1 ({ P with kids := ((ka,
        ({ id := A.id, max_size := A.max_size, next := A.next, arr := arrA } : ALeaf)) :
          KeyType × Tree 0) :: ((kb1,
        ({ id := B.id, max_size := B.max_size, next := B.next, arr := arrB } : ALeaf)) :
          KeyType × Tree 0) :: Y } : ANode (Tree 0)) parent ∧
      (∀ x, x ∉ Tree.ids 1 P → s2.pages x = s.pages x) ∧ s2.txn = s.txn ∧ Fixed s s2 := by
  have hk0 : P.kids = [] ++ ((ka, A) : KeyType × Tree 0) :: ((kb, B) : KeyType × Tree 0) :: Y :=
    hk
  obtain ⟨hP, hA, hB, hAB, hAP, hBP⟩ := pair_leaf_facts hk0 hr hnd
  cases hB0 : B.arr with
  | nil =>
    simp [Redistribute, FetchPage, FetchLeaf, FetchInternal, hP, hA, hB,
      BPlusTreePage.GetParentPageId, LeafPage.KeyAt, LeafPage.GetSize, hB0] at hred
  | cons e es =>
    cases hB1 : es with
    | nil =>
      simp [Redistribute, FetchPage, FetchLeaf, FetchInternal, hP, hA, hB,
        BPlusTreePage.GetParentPageId, LeafPage.KeyAt, LeafPage.GetSize, hB0, hB1] at hred
    | cons e2 es2 =>
      simp [Redistribute, FetchPage, FetchLeaf, FetchInternal, hP, hA, hB, hAB, hAP, hBP,
        Ne.symm hAB, Ne.symm hAP, Ne.symm hBP, BPlusTreePage.GetParentPageId, LeafPage.KeyAt,
        LeafPage.GetSize, hB0, hB1, LeafMoveFirstToEndOf, WriteLeaf, WriteInternal,
        InternalPage.SetKeyAt, hk, slotsOf_length, slotsOf_cons, InternalPage.SetKeyAtIn]
        at hred
      subst hred
      refine ⟨A.arr ++ [e], e2 :: es2, e2.1, ?_, ?_, rfl, ⟨rfl, rfl, rfl, rfl, rfl⟩⟩
      · refine Rep.surgery P parent [] Y
          [((ka, A) : KeyType × Tree 0), ((kb, B) : KeyType × Tree 0)] _ _ (by simp [hk])
          (List.append_assoc [] [_, _] Y).symm hr hnd ?_ ?_ ?_
        · simp [slotsOf_append, slotsOf_cons]
        · intro e1 he1
          simp only [List.mem_cons, List.mem_singleton, List.not_mem_nil, or_false] at he1
          rcases he1 with rfl | rfl
          · simp [Rep, hAP, hAB, Ne.symm hAB]
          · simp [Rep, hBP, hAB, Ne.symm hAB]
        · intro x hx hxP
          simp only [kidsIds_cons, kidsIds_nil, Tree.ids_zero, List.append_nil,
            List.singleton_append, List.mem_cons, List.mem_singleton, not_or, List.not_mem_nil,
            or_false] at hx
          simp [hxP, hx.1, hx.2]
      · intro x hx
        rw [Tree.ids_succ, hk] at hx
        simp only [kidsIds_append, kidsIds_cons, Tree.ids_zero, List.mem_cons, List.mem_append,
          List.mem_singleton, not_or, List.singleton_append] at hx
        simp [hx.1, hx.2.1, hx.2.2.1]

/-! ## The rebalancing steps on two neighbouring internal nodes -/

theorem SetKeyAtIn_snd (k : KeyType) : ∀ (i : Nat) (arr : List (KeyType × page_id_t)),
    (InternalPage.SetKeyAtIn k i arr).map (·.2) = arr.map (·.2)
  | 0, [] => rfl
  | _ + 1, [] => rfl
  | 0, _ :: _ => rfl
  | i + 1, e :: es => by
    simp only [InternalPage.SetKeyAtIn, List.map_cons, SetKeyAtIn_snd k i es]

theorem Fixed.trans_fixed {a b c : State} (h1 : Fixed a b) (h2 : Fixed b c) : Fixed a c :=
  ⟨h2.root.trans h1.root, h2.header.trans h1.header, h2.next.trans h1.next,
    h2.lmax.trans h1.lmax, h2.imax.trans h1.imax⟩

/-- Re-pointing children leaves the other fields of the state alone. -/
theorem SetParents_fixed (parent : page_id_t) (cs : List page_id_t) (s : State)
    (hcs : ∀ c ∈ cs, s.pages c ≠ none) :
    ∃ s1, SetParents parent cs s = .ok s1 ∧ Fixed s s1 ∧ s1.txn = s.txn ∧
      ∀ x, s1.pages x =
        if x ∈ cs then (s.pages x).map (BPlusTreePage.SetParentPageId parent) else s.pages x := by
  obtain ⟨s1, h1, h2, h3, h4⟩ := SetParents_ok parent cs s hcs
  exact ⟨s1, h1, ⟨h2.root, h2.header, h3, h2.lmax, h2.imax⟩, h2.txn, h4⟩

theorem InternalMoveAllTo_ok {s : State} {node recipient : page_id_t} (k : KeyType)
    {p r : InternalPage} (hp : s.pages node = some (.internal p))
    (hr : s.pages recipient = some (.internal r)) (hne : node ≠ recipient)
    (hkids : ∀ c ∈ p.array.map (·.2), s.pages c ≠ none ∧ c ≠ node ∧ c ≠ recipient) :
    ∃ s1, InternalMoveAllTo s node recipient k = .ok s1 ∧
      s1.pages recipient = some (.internal
        { r with array := r.array ++ InternalPage.SetKeyAtIn k 0 p.array }) ∧
      s1.pages node = some (.internal { p with array := [] }) ∧
      (∀ x, x ≠ node → x ≠ recipient → s1.pages x =
        if x ∈ p.array.map (·.2) then
          (s.pages x).map (BPlusTreePage.SetParentPageId recipient) else s.pages x) ∧
      Fixed s s1 ∧ s1.txn = s.txn := by
  obtain ⟨s1, h1, h2, h3, h4⟩ := SetParents_fixed recipient
    ((InternalPage.SetKeyAtIn k 0 p.array).map (·.2))
    (WriteInternal (WriteInternal s recipient
      { r with array := r.array ++ InternalPage.SetKeyAtIn k 0 p.array }) node
      { p with array := [] }) (by
        intro c hc
        rw [SetKeyAtIn_snd] at hc
        obtain ⟨hc1, hc2, hc3⟩ := hkids c hc
        simpa [WriteInternal, hc2, hc3] using hc1)
  refine ⟨s1, ?_, ?_, ?_, ?_, ⟨h2.root, h2.header, h2.next, h2.lmax, h2.imax⟩, h3⟩
  · simp only [InternalMoveAllTo, FetchInternal_ok hp, FetchInternal_ok hr, ok_bind]
    exact h1
  · rw [h4, SetKeyAtIn_snd, if_neg fun hm => (hkids _ hm).2.2 rfl]
    simp [WriteInternal, Ne.symm hne]
  · rw [h4, SetKeyAtIn_snd, if_neg fun hm => (hkids _ hm).2.1 rfl]
    simp [WriteInternal]
  · intro x hx1 hx2
    rw [h4, SetKeyAtIn_snd]
    simp [WriteInternal, hx1, hx2]

theorem InternalMoveFirstToEndOf_ok {s : State} {node recipient : page_id_t} (k : KeyType)
    {p r : InternalPage} {e : KeyType × page_id_t} {es : List (KeyType × page_id_t)}
    (hp : s.pages node = some (.internal p)) (hr : s.pages recipient = some (.internal r))
    (hne : node ≠ recipient) (harr : p.array = e :: es) {n : BPlusTreePage}
    (hc : s.pages e.2 = some n) (hc1 : e.2 ≠ node) (hc2 : e.2 ≠ recipient) :
    ∃ s1, InternalMoveFirstToEndOf s node recipient k = .ok s1 ∧
      s1.pages recipient = some (.internal { r with array := r.array ++ [(k, e.2)] }) ∧
      s1.pages node = some (.internal { p with array := es }) ∧
      s1.pages e.2 = some (n.SetParentPageId recipient) ∧
      (∀ x, x ≠ node → x ≠ recipient → x ≠ e.2 → s1.pages x = s.pages x) ∧
      Fixed s s1 ∧ s1.txn = s.txn := by
  refine ⟨((WriteInternal (WriteInternal s recipient { r with array := r.array ++ [(k, e.2)] })
      node { p with array := es }).setPage e.2 (n.SetParentPageId recipient)), ?_, ?_, ?_, ?_, ?_,
    ⟨rfl, rfl, rfl, rfl, rfl⟩, rfl⟩
  · simp only [InternalMoveFirstToEndOf, FetchInternal_ok hp, FetchInternal_ok hr, ok_bind, harr]
    rw [@SetParent_ok _ _ n]
    simp [WriteInternal, hc1, hc2, hc]
  · simp [WriteInternal, Ne.symm hc2, Ne.symm hne]
  · simp [WriteInternal, Ne.symm hc1]
  · simp [WriteInternal]
  · intro x h1 h2 h3
    simp [WriteInternal, h1, h2, h3]

theorem InternalMoveLastToFrontOf_ok {s : State} {node recipient : page_id_t} (k : KeyType)
    {p r : InternalPage} {e : KeyType × page_id_t} {init : List (KeyType × page_id_t)}
    (hp : s.pages node = some (.internal p)) (hr : s.pages recipient = some (.internal r))
    (hne : node ≠ recipient) (harr : p.array = init ++ [e]) {n : BPlusTreePage}
    (hc : s.pages e.2 = some n) (hc1 : e.2 ≠ node) (hc2 : e.2 ≠ recipient) :
    ∃ s1, InternalMoveLastToFrontOf s node recipient k = .ok s1 ∧
      s1.pages recipient = some (.internal
        { r with array := e :: InternalPage.SetKeyAtIn k 0 r.array }) ∧
      s1.pages node = some (.internal { p with array := init }) ∧
      s1.pages e.2 = some (n.SetParentPageId recipient) ∧
      (∀ x, x ≠ node → x ≠ recipient → x ≠ e.2 → s1.pages x = s.pages x) ∧
      Fixed s s1 ∧ s1.txn = s.txn := by
  refine ⟨((WriteInternal (WriteInternal s recipient
      { r with array := e :: InternalPage.SetKeyAtIn k 0 r.array })
      node { p with array := init }).setPage e.2 (n.SetParentPageId recipient)), ?_, ?_, ?_, ?_,
    ?_, ⟨rfl, rfl, rfl, rfl, rfl⟩, rfl⟩
  · simp only [InternalMoveLastToFrontOf, FetchInternal_ok hp, FetchInternal_ok hr, ok_bind,
      harr, List.getLast?_append, List.getLast?_singleton, Option.or_some,
      List.dropLast_concat]
    rw [@SetParent_ok _ _ n]
    simp [WriteInternal, hc1, hc2, hc]
  · simp [WriteInternal, Ne.symm hc2, Ne.symm hne]
  · simp [WriteInternal, Ne.symm hc1]
  · simp [WriteInternal]
  · intro x h1 h2 h3
    simp [WriteInternal, h1, h2, h3]

theorem slotsOf_rekey (h : Nat) (k : KeyType) :
    ∀ K : List (KeyType × Tree h), slotsOf h (rekey k K) = InternalPage.SetKeyAtIn k 0 (slotsOf h K)
  | [] => rfl
  | _ :: _ => rfl

theorem kidsIds_rekey (h : Nat) (k : KeyType) :
    ∀ K : List (KeyType × Tree h), kidsIds h (rekey k K) = kidsIds h K
  | [] => rfl
  | _ :: _ => rfl

theorem mem_rekey {α : Type} {k : KeyType} {e : KeyType × α} :
    ∀ {K : List (KeyType × α)}, e ∈ rekey k K → ∃ e0 ∈ K, e.2 = e0.2
  | [], he => absurd he (List.not_mem_nil _)
  | a :: K, he => by
    rcases List.mem_cons.1 he with rfl | h1
    · exact ⟨a, List.mem_cons_self _ _, rfl⟩
    · exact ⟨e, List.mem_cons_of_mem _ h1, rfl⟩

theorem slotsOf_snd (h : Nat) (K : List (KeyType × Tree h)) :
    (slotsOf h K).map (·.2) = K.map fun e => Tree.pid h e.2 := by
  simp [slotsOf]

/-- The facts about two neighbouring internal nodes `A`, `B` below the node `P`. -/
theorem pair_node_facts {s : State} {h : Nat} {P : ANode (Tree (h + 1))} {parent : page_id_t}
    {X Y : List (KeyType × Tree (h + 1))} {ka kb : KeyType} {A B : ANode (Tree h)}
    (hk : P.kids = X ++ ((ka, A) : KeyType × Tree (h + 1)) ::
      ((kb, B) : KeyType × Tree (h + 1)) :: Y)
    (hr : Rep s.pages (h + 2) P parent) (hnd : (Tree.ids (h + 2) P).Nodup) :
    s.pages P.id = some (.internal
      { parent_page_id := parent, max_size := P.max_size, array := slotsOf (h + 1) P.kids }) ∧
    s.pages A.id = some (.internal
      { parent_page_id := P.id, max_size := A.max_size, array := slotsOf h A.kids }) ∧
    s.pages B.id = some (.internal
      { parent_page_id := P.id, max_size := B.max_size, array := slotsOf h B.kids }) ∧
    (∀ e ∈ A.kids, Rep s.pages h e.2 A.id) ∧ (∀ e ∈ B.kids, Rep s.pages h e.2 B.id) ∧
    A.id ≠ B.id ∧ A.id ≠ P.id ∧ B.id ≠ P.id ∧
    (∀ x ∈ kidsIds h A.kids, x ≠ A.id ∧ x ≠ B.id ∧ x ≠ P.id ∧ x ∉ kidsIds h B.kids) ∧
    (∀ x ∈ kidsIds h B.kids, x ≠ A.id ∧ x ≠ B.id ∧ x ≠ P.id) ∧
    (kidsIds h A.kids).Nodup ∧ (kidsIds h B.kids).Nodup := by
  simp only [Rep] at hr
  have hA := hr.2 (ka, A) (by rw [hk]; simp)
  have hB := hr.2 (kb, B) (by rw [hk]; simp)
  simp only [Rep] at hA hB
  rw [Tree.ids_succ, hk, List.nodup_cons] at hnd
  simp only [kidsIds_append, kidsIds_cons, Tree.ids_succ, List.nodup_append, List.mem_append,
    List.disjoint_left, List.mem_cons, List.nodup_cons, not_or, List.cons_append] at hnd
  obtain ⟨⟨-, hPA, hPAk, hPB, hPBk, -⟩, -, ⟨⟨hAAk, hAB, hABk, -⟩, hAk,
    ⟨⟨hBBk, -⟩, hBk, -, -⟩, hAkB⟩, -⟩ := hnd
  refine ⟨hr.1, hA.1, hB.1, hA.2, hB.2, hAB, fun heq => hPA heq.symm, fun heq => hPB heq.symm,
    ?_, ?_, hAk, hBk⟩
  · intro x hx
    exact ⟨fun heq => hAAk (heq ▸ hx), (hAkB hx).1, fun heq => hPAk (heq ▸ hx), (hAkB hx).2.1⟩
  · intro x hx
    exact ⟨fun heq => hABk (heq ▸ hx), fun heq => hBBk (heq ▸ hx), fun heq => hPBk (heq ▸ hx)⟩

theorem get?_slots_second (h : Nat) (a b : KeyType × Tree h) (Y : List (KeyType × Tree h)) :
    ∀ X : List (KeyType × Tree h),
      (slotsOf h (X ++ a :: b :: Y)).get? (X.length + 1) = some (b.1, Tree.pid h b.2)
  | [] => by
    rw [List.nil_append, slotsOf_cons, slotsOf_cons]
    rfl
  | x :: X => by
    rw [List.cons_append, slotsOf_cons, List.length_cons]
    exact get?_slots_second h a b Y X

theorem pid_mem_kidsIds {h : Nat} {K : List (KeyType × Tree h)} {e : KeyType × Tree h}
    (he : e ∈ K) : Tree.pid h e.2 ∈ kidsIds h K :=
  mem_kidsIds.2 ⟨e, he, Tree.pid_mem_ids h e.2⟩

/-- `Coalesce` of two neighbouring internal nodes `A`, `B` below the node `P`: `A` takes the
children of `B`, the first of them under the separator of `B`, the slot of `B` leaves `P`,
and `B` is scheduled for deletion. -/
theorem Coalesce_node (recurse : State → page_id_t → Except Fault (Bool × State)) {s : State}
    {h : Nat} {P : ANode (Tree (h + 1))} {parent : page_id_t}
    {X Y : List (KeyType × Tree (h + 1))} {ka kb : KeyType} {A B : ANode (Tree h)}
    (hk : P.kids = X ++ ((ka, A) : KeyType × Tree (h + 1)) ::
      ((kb, B) : KeyType × Tree (h + 1)) :: Y)
    (hr : Rep s.pages (h + 2) P parent) (hnd : (Tree.ids (h + 2) P).Nodup)
    {neighbor_node node : page_id_t} {index : Nat}
    (hargs : (neighbor_node = A.id ∧ node = B.id ∧ index = X.length + 1) ∨
      (neighbor_node = B.id ∧ node = A.id ∧ index = 0 ∧ X = [])) :
    ∃ s3, Coalesce recurse true s neighbor_node node index =
        (if (X ++ ((ka, A) : KeyType × Tree (h + 1)) :: Y).length < (P.max_size + 1) / 2 then
          recurse s3 P.id else .ok (false, s3)) ∧
      Rep s3.pages (h + 2) ({ P with kids := X ++ ((ka,
        ({ id := A.id, max_size := A.max_size, kids := A.kids ++ rekey kb B.kids } :
          ANode (Tree h))) : KeyType × Tree (h + 1)) :: Y } : ANode (Tree (h + 1))) parent ∧
      (∀ x, x ∉ Tree.ids (h + 2) P → s3.pages x = s.pages x) ∧
      s3.txn.page_set = s.txn.page_set ∧
      s3.txn.deleted_page_set = B.id :: s.txn.deleted_page_set ∧ Fixed s s3 := by
  obtain ⟨hP, hA, hB, hAk, hBk, hAB, hAP, hBP, hnA, hnB, hndA, hndB⟩ :=
    pair_node_facts hk hr hnd
  have hBroot : ∀ c ∈ (slotsOf h B.kids).map (·.2), c ∈ kidsIds h B.kids := by
    intro c hc
    obtain ⟨e, he, rfl⟩ := mem_slotsOf_snd.1 hc
    exact pid_mem_kidsIds he
  obtain ⟨s1, hmv, hs1A, hs1B, hs1x, hfix, htxn⟩ := InternalMoveAllTo_ok kb hB hA (Ne.symm hAB)
    (fun c hc => by
      obtain ⟨e, he, rfl⟩ := mem_slotsOf_snd.1 hc
      have := hnB _ (pid_mem_kidsIds he)
      exact ⟨Rep.page_some h e.2 _ (hBk e he) _ (Tree.pid_mem_ids h e.2), this.2.1, this.1⟩)
  have hs1P : s1.pages P.id = some (.internal
      { parent_page_id := parent, max_size := P.max_size, array := slotsOf (h + 1) P.kids }) := by
    rw [hs1x P.id (Ne.symm hBP) (Ne.symm hAP), if_neg fun hm => (hnB _ (hBroot _ hm)).2.2 rfl]
    exact hP
  have hidx : InternalPage.ValueIndexIn B.id (slotsOf (h + 1) P.kids) = some (X.length + 1) := by
    rw [hk]
    rw [Tree.ids_succ, hk, List.nodup_cons] at hnd
    exact @ValueIndexIn_second (h + 1) X Y ((ka, A) : KeyType × Tree (h + 1))
      ((kb, B) : KeyType × Tree (h + 1)) hnd.2
  have herase : (slotsOf (h + 1) P.kids).eraseIdx (X.length + 1) =
      slotsOf (h + 1) (X ++ ((ka, A) : KeyType × Tree (h + 1)) :: Y) := by
    rw [hk]
    exact eraseIdx_slots (h + 1) _ _ Y X
  have hget : (slotsOf (h + 1) P.kids).get? (X.length + 1) = some (kb, B.id) := by
    rw [hk]
    exact get?_slots_second (h + 1) _ ((kb, B) : KeyType × Tree (h + 1)) Y X
  have hlt : X.length + 1 < P.kids.length := by
    rw [hk]
    simp
  refine ⟨AddIntoDeletedPageSet (WriteInternal s1 P.id
      { parent_page_id := parent, max_size := P.max_size,
        array := slotsOf (h + 1) (X ++ ((ka, A) : KeyType × Tree (h + 1)) :: Y) }) B.id,
    ?_, ?_, ?_, htxn ▸ rfl, ?_, ?_⟩
  · rcases hargs with ⟨rfl, rfl, rfl⟩ | ⟨rfl, rfl, rfl, rfl⟩
    · simp only [Coalesce, FetchPage_ok hB, BPlusTreePage.GetParentPageId, FetchInternal_ok hP,
        ok_bind, Nat.succ_ne_zero, if_false, InternalPage.KeyAt, hget, hmv,
        FetchInternal_ok hs1P, InternalPage.ValueIndex, hidx, InternalPage.Remove, hlt, if_true,
        herase, InternalPage.GetSize, InternalPage.GetMinSize, slotsOf_length]
      rfl
    · have hget1 : (slotsOf (h + 1) P.kids).get? 1 = some (kb, B.id) := hget
      simp only [Coalesce, FetchPage_ok hB, FetchPage_ok hA, BPlusTreePage.GetParentPageId, hget1,
        FetchInternal_ok hP,
        ok_bind, Nat.succ_ne_zero, if_false, InternalPage.KeyAt, hget, hmv,
        FetchInternal_ok hs1P, InternalPage.ValueIndex, hidx, InternalPage.Remove, hlt, if_true,
        herase, InternalPage.GetSize, InternalPage.GetMinSize, slotsOf_length]
      rfl
  · have hother : ∀ x, x ≠ P.id → x ≠ A.id → x ≠ B.id → x ∉ kidsIds h B.kids →
        (AddIntoDeletedPageSet (WriteInternal s1 P.id
          { parent_page_id := parent, max_size := P.max_size,
            array := slotsOf (h + 1) (X ++ ((ka, A) : KeyType × Tree (h + 1)) :: Y) })
          B.id).pages x = s.pages x := by
      intro x h1 h2 h3 h4
      simp only [AddIntoDeletedPageSet, WriteInternal, setPage_pages, if_neg h1]
      rw [hs1x x h3 h2, if_neg fun hm => h4 (hBroot _ hm)]
    refine Rep.surgery P parent X Y
      [((ka, A) : KeyType × Tree (h + 1)), ((kb, B) : KeyType × Tree (h + 1))]
      [((ka, ({ id := A.id, max_size := A.max_size, kids := A.kids ++ rekey kb B.kids } :
        ANode (Tree h))) : KeyType × Tree (h + 1))] _ (by simp [hk]) (by simp) hr hnd ?_ ?_ ?_
    · simp [AddIntoDeletedPageSet, WriteInternal, slotsOf_append, slotsOf_cons]
    · intro e he
      simp only [List.mem_singleton] at he
      subst he
      simp only [Rep]
      refine ⟨?_, fun e he => ?_⟩
      · simp only [AddIntoDeletedPageSet, WriteInternal, setPage_pages, if_neg hAP, hs1A,
          slotsOf_append, slotsOf_rekey]
      · rcases List.mem_append.1 he with h1 | h1
        · refine Rep.frame h e.2 _ (hAk e h1) fun x hx => ?_
          have := hnA x (mem_kidsIds.2 ⟨e, h1, hx⟩)
          exact hother x this.2.2.1 this.1 this.2.1 this.2.2.2
        · obtain ⟨e0, he0, heq⟩ := mem_rekey h1
          rw [heq]
          have hroot := hnB _ (pid_mem_kidsIds he0)
          refine Rep.repoint h e0.2 B.id A.id (hBk e0 he0) (kidsIds_nodup_kid hndB he0) ?_ ?_
          · simp only [AddIntoDeletedPageSet, WriteInternal, setPage_pages, if_neg hroot.2.2]
            rw [hs1x _ hroot.2.1 hroot.1, if_pos (mem_slotsOf_snd.2 ⟨e0, he0, rfl⟩),
              Rep.page_eq h e0.2 _ (hBk e0 he0), Option.map_some', SetParentPageId_page]
          · intro x hx hxne
            have hxB := hnB x (mem_kidsIds.2 ⟨e0, he0, hx⟩)
            simp only [AddIntoDeletedPageSet, WriteInternal, setPage_pages, if_neg hxB.2.2]
            rw [hs1x x hxB.2.1 hxB.1, if_neg]
            intro hm
            obtain ⟨e1, he1, hpid⟩ := mem_slotsOf_snd.1 hm
            have := kidsIds_unique hndB he1 he0 (hpid ▸ Tree.pid_mem_ids h e1.2) hx
            subst this
            exact hxne hpid.symm
    · intro x hx hxP
      simp only [kidsIds_cons, kidsIds_nil, Tree.ids_succ, List.append_nil, List.mem_append,
        List.mem_cons, not_or] at hx
      exact hother x hxP hx.1.1 hx.2.1 hx.2.2
  · intro x hx
    rw [Tree.ids_succ, hk] at hx
    simp only [kidsIds_append, kidsIds_cons, Tree.ids_succ, List.mem_cons, List.mem_append,
      not_or] at hx
    simp only [AddIntoDeletedPageSet, WriteInternal, setPage_pages, if_neg hx.1]
    rw [hs1x x hx.2.2.2.1.1 hx.2.2.1.1, if_neg fun hm => hx.2.2.2.1.2 (hBroot _ hm)]
  · simp [AddIntoDeletedPageSet, WriteInternal, htxn]
  · exact ⟨hfix.root, hfix.header, hfix.next, hfix.lmax, hfix.imax⟩

/-- `Redistribute` for the internal node `B` with its left sibling `A`: the last child of
`A` moves to the front of `B`, the separator of `B` comes down to the former first child of
`B`, and the key of the moved slot becomes the separator. -/
theorem Redistribute_node_left {s s2 : State} {h : Nat} {P : ANode (Tree (h + 1))}
    {parent : page_id_t} {X Y : List (KeyType × Tree (h + 1))} {ka kb : KeyType}
    {A B : ANode (Tree h)}
    (hk : P.kids = X ++ ((ka, A) : KeyType × Tree (h + 1)) ::
      ((kb, B) : KeyType × Tree (h + 1)) :: Y)
    (hr : Rep s.pages (h + 2) P parent) (hnd : (Tree.ids (h + 2) P).Nodup)
    (hred : Redistribute s A.id B.id (X.length + 1) = .ok s2) :
    ∃ (init : List (KeyType × Tree h)) (e : KeyType × Tree h), A.kids = init ++ [e] ∧
      Rep s2.pages (h + 2) ({ P with kids := X ++ ((ka,
        ({ id := A.id, max_size := A.max_size, kids := init } : ANode (Tree h))) :
          KeyType × Tree (h + 1)) :: ((e.1,
        ({ id := B.id, max_size := B.max_size, kids := e :: rekey kb B.kids } :
          ANode (Tree h))) : KeyType × Tree (h + 1)) :: Y } : ANode (Tree (h + 1))) parent ∧
      (∀ x, x ∉ Tree.ids (h + 2) P → s2.pages x = s.pages x) ∧ s2.txn = s.txn ∧ Fixed s s2 := by
  obtain ⟨hP, hA, hB, hAk, hBk, hAB, hAP, hBP, hnA, hnB, hndA, hndB⟩ :=
    pair_node_facts hk hr hnd
  have hget : (slotsOf (h + 1) P.kids).get? (X.length + 1) = some (kb, B.id) := by
    rw [hk]
    exact get?_slots_second (h + 1) _ ((kb, B) : KeyType × Tree (h + 1)) Y X
  have hlt : X.length + 1 < P.kids.length := by
    rw [hk]
    simp
  have hset : ∀ k : KeyType, InternalPage.SetKeyAtIn k (X.length + 1) (slotsOf (h + 1) P.kids) =
      slotsOf (h + 1) (X ++ ((ka, A) : KeyType × Tree (h + 1)) ::
        ((k, B) : KeyType × Tree (h + 1)) :: Y) := fun k => by
    rw [hk]
    simpa [slotsOf_length, slotsOf_append, slotsOf_cons] using
      SetKeyAtIn_second k (ka, A.id) kb B.id (slotsOf (h + 1) Y) (slotsOf (h + 1) X)
  rcases List.eq_nil_or_concat A.kids with hnil | ⟨init, e, hcat⟩
  · simp [Redistribute, FetchPage, FetchInternal, hP, hA, hB,
      BPlusTreePage.GetParentPageId, InternalPage.KeyAt, InternalPage.GetSize, hnil, slotsOf_nil]
      at hred
  · rw [List.concat_eq_append] at hcat
    have he : e ∈ A.kids := by rw [hcat]; simp
    have heroot := hnA _ (pid_mem_kidsIds he)
    have harr : (slotsOf h A.kids) = slotsOf h init ++ [(e.1, Tree.pid h e.2)] := by
      rw [hcat, slotsOf_append, slotsOf_cons, slotsOf_nil]
    obtain ⟨s1, hmv, hs1B, hs1A, hs1e, hs1x, hfix, htxn⟩ :=
      @InternalMoveLastToFrontOf_ok s A.id B.id kb _ _ (e.1, Tree.pid h e.2)
        (slotsOf h init) hA hB hAB harr _ (Rep.page_eq h e.2 _ (hAk e he)) heroot.1 heroot.2.1
    have hs1P := (hs1x P.id (Ne.symm hAP) (Ne.symm hBP) (Ne.symm heroot.2.2.1)).trans hP
    have hlast : (slotsOf h A.kids).get? (A.kids.length - 1) =
        some (e.1, Tree.pid h e.2) := by
      rw [harr, hcat]
      simp [slotsOf_length]
    simp only [Redistribute, FetchPage_ok hB, BPlusTreePage.GetParentPageId, FetchInternal_ok hP,
      ok_bind, Nat.succ_ne_zero, ne_eq, not_false_eq_true, if_true, FetchInternal_ok hA,
      InternalPage.KeyAt, InternalPage.GetSize, hlast, hget, hmv, FetchInternal_ok hs1P,
      InternalPage.SetKeyAt, slotsOf_length, hlt, hset, pure_eq_ok, Except.ok.injEq] at hred
    subst hred
    refine ⟨init, e, hcat, ?_, ?_, htxn, ⟨hfix.root, hfix.header, hfix.next, hfix.lmax,
      hfix.imax⟩⟩
    · simp only at hs1A hs1B
      refine Rep.surgery P parent X Y
        [((ka, A) : KeyType × Tree (h + 1)), ((kb, B) : KeyType × Tree (h + 1))] _ _
        (by simp [hk]) (List.append_assoc X [_, _] Y).symm hr hnd ?_ ?_ ?_
      · simp [WriteInternal]
      · intro e1 he1
        simp only [List.mem_cons, List.mem_singleton, List.not_mem_nil, or_false] at he1
        rcases he1 with rfl | rfl
        · simp only [Rep]
          refine ⟨by simp [WriteInternal, hAP, hs1A], fun c hc => ?_⟩
          have hcA : c ∈ A.kids := by rw [hcat]; exact List.mem_append_left _ hc
          refine Rep.frame h c.2 _ (hAk c hcA) fun x hx => ?_
          have hxA := hnA x (mem_kidsIds.2 ⟨c, hcA, hx⟩)
          simp only [WriteInternal, setPage_pages, if_neg hxA.2.2.1]
          refine hs1x x hxA.1 hxA.2.1 fun hxe => ?_
          have := kidsIds_unique hndA hcA he hx (hxe ▸ Tree.pid_mem_ids h e.2)
          subst this
          rw [hcat, kidsIds_append, List.nodup_append, List.disjoint_left] at hndA
          exact hndA.2.2 (mem_kidsIds.2 ⟨c, hc, hx⟩) (by simpa using hx)
        · simp only [Rep]
          refine ⟨by simp [WriteInternal, hBP, hs1B, slotsOf_cons, slotsOf_rekey],
            fun c hc => ?_⟩
          rcases List.mem_cons.1 hc with rfl | hc1
          · refine Rep.repoint h c.2 A.id B.id (hAk c he) (kidsIds_nodup_kid hndA he) ?_ ?_
            · simp only [WriteInternal, setPage_pages, if_neg heroot.2.2.1]
              rw [hs1e, SetParentPageId_page]
            · intro x hx hxne
              have hxA := hnA x (mem_kidsIds.2 ⟨c, he, hx⟩)
              simp only [WriteInternal, setPage_pages, if_neg hxA.2.2.1]
              exact hs1x x hxA.1 hxA.2.1 hxne
          · obtain ⟨c0, hc0, heq⟩ := mem_rekey hc1
            rw [heq]
            refine Rep.frame h c0.2 _ (hBk c0 hc0) fun x hx => ?_
            have hxB := hnB x (mem_kidsIds.2 ⟨c0, hc0, hx⟩)
            simp only [WriteInternal, setPage_pages, if_neg hxB.2.2]
            refine hs1x x hxB.1 hxB.2.1 fun hxe => ?_
            have hxe1 : x = Tree.pid h e.2 := hxe
            exact heroot.2.2.2 (hxe1 ▸ mem_kidsIds.2 ⟨c0, hc0, hx⟩)
      · intro x hx hxP
        simp only [kidsIds_cons, kidsIds_nil, Tree.ids_succ, List.append_nil, List.mem_append,
          List.mem_cons, not_or] at hx
        simp only [WriteInternal, setPage_pages, if_neg hxP]
        exact hs1x x hx.1.1 hx.2.1 fun hxe => hx.1.2 (hxe ▸ pid_mem_kidsIds he)
    · intro x hx
      rw [Tree.ids_succ, hk] at hx
      simp only [kidsIds_append, kidsIds_cons, Tree.ids_succ, List.mem_cons, List.mem_append,
        not_or] at hx
      simp only [WriteInternal, setPage_pages, if_neg hx.1]
      exact hs1x x hx.2.2.1.1 hx.2.2.2.1.1 fun hxe => hx.2.2.1.2 (hxe ▸ pid_mem_kidsIds he)

/-- `Redistribute` for the first internal node `A` with its right sibling `B`: the first
child of `B` moves to the end of `A` under the separator of `B`, and the key of the second
slot of `B` becomes the separator. -/
theorem Redistribute_node_right {s s2 : State} {h : Nat} {P : ANode (Tree (h + 1))}
    {parent : page_id_t} {Y : List (KeyType × Tree (h + 1))} {ka kb : KeyType}
    {A B : ANode (Tree h)}
    (hk : P.kids = ((ka, A) : KeyType × Tree (h + 1)) :: ((kb, B) : KeyType × Tree (h + 1)) :: Y)
    (hr : Rep s.pages (h + 2) P parent) (hnd : (Tree.ids (h + 2) P).Nodup)
    (hred : Redistribute s B.id A.id 0 = .ok s2) :
    ∃ (e e2 : KeyType × Tree h) (rest : List (KeyType × Tree h)), B.kids = e :: e2 :: rest ∧
      Rep s2.pages (h + 2) ({ P with kids := ((ka,
        ({ id := A.id, max_size := A.max_size, kids := A.kids ++ [(kb, e.2)] } :
          ANode (Tree h))) : KeyType × Tree (h + 1)) :: ((e2.1,
        ({ id := B.id, max_size := B.max_size, kids := e2 :: rest } :
          ANode (Tree h))) : KeyType × Tree (h + 1)) :: Y } : ANode (Tree (h + 1))) parent ∧
      (∀ x, x ∉ Tree.ids (h + 2) P → s2.pages x = s.pages x) ∧ s2.txn = s.txn ∧ Fixed s s2 := by
  have hk0 : P.kids = [] ++ ((ka, A) : KeyType × Tree (h + 1)) ::
      ((kb, B) : KeyType × Tree (h + 1)) :: Y := hk
  obtain ⟨hP, hA, hB, hAk, hBk, hAB, hAP, hBP, hnA, hnB, hndA, hndB⟩ :=
    pair_node_facts hk0 hr hnd
  have hget : (slotsOf (h + 1) P.kids).get? 1 = some (kb, B.id) := by
    rw [hk]
    rfl
  have hlt : 1 < P.kids.length := by
    rw [hk]
    simp
  have hset : ∀ k : KeyType, InternalPage.SetKeyAtIn k 1 (slotsOf (h + 1) P.kids) =
      slotsOf (h + 1) (((ka, A) : KeyType × Tree (h + 1)) ::
        ((k, B) : KeyType × Tree (h + 1)) :: Y) := fun k => by
    rw [hk]
    rfl
  cases hB0 : B.kids with
  | nil =>
    simp [Redistribute, FetchPage, FetchInternal, hP, hA, hB,
      BPlusTreePage.GetParentPageId, InternalPage.KeyAt, hB0, slotsOf_nil] at hred
  | cons e es =>
    cases hB1 : es with
    | nil =>
      simp [Redistribute, FetchPage, FetchInternal, hP, hA, hB,
        BPlusTreePage.GetParentPageId, InternalPage.KeyAt, hB0, hB1, slotsOf_cons, slotsOf_nil]
        at hred
    | cons e2 rest =>
      subst hB1
      have he : e ∈ B.kids := by rw [hB0]; simp
      have heroot := hnB _ (pid_mem_kidsIds he)
      have harr : (slotsOf h B.kids) = (e.1, Tree.pid h e.2) :: slotsOf h (e2 :: rest) := by
        rw [hB0, slotsOf_cons]
      obtain ⟨s1, hmv, hs1A, hs1B, hs1e, hs1x, hfix, htxn⟩ :=
        @InternalMoveFirstToEndOf_ok s B.id A.id kb _ _ (e.1, Tree.pid h e.2)
          (slotsOf h (e2 :: rest)) hB hA (Ne.symm hAB) harr _ (Rep.page_eq h e.2 _ (hBk e he))
          heroot.2.1 heroot.1
      have hs1P := (hs1x P.id (Ne.symm hBP) (Ne.symm hAP) (Ne.symm heroot.2.2)).trans hP
      have hsecond : (slotsOf h B.kids).get? 1 = some (e2.1, Tree.pid h e2.2) := by
        rw [hB0]
        rfl
      simp only [Redistribute, FetchPage_ok hA, BPlusTreePage.GetParentPageId,
        FetchInternal_ok hP, ok_bind, ne_eq, not_true_eq_false, if_false, FetchInternal_ok hB,
        InternalPage.KeyAt, hsecond, hget, hmv, FetchInternal_ok hs1P, Nat.zero_add,
        InternalPage.SetKeyAt, slotsOf_length, hlt, if_true, hset, pure_eq_ok,
        Except.ok.injEq] at hred
      subst hred
      refine ⟨e, e2, rest, rfl, ?_, ?_, htxn, ⟨hfix.root, hfix.header, hfix.next, hfix.lmax,
        hfix.imax⟩⟩
      · simp only at hs1A hs1B
        refine Rep.surgery P parent [] Y
          [((ka, A) : KeyType × Tree (h + 1)), ((kb, B) : KeyType × Tree (h + 1))] _ _
          (by simp [hk]) (List.append_assoc [] [_, _] Y).symm hr hnd ?_ ?_ ?_
        · simp [WriteInternal]
        · intro e1 he1
          simp only [List.mem_cons, List.mem_singleton, List.not_mem_nil, or_false] at he1
          rcases he1 with rfl | rfl
          · simp only [Rep]
            refine ⟨by simp [WriteInternal, hAP, hs1A, slotsOf_append, slotsOf_cons, slotsOf_nil],
              fun c hc => ?_⟩
            rcases List.mem_append.1 hc with hcA | hc1
            · refine Rep.frame h c.2 _ (hAk c hcA) fun x hx => ?_
              have hxA := hnA x (mem_kidsIds.2 ⟨c, hcA, hx⟩)
              simp only [WriteInternal, setPage_pages, if_neg hxA.2.2.1]
              refine hs1x x hxA.2.1 hxA.1 fun hxe => ?_
              have hxe1 : x = Tree.pid h e.2 := hxe
              exact hxA.2.2.2 (hxe1 ▸ pid_mem_kidsIds he)
            · simp only [List.mem_singleton] at hc1
              subst hc1
              refine Rep.repoint h e.2 B.id A.id (hBk e he) (kidsIds_nodup_kid hndB he) ?_ ?_
              · simp only [WriteInternal, setPage_pages, if_neg heroot.2.2]
                rw [hs1e, SetParentPageId_page]
              · intro x hx hxne
                have hxB := hnB x (mem_kidsIds.2 ⟨e, he, hx⟩)
                simp only [WriteInternal, setPage_pages, if_neg hxB.2.2]
                exact hs1x x hxB.2.1 hxB.1 hxne
          · simp only [Rep]
            refine ⟨by simp [WriteInternal, hBP, hs1B], fun c hc => ?_⟩
            have hcB : c ∈ B.kids := by rw [hB0]; exact List.mem_cons_of_mem _ hc
            refine Rep.frame h c.2 _ (hBk c hcB) fun x hx => ?_
            have hxB := hnB x (mem_kidsIds.2 ⟨c, hcB, hx⟩)
            simp only [WriteInternal, setPage_pages, if_neg hxB.2.2]
            refine hs1x x hxB.2.1 hxB.1 fun hxe => ?_
            have hxe1 : x = Tree.pid h e.2 := hxe
            have := kidsIds_unique hndB hcB he hx (hxe1 ▸ Tree.pid_mem_ids h e.2)
            subst this
            rw [hB0, kidsIds_cons, List.nodup_append, List.disjoint_left] at hndB
            exact hndB.2.2 hx (mem_kidsIds.2 ⟨c, hc, hx⟩)
        · intro x hx hxP
          simp only [kidsIds_cons, kidsIds_nil, Tree.ids_succ, List.append_nil, List.mem_append,
            List.mem_cons, not_or] at hx
          simp only [WriteInternal, setPage_pages, if_neg hxP]
          refine hs1x x hx.2.1 hx.1.1 fun hxe => ?_
          have hxe1 : x = Tree.pid h e.2 := hxe
          exact hx.2.2 (hxe1 ▸ pid_mem_kidsIds he)
      · intro x hx
        rw [Tree.ids_succ, hk] at hx
        simp only [kidsIds_cons, Tree.ids_succ, List.mem_cons, List.mem_append,
          not_or] at hx
        simp only [WriteInternal, setPage_pages, if_neg hx.1]
        refine hs1x x hx.2.2.1.1 hx.2.1.1 fun hxe => ?_
        have hxe1 : x = Tree.pid h e.2 := hxe
        exact hx.2.2.1.2 (hxe1 ▸ pid_mem_kidsIds he)

end BPlusTree

namespace BPlusTree

theorem page_size : ∀ (h : Nat) (t : Tree h) (p : page_id_t),
    (Tree.page h t p).GetSize = Tree.size h t
  | 0, _, _ => rfl
  | _ + 1, _, _ => rfl

theorem page_maxSize : ∀ (h : Nat) (t : Tree h) (p : page_id_t),
    (Tree.page h t p).GetMaxSize = Tree.maxSize h t
  | 0, _, _ => rfl
  | _ + 1, _, _ => rfl

theorem page_minSize : ∀ (h : Nat) (t : Tree h) (p : page_id_t),
    (Tree.page h t p).GetMinSize = Tree.minSize h t
  | 0, _, _ => rfl
  | _ + 1, _, _ => rfl

theorem page_parent : ∀ (h : Nat) (t : Tree h) (p : page_id_t),
    (Tree.page h t p).GetParentPageId = p
  | 0, _, _ => rfl
  | _ + 1, _, _ => rfl

theorem Tree.size_succ (h : Nat) (t : ANode (Tree h)) : Tree.size (h + 1) t = t.kids.length := by
  simp [Tree.size, Tree.page, BPlusTreePage.GetSize, InternalPage.GetSize, slotsOf_length]

theorem Tree.size_zero (t : ALeaf) : Tree.size 0 t = t.arr.length := rfl

theorem Tree.maxSize_succ (h : Nat) (t : ANode (Tree h)) : Tree.maxSize (h + 1) t = t.max_size :=
  rfl

theorem Tree.minSize_succ (h : Nat) (t : ANode (Tree h)) :
    Tree.minSize (h + 1) t = (t.max_size + 1) / 2 := rfl

/-- `Coalesce` of two neighbouring children `A`, `B` of the node `P`, at any height. -/
theorem Coalesce_any (recurse : State → page_id_t → Except Fault (Bool × State)) {s : State} :
    ∀ (h : Nat) {P : ANode (Tree h)} {parent : page_id_t} {X Y : List (KeyType × Tree h)}
      {ka kb : KeyType} {A B : Tree h}, P.kids = X ++ (ka, A) :: (kb, B) :: Y →
      Rep s.pages (h + 1) P parent → (Tree.ids (h + 1) P).Nodup →
      ∀ {neighbor_node node : page_id_t} {index : Nat},
      ((neighbor_node = Tree.pid h A ∧ node = Tree.pid h B ∧ index = X.length + 1) ∨
        (neighbor_node = Tree.pid h B ∧ node = Tree.pid h A ∧ index = 0 ∧ X = [])) →
      ∃ (A1 : Tree h) (s3 : State), Coalesce recurse true s neighbor_node node index =
          (if (X ++ (ka, A1) :: Y).length < (P.max_size + 1) / 2 then
            recurse s3 P.id else .ok (false, s3)) ∧
        Rep s3.pages (h + 1) ({ P with kids := X ++ (ka, A1) :: Y } : ANode (Tree h)) parent ∧
        Tree.pid h A1 = Tree.pid h A ∧ (Tree.ids h A1).Nodup ∧
        (∀ x ∈ Tree.ids h A1, x ∈ Tree.ids h A ∨ x ∈ Tree.ids h B) ∧
        Tree.pid h B ∉ Tree.ids h A1 ∧ (Tree.Ok h A → Tree.Ok h B → Tree.Ok h A1) ∧
        (∀ x, x ∉ Tree.ids (h + 1) P → s3.pages x = s.pages x) ∧
        s3.txn.page_set = s.txn.page_set ∧
        s3.txn.deleted_page_set = Tree.pid h B :: s.txn.deleted_page_set ∧ Fixed s s3
  | 0, P, parent, X, Y, ka, kb, A, B, hk, hr, hnd, neighbor_node, node, index, hargs => by
    have hargs1 : (neighbor_node = ALeaf.id A ∧ node = ALeaf.id B ∧ index = X.length + 1) ∨
        (neighbor_node = ALeaf.id B ∧ node = ALeaf.id A ∧ index = 0) := by
      rcases hargs with h1 | ⟨h1, h2, h3, -⟩
      · exact Or.inl h1
      · exact Or.inr ⟨h1, h2, h3⟩
    obtain ⟨s3, h1, h2, h3, h4, h5, h6⟩ := Coalesce_leaf recurse hk hr hnd hargs1
    obtain ⟨-, -, -, hAB, -, -⟩ := pair_leaf_facts hk hr hnd
    refine ⟨_, s3, ?_, h2, rfl, ?_, ?_, ?_, fun _ _ => trivial, h3, h4, h5, h6⟩
    · simpa using h1
    · simp [Tree.ids_zero]
    · intro x hx
      simp only [Tree.ids_zero, List.mem_singleton] at hx ⊢
      exact Or.inl hx
    · simp only [Tree.ids_zero, List.mem_singleton, Tree.pid_zero]
      exact Ne.symm hAB
  | h + 1, P, parent, X, Y, ka, kb, A, B, hk, hr, hnd, neighbor_node, node, index, hargs => by
    obtain ⟨s3, h1, h2, h3, h4, h5, h6⟩ := Coalesce_node recurse hk hr hnd hargs
    obtain ⟨-, -, -, -, -, hAB, -, -, hnA, hnB, hndA, hndB⟩ := pair_node_facts hk hr hnd
    refine ⟨_, s3, ?_, h2, rfl, ?_, ?_, ?_, ?_, h3, h4, h5, h6⟩
    · simpa using h1
    · rw [Tree.ids_succ, List.nodup_cons]
      simp only [kidsIds_append, kidsIds_rekey, List.mem_append, not_or, List.nodup_append,
        List.disjoint_left]
      exact ⟨⟨fun hx => (hnA _ hx).1 rfl, fun hx => (hnB _ hx).1 rfl⟩, hndA, hndB,
        fun x hx => (hnA x hx).2.2.2⟩
    · intro x hx
      rw [Tree.ids_succ] at hx
      simp only [kidsIds_append, kidsIds_rekey, List.mem_cons, List.mem_append] at hx
      rw [Tree.ids_succ, Tree.ids_succ]
      simp only [List.mem_cons]
      tauto
    · rw [Tree.ids_succ]
      simp only [kidsIds_append, kidsIds_rekey, List.mem_cons, List.mem_append, not_or,
        Tree.pid_succ]
      exact ⟨Ne.symm hAB, fun hx => (hnA _ hx).2.1 rfl, fun hx => (hnB _ hx).2.1 rfl⟩
    · intro hoA hoB
      refine ⟨?_, fun e he => ?_⟩
      · intro hnil
        exact hoA.1 (List.append_eq_nil.1 hnil).1
      · rcases List.mem_append.1 he with h7 | h7
        · exact hoA.2 e h7
        · obtain ⟨e0, he0, heq⟩ := mem_rekey h7
          rw [heq]
          exact hoB.2 e0 he0

theorem perm_shift (a b : page_id_t) (K E R : List page_id_t) :
    (a :: K ++ b :: (E ++ R)).Perm (a :: (K ++ E) ++ b :: R) := by
  simp only [List.cons_append, List.append_assoc]
  exact (List.perm_middle.symm.append_left K).cons a

/-- `Redistribute` for the child `B` of the node `P` with its left sibling `A`, at any
height. -/
theorem Redistribute_left_any {s s2 : State} :
    ∀ (h : Nat) {P : ANode (Tree h)} {parent : page_id_t} {X Y : List (KeyType × Tree h)}
      {ka kb : KeyType} {A B : Tree h}, P.kids = X ++ (ka, A) :: (kb, B) :: Y →
      Rep s.pages (h + 1) P parent → (Tree.ids (h + 1) P).Nodup →
      Redistribute s (Tree.pid h A) (Tree.pid h B) (X.length + 1) = .ok s2 →
      ∃ (A1 B1 : Tree h) (kb1 : KeyType),
        Rep s2.pages (h + 1)
          ({ P with kids := X ++ (ka, A1) :: (kb1, B1) :: Y } : ANode (Tree h)) parent ∧
        (Tree.ids h A1 ++ Tree.ids h B1).Perm (Tree.ids h A ++ Tree.ids h B) ∧
        (1 < Tree.size h A → Tree.Ok h A → Tree.Ok h B → Tree.Ok h A1 ∧ Tree.Ok h B1) ∧
        (∀ x, x ∉ Tree.ids (h + 1) P → s2.pages x = s.pages x) ∧ s2.txn = s.txn ∧ Fixed s s2
  | 0, P, parent, X, Y, ka, kb, A, B, hk, hr, hnd, hred => by
    obtain ⟨arrA, arrB, kb1, h1, h2, h3, h4⟩ := Redistribute_leaf_left hk hr hnd hred
    exact ⟨_, _, kb1, h1, List.Perm.refl _, fun _ _ _ => ⟨trivial, trivial⟩, h2, h3, h4⟩
  | h + 1, P, parent, X, Y, ka, kb, A, B, hk, hr, hnd, hred => by
    obtain ⟨init, e, hcat, h1, h2, h3, h4⟩ := Redistribute_node_left hk hr hnd hred
    refine ⟨_, _, e.1, h1, ?_, ?_, h2, h3, h4⟩
    · rw [Tree.ids_succ, Tree.ids_succ, Tree.ids_succ, Tree.ids_succ]
      simp only [hcat, kidsIds_append, kidsIds_cons, kidsIds_nil, List.append_nil,
        kidsIds_rekey]
      exact perm_shift _ _ _ _ _
    · intro hbig hoA hoB
      have hlen : 1 < A.kids.length := by rw [← Tree.size_succ]; exact hbig
      rw [hcat] at hlen
      simp only [List.length_append, List.length_singleton] at hlen
      refine ⟨⟨fun hnil => ?_, fun c hc => hoA.2 c (by rw [hcat]; exact List.mem_append_left _ hc)⟩,
        ⟨List.cons_ne_nil _ _, fun c hc => ?_⟩⟩
      · simp only at hnil
        rw [hnil] at hlen
        simp at hlen
      · rcases List.mem_cons.1 hc with rfl | hc1
        · exact hoA.2 c (by rw [hcat]; simp)
        · obtain ⟨c0, hc0, heq⟩ := mem_rekey hc1
          rw [heq]
          exact hoB.2 c0 hc0

/-- `Redistribute` for the first child `A` of the node `P` with its right sibling `B`, at
any height. -/
theorem Redistribute_right_any {s s2 : State} :
    ∀ (h : Nat) {P : ANode (Tree h)} {parent : page_id_t} {Y : List (KeyType × Tree h)}
      {ka kb : KeyType} {A B : Tree h}, P.kids = (ka, A) :: (kb, B) :: Y →
      Rep s.pages (h + 1) P parent → (Tree.ids (h + 1) P).Nodup →
      Redistribute s (Tree.pid h B) (Tree.pid h A) 0 = .ok s2 →
      ∃ (A1 B1 : Tree h) (kb1 : KeyType),
        Rep s2.pages (h + 1)
          ({ P with kids := (ka, A1) :: (kb1, B1) :: Y } : ANode (Tree h)) parent ∧
        (Tree.ids h A1 ++ Tree.ids h B1).Perm (Tree.ids h A ++ Tree.ids h B) ∧
        (Tree.Ok h A → Tree.Ok h B → Tree.Ok h A1 ∧ Tree.Ok h B1) ∧
        (∀ x, x ∉ Tree.ids (h + 1) P → s2.pages x = s.pages x) ∧ s2.txn = s.txn ∧ Fixed s s2
  | 0, P, parent, Y, ka, kb, A, B, hk, hr, hnd, hred => by
    obtain ⟨arrA, arrB, kb1, h1, h2, h3, h4⟩ := Redistribute_leaf_right hk hr hnd hred
    exact ⟨_, _, kb1, h1, List.Perm.refl _, fun _ _ => ⟨trivial, trivial⟩, h2, h3, h4⟩
  | h + 1, P, parent, Y, ka, kb, A, B, hk, hr, hnd, hred => by
    obtain ⟨e, e2, rest, hB0, h1, h2, h3, h4⟩ := Redistribute_node_right hk hr hnd hred
    refine ⟨_, _, e2.1, h1, ?_, ?_, h2, h3, h4⟩
    · rw [Tree.ids_succ, Tree.ids_succ, Tree.ids_succ, Tree.ids_succ]
      simp only [hB0, kidsIds_append, kidsIds_cons, kidsIds_nil, List.append_nil]
      exact (perm_shift _ _ _ _ _).symm
    · intro hoA hoB
      refine ⟨⟨fun hnil => ?_, fun c hc => ?_⟩,
        ⟨List.cons_ne_nil _ _, fun c hc => hoB.2 c (by rw [hB0]; exact List.mem_cons_of_mem _ hc)⟩⟩
      · simp at hnil
      · rcases List.mem_append.1 hc with hc1 | hc1
        · exact hoA.2 c hc1
        · simp only [List.mem_singleton] at hc1
          subst hc1
          exact hoB.2 e (by rw [hB0]; simp)

theorem remCont_true {fuel : Nat} {node : page_id_t} {s out : State}
    (h : remCont fuel true node s = .ok out) :
    ∃ r, CoalesceOrRedistribute true fuel s node = .ok r ∧ Unlock .DELETE true r.2 = .ok out := by
  simp only [remCont, if_true] at h
  cases hc : CoalesceOrRedistribute true fuel s node with
  | error e => rw [hc] at h; cases h
  | ok r => rw [hc] at h; exact ⟨r, rfl, h⟩

theorem remCont_of {fuel : Nat} {node : page_id_t} {s out : State} {r : Bool × State}
    (hc : CoalesceOrRedistribute true fuel s node = .ok r)
    (hu : Unlock .DELETE true r.2 = .ok out) : remCont fuel true node s = .ok out := by
  simp only [remCont, if_true, hc, hu]

/-- The first part of `CoalesceOrRedistribute` on a child of the node `P`: the choice of the
sibling. -/
theorem CoalesceOrRedistribute_child {s : State} {h : Nat} {P : ANode (Tree h)}
    {parent : page_id_t} {pre post : List (KeyType × Tree h)} {cur : KeyType × Tree h}
    (hk : P.kids = pre ++ cur :: post) (hr : Rep s.pages (h + 1) P parent)
    (hnd : (Tree.ids (h + 1) P).Nodup) (hPid : P.id ≠ INVALID_PAGE_ID) (fuel : Nat) :
    CoalesceOrRedistribute true (fuel + 1) s (Tree.pid h cur.2) =
      (InternalPage.ValueAt
          { parent_page_id := parent, max_size := P.max_size, array := slotsOf h P.kids }
          (if pre.length = 0 then pre.length + 1 else pre.length - 1) >>= fun sibling_page_id =>
        FetchPage s sibling_page_id >>= fun sibling_node =>
        if sibling_node.GetSize + Tree.size h cur.2 > Tree.maxSize h cur.2 then
          Redistribute (AddIntoPageSet s (.frame sibling_page_id)) sibling_page_id
            (Tree.pid h cur.2) pre.length >>= fun s2 => pure (false, s2)
        else
          Coalesce (CoalesceOrRedistribute true fuel) true
            (AddIntoPageSet s (.frame sibling_page_id)) sibling_page_id (Tree.pid h cur.2)
            pre.length >>= fun r =>
            pure (if pre.length = 0 then false else true, r.2)) := by
  have hcur : cur ∈ P.kids := by rw [hk]; simp
  have hr1 := hr
  simp only [Rep] at hr1
  have hpage := Rep.page_eq h cur.2 _ (hr1.2 cur hcur)
  have hidx : InternalPage.ValueIndexIn (Tree.pid h cur.2) (slotsOf h P.kids) =
      some pre.length := by
    rw [hk]
    rw [Tree.ids_succ, hk, List.nodup_cons] at hnd
    exact ValueIndexIn_slots h cur post pre (kidsIds_pre_ne hnd.2)
  have hroot : (Tree.page h cur.2 P.id).IsRootPage = false := by
    simp [BPlusTreePage.IsRootPage, page_parent, hPid]
  simp only [CoalesceOrRedistribute, FetchPage_ok hpage, ok_bind, hroot, Bool.false_eq_true,
    if_false, page_parent, FetchInternal_ok hr1.1, InternalPage.ValueIndex, hidx,
    page_size, page_maxSize, Bool.not_true]
  split <;> rfl

theorem Tree.minSize_le : ∀ (h : Nat) (t : Tree h),
    Tree.minSize h t ≤ (Tree.maxSize h t + 1) / 2
  | 0, t => by
    show (t.max_size - 1 + 1) / 2 ≤ (t.max_size + 1) / 2
    omega
  | _ + 1, _ => le_refl _

/-- The ids of a node after local surgery that permutes the ids of the slots it touches. -/
theorem ids_surgery_perm {h : Nat} {P : ANode (Tree h)} {X Y mid mid1 K1 : List (KeyType × Tree h)}
    (hk : P.kids = X ++ mid ++ Y) (hk1 : K1 = X ++ mid1 ++ Y)
    (hp : (kidsIds h mid1).Perm (kidsIds h mid)) (hnd : (Tree.ids (h + 1) P).Nodup) :
    (Tree.ids (h + 1) ({ P with kids := K1 } : ANode (Tree h))).Nodup ∧
      ∀ x ∈ Tree.ids (h + 1) ({ P with kids := K1 } : ANode (Tree h)), x ∈ Tree.ids (h + 1) P := by
  have hperm : (Tree.ids (h + 1) ({ P with kids := K1 } : ANode (Tree h))).Perm
      (Tree.ids (h + 1) P) := by
    rw [Tree.ids_succ, Tree.ids_succ, hk, hk1]
    simp only [kidsIds_append]
    exact ((hp.append_left _).append_right _).cons _
  exact ⟨hperm.nodup_iff.2 hnd, fun x hx => hperm.subset hx⟩

/-- The ids of a node after local surgery that keeps a part of the ids of the slots it
touches. -/
theorem ids_surgery_sub {h : Nat} {P : ANode (Tree h)} {X Y mid mid1 K1 : List (KeyType × Tree h)}
    (hk : P.kids = X ++ mid ++ Y) (hk1 : K1 = X ++ mid1 ++ Y)
    (h1 : (kidsIds h mid1).Nodup) (hsub : kidsIds h mid1 ⊆ kidsIds h mid)
    (hnd : (Tree.ids (h + 1) P).Nodup) :
    (Tree.ids (h + 1) ({ P with kids := K1 } : ANode (Tree h))).Nodup ∧
      (∀ x ∈ Tree.ids (h + 1) ({ P with kids := K1 } : ANode (Tree h)),
        x ∈ Tree.ids (h + 1) P) ∧
      ∀ d ∈ kidsIds h mid, d ∉ kidsIds h mid1 →
        d ∉ Tree.ids (h + 1) ({ P with kids := K1 } : ANode (Tree h)) := by
  rw [Tree.ids_succ, hk] at hnd
  simp only [kidsIds_append] at hnd
  refine ⟨?_, ?_, ?_⟩
  · rw [Tree.ids_succ, hk1]
    simp only [kidsIds_append]
    exact nodup_surgery hnd h1 hsub
  · intro x hx
    rw [Tree.ids_succ, hk1] at hx
    rw [Tree.ids_succ, hk]
    simp only [kidsIds_append, List.mem_cons, List.mem_append] at hx ⊢
    rcases hx with hx | (hx | hx) | hx
    · exact Or.inl hx
    · exact Or.inr (Or.inl (Or.inl hx))
    · exact Or.inr (Or.inl (Or.inr (hsub hx)))
    · exact Or.inr (Or.inr hx)
  · intro d hd hd1 hmem
    rw [Tree.ids_succ, hk1] at hmem
    simp only [kidsIds_append, List.mem_cons, List.mem_append] at hmem
    simp only [List.nodup_cons, List.nodup_append, List.mem_append, List.disjoint_left,
      not_or] at hnd
    rcases hmem with hx | (hx | hx) | hx
    · subst hx
      exact hnd.1.1.2 hd
    · exact hnd.2.1.2.2 hx hd
    · exact hd1 hx
    · exact hnd.2.2.2 (Or.inr hd) hx

/-- One step of the cascade for the first child of the node `P`. -/
theorem cascade_step_first {s out : State} {h : Nat} {P : ANode (Tree h)} {parent : page_id_t}
    {post : List (KeyType × Tree h)} {cur : KeyType × Tree h} {fuel : Nat}
    (hk : P.kids = cur :: post) (hr : Rep s.pages (h + 1) P parent)
    (hnd : (Tree.ids (h + 1) P).Nodup) (hPid : P.id ≠ INVALID_PAGE_ID)
    (hok : Tree.Ok (h + 1) P)
    (hcont : remCont fuel true (Tree.pid h cur.2) s = .ok out) :
    ∃ (P1 : ANode (Tree h)) (s2 : State) (under1 : Bool) (fuel1 : Nat) (sib : page_id_t),
      remCont fuel1 under1 P.id s2 = .ok out ∧
      StepPost s s2 h P P1 parent (Tree.pid h cur.2) sib under1 := by
  obtain ⟨r, hcr, hun⟩ := remCont_true hcont
  cases fuel with
  | zero => simp [CoalesceOrRedistribute] at hcr
  | succ fuel =>
    have hk0 : P.kids = [] ++ cur :: post := hk
    rw [CoalesceOrRedistribute_child hk0 hr hnd hPid fuel] at hcr
    simp only [List.length_nil, if_true, Nat.zero_add] at hcr
    cases post with
    | nil =>
      simp [InternalPage.ValueAt, hk, slotsOf_cons, slotsOf_nil] at hcr
    | cons b Y =>
      have hr1 := hr
      simp only [Rep] at hr1
      have hb : b ∈ P.kids := by rw [hk]; simp
      have hcur : cur ∈ P.kids := by rw [hk]; simp
      have hpb := Rep.page_eq h b.2 _ (hr1.2 b hb)
      have hval : InternalPage.ValueAt
          { parent_page_id := parent, max_size := P.max_size, array := slotsOf h P.kids } 1 =
          .ok (Tree.pid h b.2) := by
        simp [InternalPage.ValueAt, hk, slotsOf_cons]
      rw [hval] at hcr
      simp only [ok_bind, FetchPage_ok hpb, page_size] at hcr
      have hrs : Rep (AddIntoPageSet s (.frame (Tree.pid h b.2))).pages (h + 1) P parent := hr
      have hkc : P.kids = (cur.1, cur.2) :: (b.1, b.2) :: Y := hk
      split at hcr
      · obtain ⟨s2, hred, hr2⟩ := bind_eq_ok.1 hcr
        simp only [pure_eq_ok, Except.ok.injEq] at hr2
        subst hr2
        obtain ⟨A1, B1, kb1, h1, h2, h3, h4, h5, h6⟩ :=
          Redistribute_right_any h hkc hrs hnd hred
        obtain ⟨hn1, hn2⟩ := @ids_surgery_perm h P [] Y [(cur.1, cur.2), (b.1, b.2)]
          [(cur.1, A1), (kb1, B1)] ((cur.1, A1) :: (kb1, B1) :: Y) (by simp [hk]) (by simp)
          (by simpa using h2) hnd
        refine ⟨_, s2, false, 0, Tree.pid h b.2, hun, ⟨h1, rfl, rfl, hn1, hn2, ?_, h4,
          ⟨h6.root, h6.header, h6.next, h6.lmax, h6.imax⟩, ?_, Or.inl ?_,
          fun hf => by cases hf⟩⟩
        · obtain ⟨ho1, ho2⟩ := h3 (hok.2 cur hcur) (hok.2 b hb)
          refine ⟨List.cons_ne_nil _ _, fun e he => ?_⟩
          simp only [List.mem_cons] at he
          rcases he with rfl | rfl | he
          · exact ho1
          · exact ho2
          · exact hok.2 e (by rw [hk]; simp [he])
        · rw [h5]
          rfl
        · rw [h5]
          rfl
      · obtain ⟨r0, hco, hr2⟩ := bind_eq_ok.1 hcr
        simp only [pure_eq_ok, Except.ok.injEq] at hr2
        subst hr2
        obtain ⟨A1, s3, h1, h2, h3, h4, h5, h6, h7, h8, h9, h10, h11⟩ :=
          Coalesce_any (CoalesceOrRedistribute true fuel) h hkc hrs hnd
            (Or.inr ⟨rfl, rfl, rfl, rfl⟩)
        obtain ⟨hn1, hn2, hn3⟩ := @ids_surgery_sub h P [] Y [(cur.1, cur.2), (b.1, b.2)]
          [(cur.1, A1)] ((cur.1, A1) :: Y) (by simp [hk]) (by simp) (by simpa using h4)
          (by
            intro x hx
            simp only [kidsIds_cons, kidsIds_nil, List.append_nil] at hx ⊢
            exact List.mem_append.2 (h5 x hx)) hnd
        have hd3 := hn3 (Tree.pid h b.2)
          (by simp [kidsIds_cons, Tree.pid_mem_ids])
          (by simpa [kidsIds_cons] using h6)
        have hpost : ∀ under1 : Bool,
            (under1 = true → ((cur.1, A1) :: Y).length < (P.max_size + 1) / 2) →
            StepPost s s3 h P ({ P with kids := (cur.1, A1) :: Y } : ANode (Tree h)) parent
              (Tree.pid h cur.2) (Tree.pid h b.2) under1 := by
          intro under1 hu
          refine ⟨h2, rfl, rfl, hn1, hn2, ?_, h8, ⟨h11.root, h11.header, h11.next, h11.lmax,
            h11.imax⟩, ?_, Or.inr ⟨Tree.pid h b.2, ?_, ?_, hd3, Or.inr rfl⟩, fun hf => ⟨hu hf, ?_⟩⟩
          · refine ⟨List.cons_ne_nil _ _, fun e he => ?_⟩
            simp only [List.mem_cons] at he
            rcases he with rfl | he
            · exact h7 (hok.2 cur hcur) (hok.2 b hb)
            · exact hok.2 e (by rw [hk]; simp [he])
          · rw [h9]
            rfl
          · rw [h10]
            rfl
          · exact Tree.ids_kid_subset P hb (Tree.pid_mem_ids h b.2)
          · rw [hk]
            simp
        rw [h1] at hco
        simp only [List.nil_append] at hco
        split at hco
        · rename_i hsm
          exact ⟨_, s3, true, fuel, Tree.pid h b.2, remCont_of hco hun, hpost true fun _ => hsm⟩
        · simp only [Except.ok.injEq] at hco
          subst hco
          exact ⟨_, s3, false, 0, Tree.pid h b.2, hun, hpost false fun hf => by cases hf⟩

theorem get?_slots_at (h : Nat) (a : KeyType × Tree h) (rest : List (KeyType × Tree h)) :
    ∀ X : List (KeyType × Tree h),
      (slotsOf h (X ++ a :: rest)).get? X.length = some (a.1, Tree.pid h a.2)
  | [] => by
    rw [List.nil_append, slotsOf_cons]
    rfl
  | x :: X => by
    rw [List.cons_append, slotsOf_cons, List.length_cons]
    exact get?_slots_at h a rest X

/-- One step of the cascade for a child of the node `P` that has a left sibling. -/
theorem cascade_step_later {s out : State} {h : Nat} {P : ANode (Tree h)} {parent : page_id_t}
    {X post : List (KeyType × Tree h)} {a cur : KeyType × Tree h} {fuel : Nat}
    (hk : P.kids = (X ++ [a]) ++ cur :: post) (hr : Rep s.pages (h + 1) P parent)
    (hnd : (Tree.ids (h + 1) P).Nodup) (hPid : P.id ≠ INVALID_PAGE_ID)
    (hok : Tree.Ok (h + 1) P) (hsmall : Tree.size h cur.2 < Tree.minSize h cur.2)
    (hcont : remCont fuel true (Tree.pid h cur.2) s = .ok out) :
    ∃ (P1 : ANode (Tree h)) (s2 : State) (under1 : Bool) (fuel1 : Nat) (sib : page_id_t),
      remCont fuel1 under1 P.id s2 = .ok out ∧
      StepPost s s2 h P P1 parent (Tree.pid h cur.2) sib under1 := by
  obtain ⟨r, hcr, hun⟩ := remCont_true hcont
  cases fuel with
  | zero => simp [CoalesceOrRedistribute] at hcr
  | succ fuel =>
    rw [CoalesceOrRedistribute_child hk hr hnd hPid fuel] at hcr
    have hlen : (X ++ [a]).length = X.length + 1 := by simp
    simp only [hlen, Nat.succ_ne_zero, if_false, Nat.add_sub_cancel] at hcr
    have hkc : P.kids = X ++ (a.1, a.2) :: (cur.1, cur.2) :: post := by
      rw [hk]
      simp
    have hr1 := hr
    simp only [Rep] at hr1
    have ha : a ∈ P.kids := by rw [hkc]; simp
    have hcur : cur ∈ P.kids := by rw [hkc]; simp
    have hpa := Rep.page_eq h a.2 _ (hr1.2 a ha)
    have hval : InternalPage.ValueAt
        { parent_page_id := parent, max_size := P.max_size, array := slotsOf h P.kids }
        X.length = .ok (Tree.pid h a.2) := by
      simp only [InternalPage.ValueAt]
      rw [hkc, get?_slots_at h (a.1, a.2) _ X]
    rw [hval] at hcr
    simp only [ok_bind, FetchPage_ok hpa, page_size] at hcr
    have hrs : Rep (AddIntoPageSet s (.frame (Tree.pid h a.2))).pages (h + 1) P parent := hr
    split at hcr
    · rename_i hsize
      obtain ⟨s2, hred, hr2⟩ := bind_eq_ok.1 hcr
      simp only [pure_eq_ok, Except.ok.injEq] at hr2
      subst hr2
      obtain ⟨A1, B1, kb1, h1, h2, h3, h4, h5, h6⟩ :=
        Redistribute_left_any h hkc hrs hnd hred
      obtain ⟨hn1, hn2⟩ := @ids_surgery_perm h P X post [(a.1, a.2), (cur.1, cur.2)]
        [(a.1, A1), (kb1, B1)] (X ++ (a.1, A1) :: (kb1, B1) :: post) (by simp [hkc]) (by simp)
        (by simpa using h2) hnd
      have hbig : 1 < Tree.size h a.2 := by
        have := Tree.minSize_le h cur.2
        omega
      refine ⟨_, s2, false, 0, Tree.pid h a.2, hun, ⟨h1, rfl, rfl, hn1, hn2, ?_, h4,
        ⟨h6.root, h6.header, h6.next, h6.lmax, h6.imax⟩, ?_, Or.inl ?_,
        fun hf => by cases hf⟩⟩
      · obtain ⟨ho1, ho2⟩ := h3 hbig (hok.2 a ha) (hok.2 cur hcur)
        refine ⟨by simp, fun e he => ?_⟩
        simp only [List.mem_append, List.mem_cons] at he
        rcases he with he | rfl | rfl | he
        · exact hok.2 e (by rw [hkc]; simp [he])
        · exact ho1
        · exact ho2
        · exact hok.2 e (by rw [hkc]; simp [he])
      · rw [h5]
        rfl
      · rw [h5]
        rfl
    · obtain ⟨r0, hco, hr2⟩ := bind_eq_ok.1 hcr
      simp only [pure_eq_ok, Except.ok.injEq] at hr2
      subst hr2
      obtain ⟨A1, s3, h1, h2, h3, h4, h5, h6, h7, h8, h9, h10, h11⟩ :=
        Coalesce_any (CoalesceOrRedistribute true fuel) h hkc hrs hnd
          (Or.inl ⟨rfl, rfl, rfl⟩)
      obtain ⟨hn1, hn2, hn3⟩ := @ids_surgery_sub h P X post [(a.1, a.2), (cur.1, cur.2)]
        [(a.1, A1)] (X ++ (a.1, A1) :: post) (by simp [hkc]) (by simp) (by simpa using h4)
        (by
          intro x hx
          simp only [kidsIds_cons, kidsIds_nil, List.append_nil] at hx ⊢
          exact List.mem_append.2 (h5 x hx)) hnd
      have hd3 := hn3 (Tree.pid h cur.2)
        (by simp [kidsIds_cons, Tree.pid_mem_ids])
        (by simpa [kidsIds_cons] using h6)
      have hpost : ∀ under1 : Bool,
          (under1 = true → (X ++ (a.1, A1) :: post).length < (P.max_size + 1) / 2) →
          StepPost s s3 h P ({ P with kids := X ++ (a.1, A1) :: post } : ANode (Tree h)) parent
            (Tree.pid h cur.2) (Tree.pid h a.2) under1 := by
        intro under1 hu
        refine ⟨h2, rfl, rfl, hn1, hn2, ?_, h8, ⟨h11.root, h11.header, h11.next, h11.lmax,
          h11.imax⟩, ?_, Or.inr ⟨Tree.pid h cur.2, ?_, ?_, hd3, Or.inl rfl⟩,
          fun hf => ⟨hu hf, ?_⟩⟩
        · refine ⟨by simp, fun e he => ?_⟩
          simp only [List.mem_append, List.mem_cons] at he
          rcases he with he | rfl | he
          · exact hok.2 e (by rw [hkc]; simp [he])
          · exact h7 (hok.2 a ha) (hok.2 cur hcur)
          · exact hok.2 e (by rw [hkc]; simp [he])
        · rw [h9]
          rfl
        · rw [h10]
          rfl
        · exact Tree.ids_kid_subset P hcur (Tree.pid_mem_ids h cur.2)
        · rw [hkc]
          simp only [List.length_append, List.length_cons]
          omega
      rw [h1] at hco
      split at hco
      · rename_i hsm
        exact ⟨_, s3, true, fuel, Tree.pid h a.2, remCont_of hco hun, hpost true fun _ => hsm⟩
      · simp only [Except.ok.injEq] at hco
        subst hco
        exact ⟨_, s3, false, 0, Tree.pid h a.2, hun, hpost false fun hf => by cases hf⟩

/-- One step of the cascade: `CoalesceOrRedistribute` on the child `cur` of the node `P`
that has underflowed leaves a state that represents a node `P1` in the place of `P`, with
the rest of `Remove` being the cascade from `P1` or `Unlock`. -/
theorem cascade_step {s out : State} {h : Nat} {P : ANode (Tree h)} {parent : page_id_t}
    {pre post : List (KeyType × Tree h)} {cur : KeyType × Tree h} {fuel : Nat}
    (hk : P.kids = pre ++ cur :: post) (hr : Rep s.pages (h + 1) P parent)
    (hnd : (Tree.ids (h + 1) P).Nodup) (hPid : P.id ≠ INVALID_PAGE_ID)
    (hok : Tree.Ok (h + 1) P) (hsmall : Tree.size h cur.2 < Tree.minSize h cur.2)
    (hcont : remCont fuel true (Tree.pid h cur.2) s = .ok out) :
    ∃ (P1 : ANode (Tree h)) (s2 : State) (under1 : Bool) (fuel1 : Nat) (sib : page_id_t),
      remCont fuel1 under1 P.id s2 = .ok out ∧
      StepPost s s2 h P P1 parent (Tree.pid h cur.2) sib under1 := by
  rcases List.eq_nil_or_concat pre with rfl | ⟨X, a, rfl⟩
  · exact cascade_step_first hk hr hnd hPid hok hcont
  · rw [List.concat_eq_append] at hk
    exact cascade_step_later hk hr hnd hPid hok hsmall hcont

end BPlusTree

namespace BPlusTree

/-! ## The cascade of `Remove` -/

theorem RemoveIn_length (key : KeyType) :
    ∀ arr : List MappingType, arr.length ≤ (LeafPage.RemoveIn key arr).length + 1
  | [] => by simp [LeafPage.RemoveIn]
  | e :: es => by
    simp only [LeafPage.RemoveIn]
    split
    · simp
    · simpa using RemoveIn_length key es

theorem remCont_false (fuel : Nat) (node : page_id_t) (s : State) :
    remCont fuel false node s = Unlock .DELETE true s := by
  simp [remCont]

/-- The child that the descent chooses, with the pages of the cascade in place of its
subtree. -/
theorem Up.lift {s0 s3 : State} {h : Nat} {P : ANode (Tree h)} {parent : page_id_t}
    {pre post : List (KeyType × Tree h)} {cur : KeyType × Tree h} {t1 : Tree h}
    {ps : List PageRef} {under : Bool} (hk : P.kids = pre ++ cur :: post)
    (hr : Rep s0.pages (h + 1) P parent) (hnd : (Tree.ids (h + 1) P).Nodup)
    (hok : Tree.Ok (h + 1) P) (hup : Up s0 s3 h cur.2 t1 P.id ps under) :
    Rep s3.pages (h + 1) ({ P with kids := pre ++ (cur.1, t1) :: post } : ANode (Tree h))
        parent ∧
      (Tree.ids (h + 1) ({ P with kids := pre ++ (cur.1, t1) :: post } : ANode (Tree h))).Nodup ∧
      (∀ x ∈ Tree.ids (h + 1) ({ P with kids := pre ++ (cur.1, t1) :: post } : ANode (Tree h)),
        x ∈ Tree.ids (h + 1) P) ∧
      (∀ d ∈ Tree.ids h cur.2, d ∉ Tree.ids h t1 →
        d ∉ Tree.ids (h + 1) ({ P with kids := pre ++ (cur.1, t1) :: post } : ANode (Tree h))) ∧
      Tree.Ok (h + 1) ({ P with kids := pre ++ (cur.1, t1) :: post } : ANode (Tree h)) ∧
      (∀ x, x ∉ Tree.ids (h + 1) P → s3.pages x = s0.pages x) := by
  have hcur : cur ∈ P.kids := by rw [hk]; simp
  obtain ⟨hn1, hn2, hn3⟩ := @ids_surgery_sub h P pre post [cur] [(cur.1, t1)]
    (pre ++ (cur.1, t1) :: post) (by simp [hk]) (by simp) (by simpa using hup.nodup)
    (by simpa using hup.sub) hnd
  have hPnot : P.id ∉ Tree.ids h cur.2 := by
    intro hm
    rw [Tree.ids_succ, List.nodup_cons] at hnd
    exact hnd.1 (mem_kidsIds.2 ⟨cur, hcur, hm⟩)
  refine ⟨?_, hn1, hn2, fun d hd hd1 => hn3 d (by simpa using hd) (by simpa using hd1), ?_,
    fun x hx => hup.frame x fun hm => hx (Tree.ids_kid_subset P hcur hm)⟩
  · refine Rep.surgery P parent pre post [cur] [(cur.1, t1)] _ (by simp [hk]) (by simp) hr hnd
      ?_ ?_ ?_
    · rw [hup.frame _ hPnot]
      have hr1 := hr
      simp only [Rep] at hr1
      rw [hr1.1, hk]
      simp [slotsOf_append, slotsOf_cons, hup.pid]
    · intro e he
      simp only [List.mem_singleton] at he
      subst he
      exact hup.rep
    · intro x hx _
      exact hup.frame x (by simpa using hx)
  · refine ⟨by simp, fun e he => ?_⟩
    simp only [List.mem_append, List.mem_cons] at he
    rcases he with he | rfl | he
    · exact hok.2 e (by rw [hk]; simp [he])
    · exact hup.ok
    · exact hok.2 e (by rw [hk]; simp [he])

theorem heldAfter_mem (safe : Bool) (ps : List PageRef) (page_id : page_id_t) :
    PageRef.frame page_id ∈ heldAfter safe ps page_id := by
  simp [heldAfter]

/-- The cascade of `Remove` from the leaf up to the root of a subtree. -/
theorem rem_up (key : KeyType) :
    ∀ (h : Nat) (t : Tree h) (parent : page_id_t) (s0 : State) (ps : List PageRef) (L : ALeaf)
      (lp : LeafPage),
      Rep s0.pages h t parent → (Tree.ids h t).Nodup → Tree.Ok h t →
      (∀ x ∈ Tree.ids h t, x ≠ INVALID_PAGE_ID) →
      s0.txn.deleted_page_set = [] → s0.txn.page_set = Tree.held .DELETE key false h t ps →
      PageRef.frame (Tree.pid h t) ∈ ps →
      Tree.findLeaf key false h t = some L → s0.pages L.id = some (.leaf lp) →
      ∀ (fuel : Nat) (out : State),
        remCont fuel (decide ((lp.RemoveAndDeleteRecord key).GetSize <
            (lp.RemoveAndDeleteRecord key).GetMinSize)) L.id
          (WriteLeaf s0 L.id (lp.RemoveAndDeleteRecord key)) = .ok out →
        ∃ (t1 : Tree h) (s3 : State) (under : Bool) (fuel1 : Nat),
          remCont fuel1 under (Tree.pid h t) s3 = .ok out ∧ Up s0 s3 h t t1 parent ps under
  | 0, t, parent, s0, ps, L, lp, hr, hnd, hok, hid, hd, hps, hfr, hL, hlp, fuel, out, hcont => by
    simp only [Tree.findLeaf, Option.some.injEq] at hL
    subst hL
    simp only [Rep] at hr
    rw [hr] at hlp
    simp only [Option.some.injEq, BPlusTreePage.leaf.injEq] at hlp
    subst hlp
    refine ⟨ALeaf.mk (ALeaf.id t) (ALeaf.max_size t) (ALeaf.next t)
      (LeafPage.RemoveIn key (ALeaf.arr t)), _, _, fuel, hcont, ?_⟩
    refine ⟨?_, rfl, rfl, ?_, ?_, trivial, ?_, ⟨rfl, rfl, rfl, rfl, rfl⟩, ⟨[], ?_⟩, ?_, ?_, ?_, ?_⟩
    · simp [Rep, WriteLeaf, LeafPage.RemoveAndDeleteRecord]
    · simp [Tree.ids_zero]
    · intro x hx
      simpa [Tree.ids_zero] using hx
    · intro x hx
      simp only [Tree.ids_zero, List.mem_singleton] at hx
      simp [WriteLeaf, hx]
    · simp [WriteLeaf]
    · intro x hx
      simp only [WriteLeaf, setPage_txn, hd, List.not_mem_nil] at hx
    · intro _
      exact ⟨[], by simpa [WriteLeaf, Tree.held] using hps⟩
    · intro hu
      simpa [LeafPage.RemoveAndDeleteRecord, LeafPage.GetSize, LeafPage.GetMinSize] using hu
    · intro hu
      have h1 : (LeafPage.RemoveIn key (ALeaf.arr t)).length < (ALeaf.max_size t - 1 + 1) / 2 := by
        simpa [LeafPage.RemoveAndDeleteRecord, LeafPage.GetSize, LeafPage.GetMinSize] using hu
      have h2 := RemoveIn_length key (ALeaf.arr t)
      simp only [Tree.safe, IsSafe, Tree.page, BPlusTreePage.GetSize, BPlusTreePage.GetMinSize,
        LeafPage.GetSize, LeafPage.GetMinSize, decide_eq_false_iff_not, not_lt, gt_iff_lt]
      omega
  | h + 1, P, parent, s0, ps, L, lp, hr, hnd, hok, hid, hd, hps, hfr, hL, hlp, fuel, out,
      hcont => by
    cases hc : choose key false P.kids with
    | none => simp [Tree.findLeaf, hc] at hL
    | some r0 =>
      obtain ⟨pre, cur, post⟩ := r0
      have hk := choose_eq hc
      have hcur : cur ∈ P.kids := by rw [hk]; simp
      have hL1 : Tree.findLeaf key false h cur.2 = some L := by
        simpa [Tree.findLeaf, hc] using hL
      have hr1 := hr
      simp only [Rep] at hr1
      have hndc : (Tree.ids h cur.2).Nodup := by
        rw [Tree.ids_succ, List.nodup_cons] at hnd
        exact kidsIds_nodup_kid hnd.2 hcur
      have hps1 : s0.txn.page_set = Tree.held .DELETE key false h cur.2
          (heldAfter (Tree.safe .DELETE h cur.2) ps (Tree.pid h cur.2)) := by
        rw [hps]
        simp [Tree.held, hc]
      obtain ⟨t1, s3, under, fuel1, hcont1, hup⟩ := rem_up key h cur.2 P.id s0
        (heldAfter (Tree.safe .DELETE h cur.2) ps (Tree.pid h cur.2)) L lp (hr1.2 cur hcur) hndc
        (hok.2 cur hcur) (fun x hx => hid x (Tree.ids_kid_subset P hcur hx)) hd hps1
        (heldAfter_mem _ _ _) hL1 hlp fuel out hcont
      obtain ⟨hrep, hnd1, hsub1, hdel1, hok1, hframe1⟩ := Up.lift hk hr hnd hok hup
      cases under with
      | false =>
        refine ⟨({ P with kids := pre ++ (cur.1, t1) :: post } : ANode (Tree h)), s3, false,
          0, ?_, ⟨hrep, rfl, rfl, hnd1, hsub1, hok1, hframe1, hup.fixed, hup.grows, ?_,
          fun hf => (by cases hf), fun hf => (by cases hf), fun hf => (by cases hf)⟩⟩
        · rw [remCont_false] at hcont1 ⊢
          exact hcont1
        · intro x hx
          obtain ⟨h1, h2, h3⟩ := hup.deleted x hx
          exact ⟨Tree.ids_kid_subset P hcur h1, hdel1 x h1 h2, h3⟩
      | true =>
        have hPid : P.id ≠ INVALID_PAGE_ID := hid P.id (by simp [Tree.ids_succ])
        have hcont2 : remCont fuel1 true (Tree.pid h t1) s3 = .ok out := by
          rw [hup.pid]
          exact hcont1
        obtain ⟨P1, s4, under1, fuel2, sib, hcont3, hsp⟩ :=
          @cascade_step s3 out h ({ P with kids := pre ++ (cur.1, t1) :: post } : ANode (Tree h))
            parent pre post (cur.1, t1) fuel1 rfl hrep hnd1 hPid hok1 (hup.small rfl) hcont2
        obtain ⟨e1, he1⟩ := hup.held rfl
        have hps3 : s3.txn.page_set = ps ++ ([PageRef.frame (Tree.pid h cur.2)] ++ e1) := by
          rw [he1, heldAfter, hup.notSafe rfl]
          simp
        refine ⟨P1, s4, under1, fuel2, hcont3, ⟨hsp.rep, hsp.id, hsp.max, hsp.nodup,
          fun x hx => hsub1 x (hsp.sub x hx), hsp.ok, ?_, ?_, ?_, ?_, ?_, ?_, ?_⟩⟩
        · intro x hx
          rw [hsp.frame x fun hm => hx (hsub1 x hm)]
          exact hframe1 x hx
        · exact Fixed.trans_fixed hup.fixed hsp.fixed
        · obtain ⟨e0, he0⟩ := hup.grows
          exact ⟨e0 ++ [PageRef.frame sib], by rw [hsp.page_set, he0, List.append_assoc]⟩
        · have hold : ∀ x ∈ s3.txn.deleted_page_set, x ∈ Tree.ids (h + 1) P ∧
              x ∉ Tree.ids (h + 1) P1 ∧ PageRef.frame x ∈ s4.txn.page_set := by
            intro x hx
            obtain ⟨h1, h2, h3⟩ := hup.deleted x hx
            refine ⟨Tree.ids_kid_subset P hcur h1, fun hm => hdel1 x h1 h2 (hsp.sub x hm), ?_⟩
            rw [hsp.page_set]
            exact List.mem_append_left _ h3
          intro x hx
          rcases hsp.deleted with heq | ⟨d, heq, hdP, hdP1, hdor⟩
          · rw [heq] at hx
            exact hold x hx
          · rw [heq] at hx
            rcases List.mem_cons.1 hx with rfl | hx1
            · refine ⟨hsub1 x hdP, hdP1, ?_⟩
              rw [hsp.page_set]
              rcases hdor with rfl | rfl
              · refine List.mem_append_left _ ?_
                rw [hps3, hup.pid]
                simp
              · simp
            · exact hold x hx1
        · intro _
          exact ⟨[PageRef.frame (Tree.pid h cur.2)] ++ e1 ++ [PageRef.frame sib], by
            rw [hsp.page_set, hps3]
            simp⟩
        · intro hu
          have := (hsp.small hu).1
          rw [Tree.size_succ, Tree.minSize_succ, hsp.max]
          exact this
        · intro hu
          obtain ⟨h1, h2⟩ := hsp.small hu
          have h3 : (pre ++ (cur.1, t1) :: post).length = P.kids.length := by
            rw [hk]
            simp
          simp only [h3] at h2
          simp only at h1
          simp only [Tree.safe, IsSafe, Tree.page, BPlusTreePage.GetSize,
            BPlusTreePage.GetMinSize, InternalPage.GetSize, InternalPage.GetMinSize,
            slotsOf_length, decide_eq_false_iff_not, not_lt, gt_iff_lt]
          omega

/-- The latched descent runs out of fuel when the fuel does not exceed the height. -/
theorem latched_descent_fuel (key : KeyType) (leftMost : Bool) (action_type : ActionType) :
    ∀ (h : Nat) (t : Tree h) (parent : page_id_t) (s : State), Rep s.pages h t parent →
      Tree.Ok h t → s.txn.page_set ≠ [] → s.txn.deleted_page_set = [] →
      ∀ fuel, fuel ≤ h →
        FindLeafPage.latched key leftMost action_type fuel s (Tree.pid h t) =
          .error .out_of_fuel
  | 0, t, parent, s, hr, hok, hps, hd, fuel, hf => by
    obtain rfl : fuel = 0 := by omega
    rfl
  | h + 1, t, parent, s, hr, hok, hps, hd, fuel, hf => by
    cases fuel with
    | zero => rfl
    | succ f =>
      simp only [Rep] at hr
      obtain ⟨L, hL⟩ := Tree.findLeaf_some key leftMost (h + 1) t hok
      simp only [Tree.findLeaf] at hL
      cases hc : choose key leftMost t.kids with
      | none => simp [hc] at hL
      | some r =>
        obtain ⟨pre, cur, post⟩ := r
        have hk := choose_eq hc
        have hmem : cur ∈ t.kids := by rw [hk]; simp
        have hrc := hr.2 cur hmem
        have hnext := choose_next hc
          { parent_page_id := parent, max_size := t.max_size, array := slotsOf h t.kids } rfl
        have hpc := Rep.page_eq h cur.2 _ hrc
        have hlock := Lock_frame action_type s (Tree.pid h cur.2) _ hpc hps hd
        rw [IsSafe_page] at hlock
        have ih := latched_descent_fuel key leftMost action_type h cur.2 t.id
          (s.withPageSet (heldAfter (Tree.safe action_type h cur.2) s.txn.page_set
            (Tree.pid h cur.2)))
          hrc (hok.2 cur hmem) (by simp [heldAfter]) hd f (by omega)
        simp only [FindLeafPage.latched, FetchPage, Tree.pid_succ, hr.1, ok_bind]
        rw [hnext]
        simp only [ok_bind, hpc, hlock]
        rw [ih]

theorem FindLeafPage_fuel {s : State} {h : Nat} {t : Tree h} (hs : Holds s h t)
    (key : KeyType) (leftMost : Bool) (action_type : ActionType) {fuel : Nat} (hf : fuel ≤ h) :
    FindLeafPage fuel key leftMost true action_type s = .error .out_of_fuel := by
  have hne := hs.root_ne
  have hpr := Rep.page_eq h t _ hs.rep
  have hlock := Lock_frame action_type (s.withPageSet [.virtual_root_page]) (Tree.pid h t) _
    (by simpa using hpr) (by simp) (by simpa using hs.deleted)
  rw [IsSafe_page] at hlock
  have hdesc := latched_descent_fuel key leftMost action_type h t INVALID_PAGE_ID
    ((s.withPageSet [.virtual_root_page]).withPageSet
      (heldAfter (Tree.safe action_type h t) [.virtual_root_page] (Tree.pid h t)))
    (by simpa using hs.rep) hs.ok (by simp [heldAfter]) (by simpa using hs.deleted) fuel hf
  simp only [FindLeafPage, IsEmpty, beq_iff_eq, hne, if_false, Bool.not_true,
    Bool.false_eq_true, Lock_virtual_root, hs.page_set, List.nil_append, ok_bind]
  simp only [withPageSet_page_set, withPageSet_withPageSet] at hlock hdesc
  simp only [withPageSet_root, hs.root, FetchPage, withPageSet_pages, hpr, ok_bind, hlock, hdesc]
  rfl

/-- The release of the latches at the end of `Remove` leaves a quiescent state that holds
the tree. -/
theorem Unlock_holds {s3 s1 : State} {h : Nat} {t1 : Tree h}
    (hrep : Rep s3.pages h t1 INVALID_PAGE_ID) (hroot : s3.root_page_id_ = Tree.pid h t1)
    (hnd : (Tree.ids h t1).Nodup) (hok : Tree.Ok h t1) (hdom : Dom s3)
    (hps : s3.txn.page_set ≠ [])
    (hdel : ∀ x ∈ s3.txn.deleted_page_set,
      x ∉ Tree.ids h t1 ∧ PageRef.frame x ∈ s3.txn.page_set)
    (hun : Unlock .DELETE true s3 = .ok s1) : Holds s1 h t1 := by
  obtain ⟨s2, hun2, hpages, hps2, hd2, hnext, -, hroot2, -, -⟩ :=
    Unlock_deleting .DELETE s3 hps fun x hx => (hdel x hx).2
  obtain rfl : s2 = s1 := Except.ok.inj (hun2.symm.trans hun)
  refine ⟨hroot2.trans hroot, ?_, hnd, hok, ?_, hps2, hd2⟩
  · refine Rep.frame h t1 _ hrep fun x hx => ?_
    rw [hpages x, if_neg fun hm => (hdel x hm).1 hx]
  · intro x hx
    rw [hnext]
    refine hdom x fun hnone => hx ?_
    rw [hpages x, hnone]
    simp

theorem Up.dom {s0 s3 : State} {h : Nat} {t t1 : Tree h} {parent : page_id_t}
    {ps : List PageRef} {under : Bool} (hup : Up s0 s3 h t t1 parent ps under)
    (hr : Rep s0.pages h t parent) (hdom : Dom s0) : Dom s3 := by
  intro x hx
  rw [hup.fixed.next]
  by_cases hm : x ∈ Tree.ids h t
  · exact hdom x (Rep.page_some h t _ hr x hm)
  · exact hdom x (by rw [← hup.frame x hm]; exact hx)

theorem Dom.ne_invalid {s : State} (hdom : Dom s) {x : page_id_t} (hx : s.pages x ≠ none) :
    x ≠ INVALID_PAGE_ID := by
  intro h4
  have h3 := (hdom x hx).1
  rw [h4] at h3
  exact absurd h3 (by decide)

theorem Dom.withPageSet_dom {s : State} (hdom : Dom s) (ps : List PageRef) :
    Dom (s.withPageSet ps) := hdom

/-- `Remove` after the descent is the cascade from the leaf. -/
theorem Remove_cont {s s0 s1 : State} {fuel : Nat} {key : KeyType} {page_id : page_id_t}
    {lp : LeafPage} (hne : s.root_page_id_ ≠ INVALID_PAGE_ID)
    (hfind : FindLeafPage fuel key false true .DELETE s = .ok (some page_id, s0))
    (hlp : s0.pages page_id = some (.leaf lp))
    (hrem : Remove fuel key true s = .ok s1) :
    remCont fuel (decide ((lp.RemoveAndDeleteRecord key).GetSize <
        (lp.RemoveAndDeleteRecord key).GetMinSize)) page_id
      (WriteLeaf s0 page_id (lp.RemoveAndDeleteRecord key)) = .ok s1 := by
  simp only [Remove, IsEmpty, beq_iff_eq, hne, if_false, Bool.false_eq_true, hfind, ok_bind,
    FetchLeaf_ok hlp, if_true] at hrem
  by_cases hsm : (lp.RemoveAndDeleteRecord key).GetSize < (lp.RemoveAndDeleteRecord key).GetMinSize
  · rw [if_neg (by omega)] at hrem
    obtain ⟨r, hcr, hun⟩ := bind_eq_ok.1 hrem
    simp only [hsm, decide_True]
    exact remCont_of hcr hun
  · rw [if_pos (by omega)] at hrem
    simp only [hsm, decide_False, remCont_false]
    exact hrem

/-- The cascade has reached the root: `AdjustRoot` empties the tree when the root is a leaf
and makes the first child the root otherwise. -/
theorem root_adjust {s3 s1 : State} :
    ∀ {h : Nat} {t1 : Tree h}, Rep s3.pages h t1 INVALID_PAGE_ID →
      (Tree.ids h t1).Nodup → Tree.Ok h t1 → Dom s3 → 0 ≤ s3.next_page_id →
      PageRef.frame (Tree.pid h t1) ∈ s3.txn.page_set →
      (∀ x ∈ s3.txn.deleted_page_set, x ∉ Tree.ids h t1 ∧ PageRef.frame x ∈ s3.txn.page_set) →
      ∀ {fuel : Nat}, remCont fuel true (Tree.pid h t1) s3 = .ok s1 → Good s1
  | 0, t1, hrep, hnd, hok, hdom, hnn, hfr, hdel, fuel, hcont => by
    obtain ⟨r, hcr, hun⟩ := remCont_true hcont
    cases fuel with
    | zero => simp [CoalesceOrRedistribute] at hcr
    | succ fuel =>
      simp only [Rep] at hrep
      simp only [CoalesceOrRedistribute, Tree.pid_zero, FetchPage_ok hrep, ok_bind,
        BPlusTreePage.IsRootPage, BPlusTreePage.GetParentPageId, beq_self_eq_true, if_true,
        AdjustRoot, pure_eq_ok, Except.ok.injEq] at hcr
      subst hcr
      obtain ⟨sX, hunX, hXpages, hXps, hXdel, hXroot, hXnext⟩ :
          ∃ sX, Unlock .DELETE true sX = .ok s1 ∧ sX.pages = s3.pages ∧
            sX.txn.page_set = s3.txn.page_set ∧
            sX.txn.deleted_page_set = ALeaf.id t1 :: s3.txn.deleted_page_set ∧
            sX.root_page_id_ = INVALID_PAGE_ID ∧ sX.next_page_id = s3.next_page_id :=
        ⟨_, hun, by simp [AddIntoDeletedPageSet], by simp [AddIntoDeletedPageSet],
          by simp [AddIntoDeletedPageSet], by simp [AddIntoDeletedPageSet],
          by simp [AddIntoDeletedPageSet]⟩
      obtain ⟨s2, hun2, hpages, hps2, hd2, hnext, -, hroot2, -, -⟩ :=
        Unlock_deleting .DELETE sX (by
          rw [hXps]
          exact List.ne_nil_of_mem hfr) (by
          intro x hx
          rw [hXdel] at hx
          rw [hXps]
          rcases List.mem_cons.1 hx with rfl | hx
          · exact hfr
          · exact (hdel x hx).2)
      obtain rfl : s2 = s1 := Except.ok.inj (hun2.symm.trans hunX)
      refine Or.inl ⟨hroot2.trans hXroot, ?_, ?_, hps2, hd2⟩
      · intro x hx
        rw [hnext, hXnext]
        refine hdom x fun hnone => hx ?_
        rw [hpages x, hXpages, hnone]
        simp
      · rw [hnext, hXnext]
        exact hnn
  | h + 1, t1, hrep, hnd, hok, hdom, hnn, hfr, hdel, fuel, hcont => by
    obtain ⟨r, hcr, hun⟩ := remCont_true hcont
    cases fuel with
    | zero => simp [CoalesceOrRedistribute] at hcr
    | succ fuel =>
      simp only [Rep] at hrep
      cases hkids : ANode.kids t1 with
      | nil => exact absurd hkids hok.1
      | cons e es =>
        have he : e ∈ ANode.kids t1 := by rw [hkids]; simp
        have hpe := Rep.page_eq h e.2 _ (hrep.2 e he)
        have hval : InternalPage.ValueAt
            { parent_page_id := INVALID_PAGE_ID, max_size := ANode.max_size t1,
              array := slotsOf h (ANode.kids t1) } 0 = .ok (Tree.pid h e.2) := by
          simp [InternalPage.ValueAt, hkids, slotsOf_cons]
        simp only [CoalesceOrRedistribute, Tree.pid_succ, FetchPage_ok hrep.1, ok_bind,
          BPlusTreePage.IsRootPage, BPlusTreePage.GetParentPageId, beq_self_eq_true, if_true,
          AdjustRoot, hval, SetParent, UpdateRootPageId_pages, UpdateRootPageId_root, hpe,
          pure_eq_ok, Except.ok.injEq, SetParentPageId_page] at hcr
        subst hcr
        obtain ⟨sX, hunX, hXpages, hXps, hXdel, hXroot, hXnext⟩ :
            ∃ sX, Unlock .DELETE true sX = .ok s1 ∧
              (∀ x, sX.pages x = if x = Tree.pid h e.2 then
                some (Tree.page h e.2 INVALID_PAGE_ID) else s3.pages x) ∧
              sX.txn.page_set = s3.txn.page_set ∧
              sX.txn.deleted_page_set = ANode.id t1 :: s3.txn.deleted_page_set ∧
              sX.root_page_id_ = Tree.pid h e.2 ∧ sX.next_page_id = s3.next_page_id :=
          ⟨_, hun, fun x => by simp [AddIntoDeletedPageSet], by simp [AddIntoDeletedPageSet],
            by simp [AddIntoDeletedPageSet], by simp [AddIntoDeletedPageSet],
            by simp [AddIntoDeletedPageSet]⟩
        rw [Tree.ids_succ, List.nodup_cons] at hnd
        refine Or.inr ⟨h, e.2, @Unlock_holds sX s1 h e.2 ?_ hXroot (kidsIds_nodup_kid hnd.2 he)
          (hok.2 e he) ?_ ?_ ?_ hunX⟩
        · refine Rep.repoint h e.2 _ _ (hrep.2 e he) (kidsIds_nodup_kid hnd.2 he) ?_ ?_
          · rw [hXpages, if_pos rfl]
          · intro x _ hxne
            rw [hXpages, if_neg hxne]
        · intro x hx
          rw [hXnext]
          refine hdom x fun hnone => hx ?_
          rw [hXpages]
          split
          · rename_i heq
            rw [heq, hpe] at hnone
            cases hnone
          · exact hnone
        · rw [hXps]
          exact List.ne_nil_of_mem hfr
        · intro x hx
          rw [hXdel] at hx
          rw [hXps]
          rcases List.mem_cons.1 hx with rfl | hx
          · exact ⟨fun hm => hnd.1 (mem_kidsIds.2 ⟨e, he, hm⟩), hfr⟩
          · refine ⟨fun hm => (hdel x hx).1 ?_, (hdel x hx).2⟩
            rw [Tree.ids_succ]
            exact List.mem_cons_of_mem _ (mem_kidsIds.2 ⟨e, he, hm⟩)

/-- `Remove` (with a transaction) on a state that holds a tree: when the call returns, the
state holds a tree again, or the empty tree. -/
theorem Remove_holds {s s1 : State} {h : Nat} {t : Tree h} (hs : Holds s h t) {fuel : Nat}
    {key : KeyType} (hrem : Remove fuel key true s = .ok s1) : Good s1 := by
  have hne := hs.root_ne
  by_cases hf : h < fuel
  swap
  · have hfail := FindLeafPage_fuel hs key false .DELETE (Nat.le_of_not_lt hf)
    simp [Remove, IsEmpty, hne, hfail] at hrem
  obtain ⟨L, hL⟩ := Tree.findLeaf_some key false h t hs.ok
  obtain ⟨⟨p, hLr⟩, -⟩ := Tree.findLeaf_rep key false h t _ hs.rep L hL
  simp only [Rep] at hLr
  have hfind := FindLeafPage_latched hs key false .DELETE hL hf
  have hcont := Remove_cont hne hfind (by simpa using hLr) hrem
  have hid : ∀ x ∈ Tree.ids h t, x ≠ INVALID_PAGE_ID := fun x hx =>
    hs.dom.ne_invalid (Rep.page_some h t _ hs.rep x hx)
  obtain ⟨t1, s3, under, fuel1, hcont1, hup⟩ := rem_up key h t INVALID_PAGE_ID
    (s.withPageSet (Tree.heldRoot .DELETE key false h t))
    (heldAfter (Tree.safe .DELETE h t) [.virtual_root_page] (Tree.pid h t)) L _
    (by simpa using hs.rep) hs.nodup hs.ok hid (by simpa using hs.deleted) rfl
    (heldAfter_mem _ _ _) hL (by simpa using hLr) fuel s1 hcont
  have hdom3 : Dom s3 := hup.dom (by simpa using hs.rep) (hs.dom.withPageSet_dom _)
  have hroot3 : s3.root_page_id_ = Tree.pid h t1 := by
    rw [hup.fixed.root, hup.pid]
    exact hs.root
  have hdel3 : ∀ x ∈ s3.txn.deleted_page_set,
      x ∉ Tree.ids h t1 ∧ PageRef.frame x ∈ s3.txn.page_set := fun x hx =>
    ⟨(hup.deleted x hx).2.1, (hup.deleted x hx).2.2⟩
  cases under with
  | false =>
    rw [remCont_false] at hcont1
    obtain ⟨extra, hex⟩ := hup.grows
    refine Or.inr ⟨h, t1, Unlock_holds hup.rep hroot3 hup.nodup hup.ok hdom3 ?_ hdel3 hcont1⟩
    rw [hex]
    simp only [withPageSet_page_set]
    intro hnil
    exact Tree.heldRoot_ne_nil .DELETE key false h t (List.append_eq_nil.1 hnil).1
  | true =>
    obtain ⟨extra, hex⟩ := hup.held rfl
    rw [← hup.pid] at hcont1
    refine root_adjust hup.rep hup.nodup hup.ok hdom3 ?_ ?_ hdel3 hcont1
    · rw [hup.fixed.next]
      have h1 := hs.dom _ (Rep.page_some h t _ hs.rep _ (Tree.pid_mem_ids h t))
      simp only [withPageSet_next]
      exact le_trans h1.1 (le_of_lt h1.2)
    · rw [hex, hup.pid]
      exact List.mem_append_left _ (heldAfter_mem _ _ _)

/-- `Remove` on the empty tree returns at once. -/
theorem Remove_empty {s : State} (hs : HoldsEmpty s) (fuel : Nat) (key : KeyType)
    (transaction : Bool) : Remove fuel key transaction s = .ok s := by
  simp [Remove, IsEmpty, hs.root]

/-! ## The states that the calls reach -/

/-- In a represented tree of height `h` every path from the root to a leaf has `h` child
pointers. -/
theorem Rep.path {pages : page_id_t → Option BPlusTreePage} :
    ∀ (h : Nat) (t : Tree h) (parent : page_id_t), Rep pages h t parent →
      ∀ d, Path pages (Tree.pid h t) d → d = h
  | 0, t, parent, hr, d, hp => by
    simp only [Rep] at hr
    cases hp with
    | leaf _ => rfl
    | step hn _ _ =>
      rw [Tree.pid_zero, hr] at hn
      cases hn
  | h + 1, t, parent, hr, d, hp => by
    simp only [Rep] at hr
    cases hp with
    | leaf hl =>
      rw [Tree.pid_succ, hr.1] at hl
      cases hl
    | step hn hc hp1 =>
      rw [Tree.pid_succ, hr.1] at hn
      simp only [Option.some.injEq, BPlusTreePage.internal.injEq] at hn
      subst hn
      obtain ⟨e, he, rfl⟩ := mem_slotsOf_snd.1 hc
      rw [Rep.path h e.2 _ (hr.2 e he) _ hp1]

end BPlusTree

namespace BPlusTree

/-! ## States given by their pages -/

theorem lookupPage_mem {q : page_id_t} :
    ∀ {l : List (page_id_t × BPlusTreePage)}, lookupPage q l ≠ none → ∃ e ∈ l, e.1 = q
  | [], h => absurd rfl h
  | e :: rest, h => by
    simp only [lookupPage] at h
    by_cases hq : q = e.1
    · exact ⟨e, List.mem_cons_self _ _, hq.symm⟩
    · rw [if_neg hq] at h
      obtain ⟨x, hx, hxq⟩ := lookupPage_mem h
      exact ⟨x, List.mem_cons_of_mem _ hx, hxq⟩

/-- A state given by its pages holds the tree that the pages represent. -/
theorem State.ofList_holds {l : List (page_id_t × BPlusTreePage)} {root next : page_id_t}
    {lmax imax : Nat} {h : Nat} {t : Tree h} (hroot : root = Tree.pid h t)
    (hrep : Rep (fun q => lookupPage q l) h t INVALID_PAGE_ID) (hnd : (Tree.ids h t).Nodup)
    (hok : Tree.Ok h t) (hdom : ∀ e ∈ l, 0 ≤ e.1 ∧ e.1 < next) :
    Holds (State.ofList l root next lmax imax) h t :=
  ⟨hroot, hrep, hnd, hok, fun x hx => by
    obtain ⟨e, he, rfl⟩ := lookupPage_mem hx
    exact hdom e he, rfl, rfl⟩

/-! ## The split of a root leaf -/

theorem insRoot_full_leaf (lmax imax : Nat) (key : KeyType) (value : ValueType) (L : ALeaf)
    (next : page_id_t) (hfull : ¬ L.arr.length < L.max_size - 1) :
    Tree.insRoot lmax imax key value 0 L next =
      (⟨1, (ANode.mk (next + 1) imax
          [(0, ALeaf.mk L.id L.max_size next
              ((LeafPage.InsertIn key value L.arr).take
                ((LeafPage.InsertIn key value L.arr).length / 2))),
            (firstKey ((LeafPage.InsertIn key value L.arr).drop
                ((LeafPage.InsertIn key value L.arr).length / 2)),
              ALeaf.mk next lmax L.next
                ((LeafPage.InsertIn key value L.arr).drop
                  ((LeafPage.InsertIn key value L.arr).length / 2)))] :
          ANode (Tree 0))⟩, next + 1 + 1) := by
  simp only [Tree.insRoot, Tree.ins, ALeaf.ins, hfull, if_false]

/-! ## The merge of the two leaves of a root -/

theorem CoalesceOrRedistribute_root_one {s3 : State} {pid c : page_id_t} {k0 : KeyType}
    {m : Nat} {n : BPlusTreePage}
    (hP : s3.pages pid = some (.internal
      { parent_page_id := INVALID_PAGE_ID, max_size := m, array := [(k0, c)] }))
    (hc : s3.pages c = some n) (f : Nat) :
    CoalesceOrRedistribute true (f + 1) s3 pid =
      .ok (true, AddIntoDeletedPageSet
        ((UpdateRootPageId { s3 with root_page_id_ := c } false).setPage c
          (n.SetParentPageId INVALID_PAGE_ID)) pid) := by
  have hc1 : (UpdateRootPageId { s3 with root_page_id_ := c } false).pages c = some n := by
    rw [UpdateRootPageId_pages]; exact hc
  have hr1 : (UpdateRootPageId { s3 with root_page_id_ := c } false).root_page_id_ = c := by
    rw [UpdateRootPageId_root]
  simp only [CoalesceOrRedistribute, FetchPage_ok hP, ok_bind, BPlusTreePage.IsRootPage,
    BPlusTreePage.GetParentPageId, beq_self_eq_true, if_true, AdjustRoot,
    InternalPage.ValueAt, List.get?, hr1, SetParent_ok hc1]
  rfl

/-- The cascade of `Remove` from an underflowed leaf below a root with two leaves that
merge: the state before `Unlock`. -/
theorem cascade_two_leaves {s2 : State} {P : ANode (Tree 0)} {k0 kb : KeyType} {A B : ALeaf}
    (hk : P.kids = [((k0, A) : KeyType × Tree 0), ((kb, B) : KeyType × Tree 0)])
    (hr : Rep s2.pages 1 P INVALID_PAGE_ID) (hnd : (Tree.ids 1 P).Nodup)
    (hPid : P.id ≠ INVALID_PAGE_ID) (hroot : 3 ≤ P.max_size) {node sib : ALeaf}
    (hcase : (node = B ∧ sib = A) ∨ (node = A ∧ sib = B))
    (hmerge : sib.arr.length + node.arr.length ≤ node.max_size) (f : Nat) :
    ∃ (b : Bool) (s5 : State), CoalesceOrRedistribute true (f + 2) s2 node.id = .ok (b, s5) ∧
      s5.root_page_id_ = A.id ∧
      s5.pages A.id = some (.leaf
        { parent_page_id := INVALID_PAGE_ID, max_size := A.max_size, next_page_id := B.next,
          array := A.arr ++ B.arr }) ∧
      (∀ x, x ∉ Tree.ids 1 P → s5.pages x = s2.pages x) ∧
      s5.txn.page_set = s2.txn.page_set ++ [.frame sib.id] ∧
      s5.txn.deleted_page_set = P.id :: B.id :: s2.txn.deleted_page_set ∧
      s5.next_page_id = s2.next_page_id := by
  have hk0 : P.kids = [] ++ ((k0, A) : KeyType × Tree 0) :: ((kb, B) : KeyType × Tree 0) :: [] :=
    hk
  obtain ⟨hP, hA, hB, hAB, hAP, hBP⟩ := pair_leaf_facts hk0 hr hnd
  have hlt : ([] ++ ((k0, A) : KeyType × Tree 0) :: ([] : List (KeyType × Tree 0))).length <
      (P.max_size + 1) / 2 := by
    simp only [List.nil_append, List.length_singleton]
    omega
  have hr1 : ∀ x : page_id_t, Rep (AddIntoPageSet s2 (.frame x)).pages 1 P INVALID_PAGE_ID :=
    fun _ => hr
  have hfin : ∀ (x : page_id_t) (s3 : State),
      Rep s3.pages 1 ({ P with kids := [] ++ ((k0,
        ({ id := A.id, max_size := A.max_size, next := B.next, arr := A.arr ++ B.arr } : ALeaf)) :
          KeyType × Tree 0) :: [] } : ANode (Tree 0)) INVALID_PAGE_ID →
      (∀ y, y ∉ Tree.ids 1 P → s3.pages y = (AddIntoPageSet s2 (.frame x)).pages y) →
      s3.txn.page_set = (AddIntoPageSet s2 (.frame x)).txn.page_set →
      s3.txn.deleted_page_set = B.id :: (AddIntoPageSet s2 (.frame x)).txn.deleted_page_set →
      Fixed (AddIntoPageSet s2 (.frame x)) s3 →
      ∃ s5, CoalesceOrRedistribute true (f + 1) s3 P.id = .ok (true, s5) ∧
        s5.root_page_id_ = A.id ∧
        s5.pages A.id = some (.leaf
          { parent_page_id := INVALID_PAGE_ID, max_size := A.max_size, next_page_id := B.next,
            array := A.arr ++ B.arr }) ∧
        (∀ y, y ∉ Tree.ids 1 P → s5.pages y = s2.pages y) ∧
        s5.txn.page_set = s2.txn.page_set ++ [.frame x] ∧
        s5.txn.deleted_page_set = P.id :: B.id :: s2.txn.deleted_page_set ∧
        s5.next_page_id = s2.next_page_id := by
    intro x s3 hrep3 hfr3 hps3 hdel3 hfix3
    have hrep3a := hrep3
    simp only [Rep, List.nil_append, List.mem_singleton, forall_eq] at hrep3a
    obtain ⟨hP3, hA3⟩ := hrep3a
    have hP3a : s3.pages P.id = some (.internal
        { parent_page_id := INVALID_PAGE_ID, max_size := P.max_size,
          array := [(k0, A.id)] }) := hP3
    refine ⟨_, CoalesceOrRedistribute_root_one hP3a hA3 f, ?_, ?_, ?_, ?_, ?_, ?_⟩
    · simp [AddIntoDeletedPageSet]
    · simp [AddIntoDeletedPageSet, BPlusTreePage.SetParentPageId]
    · intro y hy
      have hyA : y ≠ A.id := fun h => hy (by rw [h, Tree.ids_succ, hk]; simp [kidsIds, Tree.ids])
      simp only [AddIntoDeletedPageSet, setPage_pages, UpdateRootPageId_pages, if_neg hyA]
      exact hfr3 y hy
    · simp [AddIntoDeletedPageSet, hps3, AddIntoPageSet]
    · simp [AddIntoDeletedPageSet, hdel3, AddIntoPageSet]
    · simp [AddIntoDeletedPageSet, hfix3.next, AddIntoPageSet]
  rcases hcase with ⟨rfl, rfl⟩ | ⟨rfl, rfl⟩
  · -- the node is the right leaf, its sibling the left one
    have hk1 : P.kids = [((k0, sib) : KeyType × Tree 0)] ++
        ((kb, node) : KeyType × Tree 0) :: [] := hk
    have hcor := CoalesceOrRedistribute_child hk1 hr hnd hPid (f + 1)
    obtain ⟨s3, hco, hrep3, hfr3, hps3, hdel3, hfix3⟩ :=
      Coalesce_leaf (CoalesceOrRedistribute true (f + 1)) hk0 (hr1 sib.id) hnd
        (Or.inl ⟨rfl, rfl, rfl⟩)
    obtain ⟨s5, h5, hrest⟩ := hfin sib.id s3 hrep3 hfr3 hps3 hdel3 hfix3
    refine ⟨true, s5, ?_, hrest⟩
    rw [if_pos hlt, h5] at hco
    have hsz : ¬ (sib.arr.length + Tree.size 0 node > Tree.maxSize 0 node) := by
      show ¬ (sib.arr.length + node.arr.length > node.max_size)
      omega
    rw [show Tree.pid 0 ((kb, node) : KeyType × Tree 0).2 = node.id from rfl] at hcor
    rw [hcor]
    simp only [hk, slotsOf, List.map, InternalPage.ValueAt, List.length_singleton,
      Nat.one_ne_zero, if_false, Nat.sub_self, List.get?, ok_bind, Tree.pid, FetchPage_ok hA,
      BPlusTreePage.GetSize, LeafPage.GetSize, hsz]
    simp only [List.length_nil, Nat.zero_add] at hco
    rw [hco]
    rfl
  · -- the node is the left leaf, its sibling the right one
    have hk1 : P.kids = ([] : List (KeyType × Tree 0)) ++
        ((k0, node) : KeyType × Tree 0) :: [((kb, sib) : KeyType × Tree 0)] := hk
    have hcor := CoalesceOrRedistribute_child hk1 hr hnd hPid (f + 1)
    obtain ⟨s3, hco, hrep3, hfr3, hps3, hdel3, hfix3⟩ :=
      Coalesce_leaf (CoalesceOrRedistribute true (f + 1)) hk0 (hr1 sib.id) hnd
        (Or.inr ⟨rfl, rfl, rfl⟩)
    obtain ⟨s5, h5, hrest⟩ := hfin sib.id s3 hrep3 hfr3 hps3 hdel3 hfix3
    refine ⟨false, s5, ?_, hrest⟩
    rw [if_pos hlt, h5] at hco
    have hsz : ¬ (sib.arr.length + Tree.size 0 node > Tree.maxSize 0 node) := by
      show ¬ (sib.arr.length + node.arr.length > node.max_size)
      omega
    rw [show Tree.pid 0 ((k0, node) : KeyType × Tree 0).2 = node.id from rfl] at hcor
    rw [hcor]
    simp only [hk, slotsOf, List.map, InternalPage.ValueAt, List.length_nil,
      if_true, Nat.zero_add, List.get?, ok_bind, Tree.pid, FetchPage_ok hB,
      BPlusTreePage.GetSize, LeafPage.GetSize, hsz, if_false]
    rw [hco]
    rfl

/-- `Remove` is the descent, the removal in the leaf, the cascade from the underflowed leaf
and `Unlock`. -/
theorem Remove_of_cascade {s s0 s5 s1 : State} {fuel : Nat} {key : KeyType} {nid : page_id_t}
    {lp : LeafPage} {b : Bool} (hne : s.root_page_id_ ≠ INVALID_PAGE_ID)
    (hfind : FindLeafPage fuel key false true .DELETE s = .ok (some nid, s0))
    (hlp : s0.pages nid = some (.leaf lp))
    (hunder : (LeafPage.RemoveIn key lp.array).length < (lp.max_size - 1 + 1) / 2)
    (hcor : CoalesceOrRedistribute true fuel
      (WriteLeaf s0 nid (lp.RemoveAndDeleteRecord key)) nid = .ok (b, s5))
    (hun : Unlock .DELETE true s5 = .ok s1) : Remove fuel key true s = .ok s1 := by
  have hemp : IsEmpty s = false := by simp [IsEmpty, hne]
  have hlt : ¬ ((lp.RemoveAndDeleteRecord key).GetSize ≥
      (lp.RemoveAndDeleteRecord key).GetMinSize) := by
    simp only [LeafPage.RemoveAndDeleteRecord, LeafPage.GetSize, LeafPage.GetMinSize]
    omega
  simp only [Remove, hemp, Bool.false_eq_true, if_false, hfind, ok_bind, FetchLeaf_ok hlp,
    hlt, hcor, hun]

/-- The state after `Unlock` at the end of a `Remove` that has merged the two leaves of the
root and made the merged leaf the root. -/
theorem two_leaves_finish {s s2 s5 : State} {pid aid bid : page_id_t} {m : ALeaf}
    (hdom : Dom s) (hP : s.pages pid ≠ none) (hA : s.pages aid ≠ none)
    (hB : s.pages bid ≠ none) (hAB : aid ≠ bid) (hAP : aid ≠ pid)
    (hma : m.id = aid)
    (h2 : ∀ x, x ≠ pid → x ≠ aid → x ≠ bid → s2.pages x = s.pages x)
    (h2n : s2.next_page_id = s.next_page_id)
    (h5r : s5.root_page_id_ = aid)
    (h5a : s5.pages aid = some (.leaf
      { parent_page_id := INVALID_PAGE_ID, max_size := m.max_size, next_page_id := m.next,
        array := m.arr }))
    (h5f : ∀ x, x ≠ pid → x ≠ aid → x ≠ bid → s5.pages x = s2.pages x)
    (h5p : PageRef.frame pid ∈ s5.txn.page_set ∧ PageRef.frame bid ∈ s5.txn.page_set)
    (h5d : s5.txn.deleted_page_set = [pid, bid]) (h5n : s5.next_page_id = s2.next_page_id) :
    ∃ s1, Unlock .DELETE true s5 = .ok s1 ∧ Holds s1 0 m ∧ s1.pages pid = none ∧
      s1.pages bid = none := by
  obtain ⟨s1, hun, hpages, hps, hdel, hnext, -, hroot, -, -⟩ :=
    Unlock_deleting .DELETE s5 (List.ne_nil_of_mem h5p.1) (fun x hx => by
      rw [h5d] at hx
      simp only [List.mem_cons, List.mem_singleton, List.not_mem_nil, or_false] at hx
      rcases hx with rfl | rfl
      · exact h5p.1
      · exact h5p.2)
  refine ⟨s1, hun, ⟨?_, ?_, ?_, trivial, ?_, hps, hdel⟩, ?_, ?_⟩
  · rw [hroot, h5r]; exact hma.symm
  · show s1.pages m.id = _
    rw [hma, hpages, h5d, if_neg (by simp [hAB, hAP]), h5a]
  · simp [Tree.ids]
  · intro x hx
    rw [hnext, h5n, h2n]
    rw [hpages, h5d] at hx
    by_cases hxp : x = pid
    · subst hxp; exact hdom _ hP
    · by_cases hxb : x = bid
      · subst hxb; exact hdom _ hB
      · by_cases hxa : x = aid
        · subst hxa; exact hdom _ hA
        · refine hdom x ?_
          rw [← h2 x hxp hxa hxb, ← h5f x hxp hxa hxb]
          simpa [hxp, hxb] using hx
  · rw [hpages, h5d]; simp
  · rw [hpages, h5d]; simp

/-- `Remove` on a root with two leaves, where the leaf `N` that the descent ends in
underflows and merges with its sibling `S`. -/
theorem Remove_two_leaves {s : State} {P : ANode (Tree 0)} {k0 kb : KeyType} {A B : ALeaf}
    (hs : Holds s 1 P)
    (hk : P.kids = [((k0, A) : KeyType × Tree 0), ((kb, B) : KeyType × Tree 0)])
    (key : KeyType) (hroot : 3 ≤ P.max_size) {N S : ALeaf} {arrA arrB : List MappingType}
    (hcase : (kb ≤ key ∧ N = B ∧ S = A ∧ arrA = A.arr ∧ arrB = LeafPage.RemoveIn key B.arr) ∨
      (¬ kb ≤ key ∧ N = A ∧ S = B ∧ arrA = LeafPage.RemoveIn key A.arr ∧ arrB = B.arr))
    (hunder : (LeafPage.RemoveIn key N.arr).length < (N.max_size - 1 + 1) / 2)
    (hmerge : S.arr.length + (LeafPage.RemoveIn key N.arr).length ≤ N.max_size)
    {fuel : Nat} (hf : 1 < fuel) :
    ∃ s1, Remove fuel key true s = .ok s1 ∧
      Holds s1 0 (ALeaf.mk A.id A.max_size B.next (arrA ++ arrB)) ∧
      s1.pages P.id = none ∧ s1.pages B.id = none := by
  obtain ⟨f, rfl⟩ : ∃ f, fuel = f + 2 := ⟨fuel - 2, by omega⟩
  have hk0 : P.kids = [] ++ ((k0, A) : KeyType × Tree 0) :: ((kb, B) : KeyType × Tree 0) :: [] :=
    hk
  obtain ⟨hP, hA, hB, hAB, hAP, hBP⟩ := pair_leaf_facts hk0 hs.rep hs.nodup
  have hPid : P.id ≠ INVALID_PAGE_ID := by
    have := hs.root_ne
    rwa [hs.root] at this
  have hne : IsEmpty s = false := by simp [IsEmpty, hs.root_ne]
  have hnotsafe : Tree.safe .DELETE 0 N = false := by
    have := RemoveIn_length key N.arr
    simp only [Tree.safe, IsSafe, Tree.page, BPlusTreePage.GetSize, LeafPage.GetSize,
      BPlusTreePage.GetMinSize, LeafPage.GetMinSize, decide_eq_false_iff_not]
    omega
  have hL : Tree.findLeaf key false 1 P = some N := by
    rcases hcase with ⟨hc, rfl, -⟩ | ⟨hc, rfl, -⟩
    · simp [Tree.findLeaf, hk, choose, chooseFrom, hc]
    · simp [Tree.findLeaf, hk, choose, chooseFrom, hc]
  have hheld : ∃ pre, Tree.heldRoot .DELETE key false 1 P =
      pre ++ [.frame P.id, .frame N.id] := by
    rcases hcase with ⟨hc, rfl, -⟩ | ⟨hc, rfl, -⟩
    · refine ⟨if Tree.safe .DELETE 1 P = true then [] else [.virtual_root_page], ?_⟩
      simp [Tree.heldRoot, Tree.held, hk, choose, chooseFrom, hc, heldAfter, hnotsafe, Tree.pid]
    · refine ⟨if Tree.safe .DELETE 1 P = true then [] else [.virtual_root_page], ?_⟩
      simp [Tree.heldRoot, Tree.held, hk, choose, chooseFrom, hc, heldAfter, hnotsafe, Tree.pid]
  obtain ⟨pre, hpre⟩ := hheld
  have hfind := FindLeafPage_latched hs key false .DELETE hL hf
  rw [hpre] at hfind
  have hids : ∀ x, x ∉ Tree.ids 1 P ↔ (x ≠ P.id ∧ x ≠ A.id ∧ x ≠ B.id) := by
    intro x
    simp [Tree.ids_succ, hk, kidsIds, Tree.ids]
  rcases hcase with ⟨hc, rfl, rfl, rfl, rfl⟩ | ⟨hc, rfl, rfl, rfl, rfl⟩
  · -- the descent ends in the right leaf
    have hr2 : Rep (WriteLeaf (s.withPageSet (pre ++ [.frame P.id, .frame N.id])) N.id
        (LeafPage.RemoveAndDeleteRecord
          { parent_page_id := P.id, max_size := N.max_size, next_page_id := N.next,
            array := N.arr } key)).pages 1
        (ANode.mk P.id P.max_size [((k0, S) : KeyType × Tree 0),
          ((kb, ALeaf.mk N.id N.max_size N.next (LeafPage.RemoveIn key N.arr)) :
            KeyType × Tree 0)]) INVALID_PAGE_ID := by
      simp [Rep, WriteLeaf, LeafPage.RemoveAndDeleteRecord, hP, hA, hB, hAB, hAP, hBP,
        Ne.symm hBP, hk, slotsOf, Tree.pid]
    have hnd2 : (Tree.ids 1 (ANode.mk P.id P.max_size [((k0, S) : KeyType × Tree 0),
          ((kb, ALeaf.mk N.id N.max_size N.next (LeafPage.RemoveIn key N.arr)) :
            KeyType × Tree 0)])).Nodup := by
      have := hs.nodup
      simpa [Tree.ids_succ, hk, kidsIds, Tree.ids] using this
    obtain ⟨b, s5, hcor, h5r, h5a, h5f, h5p, h5d, h5n⟩ :=
      @cascade_two_leaves _ _ k0 kb S
        (ALeaf.mk N.id N.max_size N.next (LeafPage.RemoveIn key N.arr)) rfl hr2 hnd2 hPid hroot
        (ALeaf.mk N.id N.max_size N.next (LeafPage.RemoveIn key N.arr)) S (Or.inl ⟨rfl, rfl⟩)
        hmerge f
    obtain ⟨s1, hun, hh, hp1, hb1⟩ := @two_leaves_finish s
      (WriteLeaf (s.withPageSet (pre ++ [.frame P.id, .frame N.id])) N.id
        (LeafPage.RemoveAndDeleteRecord
          { parent_page_id := P.id, max_size := N.max_size, next_page_id := N.next,
            array := N.arr } key)) s5 P.id S.id N.id
      (ALeaf.mk S.id S.max_size N.next (S.arr ++ LeafPage.RemoveIn key N.arr))
      hs.dom (by simp [hP]) (by simp [hA]) (by simp [hB]) hAB hAP rfl
      (fun x _ _ hxb => by simp [WriteLeaf, hxb]) rfl h5r h5a
      (fun x h1 h2 h3 => h5f x (by simp [Tree.ids_succ, kidsIds, Tree.ids, h1, h2, h3]))
      (by rw [h5p]; simp [WriteLeaf]) (by rw [h5d]; simp [WriteLeaf, hs.deleted]) h5n
    exact ⟨s1, Remove_of_cascade hs.root_ne hfind (by simpa using hB) hunder hcor hun, hh, hp1,
      hb1⟩
  · -- the descent ends in the left leaf
    have hr2 : Rep (WriteLeaf (s.withPageSet (pre ++ [.frame P.id, .frame N.id])) N.id
        (LeafPage.RemoveAndDeleteRecord
          { parent_page_id := P.id, max_size := N.max_size, next_page_id := N.next,
            array := N.arr } key)).pages 1
        (ANode.mk P.id P.max_size
          [((k0, ALeaf.mk N.id N.max_size N.next (LeafPage.RemoveIn key N.arr)) :
            KeyType × Tree 0), ((kb, S) : KeyType × Tree 0)]) INVALID_PAGE_ID := by
      simp [Rep, WriteLeaf, LeafPage.RemoveAndDeleteRecord, hP, hA, hB, hAB, hAP, hBP,
        Ne.symm hAB, Ne.symm hAP, hk, slotsOf, Tree.pid]
    have hnd2 : (Tree.ids 1 (ANode.mk P.id P.max_size
          [((k0, ALeaf.mk N.id N.max_size N.next (LeafPage.RemoveIn key N.arr)) :
            KeyType × Tree 0), ((kb, S) : KeyType × Tree 0)])).Nodup := by
      have := hs.nodup
      simpa [Tree.ids_succ, hk, kidsIds, Tree.ids] using this
    obtain ⟨b, s5, hcor, h5r, h5a, h5f, h5p, h5d, h5n⟩ :=
      @cascade_two_leaves _ _ k0 kb
        (ALeaf.mk N.id N.max_size N.next (LeafPage.RemoveIn key N.arr)) S rfl hr2 hnd2 hPid hroot
        (ALeaf.mk N.id N.max_size N.next (LeafPage.RemoveIn key N.arr)) S (Or.inr ⟨rfl, rfl⟩)
        hmerge f
    obtain ⟨s1, hun, hh, hp1, hb1⟩ := @two_leaves_finish s
      (WriteLeaf (s.withPageSet (pre ++ [.frame P.id, .frame N.id])) N.id
        (LeafPage.RemoveAndDeleteRecord
          { parent_page_id := P.id, max_size := N.max_size, next_page_id := N.next,
            array := N.arr } key)) s5 P.id N.id S.id
      (ALeaf.mk N.id N.max_size S.next (LeafPage.RemoveIn key N.arr ++ S.arr))
      hs.dom (by simp [hP]) (by simp [hA]) (by simp [hB]) hAB hAP rfl
      (fun x _ hxa _ => by simp [WriteLeaf, hxa]) rfl h5r h5a
      (fun x h1 h2 h3 => h5f x (by simp [Tree.ids_succ, kidsIds, Tree.ids, h1, h2, h3]))
      (by rw [h5p]; simp [WriteLeaf]) (by rw [h5d]; simp [WriteLeaf, hs.deleted]) h5n
    exact ⟨s1, Remove_of_cascade hs.root_ne hfind (by simpa using hA) hunder hcor hun, hh, hp1,
      hb1⟩

theorem RemoveIn_sublist (key : KeyType) :
    ∀ arr : List MappingType, (LeafPage.RemoveIn key arr).Sublist arr
  | [] => List.Sublist.slnil
  | e :: es => by
    simp only [LeafPage.RemoveIn]
    split
    · exact List.sublist_cons_self e es
    · exact (RemoveIn_sublist key es).cons₂ e

theorem RemoveIn_absent (key : KeyType) :
    ∀ arr : List MappingType, (∀ e ∈ arr, e.1 ≠ key) → LeafPage.RemoveIn key arr = arr
  | [], _ => rfl
  | e :: es, h => by
    simp only [LeafPage.RemoveIn, if_neg (h e (List.mem_cons_self _ _))]
    rw [RemoveIn_absent key es fun x hx => h x (List.mem_cons_of_mem _ hx)]

theorem RemoveIn_append_absent (key : KeyType) (b : List MappingType) :
    ∀ a : List MappingType, (∀ e ∈ a, e.1 ≠ key) →
      LeafPage.RemoveIn key (a ++ b) = a ++ LeafPage.RemoveIn key b
  | [], _ => rfl
  | e :: es, h => by
    simp only [List.cons_append, LeafPage.RemoveIn, if_neg (h e (List.mem_cons_self _ _))]
    exact congrArg (e :: ·)
      (RemoveIn_append_absent key b es fun x hx => h x (List.mem_cons_of_mem _ hx))

theorem RemoveIn_append_present (key : KeyType) (b : List MappingType) :
    ∀ a : List MappingType, (∃ e ∈ a, e.1 = key) →
      LeafPage.RemoveIn key (a ++ b) = LeafPage.RemoveIn key a ++ b
  | [], h => by
    obtain ⟨e, he, -⟩ := h
    exact absurd he (List.not_mem_nil _)
  | e :: es, h => by
    simp only [List.cons_append, LeafPage.RemoveIn]
    by_cases hk : e.1 = key
    · simp [hk]
    · simp only [if_neg hk, List.cons_append]
      obtain ⟨x, hx, hxk⟩ := h
      rcases List.mem_cons.1 hx with rfl | hx1
      · exact absurd hxk hk
      · exact congrArg (e :: ·) (RemoveIn_append_present key b es ⟨x, hx1, hxk⟩)

/-- The pairs of a root with two leaves after the removal of `key` from the leaf that the
descent ends in. -/
theorem RemoveIn_two_leaves {k0 kb : KeyType} {A B : ALeaf} {P : ANode (Tree 0)}
    (hk : P.kids = [((k0, A) : KeyType × Tree 0), ((kb, B) : KeyType × Tree 0)])
    (ho : Tree.Ord 1 P none none) (key : KeyType) :
    (if kb ≤ key then A.arr ++ LeafPage.RemoveIn key B.arr
      else LeafPage.RemoveIn key A.arr ++ B.arr) = LeafPage.RemoveIn key (A.arr ++ B.arr) := by
  have ho1 : Tree.Ord 1 P none none := ho
  simp only [Tree.Ord, hk, KidsOrd, LeafOrd, LoOk, HiOk] at ho1
  obtain ⟨-, ⟨-, -, hA⟩, -, -, hB⟩ := ho1
  by_cases hc : kb ≤ key
  · rw [if_pos hc, RemoveIn_append_absent key B.arr A.arr fun e he h => by
      have := (hA e he).2 kb rfl
      linarith]
  · rw [if_neg hc]
    have hBabs : ∀ e ∈ B.arr, e.1 ≠ key := fun e he h => by
      have := (hB e he).1 kb rfl
      linarith
    by_cases hin : ∃ e ∈ A.arr, e.1 = key
    · rw [RemoveIn_append_present key B.arr A.arr hin]
    · have hAabs : ∀ e ∈ A.arr, e.1 ≠ key := fun e he h => hin ⟨e, he, h⟩
      rw [RemoveIn_absent key A.arr hAabs, RemoveIn_append_absent key B.arr A.arr hAabs,
        RemoveIn_absent key B.arr hBabs]

/-! ## Pins of the iterator -/

theorem pins_append (q : page_id_t) : ∀ a b : List PoolCall, pins q (a ++ b) = pins q a + pins q b
  | [], b => by simp [pins]
  | c :: a, b => by
    cases c <;> simp [pins, pins_append q a b, Nat.add_assoc]

theorem unpins_append (q : page_id_t) :
    ∀ a b : List PoolCall, unpins q (a ++ b) = unpins q a + unpins q b
  | [], b => by simp [unpins]
  | c :: a, b => by
    cases c <;> simp [unpins, unpins_append q a b, Nat.add_assoc]

/-- The traced descent without a transaction ends in the leaf of the plain descent, and it
moves the one pin from the page it starts at to that leaf. -/
theorem Traced.unlatched_spec (key : KeyType) (leftMost : Bool) :
    ∀ (fuel : Nat) (s : State) (page_id : page_id_t) (calls : List PoolCall)
      (leaf : page_id_t) (calls1 : List PoolCall),
      Traced.unlatched key leftMost fuel s page_id calls = .ok (leaf, calls1) →
      FindLeafPage.unlatched key leftMost fuel s page_id = .ok leaf ∧
        ∀ q, pins q calls1 + unpins q calls + (if page_id = q then 1 else 0) =
          pins q calls + unpins q calls1 + (if leaf = q then 1 else 0)
  | 0, s, page_id, calls, leaf, calls1, h => by
    simp [Traced.unlatched] at h
  | fuel + 1, s, page_id, calls, leaf, calls1, h => by
    simp only [Traced.unlatched] at h
    simp only [FindLeafPage.unlatched]
    cases hp : FetchPage s page_id with
    | error e => simp [hp] at h
    | ok n =>
      simp only [hp, ok_bind] at h ⊢
      cases n with
      | leaf l =>
        simp only [pure, Except.pure, Except.ok.injEq, Prod.mk.injEq] at h
        obtain ⟨rfl, rfl⟩ := h
        exact ⟨rfl, fun q => rfl⟩
      | internal ip =>
        simp only at h ⊢
        cases hn : (if leftMost = true then ip.ValueAt 0 else ip.Lookup key) with
        | error e => simp [hn] at h
        | ok nxt =>
          simp only [hn, ok_bind] at h ⊢
          obtain ⟨h1, h2⟩ := Traced.unlatched_spec key leftMost fuel s nxt _ leaf calls1 h
          refine ⟨h1, fun q => ?_⟩
          have := h2 q
          simp only [pins_append, unpins_append, pins, unpins] at this
          by_cases hq1 : page_id = q <;> by_cases hq2 : nxt = q <;>
            simp only [hq1, hq2, if_true, if_false] at this ⊢ <;> omega

/-- The iterator that `Traced.begin`/`Traced.Begin` build holds one pin on its leaf. -/
theorem Traced.start_spec (key : KeyType) (leftMost : Bool) {fuel : Nat} {s : State}
    {leaf : page_id_t} {calls : List PoolCall}
    (h : Traced.unlatched key leftMost fuel s s.root_page_id_ [.FetchPage s.root_page_id_] =
      .ok (leaf, calls)) :
    FindLeafPage.unlatched key leftMost fuel s s.root_page_id_ = .ok leaf ∧
      ∀ q, pins q calls = unpins q calls + (if leaf = q then 1 else 0) := by
  obtain ⟨h1, h2⟩ := Traced.unlatched_spec key leftMost fuel s _ _ leaf calls h
  refine ⟨h1, fun q => ?_⟩
  have := h2 q
  simp only [pins, unpins] at this
  by_cases hq : s.root_page_id_ = q <;> simp only [hq, if_true, if_false] at this ⊢ <;> omega

end BPlusTree

namespace BPlusTree

/-- `Redistribute` for the leaf `B` with its left sibling `A`, whose last pair is `e`: the
call returns, `e` is the first pair of `B` and its key the separator of `B`. -/
theorem Redistribute_leaf_left_ok {s : State} {P : ANode (Tree 0)} {parent : page_id_t}
    {X Y : List (KeyType × Tree 0)} {ka kb : KeyType} {A B : ALeaf}
    (hk : P.kids = X ++ ((ka, A) : KeyType × Tree 0) :: ((kb, B) : KeyType × Tree 0) :: Y)
    (hr : Rep s.pages 1 P parent) (hnd : (Tree.ids 1 P).Nodup)
    {init : List MappingType} {e : MappingType} (hcat : A.arr = init ++ [e]) :
    ∃ s2, Redistribute s A.id B.id (X.length + 1) = .ok s2 ∧
      Rep s2.pages 1 ({ P with kids := X ++ ((ka,
        ({ id := A.id, max_size := A.max_size, next := A.next, arr := init } : ALeaf)) :
          KeyType × Tree 0) :: ((e.1,
        ({ id := B.id, max_size := B.max_size, next := B.next, arr := e :: B.arr } : ALeaf)) :
          KeyType × Tree 0) :: Y } : ANode (Tree 0)) parent := by
  obtain ⟨hP, hA, hB, hAB, hAP, hBP⟩ := pair_leaf_facts hk hr hnd
  have hset : ∀ k : KeyType, InternalPage.SetKeyAtIn k (X.length + 1)
      (slotsOf 0 X ++ (ka, A.id) :: (kb, B.id) :: slotsOf 0 Y) =
        slotsOf 0 X ++ (ka, A.id) :: (k, B.id) :: slotsOf 0 Y := fun k => by
    simpa [slotsOf_length] using SetKeyAtIn_second k (ka, A.id) kb B.id (slotsOf 0 Y) (slotsOf 0 X)
  have hlt : X.length + 1 < X.length + (Y.length + 1 + 1) := by omega
  have hev : ∃ s2, Redistribute s A.id B.id (X.length + 1) = .ok s2 := by
    simp [Redistribute, FetchPage, FetchLeaf, FetchInternal, hP, hA, hB, hAB, hAP, hBP,
      Ne.symm hAB, Ne.symm hAP, Ne.symm hBP, BPlusTreePage.GetParentPageId, LeafPage.KeyAt,
      LeafPage.GetSize, hcat, LeafMoveLastToFrontOf, WriteLeaf, WriteInternal,
      InternalPage.SetKeyAt, hk, slotsOf_length, hlt, hset]
  obtain ⟨s2, hred⟩ := hev
  refine ⟨s2, hred, ?_⟩
  simp [Redistribute, FetchPage, FetchLeaf, FetchInternal, hP, hA, hB, hAB, hAP, hBP,
    Ne.symm hAB, Ne.symm hAP, Ne.symm hBP, BPlusTreePage.GetParentPageId, LeafPage.KeyAt,
    LeafPage.GetSize, hcat, LeafMoveLastToFrontOf, WriteLeaf, WriteInternal,
    InternalPage.SetKeyAt, hk, slotsOf_length, hlt, hset] at hred
  subst hred
  refine Rep.surgery P parent X Y
    [((ka, A) : KeyType × Tree 0), ((kb, B) : KeyType × Tree 0)] _ _ (by simp [hk])
    (List.append_assoc X [_, _] Y).symm hr hnd ?_ ?_ ?_
  · simp [slotsOf_append, slotsOf_cons]
  · intro e1 he1
    simp only [List.mem_cons, List.mem_singleton, List.not_mem_nil, or_false] at he1
    rcases he1 with rfl | rfl
    · simp [Rep, hAP, hAB, Ne.symm hAB]
    · simp [Rep, hBP, hAB, Ne.symm hAB]
  · intro x hx hxP
    simp only [kidsIds_cons, kidsIds_nil, Tree.ids_zero, List.append_nil,
      List.singleton_append, List.mem_cons, List.mem_singleton, not_or, List.not_mem_nil,
      or_false] at hx
    simp [hxP, hx.1, hx.2]

/-- `Redistribute` for the first leaf `A` with its right sibling `B`, whose first pairs are
`e` and `e2`: the call returns, `e` is the last pair of `A` and the key of `e2` the
separator of `B`. -/
theorem Redistribute_leaf_right_ok {s : State} {P : ANode (Tree 0)} {parent : page_id_t}
    {Y : List (KeyType × Tree 0)} {ka kb : KeyType} {A B : ALeaf}
    (hk : P.kids = ((ka, A) : KeyType × Tree 0) :: ((kb, B) : KeyType × Tree 0) :: Y)
    (hr : Rep s.pages 1 P parent) (hnd : (Tree.ids 1 P).Nodup)
    {e e2 : MappingType} {rest : List MappingType} (hB0 : B.arr = e :: e2 :: rest) :
    ∃ s2, Redistribute s B.id A.id 0 = .ok s2 ∧
      Rep s2.pages 1 ({ P with kids := ((ka,
        ({ id := A.id, max_size := A.max_size, next := A.next, arr := A.arr ++ [e] } : ALeaf)) :
          KeyType × Tree 0) :: ((e2.1,
        ({ id := B.id, max_size := B.max_size, next := B.next, arr := e2 :: rest } : ALeaf)) :
          KeyType × Tree 0) :: Y } : ANode (Tree 0)) parent := by
  have hk0 : P.kids = [] ++ ((ka, A) : KeyType × Tree 0) :: ((kb, B) : KeyType × Tree 0) :: Y :=
    hk
  obtain ⟨hP, hA, hB, hAB, hAP, hBP⟩ := pair_leaf_facts hk0 hr hnd
  have hev : ∃ s2, Redistribute s B.id A.id 0 = .ok s2 := by
    simp [Redistribute, FetchPage, FetchLeaf, FetchInternal, hP, hA, hB, hAB, hAP, hBP,
      Ne.symm hAB, Ne.symm hAP, Ne.symm hBP, BPlusTreePage.GetParentPageId, LeafPage.KeyAt,
      LeafPage.GetSize, hB0, LeafMoveFirstToEndOf, WriteLeaf, WriteInternal,
      InternalPage.SetKeyAt, hk, slotsOf_length, slotsOf_cons, InternalPage.SetKeyAtIn]
  obtain ⟨s2, hred⟩ := hev
  refine ⟨s2, hred, ?_⟩
  simp [Redistribute, FetchPage, FetchLeaf, FetchInternal, hP, hA, hB, hAB, hAP, hBP,
    Ne.symm hAB, Ne.symm hAP, Ne.symm hBP, BPlusTreePage.GetParentPageId, LeafPage.KeyAt,
    LeafPage.GetSize, hB0, LeafMoveFirstToEndOf, WriteLeaf, WriteInternal,
    InternalPage.SetKeyAt, hk, slotsOf_length, slotsOf_cons, InternalPage.SetKeyAtIn]
    at hred
  subst hred
  refine Rep.surgery P parent [] Y
    [((ka, A) : KeyType × Tree 0), ((kb, B) : KeyType × Tree 0)] _ _ (by simp [hk])
    (List.append_assoc [] [_, _] Y).symm hr hnd ?_ ?_ ?_
  · simp [slotsOf_append, slotsOf_cons]
  · intro e1 he1
    simp only [List.mem_cons, List.mem_singleton, List.not_mem_nil, or_false] at he1
    rcases he1 with rfl | rfl
    · simp [Rep, hAP, hAB, Ne.symm hAB]
    · simp [Rep, hBP, hAB, Ne.symm hAB]
  · intro x hx hxP
    simp only [kidsIds_cons, kidsIds_nil, Tree.ids_zero, List.append_nil,
      List.singleton_append, List.mem_cons, List.mem_singleton, not_or, List.not_mem_nil,
      or_false] at hx
    simp [hxP, hx.1, hx.2]

/-- `Redistribute` for the internal node `B` with its left sibling `A`, whose last slot is
`e`: the call returns, `e` is the first slot of `B`, the former first child of `B` stands
under the old separator, and the key of `e` is the separator of `B`. -/
theorem Redistribute_node_left_ok {s : State} {h : Nat} {P : ANode (Tree (h + 1))}
    {parent : page_id_t} {X Y : List (KeyType × Tree (h + 1))} {ka kb : KeyType}
    {A B : ANode (Tree h)}
    (hk : P.kids = X ++ ((ka, A) : KeyType × Tree (h + 1)) ::
      ((kb, B) : KeyType × Tree (h + 1)) :: Y)
    (hr : Rep s.pages (h + 2) P parent) (hnd : (Tree.ids (h + 2) P).Nodup)
    {init : List (KeyType × Tree h)} {e : KeyType × Tree h} (hcat : A.kids = init ++ [e]) :
    ∃ s2, Redistribute s A.id B.id (X.length + 1) = .ok s2 ∧
      Rep s2.pages (h + 2) ({ P with kids := X ++ ((ka,
        ({ id := A.id, max_size := A.max_size, kids := init } : ANode (Tree h))) :
          KeyType × Tree (h + 1)) :: ((e.1,
        ({ id := B.id, max_size := B.max_size, kids := e :: rekey kb B.kids } :
          ANode (Tree h))) : KeyType × Tree (h + 1)) :: Y } : ANode (Tree (h + 1))) parent := by
  obtain ⟨hP, hA, hB, hAk, hBk, hAB, hAP, hBP, hnA, hnB, hndA, hndB⟩ :=
    pair_node_facts hk hr hnd
  have hget : (slotsOf (h + 1) P.kids).get? (X.length + 1) = some (kb, B.id) := by
    rw [hk]
    exact get?_slots_second (h + 1) _ ((kb, B) : KeyType × Tree (h + 1)) Y X
  have hlt : X.length + 1 < P.kids.length := by
    rw [hk]
    simp
  have hset : ∀ k : KeyType, InternalPage.SetKeyAtIn k (X.length + 1) (slotsOf (h + 1) P.kids) =
      slotsOf (h + 1) (X ++ ((ka, A) : KeyType × Tree (h + 1)) ::
        ((k, B) : KeyType × Tree (h + 1)) :: Y) := fun k => by
    rw [hk]
    simpa [slotsOf_length, slotsOf_append, slotsOf_cons] using
      SetKeyAtIn_second k (ka, A.id) kb B.id (slotsOf (h + 1) Y) (slotsOf (h + 1) X)
  have he : e ∈ A.kids := by rw [hcat]; simp
  have heroot := hnA _ (pid_mem_kidsIds he)
  have harr : (slotsOf h A.kids) = slotsOf h init ++ [(e.1, Tree.pid h e.2)] := by
    rw [hcat, slotsOf_append, slotsOf_cons, slotsOf_nil]
  obtain ⟨s1, hmv, hs1B, hs1A, hs1e, hs1x, hfix, htxn⟩ :=
    @InternalMoveLastToFrontOf_ok s A.id B.id kb _ _ (e.1, Tree.pid h e.2)
      (slotsOf h init) hA hB hAB harr _ (Rep.page_eq h e.2 _ (hAk e he)) heroot.1 heroot.2.1
  have hs1P := (hs1x P.id (Ne.symm hAP) (Ne.symm hBP) (Ne.symm heroot.2.2.1)).trans hP
  have hlast : (slotsOf h A.kids).get? (A.kids.length - 1) =
      some (e.1, Tree.pid h e.2) := by
    rw [harr, hcat]
    simp [slotsOf_length]
  have hev : ∃ s2, Redistribute s A.id B.id (X.length + 1) = .ok s2 := by
    simp only [Redistribute, FetchPage_ok hB, BPlusTreePage.GetParentPageId, FetchInternal_ok hP,
      ok_bind, Nat.succ_ne_zero, ne_eq, not_false_eq_true, if_true, FetchInternal_ok hA,
      InternalPage.KeyAt, InternalPage.GetSize, hlast, hget, hmv, FetchInternal_ok hs1P,
      InternalPage.SetKeyAt, slotsOf_length, hlt, hset, pure_eq_ok, Except.ok.injEq]
    exact ⟨_, rfl⟩
  obtain ⟨s2, hred⟩ := hev
  obtain ⟨init1, e1, hcat1, hrep, -⟩ := Redistribute_node_left hk hr hnd hred
  obtain ⟨rfl, rfl⟩ : init1 = init ∧ e1 = e := by
    have := hcat1.symm.trans hcat
    have h1 := List.append_inj' this rfl
    exact ⟨h1.1, by simpa using h1.2⟩
  exact ⟨s2, hred, hrep⟩

/-- `Redistribute` for the first internal node `A` with its right sibling `B`, whose first
slots are `e` and `e2`: the call returns, the child of `e` is the last child of `A` under
the old separator, and the key of `e2` is the separator of `B`. -/
theorem Redistribute_node_right_ok {s : State} {h : Nat} {P : ANode (Tree (h + 1))}
    {parent : page_id_t} {Y : List (KeyType × Tree (h + 1))} {ka kb : KeyType}
    {A B : ANode (Tree h)}
    (hk : P.kids = ((ka, A) : KeyType × Tree (h + 1)) :: ((kb, B) : KeyType × Tree (h + 1)) :: Y)
    (hr : Rep s.pages (h + 2) P parent) (hnd : (Tree.ids (h + 2) P).Nodup)
    {e e2 : KeyType × Tree h} {rest : List (KeyType × Tree h)} (hB0 : B.kids = e :: e2 :: rest) :
    ∃ s2, Redistribute s B.id A.id 0 = .ok s2 ∧
      Rep s2.pages (h + 2) ({ P with kids := ((ka,
        ({ id := A.id, max_size := A.max_size, kids := A.kids ++ [(kb, e.2)] } :
          ANode (Tree h))) : KeyType × Tree (h + 1)) :: ((e2.1,
        ({ id := B.id, max_size := B.max_size, kids := e2 :: rest } :
          ANode (Tree h))) : KeyType × Tree (h + 1)) :: Y } : ANode (Tree (h + 1))) parent := by
  have hk0 : P.kids = [] ++ ((ka, A) : KeyType × Tree (h + 1)) ::
      ((kb, B) : KeyType × Tree (h + 1)) :: Y := hk
  obtain ⟨hP, hA, hB, hAk, hBk, hAB, hAP, hBP, hnA, hnB, hndA, hndB⟩ :=
    pair_node_facts hk0 hr hnd
  have hget : (slotsOf (h + 1) P.kids).get? 1 = some (kb, B.id) := by
    rw [hk]
    rfl
  have hlt : 1 < P.kids.length := by
    rw [hk]
    simp
  have hset : ∀ k : KeyType, InternalPage.SetKeyAtIn k 1 (slotsOf (h + 1) P.kids) =
      slotsOf (h + 1) (((ka, A) : KeyType × Tree (h + 1)) ::
        ((k, B) : KeyType × Tree (h + 1)) :: Y) := fun k => by
    rw [hk]
    rfl
  have he : e ∈ B.kids := by rw [hB0]; simp
  have heroot := hnB _ (pid_mem_kidsIds he)
  have harr : (slotsOf h B.kids) = (e.1, Tree.pid h e.2) :: slotsOf h (e2 :: rest) := by
    rw [hB0, slotsOf_cons]
  obtain ⟨s1, hmv, hs1A, hs1B, hs1e, hs1x, hfix, htxn⟩ :=
    @InternalMoveFirstToEndOf_ok s B.id A.id kb _ _ (e.1, Tree.pid h e.2)
      (slotsOf h (e2 :: rest)) hB hA (Ne.symm hAB) harr _ (Rep.page_eq h e.2 _ (hBk e he))
      heroot.2.1 heroot.1
  have hs1P := (hs1x P.id (Ne.symm hBP) (Ne.symm hAP) (Ne.symm heroot.2.2)).trans hP
  have hsecond : (slotsOf h B.kids).get? 1 = some (e2.1, Tree.pid h e2.2) := by
    rw [hB0]
    rfl
  have hev : ∃ s2, Redistribute s B.id A.id 0 = .ok s2 := by
    simp only [Redistribute, FetchPage_ok hA, BPlusTreePage.GetParentPageId,
      FetchInternal_ok hP, ok_bind, ne_eq, not_true_eq_false, if_false, FetchInternal_ok hB,
      InternalPage.KeyAt, hsecond, hget, hmv, FetchInternal_ok hs1P, Nat.zero_add,
      InternalPage.SetKeyAt, slotsOf_length, hlt, if_true, hset, pure_eq_ok,
      Except.ok.injEq]
    exact ⟨_, rfl⟩
  obtain ⟨s2, hred⟩ := hev
  obtain ⟨e', e2', rest', hB1, hrep, -⟩ := Redistribute_node_right hk hr hnd hred
  obtain ⟨rfl, rfl, rfl⟩ : e' = e ∧ e2' = e2 ∧ rest' = rest := by
    have := hB1.symm.trans hB0
    simp only [List.cons.injEq] at this
    exact this
  exact ⟨s2, hred, hrep⟩

/-- The order of the slots of a node, seen from two neighbouring slots. -/
theorem KidsOrd.pair {α : Type} {P : α → Option KeyType → Option KeyType → Prop}
    {lo hi : Option KeyType} {X Y : List (KeyType × α)} {a b : KeyType × α} :
    KidsOrd P lo hi (X ++ a :: b :: Y) ↔
      KidsOrd P lo (some a.1) X ∧ P a.2 (loOf lo X a.1) (some b.1) ∧
        P b.2 (some b.1) (hiOf hi Y) ∧ KidsOrd P (some (firstKey Y)) hi Y := by
  rw [KidsOrd.zip, KidsOrd.zip_nil]
  simp [hiOf, firstKey]

/-- The order of the slots does not depend on the key of the first slot. -/
theorem KidsOrd.first_key {α : Type} {P : α → Option KeyType → Option KeyType → Prop}
    {lo hi : Option KeyType} (k k1 : KeyType) (c : α) :
    ∀ rest : List (KeyType × α),
      KidsOrd P lo hi ((k, c) :: rest) ↔ KidsOrd P lo hi ((k1, c) :: rest)
  | [] => Iff.rfl
  | _ :: _ => Iff.rfl

theorem kidsEntries_rekey (h : Nat) (k : KeyType) :
    ∀ K : List (KeyType × Tree h), kidsEntries h (rekey k K) = kidsEntries h K
  | [] => rfl
  | _ :: _ => rfl

/-- The order invariant of two neighbouring leaves after the last pair of the left one has
moved to the front of the right one. -/
theorem leaf_left_ord {A B : ALeaf} {init : List MappingType} {e : MappingType}
    {kb : KeyType} {loA hiB : Option KeyType} (hcat : A.arr = init ++ [e])
    (hA : Tree.Ord 0 A loA (some kb)) (hB : Tree.Ord 0 B (some kb) hiB) :
    Tree.Ord 0 (ALeaf.mk A.id A.max_size A.next init) loA (some e.1) ∧
      Tree.Ord 0 (ALeaf.mk B.id B.max_size B.next (e :: B.arr)) (some e.1) hiB := by
  obtain ⟨hbA, hsA, hxA⟩ := hA
  obtain ⟨hbB, hsB, hxB⟩ := hB
  rw [hcat] at hsA hxA
  have heA := hxA e (by simp)
  have hekb : e.1 < kb := heA.2 kb rfl
  simp only [List.map_append, List.map_cons, List.map_nil, List.pairwise_append,
    List.mem_map, List.mem_singleton, forall_exists_index, and_imp] at hsA
  refine ⟨⟨fun l u hl hu => ?_, hsA.1,
      fun x hx => ⟨(hxA x (by simp [hx])).1, fun u hu => ?_⟩⟩,
    ⟨fun l u hl hu => ?_, ?_, fun x hx => ?_⟩⟩
  · cases hu
    exact heA.1 l hl
  · cases hu
    exact hsA.2.2 x.1 x hx rfl e.1 rfl
  · cases hl
    exact le_trans (le_of_lt hekb) (hbB kb u rfl hu)
  · show List.Pairwise (· < ·) (e.1 :: B.arr.map (·.1))
    refine List.pairwise_cons.2 ⟨fun y hy => ?_, hsB⟩
    obtain ⟨b, hb, rfl⟩ := List.mem_map.1 hy
    exact lt_of_lt_of_le hekb ((hxB b hb).1 kb rfl)
  · rcases List.mem_cons.1 hx with rfl | hx1
    · exact ⟨fun l hl => by cases hl; exact le_refl _,
        fun u hu => lt_of_lt_of_le hekb (hbB kb u rfl hu)⟩
    · exact ⟨fun l hl => by
        cases hl
        exact le_trans (le_of_lt hekb) ((hxB x hx1).1 kb rfl), (hxB x hx1).2⟩

/-- The order invariant of two neighbouring leaves after the first pair of the right one has
moved to the end of the left one. -/
theorem leaf_right_ord {A B : ALeaf} {e e2 : MappingType} {rest : List MappingType}
    {kb : KeyType} {loA hiB : Option KeyType} (hB0 : B.arr = e :: e2 :: rest)
    (hA : Tree.Ord 0 A loA (some kb)) (hB : Tree.Ord 0 B (some kb) hiB) :
    Tree.Ord 0 (ALeaf.mk A.id A.max_size A.next (A.arr ++ [e])) loA (some e2.1) ∧
      Tree.Ord 0 (ALeaf.mk B.id B.max_size B.next (e2 :: rest)) (some e2.1) hiB := by
  obtain ⟨hbA, hsA, hxA⟩ := hA
  obtain ⟨hbB, hsB, hxB⟩ := hB
  rw [hB0] at hsB hxB
  have heB := hxB e (by simp)
  have he2B := hxB e2 (by simp)
  have hkbe : kb ≤ e.1 := heB.1 kb rfl
  simp only [List.map_cons, List.pairwise_cons, List.mem_cons, List.mem_map,
    forall_eq_or_imp, forall_exists_index, and_imp] at hsB
  have hee2 : e.1 < e2.1 := hsB.1.1
  refine ⟨⟨fun l u hl hu => ?_, ?_, fun x hx => ?_⟩,
    ⟨fun l u hl hu => ?_, ?_, fun x hx => ⟨fun l hl => ?_, (hxB x (by simp [hx])).2⟩⟩⟩
  · cases hu
    exact le_trans (hbA l kb hl rfl) (le_trans hkbe (le_of_lt hee2))
  · show List.Pairwise (· < ·) ((A.arr ++ [e]).map (·.1))
    simp only [List.map_append, List.map_cons, List.map_nil, List.pairwise_append,
      List.mem_map, List.mem_singleton, forall_exists_index, and_imp]
    refine ⟨hsA, List.pairwise_singleton _ _, fun a x hx hxa b hb => ?_⟩
    subst hxa hb
    exact lt_of_lt_of_le ((hxA x hx).2 kb rfl) hkbe
  · rcases List.mem_append.1 hx with hx1 | hx1
    · exact ⟨(hxA x hx1).1, fun u hu => by
        cases hu
        exact lt_trans (lt_of_lt_of_le ((hxA x hx1).2 kb rfl) hkbe) hee2⟩
    · simp only [List.mem_singleton] at hx1
      subst hx1
      exact ⟨fun l hl => le_trans (hbA l kb hl rfl) hkbe, fun u hu => by cases hu; exact hee2⟩
  · cases hl
    exact le_of_lt (he2B.2 u hu)
  · show List.Pairwise (· < ·) (e2.1 :: rest.map (·.1))
    exact List.pairwise_cons.2 ⟨fun y hy => by
      obtain ⟨b, hb, rfl⟩ := List.mem_map.1 hy
      exact hsB.2.1 _ b hb rfl, hsB.2.2⟩
  · cases hl
    rcases List.mem_cons.1 hx with rfl | hx1
    · exact le_refl _
    · exact le_of_lt (hsB.2.1 _ x hx1 rfl)

/-- The order invariant of two neighbouring internal nodes after the last slot of the left
one has moved to the front of the right one. -/
theorem node_left_ord {h : Nat} {A B : ANode (Tree h)} {init : List (KeyType × Tree h)}
    {e : KeyType × Tree h} {kb : KeyType} {loA hiB : Option KeyType}
    (hcat : A.kids = init ++ [e]) (hinit : init ≠ []) (hBne : B.kids ≠ [])
    (hA : Tree.Ord (h + 1) A loA (some kb)) (hB : Tree.Ord (h + 1) B (some kb) hiB) :
    Tree.Ord (h + 1) (ANode.mk A.id A.max_size init) loA (some e.1) ∧
      Tree.Ord (h + 1) (ANode.mk B.id B.max_size (e :: rekey kb B.kids)) (some e.1) hiB := by
  obtain ⟨hbA, hkA⟩ := hA
  obtain ⟨hbB, hkB⟩ := hB
  rw [hcat, KidsOrd.append hinit] at hkA
  obtain ⟨hkinit, hke⟩ := hkA
  have hke1 : Tree.Ord h e.2 (some e.1) (some kb) := hke
  refine ⟨⟨KidsOrd.kids_bounded (fun _ _ _ => Tree.Ord.bounded) hinit hkinit, hkinit⟩,
    ⟨Bnd.trans_bnd (Tree.Ord.bounded hke1) hbB, ?_⟩⟩
  cases hBk : B.kids with
  | nil => exact absurd hBk hBne
  | cons b0 brest =>
    rw [hBk] at hkB
    show KidsOrd (Tree.Ord h) (some e.1) hiB (e :: (kb, b0.2) :: brest)
    exact ⟨hke1, (KidsOrd.first_key b0.1 kb b0.2 brest).1 hkB⟩

/-- The order invariant of two neighbouring internal nodes after the first child of the
right one has moved to the end of the left one. -/
theorem node_right_ord {h : Nat} {A B : ANode (Tree h)} {e e2 : KeyType × Tree h}
    {rest : List (KeyType × Tree h)} {kb : KeyType} {loA hiB : Option KeyType}
    (hB0 : B.kids = e :: e2 :: rest) (hAne : A.kids ≠ [])
    (hA : Tree.Ord (h + 1) A loA (some kb)) (hB : Tree.Ord (h + 1) B (some kb) hiB) :
    Tree.Ord (h + 1) (ANode.mk A.id A.max_size (A.kids ++ [(kb, e.2)])) loA (some e2.1) ∧
      Tree.Ord (h + 1) (ANode.mk B.id B.max_size (e2 :: rest)) (some e2.1) hiB := by
  obtain ⟨hbA, hkA⟩ := hA
  obtain ⟨hbB, hkB⟩ := hB
  rw [hB0] at hkB
  obtain ⟨hke, hkrest⟩ := hkB
  have hke1 : Tree.Ord h e.2 (some kb) (some e2.1) := hke
  refine ⟨⟨Bnd.trans_bnd hbA (Tree.Ord.bounded hke1), ?_⟩,
    ⟨KidsOrd.kids_bounded (fun _ _ _ => Tree.Ord.bounded) (List.cons_ne_nil _ _) hkrest,
      hkrest⟩⟩
  show KidsOrd (Tree.Ord h) loA (some e2.1) (A.kids ++ [(kb, e.2)])
  rw [KidsOrd.append hAne]
  exact ⟨hkA, hke1⟩

/-- The order invariant of a node after two neighbouring children and the separator
between them have been replaced by ones that keep to the bounds. -/
theorem Tree.Ord.replace_pair {h : Nat} {P : ANode (Tree h)} {X Y : List (KeyType × Tree h)}
    {ka kb k : KeyType} {A B A1 B1 : Tree h} {lo hi : Option KeyType}
    (hk : P.kids = X ++ (ka, A) :: (kb, B) :: Y) (ho : Tree.Ord (h + 1) P lo hi)
    (hstep : ∀ loA hiB, Tree.Ord h A loA (some kb) → Tree.Ord h B (some kb) hiB →
      Tree.Ord h A1 loA (some k) ∧ Tree.Ord h B1 (some k) hiB) :
    Tree.Ord (h + 1) (ANode.mk P.id P.max_size (X ++ (ka, A1) :: (k, B1) :: Y)) lo hi ∧
      (∀ x ∈ Tree.entries h A1, x.1 < k) ∧ (∀ x ∈ Tree.entries h B1, k ≤ x.1) := by
  obtain ⟨hb, hko⟩ := ho
  rw [hk, KidsOrd.pair] at hko
  obtain ⟨hX, hA, hB, hY⟩ := hko
  obtain ⟨hA1, hB1⟩ := hstep _ _ hA hB
  refine ⟨⟨hb, ?_⟩, fun x hx => (Tree.Ord.entries_bounds h A1 _ _ hA1 x hx).2 k rfl,
    fun x hx => (Tree.Ord.entries_bounds h B1 _ _ hB1 x hx).1 k rfl⟩
  show KidsOrd (Tree.Ord h) lo hi (X ++ (ka, A1) :: (k, B1) :: Y)
  rw [KidsOrd.pair]
  exact ⟨hX, hA1, hB1, hY⟩

/-- `Redistribute` for a node `B` with its left sibling `A`, at any height. -/
theorem Redistribute_left_sep {s : State} :
    ∀ (h : Nat) {P : ANode (Tree h)} {parent : page_id_t} {X Y : List (KeyType × Tree h)}
      {ka kb : KeyType} {A B : Tree h} {lo hi : Option KeyType},
      P.kids = X ++ (ka, A) :: (kb, B) :: Y → Rep s.pages (h + 1) P parent →
      (Tree.ids (h + 1) P).Nodup → Tree.Ok (h + 1) P → Tree.Ord (h + 1) P lo hi →
      2 ≤ Tree.size h A →
      ∃ (s2 : State) (A1 B1 : Tree h) (e : KeyType × Int),
        Redistribute s (Tree.pid h A) (Tree.pid h B) (X.length + 1) = .ok s2 ∧
        Tree.pid h A1 = Tree.pid h A ∧ Tree.pid h B1 = Tree.pid h B ∧
        (Tree.slots h A).getLast? = some e ∧
        Tree.slots h A1 = (Tree.slots h A).dropLast ∧
        (Tree.slots h B1).head? = some e ∧
        Rep s2.pages (h + 1)
          (ANode.mk P.id P.max_size (X ++ (ka, A1) :: (e.1, B1) :: Y)) parent ∧
        Tree.Ord (h + 1) (ANode.mk P.id P.max_size (X ++ (ka, A1) :: (e.1, B1) :: Y)) lo hi ∧
        (∀ x ∈ Tree.entries h A1, x.1 < e.1) ∧ (∀ x ∈ Tree.entries h B1, e.1 ≤ x.1) ∧
        Tree.entries (h + 1) (ANode.mk P.id P.max_size (X ++ (ka, A1) :: (e.1, B1) :: Y)) =
          Tree.entries (h + 1) P
  | 0, P, parent, X, Y, ka, kb, A, B, lo, hi, hk, hr, hnd, _, ho, hsz => by
    have hA : (A : ALeaf).arr ≠ [] := by
      intro h0
      have : Tree.size 0 A = 0 := by rw [Tree.size_zero, h0]; rfl
      omega
    rcases List.eq_nil_or_concat (A : ALeaf).arr with hnil | ⟨init, e, hcat⟩
    · exact absurd hnil hA
    rw [List.concat_eq_append] at hcat
    obtain ⟨s2, hred, hrep⟩ := Redistribute_leaf_left_ok hk hr hnd hcat
    obtain ⟨hord, hlt, hge⟩ := @Tree.Ord.replace_pair _ _ _ _ _ _ e.1 _ _
      (ALeaf.mk (A : ALeaf).id (A : ALeaf).max_size (A : ALeaf).next init)
      (ALeaf.mk (B : ALeaf).id (B : ALeaf).max_size (B : ALeaf).next
        (e :: (B : ALeaf).arr)) _ _ hk ho
      fun _ _ h1 h2 => leaf_left_ord hcat h1 h2
    refine ⟨s2, _, _, e, hred, by rfl, by rfl, ?_, ?_, ?_, hrep, hord,
      hlt, hge, ?_⟩
    · show (A : ALeaf).arr.getLast? = some e
      rw [hcat]; simp
    · show init = (A : ALeaf).arr.dropLast
      rw [hcat]; simp
    · rfl
    · rw [Tree.entries_succ, Tree.entries_succ, hk]
      simp [Tree.entries_zero, hcat]
  | h + 1, P, parent, X, Y, ka, kb, A, B, lo, hi, hk, hr, hnd, hok, ho, hsz => by
    have hlen : 2 ≤ (A : ANode (Tree h)).kids.length := by
      rw [← Tree.size_succ]; exact hsz
    rcases List.eq_nil_or_concat (A : ANode (Tree h)).kids with hnil | ⟨init, e, hcat⟩
    · rw [hnil] at hlen; simp at hlen
    rw [List.concat_eq_append] at hcat
    have hinit : init ≠ [] := by
      intro h0
      rw [hcat, h0] at hlen
      simp at hlen
    have hBne : (B : ANode (Tree h)).kids ≠ [] :=
      (Tree.ok_kids ((Tree.ok_kids hok).2 (kb, B) (by rw [hk]; simp))).1
    obtain ⟨s2, hred, hrep⟩ := Redistribute_node_left_ok hk hr hnd hcat
    obtain ⟨hord, hlt, hge⟩ := @Tree.Ord.replace_pair _ _ _ _ _ _ e.1 _ _
      (ANode.mk (A : ANode (Tree h)).id (A : ANode (Tree h)).max_size init)
      (ANode.mk (B : ANode (Tree h)).id (B : ANode (Tree h)).max_size
        (e :: rekey kb (B : ANode (Tree h)).kids)) _ _ hk ho
      fun _ _ h1 h2 => node_left_ord hcat hinit hBne h1 h2
    refine ⟨s2, _, _, (e.1, Tree.pid h e.2), hred, by rfl, by rfl, ?_, ?_, ?_, hrep, hord,
      hlt, hge, ?_⟩
    · show (slotsOf h (A : ANode (Tree h)).kids).getLast? = some (e.1, Tree.pid h e.2)
      rw [hcat]; simp
    · show slotsOf h init = (slotsOf h (A : ANode (Tree h)).kids).dropLast
      rw [hcat]; simp
    · rfl
    · rw [Tree.entries_succ, Tree.entries_succ, hk]
      simp [Tree.entries_succ, hcat, kidsEntries_rekey]

/-- `Redistribute` for the first child `A` with its right sibling `B`, at any height. -/
theorem Redistribute_right_sep {s : State} :
    ∀ (h : Nat) {P : ANode (Tree h)} {parent : page_id_t} {Y : List (KeyType × Tree h)}
      {ka kb : KeyType} {A B : Tree h} {lo hi : Option KeyType},
      P.kids = (ka, A) :: (kb, B) :: Y → Rep s.pages (h + 1) P parent →
      (Tree.ids (h + 1) P).Nodup → Tree.Ok (h + 1) P → Tree.Ord (h + 1) P lo hi →
      2 ≤ Tree.size h B →
      ∃ (s2 : State) (A1 B1 : Tree h) (e e2 : KeyType × Int),
        Redistribute s (Tree.pid h B) (Tree.pid h A) 0 = .ok s2 ∧
        Tree.pid h A1 = Tree.pid h A ∧ Tree.pid h B1 = Tree.pid h B ∧
        (Tree.slots h B).head? = some e ∧ (Tree.slots h B).tail.head? = some e2 ∧
        Tree.slots h B1 = (Tree.slots h B).tail ∧
        Tree.slots h A1 = Tree.slots h A ++ [(if h = 0 then e.1 else kb, e.2)] ∧
        Rep s2.pages (h + 1) (ANode.mk P.id P.max_size ((ka, A1) :: (e2.1, B1) :: Y)) parent ∧
        Tree.Ord (h + 1) (ANode.mk P.id P.max_size ((ka, A1) :: (e2.1, B1) :: Y)) lo hi ∧
        (∀ x ∈ Tree.entries h A1, x.1 < e2.1) ∧
        (∀ x ∈ Tree.entries h B1, e2.1 ≤ x.1) ∧
        Tree.entries (h + 1) (ANode.mk P.id P.max_size ((ka, A1) :: (e2.1, B1) :: Y)) =
          Tree.entries (h + 1) P
  | 0, P, parent, Y, ka, kb, A, B, lo, hi, hk, hr, hnd, _, ho, hsz => by
    have hlen : 2 ≤ (B : ALeaf).arr.length := by
      rw [← Tree.size_zero]; exact hsz
    obtain ⟨e, e2, rest, hB0⟩ : ∃ e e2 rest, (B : ALeaf).arr = e :: e2 :: rest := by
      match hB : (B : ALeaf).arr, hlen with
      | [], hl => simp [hB] at hl
      | [_], hl => simp [hB] at hl
      | e :: e2 :: rest, _ => exact ⟨e, e2, rest, rfl⟩
    obtain ⟨s2, hred, hrep⟩ := Redistribute_leaf_right_ok hk hr hnd hB0
    have hk0 : P.kids = [] ++ (ka, A) :: (kb, B) :: Y := hk
    obtain ⟨hord, hlt, hge⟩ := @Tree.Ord.replace_pair _ _ _ _ _ _ e2.1 _ _
      (ALeaf.mk (A : ALeaf).id (A : ALeaf).max_size (A : ALeaf).next
        ((A : ALeaf).arr ++ [e]))
      (ALeaf.mk (B : ALeaf).id (B : ALeaf).max_size (B : ALeaf).next (e2 :: rest))
      _ _ hk0 ho fun _ _ h1 h2 => leaf_right_ord hB0 h1 h2
    refine ⟨s2, _, _, e, e2, hred, by rfl, by rfl, ?_, ?_, ?_, ?_, hrep,
      hord, hlt, hge, ?_⟩
    · show (B : ALeaf).arr.head? = some e
      rw [hB0]; rfl
    · show (B : ALeaf).arr.tail.head? = some e2
      rw [hB0]; rfl
    · show e2 :: rest = (B : ALeaf).arr.tail
      rw [hB0]; rfl
    · rfl
    · rw [Tree.entries_succ, Tree.entries_succ, hk]
      simp [Tree.entries_zero, hB0]
  | h + 1, P, parent, Y, ka, kb, A, B, lo, hi, hk, hr, hnd, hok, ho, hsz => by
    have hlen : 2 ≤ (B : ANode (Tree h)).kids.length := by
      rw [← Tree.size_succ]; exact hsz
    obtain ⟨e, e2, rest, hB0⟩ :
        ∃ e e2 rest, (B : ANode (Tree h)).kids = e :: e2 :: rest := by
      match hB : (B : ANode (Tree h)).kids, hlen with
      | [], hl => simp [hB] at hl
      | [_], hl => simp [hB] at hl
      | e :: e2 :: rest, _ => exact ⟨e, e2, rest, rfl⟩
    have hAne : (A : ANode (Tree h)).kids ≠ [] :=
      (Tree.ok_kids ((Tree.ok_kids hok).2 (ka, A) (by rw [hk]; simp))).1
    obtain ⟨s2, hred, hrep⟩ := Redistribute_node_right_ok hk hr hnd hB0
    have hk0 : P.kids = [] ++ (ka, A) :: (kb, B) :: Y := hk
    obtain ⟨hord, hlt, hge⟩ := @Tree.Ord.replace_pair _ _ _ _ _ _ e2.1 _ _
      (ANode.mk (A : ANode (Tree h)).id (A : ANode (Tree h)).max_size
        ((A : ANode (Tree h)).kids ++ [(kb, e.2)]))
      (ANode.mk (B : ANode (Tree h)).id (B : ANode (Tree h)).max_size (e2 :: rest))
      _ _ hk0 ho fun _ _ h1 h2 => node_right_ord hB0 hAne h1 h2
    refine ⟨s2, _, _, (e.1, Tree.pid h e.2), (e2.1, Tree.pid h e2.2), hred,
      by rfl, by rfl, ?_, ?_, ?_, ?_, hrep, hord, hlt, hge, ?_⟩
    · show (slotsOf h (B : ANode (Tree h)).kids).head? = some (e.1, Tree.pid h e.2)
      rw [hB0]; rfl
    · show (slotsOf h (B : ANode (Tree h)).kids).tail.head? = some (e2.1, Tree.pid h e2.2)
      rw [hB0]; rfl
    · show slotsOf h (e2 :: rest) = (slotsOf h (B : ANode (Tree h)).kids).tail
      rw [hB0]; rfl
    · show slotsOf h ((A : ANode (Tree h)).kids ++ [(kb, e.2)]) =
        slotsOf h (A : ANode (Tree h)).kids ++ [(kb, Tree.pid h e.2)]
      simp [slotsOf]
    · rw [Tree.entries_succ, Tree.entries_succ, hk]
      simp [Tree.entries_succ, hB0]

/-- The state `State.twoLeaves` holds the tree `Tree.twoLeaves`. -/
theorem State.twoLeaves_holds : Holds State.twoLeaves 1 Tree.twoLeaves :=
  State.ofList_holds rfl (by simp [Tree.twoLeaves, Rep, lookupPage, slotsOf, Tree.pid,
    INVALID_PAGE_ID]) (by simp [Tree.twoLeaves, Tree.ids]) (by simp [Tree.twoLeaves, Tree.Ok])
    (by simp)

/-- A bind yields a fault other than the end of the fuel when both of its parts do. -/
theorem bind_fuel {α β : Type} {x : Except Fault α} {f : α → Except Fault β}
    (hx : x ≠ .error .out_of_fuel) (hf : ∀ a, f a ≠ .error .out_of_fuel) :
    (x >>= f) ≠ .error .out_of_fuel := by
  cases x with
  | error e =>
    intro h
    rw [error_bind] at h
    exact hx (by cases h; rfl)
  | ok a =>
    rw [ok_bind]
    exact hf a

/-- `FetchPage` does not use fuel. -/
theorem FetchPage_fuel (s : State) (p : page_id_t) : FetchPage s p ≠ .error .out_of_fuel := by
  unfold FetchPage; split <;> simp

/-- `FetchInternal` does not use fuel. -/
theorem FetchInternal_fuel (s : State) (p : page_id_t) :
    FetchInternal s p ≠ .error .out_of_fuel := by
  unfold FetchInternal; split <;> simp

/-- `ValueAt` does not use fuel. -/
theorem ValueAt_fuel (p : InternalPage) (i : Nat) : p.ValueAt i ≠ .error .out_of_fuel := by
  unfold InternalPage.ValueAt; split <;> simp

/-- `ValueIndex` does not use fuel. -/
theorem ValueIndex_fuel (p : InternalPage) (v : page_id_t) :
    p.ValueIndex v ≠ .error .out_of_fuel := by
  unfold InternalPage.ValueIndex; split <;> simp

/-- `SetParent` does not use fuel. -/
theorem SetParent_fuel (s : State) (p q : page_id_t) :
    SetParent s p q ≠ .error .out_of_fuel := by
  unfold SetParent; split <;> simp

/-- `AdjustRoot` does not use fuel. -/
theorem AdjustRoot_fuel (s : State) (p : page_id_t) : AdjustRoot s p ≠ .error .out_of_fuel := by
  unfold AdjustRoot
  refine bind_fuel (FetchPage_fuel _ _) fun n => ?_
  cases n with
  | leaf l => simp [pure, Except.pure]
  | internal i =>
    refine bind_fuel (ValueAt_fuel _ _) fun c => bind_fuel (SetParent_fuel _ _ _) fun s2 => ?_
    simp [pure, Except.pure]

/-- Without a transaction, one step of `CoalesceOrRedistribute` never ends for lack of
fuel: it returns at the root, and faults before the recursion elsewhere. -/
theorem CoalesceOrRedistribute_fuel (fuel : Nat) (s : State) (node : page_id_t) :
    CoalesceOrRedistribute false (fuel + 1) s node ≠ .error .out_of_fuel := by
  unfold CoalesceOrRedistribute
  refine bind_fuel (FetchPage_fuel _ _) fun n => ?_
  split
  · refine bind_fuel (AdjustRoot_fuel _ _) fun r => ?_
    obtain ⟨del, s1⟩ := r
    cases del <;> simp [pure, Except.pure]
  · refine bind_fuel (FetchInternal_fuel _ _) fun pp => bind_fuel (ValueIndex_fuel _ _)
      fun idx => bind_fuel ?_ fun sib => bind_fuel (FetchPage_fuel _ _) fun sn => ?_
    · split <;> exact ValueAt_fuel _ _
    · simp

end BPlusTree

namespace BPlusTree

theorem poolCalls_append : ∀ a b : List Event, poolCalls (a ++ b) = poolCalls a ++ poolCalls b
  | [], _ => rfl
  | e :: a, b => by
    cases e <;> simp [poolCalls, poolCalls_append a b]

theorem latches_append (x : PageRef) :
    ∀ a b : List Event, latches x (a ++ b) = latches x a + latches x b
  | [], b => by simp [latches]
  | e :: a, b => by
    cases e <;> simp [latches, latches_append x a b, Nat.add_assoc]

theorem unlatches_append (x : PageRef) :
    ∀ a b : List Event, unlatches x (a ++ b) = unlatches x a + unlatches x b
  | [], b => by simp [unlatches]
  | e :: a, b => by
    cases e <;> simp [unlatches, unlatches_append x a b, Nat.add_assoc]

/-- The loop of `Unlock` with its events: the state is the one of the plain loop, and the
events are the ones that the specification gives. -/
theorem Latched.UnlockLoop_events (action_type : ActionType) :
    ∀ (ps : List PageRef) (s : State) (events : List Event),
      Latched.UnlockLoop action_type ps s events =
        (BPlusTree.UnlockLoop ps s,
          events ++ releaseEvents action_type ps s.txn.deleted_page_set)
  | [], s, events => by simp [Latched.UnlockLoop, BPlusTree.UnlockLoop, releaseEvents]
  | p :: ps, s, events => by
    simp only [Latched.UnlockLoop, BPlusTree.UnlockLoop, releaseEvents]
    split
    · rw [Latched.UnlockLoop_events action_type ps]
      cases action_type <;> simp [DeletePage]
    · rw [Latched.UnlockLoop_events action_type ps]
      cases action_type <;> simp

/-- The events of a release take no pin and no latch; they give back one pin and one latch
for each page of the list. -/
theorem releaseEvents_count (action_type : ActionType) (q : page_id_t) (x : PageRef) :
    ∀ (ps : List PageRef) (deleted : List page_id_t),
      pins q (poolCalls (releaseEvents action_type ps deleted)) = 0 ∧
      unpins q (poolCalls (releaseEvents action_type ps deleted)) =
        (ps.map PageRef.GetPageId).count q ∧
      latches x (releaseEvents action_type ps deleted) = 0 ∧
      unlatches x (releaseEvents action_type ps deleted) = ps.count x
  | [], _ => by simp [releaseEvents, poolCalls, pins, unpins, latches, unlatches]
  | p :: ps, deleted => by
    obtain ⟨a1, a2, a3, a4⟩ := releaseEvents_count action_type q x ps deleted
    obtain ⟨b1, b2, b3, b4⟩ :=
      releaseEvents_count action_type q x ps (deleted.filter (· ≠ p.GetPageId))
    simp only [releaseEvents, List.cons_append, List.nil_append, List.map_cons,
      List.count_cons, beq_iff_eq]
    by_cases hd : p.GetPageId ∈ deleted
    · simp only [hd, if_true]
      cases action_type <;>
        simp only [reduceIte, reduceCtorEq, poolCalls, pins, unpins, latches, unlatches, b1,
          b2, b3, b4] <;>
        refine ⟨trivial, ?_, trivial, ?_⟩ <;> omega
    · simp only [hd, if_false]
      cases action_type <;>
        simp only [reduceIte, reduceCtorEq, poolCalls, pins, unpins, latches, unlatches, a1,
          a2, a3, a4] <;>
        refine ⟨trivial, ?_, trivial, ?_⟩ <;> omega

/-- The events of `Unlock` take no pin and no latch; they give back one latch for each page
of the page set and one pin for each page that the loop runs over. -/
theorem unlockEvents_count (action_type : ActionType) (q : page_id_t) (x : PageRef)
    (ps : List PageRef) (deleted : List page_id_t) :
    pins q (poolCalls (unlockEvents action_type ps deleted)) = 0 ∧
    unpins q (poolCalls (unlockEvents action_type ps deleted)) = heldPins q ps ∧
    latches x (unlockEvents action_type ps deleted) = 0 ∧
    unlatches x (unlockEvents action_type ps deleted) = ps.count x := by
  cases ps with
  | nil => simp [unlockEvents, releaseEvents, heldPins, released, poolCalls, pins, unpins,
      latches, unlatches]
  | cons p rest =>
    cases p with
    | frame page_id =>
      simpa [unlockEvents, heldPins, released] using
        releaseEvents_count action_type q x (.frame page_id :: rest) deleted
    | virtual_root_page =>
      obtain ⟨a1, a2, a3, a4⟩ := releaseEvents_count action_type q x rest deleted
      simp only [unlockEvents, heldPins, released, List.count_cons, beq_iff_eq]
      cases action_type <;>
        simp only [reduceIte, reduceCtorEq, poolCalls, pins, unpins, latches, unlatches, a1,
          a2, a3, a4] <;>
        refine ⟨trivial, trivial, trivial, ?_⟩ <;> omega

/-- `Unlock` with its events: the state is the one of the plain `Unlock`, and the events
are the ones that the specification gives for the page set. -/
theorem Latched.Unlock_spec (action_type : ActionType) (transaction : Bool) (s : State)
    (events : List Event) :
    Latched.Unlock action_type transaction s events =
      (BPlusTree.Unlock action_type transaction s).map fun s1 =>
        (s1, events ++ unlockEvents action_type s.txn.page_set s.txn.deleted_page_set) := by
  cases transaction with
  | false => rfl
  | true =>
    simp only [Latched.Unlock, BPlusTree.Unlock, Bool.not_true, Bool.false_eq_true, if_false]
    cases hp : s.txn.page_set with
    | nil => rfl
    | cons p rest =>
      cases p with
      | frame page_id =>
        simp [Latched.UnlockLoop_events, unlockEvents, Except.map]
      | virtual_root_page =>
        simp [Latched.UnlockLoop_events, unlockEvents, Except.map]

theorem map_eq_ok {ε α β : Type} {x : Except ε α} {f : α → β} {b : β}
    (h : x.map f = .ok b) : ∃ a, x = .ok a ∧ f a = b := by
  cases x with
  | error e => cases h
  | ok a => exact ⟨a, rfl, by simpa [Except.map] using h⟩

theorem heldPins_append_frame (q : page_id_t) (ps : List PageRef) (page_id : page_id_t) :
    heldPins q (ps ++ [.frame page_id]) = heldPins q ps + (if page_id = q then 1 else 0) := by
  cases ps with
  | nil => simp [heldPins, released, PageRef.GetPageId, List.count_cons]
  | cons p rest =>
    cases p <;>
      simp [heldPins, released, PageRef.GetPageId, List.count_cons, List.count_append,
        Nat.add_right_comm]

/-- `Lock` of a frame with its events: the state is the one of the plain `Lock`; the events
latch the page once, and what they unlatch and unpin has left the page set. -/
theorem Latched.Lock_spec (action_type : ActionType) (page_id : page_id_t) (s : State)
    (events : List Event) :
    (Latched.Lock action_type (.frame page_id) true s events).map Prod.fst =
      BPlusTree.Lock action_type (.frame page_id) true s ∧
    ∀ r, Latched.Lock action_type (.frame page_id) true s events = .ok r →
      (∀ q, pins q (poolCalls r.2) = pins q (poolCalls events) ∧
        unpins q (poolCalls r.2) + heldPins q r.1.txn.page_set =
          unpins q (poolCalls events) + heldPins q s.txn.page_set +
            (if page_id = q then 1 else 0)) ∧
      (∀ x, latches x r.2 = latches x events + (if PageRef.frame page_id = x then 1 else 0) ∧
        unlatches x r.2 + r.1.txn.page_set.count x =
          unlatches x events + s.txn.page_set.count x +
            (if PageRef.frame page_id = x then 1 else 0)) := by
  simp only [Latched.Lock, BPlusTree.Lock]
  cases hf : FetchPage s page_id with
  | error e => exact ⟨rfl, fun r h => by simp at h⟩
  | ok node =>
    simp only [ok_bind, if_true]
    cases hsafe : IsSafe action_type node with
    | false =>
      simp only [Bool.false_eq_true, if_false, pure_eq_ok, ok_bind, Except.map]
      refine ⟨trivial, fun r h => ?_⟩
      simp only [Except.ok.injEq] at h
      subst h
      refine ⟨fun q => ?_, fun x => ?_⟩
      · simp only [poolCalls_append, pins_append, unpins_append, AddIntoPageSet,
          heldPins_append_frame]
        cases action_type <;> simp [poolCalls, pins, unpins] <;> omega
      · simp only [latches_append, unlatches_append, AddIntoPageSet, List.count_append,
          List.count_cons, List.count_nil, beq_iff_eq]
        cases action_type <;> simp [latches, unlatches] <;> omega
    | true =>
      simp only [if_true, Latched.Unlock_spec]
      cases hu : BPlusTree.Unlock action_type true s with
      | error e => exact ⟨rfl, fun r h => by simp [Except.map] at h⟩
      | ok s1 =>
        have hs1 : s1.txn.page_set = [] := by
          simp only [BPlusTree.Unlock, Bool.not_true, Bool.false_eq_true, if_false] at hu
          split at hu
          · cases hu
          · simp only [Except.ok.injEq] at hu
            rw [← hu]
        simp only [Except.map, ok_bind, pure_eq_ok]
        refine ⟨trivial, fun r h => ?_⟩
        simp only [Except.ok.injEq] at h
        subst h
        refine ⟨fun q => ?_, fun x => ?_⟩
        · obtain ⟨a1, a2, -, -⟩ := unlockEvents_count action_type q (.frame page_id)
            s.txn.page_set s.txn.deleted_page_set
          simp only [poolCalls_append, pins_append, unpins_append, AddIntoPageSet, hs1,
            List.nil_append, a1, a2]
          cases action_type <;>
            simp [poolCalls, pins, unpins, heldPins, released, PageRef.GetPageId,
              List.count_cons]
        · obtain ⟨-, -, a3, a4⟩ := unlockEvents_count action_type 0 x
            s.txn.page_set s.txn.deleted_page_set
          simp only [latches_append, unlatches_append, AddIntoPageSet, hs1,
            List.nil_append, a3, a4, List.count_cons, List.count_nil, beq_iff_eq]
          cases action_type <;> simp [latches, unlatches]

/-- The latched descent with its events: the result is the one of the plain descent, and
the latches and pins that the events take and do not give back are the ones of the pages
that have joined the page set. -/
theorem Latched.latched_spec (key : KeyType) (leftMost : Bool) (action_type : ActionType) :
    ∀ (fuel : Nat) (s : State) (events : List Event) (page_id : page_id_t),
      (Latched.latched key leftMost action_type fuel s events page_id).map
          (fun r => (r.1, r.2.1)) =
        FindLeafPage.latched key leftMost action_type fuel s page_id ∧
      ∀ r, Latched.latched key leftMost action_type fuel s events page_id = .ok r →
        (∀ q, pins q (poolCalls r.2.2) + unpins q (poolCalls events) +
              heldPins q s.txn.page_set =
            pins q (poolCalls events) + unpins q (poolCalls r.2.2) +
              heldPins q r.2.1.txn.page_set) ∧
        (∀ x, latches x r.2.2 + unlatches x events + s.txn.page_set.count x =
            latches x events + unlatches x r.2.2 + r.2.1.txn.page_set.count x)
  | 0, _, _, _ => ⟨rfl, fun r h => by simp [Latched.latched] at h⟩
  | fuel + 1, s, events, page_id => by
    simp only [Latched.latched, FindLeafPage.latched]
    cases hf : FetchPage s page_id with
    | error e => exact ⟨rfl, fun r h => by simp at h⟩
    | ok node =>
      cases node with
      | leaf l =>
        simp only [ok_bind, pure_eq_ok, Except.map]
        refine ⟨trivial, fun r h => ?_⟩
        simp only [Except.ok.injEq] at h
        subst h
        exact ⟨fun _ => rfl, fun _ => rfl⟩
      | internal internal_page =>
        simp only [ok_bind]
        cases hn : (if leftMost then internal_page.ValueAt 0
            else internal_page.Lookup key : Except Fault page_id_t) with
        | error e => exact ⟨rfl, fun r h => by simp at h⟩
        | ok next_page_id =>
          simp only [ok_bind]
          cases hf2 : FetchPage s next_page_id with
          | error e => exact ⟨rfl, fun r h => by simp at h⟩
          | ok node2 =>
            simp only [ok_bind]
            obtain ⟨hl1, hl2⟩ := Latched.Lock_spec action_type next_page_id s
              (events ++ [.pool (.FetchPage next_page_id)])
            cases hlk : Latched.Lock action_type (.frame next_page_id) true s
                (events ++ [.pool (.FetchPage next_page_id)]) with
            | error e =>
              rw [hlk] at hl1
              rw [← hl1]
              exact ⟨rfl, fun r h => by simp at h⟩
            | ok r1 =>
              rw [hlk] at hl1
              rw [← hl1]
              simp only [ok_bind, Except.map]
              obtain ⟨ih1, ih2⟩ := Latched.latched_spec key leftMost action_type fuel r1.1 r1.2
                next_page_id
              refine ⟨ih1, fun r h => ?_⟩
              obtain ⟨c1, c2⟩ := hl2 r1 hlk
              obtain ⟨d1, d2⟩ := ih2 r h
              refine ⟨fun q => ?_, fun x => ?_⟩
              · have e1 := c1 q
                have e2 := d1 q
                simp only [poolCalls_append, pins_append, unpins_append, poolCalls, pins,
                  unpins] at e1
                omega
              · have e1 := c2 x
                have e2 := d2 x
                simp only [latches_append, unlatches_append, latches, unlatches] at e1
                omega

theorem Latched.Lock_virtual (action_type : ActionType) (s : State) (events : List Event) :
    Latched.Lock action_type .virtual_root_page true s events =
      .ok (AddIntoPageSet s .virtual_root_page,
        events ++ [if action_type = .SEARCH then .RLatch .virtual_root_page
          else .WLatch .virtual_root_page]) := rfl

theorem Lock_virtual_plain (action_type : ActionType) (s : State) :
    Lock action_type .virtual_root_page true s = .ok (AddIntoPageSet s .virtual_root_page) :=
  rfl

/-- `FindLeafPage` with a transaction and its events, from a transaction that holds no
page: the result is the one of the plain function; every page of the page set is latched
once more than unlatched and every other page as often as unlatched; every page is pinned
as often more than unpinned as `Unlock` will unpin it, and the leaf once more. -/
theorem Latched.FindLeafPage_spec (fuel : Nat) (key : KeyType) (leftMost : Bool)
    (action_type : ActionType) (s : State) (hps : s.txn.page_set = []) :
    (Latched.FindLeafPage fuel key leftMost action_type s []).map (fun r => (r.1, r.2.1)) =
      BPlusTree.FindLeafPage fuel key leftMost true action_type s ∧
    ∀ leaf s1 events,
      Latched.FindLeafPage fuel key leftMost action_type s [] = .ok (some leaf, s1, events) →
      (∀ q, pins q (poolCalls events) =
        unpins q (poolCalls events) + heldPins q s1.txn.page_set +
          (if leaf = q then 1 else 0)) ∧
      (∀ x, latches x events = unlatches x events + s1.txn.page_set.count x) := by
  simp only [Latched.FindLeafPage, BPlusTree.FindLeafPage]
  split
  · exact ⟨rfl, fun leaf s1 events h => by simp at h⟩
  · simp only [Bool.not_true, Bool.false_eq_true, if_false, Latched.Lock_virtual, Lock_virtual_plain,
      ok_bind, List.nil_append]
    cases hf : FetchPage (AddIntoPageSet s .virtual_root_page)
        (AddIntoPageSet s .virtual_root_page).root_page_id_ with
    | error e => exact ⟨rfl, fun leaf s1 events h => by simp at h⟩
    | ok node =>
      simp only [ok_bind]
      obtain ⟨hl1, hl2⟩ := Latched.Lock_spec action_type
        (AddIntoPageSet s .virtual_root_page).root_page_id_ (AddIntoPageSet s .virtual_root_page)
        ([if action_type = .SEARCH then .RLatch .virtual_root_page
            else .WLatch .virtual_root_page] ++
          [.pool (.FetchPage (AddIntoPageSet s .virtual_root_page).root_page_id_)])
      cases hlk : Latched.Lock action_type
          (.frame (AddIntoPageSet s .virtual_root_page).root_page_id_) true
          (AddIntoPageSet s .virtual_root_page)
          ([if action_type = .SEARCH then .RLatch .virtual_root_page
              else .WLatch .virtual_root_page] ++
            [.pool (.FetchPage (AddIntoPageSet s .virtual_root_page).root_page_id_)]) with
      | error e =>
        rw [hlk] at hl1
        rw [← hl1]
        exact ⟨rfl, fun leaf s1 events h => by simp at h⟩
      | ok r2 =>
        rw [hlk] at hl1
        rw [← hl1]
        simp only [ok_bind, Except.map]
        obtain ⟨c1, c2⟩ := hl2 r2 hlk
        obtain ⟨ih1, ih2⟩ := Latched.latched_spec key leftMost action_type fuel r2.1 r2.2
          s.root_page_id_
        cases hd : Latched.latched key leftMost action_type fuel r2.1 r2.2 s.root_page_id_ with
        | error e =>
          rw [hd] at ih1
          rw [← ih1]
          exact ⟨rfl, fun leaf s1 events h => by simp at h⟩
        | ok r3 =>
          rw [hd] at ih1
          rw [← ih1]
          simp only [ok_bind, Except.map]
          cases hf3 : FetchPage r3.2.1 r3.1 with
          | error e => exact ⟨rfl, fun leaf s1 events h => by simp at h⟩
          | ok node3 =>
            simp only [ok_bind, pure_eq_ok]
            refine ⟨trivial, fun leaf s1 events h => ?_⟩
            simp only [Except.ok.injEq, Prod.mk.injEq, Option.some.injEq] at h
            obtain ⟨rfl, rfl, rfl⟩ := h
            obtain ⟨d1, d2⟩ := ih2 r3 hd
            refine ⟨fun q => ?_, fun x => ?_⟩
            · have e1 := c1 q
              have e2 := d1 q
              simp only [poolCalls_append, pins_append, unpins_append, poolCalls, pins,
                unpins, AddIntoPageSet, hps, List.nil_append, heldPins, released,
                List.map_nil, List.count_nil] at e1 e2 ⊢
              cases action_type <;> simp only [reduceIte, reduceCtorEq, poolCalls, pins,
                unpins] at e1 e2 ⊢ <;> omega
            · have e1 := c2 x
              have e2 := d2 x
              simp only [latches_append, unlatches_append, latches, unlatches,
                AddIntoPageSet, hps, List.nil_append, List.count_cons, List.count_nil,
                beq_iff_eq] at e1 e2 ⊢
              cases action_type <;> simp only [reduceIte, reduceCtorEq, latches,
                unlatches] at e1 e2 ⊢ <;> omega

theorem Tree.path_cons (action_type : ActionType) (key : KeyType) (leftMost : Bool) :
    ∀ (h : Nat) (t : Tree h), Tree.path action_type key leftMost h t =
      (Tree.pid h t, Tree.safe action_type h t) ::
        (Tree.path action_type key leftMost h t).tail
  | 0, _ => rfl
  | _ + 1, _ => rfl

/-- The page set that the latched descent leaves below a node, in terms of the path below
the node. -/
theorem Tree.held_path (action_type : ActionType) (key : KeyType) (leftMost : Bool) :
    ∀ (h : Nat) (t : Tree h) (ps : List PageRef),
      Tree.held action_type key leftMost h t ps =
        match fromDeepestSafe (Tree.path action_type key leftMost h t).tail with
        | some pages => pages.map .frame
        | none => ps ++ (Tree.path action_type key leftMost h t).tail.map (fun e => .frame e.1)
  | 0, _, ps => by simp [Tree.held, Tree.path, fromDeepestSafe]
  | h + 1, t, ps => by
    simp only [Tree.held, Tree.path, List.tail_cons]
    cases hc : choose key leftMost t.kids with
    | none => simp [fromDeepestSafe]
    | some r =>
      obtain ⟨pre, cur, post⟩ := r
      simp only []
      rw [Tree.held_path action_type key leftMost h cur.2]
      rw [Tree.path_cons action_type key leftMost h cur.2]
      simp only [List.tail_cons, fromDeepestSafe]
      cases hd : fromDeepestSafe (Tree.path action_type key leftMost h cur.2).tail with
      | some pages => rfl
      | none =>
        cases hsafe : Tree.safe action_type h cur.2 <;> simp [heldAfter, Function.comp_def]

/-- The page set that latched `FindLeafPage` leaves is the one that the specification
gives for the path to the leaf. -/
theorem Tree.heldRoot_eq_crabbed (action_type : ActionType) (key : KeyType) (leftMost : Bool)
    (h : Nat) (t : Tree h) :
    Tree.heldRoot action_type key leftMost h t =
      crabbed (Tree.path action_type key leftMost h t) := by
  rw [Tree.heldRoot, Tree.held_path, crabbed, Tree.path_cons action_type key leftMost h t]
  simp only [List.tail_cons, fromDeepestSafe]
  cases hd : fromDeepestSafe (Tree.path action_type key leftMost h t).tail with
  | some pages => rfl
  | none =>
    cases hsafe : Tree.safe action_type h t <;> simp [heldAfter, Function.comp_def]

/-- The path ends in the leaf of the key. -/
theorem Tree.path_last (action_type : ActionType) (key : KeyType) (leftMost : Bool) :
    ∀ (h : Nat) (t : Tree h) (L : ALeaf), Tree.findLeaf key leftMost h t = some L →
      ((Tree.path action_type key leftMost h t).map (·.1)).getLast? = some L.id
  | 0, t, L, hL => by
    simp only [Tree.findLeaf, Option.some.injEq] at hL
    subst hL
    rfl
  | h + 1, t, L, hL => by
    simp only [Tree.findLeaf] at hL
    simp only [Tree.path]
    cases hc : choose key leftMost t.kids with
    | none => simp [hc] at hL
    | some r =>
      obtain ⟨pre, cur, post⟩ := r
      simp only [hc] at hL ⊢
      have ih := Tree.path_last action_type key leftMost h cur.2 L hL
      rw [Tree.path_cons action_type key leftMost h cur.2] at ih ⊢
      simpa [List.getLast?_cons_cons] using ih

/-- The pages of the path are pages of the tree, in the order of `Tree.ids`. -/
theorem Tree.path_sublist (action_type : ActionType) (key : KeyType) (leftMost : Bool) :
    ∀ (h : Nat) (t : Tree h),
      ((Tree.path action_type key leftMost h t).map (·.1)).Sublist (Tree.ids h t)
  | 0, t => by simp [Tree.path, Tree.ids]
  | h + 1, t => by
    simp only [Tree.path, Tree.ids_succ, List.map_cons]
    refine List.Sublist.cons₂ _ ?_
    cases hc : choose key leftMost t.kids with
    | none => simp
    | some r =>
      obtain ⟨pre, cur, post⟩ := r
      simp only []
      rw [choose_eq hc, kidsIds_append, kidsIds_cons]
      exact ((Tree.path_sublist action_type key leftMost h cur.2).trans
        (List.sublist_append_left _ _)).trans (List.sublist_append_right _ _)

theorem fromDeepestSafe_suffix : ∀ (path : List (page_id_t × Bool)) (pages : List page_id_t),
    fromDeepestSafe path = some pages → pages <:+ path.map (·.1) ∧ pages ≠ []
  | [], pages, h => by simp [fromDeepestSafe] at h
  | (p, safe) :: rest, pages, h => by
    simp only [fromDeepestSafe] at h
    cases hd : fromDeepestSafe rest with
    | some pages1 =>
      simp only [hd, Option.some.injEq] at h
      subst h
      obtain ⟨h1, h2⟩ := fromDeepestSafe_suffix rest pages1 hd
      exact ⟨h1.trans (List.suffix_cons _ _), h2⟩
    | none =>
      simp only [hd] at h
      cases safe with
      | false => simp at h
      | true =>
        simp only [if_true, Option.some.injEq] at h
        subst h
        exact ⟨List.suffix_refl _, by simp⟩

/-- The page set of the specification for a path without a repeated page: no page twice,
the last page of the path last, and `Unlock` unpins each of its frames once. -/
theorem crabbed_facts (path : List (page_id_t × Bool)) (hnd : (path.map (·.1)).Nodup)
    (last : page_id_t) (hlast : (path.map (·.1)).getLast? = some last) :
    (crabbed path).Nodup ∧ (crabbed path).getLast? = some (.frame last) ∧
      ∀ q, heldPins q (crabbed path) = (crabbed path).count (.frame q) := by
  have hinj : Function.Injective PageRef.frame := fun a b h => by cases h; rfl
  have hcount : ∀ (l : List page_id_t) (q : page_id_t),
      ((l.map PageRef.frame).map PageRef.GetPageId).count q =
        (l.map PageRef.frame).count (.frame q) := by
    intro l q
    have hid : (l.map PageRef.frame).map PageRef.GetPageId = l := by
      simp [List.map_map, Function.comp_def, PageRef.GetPageId]
    rw [hid, List.count_map_of_injective _ _ hinj]
  simp only [crabbed]
  cases hd : fromDeepestSafe path with
  | some pages =>
    obtain ⟨hsuf, hne⟩ := fromDeepestSafe_suffix path pages hd
    refine ⟨(hnd.sublist hsuf.sublist).map hinj, ?_, fun q => ?_⟩
    · obtain ⟨pre, hpre⟩ := hsuf
      rw [← hpre, List.getLast?_append_of_ne_nil _ hne] at hlast
      simp [List.getLast?_map, hlast]
    · cases pages with
      | nil => exact absurd rfl hne
      | cons a l => simpa [heldPins, released] using hcount (a :: l) q
  | none =>
    refine ⟨?_, ?_, fun q => ?_⟩
    · refine List.nodup_cons.2 ⟨by simp, ?_⟩
      have := hnd.map hinj
      simpa [List.map_map, Function.comp_def] using this
    · cases path with
      | nil => simp at hlast
      | cons e rest =>
        have : (List.map (fun e => PageRef.frame e.1) (e :: rest)).getLast? =
            some (.frame last) := by
          have h2 := congrArg (Option.map PageRef.frame) hlast
          rw [← List.getLast?_map] at h2
          simpa [List.map_map] using h2
        rw [List.map_cons] at this ⊢
        rw [List.getLast?_cons_cons]
        exact this
    · have := hcount (path.map (·.1)) q
      simp only [List.map_map] at this
      simp [heldPins, released, List.count_cons, Function.comp_def] at this ⊢
      exact this

theorem fromDeepestSafe_all_safe : ∀ (path : List (page_id_t × Bool)) (last : page_id_t),
    (∀ e ∈ path, e.2 = true) → (path.map (·.1)).getLast? = some last →
    fromDeepestSafe path = some [last]
  | [], _, _, h => by simp at h
  | [(p, safe)], last, hall, h => by
    have hs : safe = true := hall (p, safe) (by simp)
    subst hs
    simp only [List.map_cons, List.map_nil, List.getLast?_singleton, Option.some.injEq] at h
    subst h
    rfl
  | (p, safe) :: e :: rest, last, hall, h => by
    rw [List.map_cons, List.map_cons, List.getLast?_cons_cons, ← List.map_cons] at h
    have ih := fromDeepestSafe_all_safe (e :: rest) last
      (fun x hx => hall x (List.mem_cons_of_mem _ hx)) h
    simp only [fromDeepestSafe] at ih ⊢
    rw [ih]

theorem Tree.path_search (key : KeyType) (leftMost : Bool) :
    ∀ (h : Nat) (t : Tree h), ∀ e ∈ Tree.path .SEARCH key leftMost h t, e.2 = true
  | 0, t, e, he => by
    simp only [Tree.path, List.mem_singleton] at he
    subst he
    rfl
  | h + 1, t, e, he => by
    simp only [Tree.path, List.mem_cons] at he
    rcases he with rfl | he
    · rfl
    · cases hc : choose key leftMost t.kids with
      | none => simp [hc] at he
      | some r =>
        obtain ⟨pre, cur, post⟩ := r
        simp only [hc] at he
        exact Tree.path_search key leftMost h cur.2 e he

/-- The traced descent without a transaction returns when the plain one does. -/
theorem Traced.unlatched_fst (key : KeyType) (leftMost : Bool) :
    ∀ (fuel : Nat) (s : State) (page_id : page_id_t) (calls : List PoolCall),
      (Traced.unlatched key leftMost fuel s page_id calls).map Prod.fst =
        FindLeafPage.unlatched key leftMost fuel s page_id
  | 0, _, _, _ => rfl
  | fuel + 1, s, page_id, calls => by
    simp only [Traced.unlatched, FindLeafPage.unlatched]
    cases hp : FetchPage s page_id with
    | error e => rfl
    | ok n =>
      cases n with
      | leaf l => rfl
      | internal ip =>
        simp only [ok_bind]
        cases hn : (if leftMost = true then ip.ValueAt 0 else ip.Lookup key) with
        | error e => rfl
        | ok nxt =>
          simp only [ok_bind]
          exact Traced.unlatched_fst key leftMost fuel s nxt _

/-- Latched `FindLeafPage` on a state that holds a tree, with its events. -/
theorem Latched.FindLeafPage_holds {s : State} {h : Nat} {t : Tree h} (hs : Holds s h t)
    (key : KeyType) (leftMost : Bool) (action_type : ActionType) {L : ALeaf}
    (hL : Tree.findLeaf key leftMost h t = some L) {fuel : Nat} (hf : h < fuel) :
    ∃ events,
      Latched.FindLeafPage fuel key leftMost action_type s [] =
        .ok (some L.id,
          s.withPageSet (crabbed (Tree.path action_type key leftMost h t)), events) ∧
      (∀ x, latches x events =
        unlatches x events + (crabbed (Tree.path action_type key leftMost h t)).count x) ∧
      (∀ q, pins q (poolCalls events) =
        unpins q (poolCalls events) +
          (crabbed (Tree.path action_type key leftMost h t)).count (.frame q) +
          (if L.id = q then 1 else 0)) := by
  have hplain := FindLeafPage_latched hs key leftMost action_type hL hf
  rw [Tree.heldRoot_eq_crabbed] at hplain
  obtain ⟨h1, h2⟩ := Latched.FindLeafPage_spec fuel key leftMost action_type s hs.page_set
  rw [hplain] at h1
  obtain ⟨r, hr, hr2⟩ := map_eq_ok h1
  obtain ⟨leaf, s1, events⟩ := r
  simp only [Prod.mk.injEq] at hr2
  obtain ⟨rfl, rfl⟩ := hr2
  obtain ⟨c1, c2⟩ := h2 _ _ _ hr
  obtain ⟨-, -, hcnt⟩ := crabbed_facts (Tree.path action_type key leftMost h t)
    (((Tree.path_sublist action_type key leftMost h t).nodup hs.nodup)) L.id
    (Tree.path_last action_type key leftMost h t L hL)
  refine ⟨events, hr, fun x => ?_, fun q => ?_⟩
  · simpa using c2 x
  · have := c1 q
    simp only [withPageSet_page_set, hcnt] at this
    exact this

/-- Every `DeletePage` among the events of a release is for an id that is scheduled and is
the id of a page of the list, and it comes right after the unlatch and the unpin of that
page. -/
theorem releaseEvents_delete (action_type : ActionType) :
    ∀ (ps : List PageRef) (deleted : List page_id_t) (pre post : List Event) (q : page_id_t),
      releaseEvents action_type ps deleted = pre ++ .pool (.DeletePage q) :: post →
      q ∈ deleted ∧ ∃ (pre1 : List Event) (page : PageRef), page ∈ ps ∧ page.GetPageId = q ∧
        pre = pre1 ++ [if action_type = .SEARCH then .RUnlatch page else .WUnlatch page,
          .pool (.UnpinPage q (action_type != .SEARCH))]
  | [], _, pre, post, q, h => by
    simp [releaseEvents] at h
  | p :: ps, deleted, pre, post, q, h => by
    simp only [releaseEvents, List.cons_append, List.nil_append] at h
    match pre, h with
    | [], h =>
      simp only [List.nil_append, List.cons.injEq] at h
      cases action_type <;> simp at h
    | [e1], h =>
      simp only [List.cons_append, List.nil_append, List.cons.injEq] at h
      simp at h
    | e1 :: e2 :: pre2, h =>
      simp only [List.cons_append, List.cons.injEq] at h
      obtain ⟨he1, he2, h⟩ := h
      by_cases hd : p.GetPageId ∈ deleted
      · simp only [hd, if_true] at h
        match pre2, h with
        | [], h =>
          simp only [List.nil_append, List.cons.injEq, Event.pool.injEq,
            PoolCall.DeletePage.injEq] at h
          obtain ⟨hq, -⟩ := h
          subst hq
          exact ⟨hd, [], p, by simp, rfl, by rw [← he1, ← he2]; rfl⟩
        | e3 :: pre3, h =>
          simp only [List.cons_append, List.cons.injEq] at h
          obtain ⟨he3, h⟩ := h
          obtain ⟨h1, pre1, page, h2, h3, h4⟩ :=
            releaseEvents_delete action_type ps _ pre3 post q h
          refine ⟨(List.mem_filter.1 h1).1, e1 :: e2 :: e3 :: pre1, page,
            List.mem_cons_of_mem _ h2, h3, ?_⟩
          rw [h4]
          rfl
      · simp only [hd, if_false] at h
        obtain ⟨h1, pre1, page, h2, h3, h4⟩ :=
          releaseEvents_delete action_type ps _ pre2 post q h
        refine ⟨h1, e1 :: e2 :: pre1, page, List.mem_cons_of_mem _ h2, h3, ?_⟩
        rw [h4]
        rfl

/-- The same for the events of `Unlock`. -/
theorem unlockEvents_delete (action_type : ActionType) (page_set : List PageRef)
    (deleted : List page_id_t) (pre post : List Event) (q : page_id_t)
    (h : unlockEvents action_type page_set deleted = pre ++ .pool (.DeletePage q) :: post) :
    q ∈ deleted ∧ ∃ (pre1 : List Event) (page : PageRef), page ∈ released page_set ∧
      page.GetPageId = q ∧
      pre = pre1 ++ [if action_type = .SEARCH then .RUnlatch page else .WUnlatch page,
        .pool (.UnpinPage q (action_type != .SEARCH))] := by
  cases page_set with
  | nil => simp [unlockEvents, releaseEvents] at h
  | cons p rest =>
    cases p with
    | frame page_id =>
      exact releaseEvents_delete action_type _ _ pre post q h
    | virtual_root_page =>
      simp only [unlockEvents] at h
      match pre, h with
      | [], h =>
        simp only [List.nil_append, List.cons.injEq] at h
        cases action_type <;> simp at h
      | e1 :: pre2, h =>
        simp only [List.cons_append, List.cons.injEq] at h
        obtain ⟨h1, pre1, page, h2, h3, h4⟩ :=
          releaseEvents_delete action_type rest deleted pre2 post q h.2
        refine ⟨h1, e1 :: pre1, page, h2, h3, ?_⟩
        rw [h4]
        rfl

/-- `Unlock` on a page set that is not empty: the call returns, with the events of the
specification; the page set is empty afterwards, the ids of the released pages have left
the schedule of deletions, and the pages that were scheduled and released have left the
pool. -/
theorem Unlock_nonempty (action_type : ActionType) (s : State) (events : List Event)
    (hps : s.txn.page_set ≠ []) :
    ∃ s1, Unlock action_type true s = .ok s1 ∧
      Latched.Unlock action_type true s events =
        .ok (s1, events ++ unlockEvents action_type s.txn.page_set s.txn.deleted_page_set) ∧
      s1.txn.page_set = [] ∧
      (∀ x, x ∈ s1.txn.deleted_page_set ↔
        x ∈ s.txn.deleted_page_set ∧ x ∉ (released s.txn.page_set).map PageRef.GetPageId) ∧
      (∀ x, s1.pages x =
        if x ∈ s.txn.deleted_page_set ∧ x ∈ (released s.txn.page_set).map PageRef.GetPageId
        then none else s.pages x) := by
  have hspec := Latched.Unlock_spec action_type true s events
  cases hp : s.txn.page_set with
  | nil => exact absurd hp hps
  | cons p rest =>
    have hrel : (if p = .virtual_root_page then rest else p :: rest) = released (p :: rest) := by
      cases p <;> simp [released]
    obtain ⟨h1, h2, -⟩ := UnlockLoop_spec (released (p :: rest)) s
    refine ⟨{ UnlockLoop (released (p :: rest)) s with
      txn := { (UnlockLoop (released (p :: rest)) s).txn with page_set := [] } },
      ?_, ?_, ?_, ?_, ?_⟩
    · simp only [Unlock, hp, Bool.not_true, Bool.false_eq_true, if_false, hrel]
    · rw [hspec]
      simp only [Unlock, hp, Bool.not_true, Bool.false_eq_true, if_false, hrel, Except.map]
    · rfl
    · intro x
      exact h2 x
    · intro x
      exact h1 x

/-- The order invariant of the leaf that holds the pairs of two neighbouring leaves. -/
theorem leaf_merge_ord {A B : ALeaf} {kb : KeyType} {loA hiB : Option KeyType}
    (hA : Tree.Ord 0 A loA (some kb)) (hB : Tree.Ord 0 B (some kb) hiB) :
    Tree.Ord 0 (ALeaf.mk A.id A.max_size B.next (A.arr ++ B.arr)) loA hiB := by
  obtain ⟨hbA, hsA, hxA⟩ := hA
  obtain ⟨hbB, hsB, hxB⟩ := hB
  show Bnd loA hiB ∧ LeafOrd (A.arr ++ B.arr) loA hiB
  refine ⟨hbA.trans_bnd hbB, ?_, fun e he => ?_⟩
  · rw [List.map_append, List.pairwise_append]
    refine ⟨hsA, hsB, fun a ha b hb => ?_⟩
    obtain ⟨x, hx, rfl⟩ := List.mem_map.1 ha
    obtain ⟨y, hy, rfl⟩ := List.mem_map.1 hb
    exact lt_of_lt_of_le ((hxA x hx).2 kb rfl) ((hxB y hy).1 kb rfl)
  · rcases List.mem_append.1 he with h1 | h1
    · exact ⟨(hxA e h1).1, fun u hu => lt_of_lt_of_le ((hxA e h1).2 kb rfl) (hbB kb u rfl hu)⟩
    · exact ⟨fun l hl => le_trans (hbA l kb hl rfl) ((hxB e h1).1 kb rfl), (hxB e h1).2⟩

/-- The order invariant of the node that holds the children of two neighbouring nodes, the
first child of the right one under the separator. -/
theorem node_merge_ord {h : Nat} {A B : ANode (Tree h)} {kb : KeyType}
    {loA hiB : Option KeyType} (hAne : A.kids ≠ []) (hBne : B.kids ≠ [])
    (hA : Tree.Ord (h + 1) A loA (some kb)) (hB : Tree.Ord (h + 1) B (some kb) hiB) :
    Tree.Ord (h + 1) (ANode.mk A.id A.max_size (A.kids ++ rekey kb B.kids)) loA hiB := by
  obtain ⟨hbA, hkA⟩ := hA
  obtain ⟨hbB, hkB⟩ := hB
  show Bnd loA hiB ∧ KidsOrd (Tree.Ord h) loA hiB (A.kids ++ rekey kb B.kids)
  refine ⟨hbA.trans_bnd hbB, ?_⟩
  cases hBk : B.kids with
  | nil => exact absurd hBk hBne
  | cons b rest =>
    rw [hBk] at hkB
    show KidsOrd (Tree.Ord h) loA hiB (A.kids ++ (kb, b.2) :: rest)
    rw [KidsOrd.append hAne]
    exact ⟨hkA, (KidsOrd.first_key b.1 kb b.2 rest).1 hkB⟩

/-- The order invariant of a node after two neighbouring children have been replaced by
one that keeps to the bounds of the pair. -/
theorem Tree.Ord.merge_pair {h : Nat} {P : ANode (Tree h)} {X Y : List (KeyType × Tree h)}
    {ka kb : KeyType} {A B A1 : Tree h} {lo hi : Option KeyType}
    (hk : P.kids = X ++ (ka, A) :: (kb, B) :: Y) (ho : Tree.Ord (h + 1) P lo hi)
    (hstep : ∀ loA hiB, Tree.Ord h A loA (some kb) → Tree.Ord h B (some kb) hiB →
      Tree.Ord h A1 loA hiB) :
    Tree.Ord (h + 1) (ANode.mk P.id P.max_size (X ++ (ka, A1) :: Y)) lo hi := by
  obtain ⟨hb, hko⟩ := ho
  rw [hk, KidsOrd.pair] at hko
  obtain ⟨hX, hA, hB, hY⟩ := hko
  refine ⟨hb, ?_⟩
  show KidsOrd (Tree.Ord h) lo hi (X ++ (ka, A1) :: Y)
  rw [KidsOrd.zip]
  exact ⟨hX, hstep _ _ hA hB, hY⟩

/-- `Coalesce` of two neighbouring children `A`, `B` of the node `P`, at any height, with
the slots of the survivor. -/
theorem Coalesce_slots (recurse : State → page_id_t → Except Fault (Bool × State))
    {s : State} :
    ∀ (h : Nat) {P : ANode (Tree h)} {parent : page_id_t} {X Y : List (KeyType × Tree h)}
      {ka kb : KeyType} {A B : Tree h},
      P.kids = X ++ (ka, A) :: (kb, B) :: Y →
      Rep s.pages (h + 1) P parent → (Tree.ids (h + 1) P).Nodup →
      ∀ {neighbor_node node : page_id_t} {index : Nat},
      ((neighbor_node = Tree.pid h A ∧ node = Tree.pid h B ∧ index = X.length + 1) ∨
        (neighbor_node = Tree.pid h B ∧ node = Tree.pid h A ∧ index = 0 ∧ X = [])) →
      ∃ (A1 : Tree h) (s3 : State), Coalesce recurse true s neighbor_node node index =
          (if (X ++ (ka, A1) :: Y).length < (P.max_size + 1) / 2 then
            recurse s3 P.id else .ok (false, s3)) ∧
        Tree.pid h A1 = Tree.pid h A ∧
        Tree.slots h A1 = Tree.slots h A ++
          (if h = 0 then Tree.slots h B else InternalPage.SetKeyAtIn kb 0 (Tree.slots h B)) ∧
        (∀ a b : LeafPage, Tree.page h A1 P.id = .leaf a → Tree.page h B P.id = .leaf b →
          a.next_page_id = b.next_page_id) ∧
        Rep s3.pages (h + 1) (ANode.mk P.id P.max_size (X ++ (ka, A1) :: Y)) parent ∧
        (∀ lo hi, Tree.Ok (h + 1) P → Tree.Ord (h + 1) P lo hi →
          Tree.Ord (h + 1) (ANode.mk P.id P.max_size (X ++ (ka, A1) :: Y)) lo hi) ∧
        Tree.entries (h + 1) (ANode.mk P.id P.max_size (X ++ (ka, A1) :: Y)) =
          Tree.entries (h + 1) P ∧
        (∀ x, x ∉ Tree.ids (h + 1) P → s3.pages x = s.pages x) ∧
        s3.txn.page_set = s.txn.page_set ∧
        s3.txn.deleted_page_set = Tree.pid h B :: s.txn.deleted_page_set ∧ Fixed s s3
  | 0, P, parent, X, Y, ka, kb, A, B, hk, hr, hnd, neighbor_node, node, index, hargs => by
    have hargs1 : (neighbor_node = ALeaf.id A ∧ node = ALeaf.id B ∧ index = X.length + 1) ∨
        (neighbor_node = ALeaf.id B ∧ node = ALeaf.id A ∧ index = 0) := by
      rcases hargs with h1 | ⟨h1, h2, h3, -⟩
      · exact Or.inl h1
      · exact Or.inr ⟨h1, h2, h3⟩
    obtain ⟨s3, h1, h2, h3, h4, h5, h6⟩ := Coalesce_leaf recurse hk hr hnd hargs1
    have hord : ∀ lo hi, Tree.Ok 1 P → Tree.Ord 1 P lo hi → _ := fun lo hi _ ho =>
      @Tree.Ord.merge_pair 0 P X Y ka kb A B
        (ALeaf.mk (A : ALeaf).id (A : ALeaf).max_size (B : ALeaf).next
          ((A : ALeaf).arr ++ (B : ALeaf).arr)) lo hi hk ho
        fun _ _ a1 a2 => leaf_merge_ord a1 a2
    refine ⟨_, s3, ?_, by rfl, by rfl, ?_, h2, hord, ?_, h3, h4, h5, h6⟩
    · simpa using h1
    · intro a b ha hb
      simp only [Tree.page, BPlusTreePage.leaf.injEq] at ha hb
      rw [← ha, ← hb]
    · rw [Tree.entries_succ, Tree.entries_succ, hk]
      simp [Tree.entries_zero]
  | h + 1, P, parent, X, Y, ka, kb, A, B, hk, hr, hnd, neighbor_node, node, index, hargs => by
    obtain ⟨s3, h1, h2, h3, h4, h5, h6⟩ := Coalesce_node recurse hk hr hnd hargs
    have hord : ∀ lo hi, Tree.Ok (h + 2) P → Tree.Ord (h + 2) P lo hi → _ :=
      fun lo hi hok ho =>
        @Tree.Ord.merge_pair (h + 1) P X Y ka kb A B
          (ANode.mk (A : ANode (Tree h)).id (A : ANode (Tree h)).max_size
            ((A : ANode (Tree h)).kids ++ rekey kb (B : ANode (Tree h)).kids)) lo hi hk ho
          fun _ _ a1 a2 => node_merge_ord
            (Tree.ok_kids ((Tree.ok_kids hok).2 (ka, A) (by rw [hk]; simp))).1
            (Tree.ok_kids ((Tree.ok_kids hok).2 (kb, B) (by rw [hk]; simp))).1 a1 a2
    refine ⟨_, s3, ?_, by rfl, ?_, ?_, h2, hord, ?_, h3, h4, h5, h6⟩
    · simpa using h1
    · show slotsOf h ((A : ANode (Tree h)).kids ++ rekey kb (B : ANode (Tree h)).kids) =
        slotsOf h (A : ANode (Tree h)).kids ++
          InternalPage.SetKeyAtIn kb 0 (slotsOf h (B : ANode (Tree h)).kids)
      rw [slotsOf_append, slotsOf_rekey]
    · intro a b ha
      simp [Tree.page] at ha
    · rw [Tree.entries_succ, Tree.entries_succ, hk]
      simp [Tree.entries_succ, kidsEntries_rekey]

/-- `Insert` (with a transaction) into a tree that `Remove` has emptied: the header page
has the record of the index already, so `InsertRecord` leaves it alone. -/
theorem Insert_emptied {s : State} (hs : HoldsEmpty s) {r : page_id_t}
    (hh : s.header_record = some r) (fuel : Nat) (key : KeyType) (value : ValueType) :
    ∃ s1, Insert fuel key value true s = .ok (true, s1) ∧
      s1.root_page_id_ = s.next_page_id ∧ s1.header_record = some r := by
  have hun := Unlock_ok .INSERT
    (StartNewTree key value (s.withPageSet [.virtual_root_page]))
    (by simp [StartNewTree, NewPage, WriteLeaf])
    (by simp [StartNewTree, NewPage, WriteLeaf, hs.deleted])
  refine ⟨(StartNewTree key value (s.withPageSet [.virtual_root_page])).withPageSet [],
    ?_, ?_, ?_⟩
  · simp only [Insert, IsEmpty, hs.root, beq_self_eq_true, if_true, Lock_virtual_root,
      hs.page_set, List.nil_append, ok_bind, hun, pure_eq_ok]
  · simp [StartNewTree, NewPage, WriteLeaf, UpdateRootPageId, State.withPageSet, State.setPage,
      hh]
  · simp [StartNewTree, NewPage, WriteLeaf, UpdateRootPageId, State.withPageSet, State.setPage,
      hh]

end BPlusTree

namespace BPlusTree

/-! ## Removal that returns: nodes with at least two children -/

theorem slotsOf_unique {pages : page_id_t → Option BPlusTreePage} {h : Nat}
    (ih : ∀ (t t1 : Tree h) (p p1 : page_id_t), Rep pages h t p → Rep pages h t1 p1 →
      Tree.pid h t = Tree.pid h t1 → t = t1) :
    ∀ (K K1 : List (KeyType × Tree h)) (p p1 : page_id_t), slotsOf h K = slotsOf h K1 →
      (∀ e ∈ K, Rep pages h e.2 p) → (∀ e ∈ K1, Rep pages h e.2 p1) → K = K1
  | [], [], _, _, _, _, _ => rfl
  | [], _ :: _, _, _, hs, _, _ => by simp at hs
  | _ :: _, [], _, _, hs, _, _ => by simp at hs
  | e :: K, e1 :: K1, p, p1, hs, hr, hr1 => by
    simp only [slotsOf_cons, List.cons.injEq, Prod.mk.injEq] at hs
    obtain ⟨⟨hk, hp⟩, hrest⟩ := hs
    have h2 := ih e.2 e1.2 p p1 (hr e (by simp)) (hr1 e1 (by simp)) hp
    have h3 : e = e1 := Prod.ext hk h2
    rw [h3, slotsOf_unique ih K K1 p p1 hrest (fun x hx => hr x (by simp [hx]))
      (fun x hx => hr1 x (by simp [hx]))]

/-- A page table represents at most one tree of a given height under a given root page. -/
theorem Rep.unique {pages : page_id_t → Option BPlusTreePage} :
    ∀ (h : Nat) (t t1 : Tree h) (p p1 : page_id_t), Rep pages h t p → Rep pages h t1 p1 →
      Tree.pid h t = Tree.pid h t1 → t = t1
  | 0, t, t1, p, p1, hr, hr1, hid => by
    simp only [Rep] at hr hr1
    have hid1 : ALeaf.id t = ALeaf.id t1 := hid
    rw [hid1, hr1] at hr
    simp only [Option.some.injEq, BPlusTreePage.leaf.injEq, LeafPage.mk.injEq] at hr
    obtain ⟨-, h1, h2, h3⟩ := hr
    cases t
    cases t1
    simp only at hid1 h1 h2 h3
    subst hid1 h1 h2 h3
    rfl
  | h + 1, t, t1, p, p1, hr, hr1, hid => by
    simp only [Rep] at hr hr1
    have hid1 : ANode.id t = ANode.id t1 := hid
    obtain ⟨hp, hk⟩ := hr
    obtain ⟨hp1, hk1⟩ := hr1
    rw [hid1, hp1] at hp
    simp only [Option.some.injEq, BPlusTreePage.internal.injEq, InternalPage.mk.injEq] at hp
    obtain ⟨-, h1, h2⟩ := hp
    have h3 := slotsOf_unique (Rep.unique h) (ANode.kids t) (ANode.kids t1) _ _ h2.symm hk hk1
    cases t
    cases t1
    simp only at hid1 h1 h3
    subst hid1 h1 h3
    rfl

theorem Tree.Wide.kidsWide : ∀ {h : Nat} {t : Tree h}, Tree.Wide h t → Tree.KidsWide h t
  | 0, _, _ => trivial
  | _ + 1, _, hw => ⟨hw.1, hw.2.2⟩

theorem rekey_length {α : Type} (k : KeyType) :
    ∀ K : List (KeyType × α), (rekey k K).length = K.length
  | [] => rfl
  | _ :: _ => rfl

theorem rekey_snd {α : Type} (k : KeyType) {K : List (KeyType × α)} {e : KeyType × α}
    (he : e ∈ rekey k K) : ∃ e0 ∈ K, e.2 = e0.2 := by
  cases K with
  | nil => exact absurd he (List.not_mem_nil _)
  | cons a K =>
    simp only [rekey, List.mem_cons] at he
    rcases he with rfl | he
    · exact ⟨a, by simp, rfl⟩
    · exact ⟨e, by simp [he], rfl⟩

/-- Two nodes that the page table represents under one page id, with the same slots but for
two neighbouring ones, have the same two slots. -/
theorem Rep.unique_pair {pages : page_id_t → Option BPlusTreePage} {h : Nat} {id : page_id_t}
    {max : Nat} {parent : page_id_t} {X Y : List (KeyType × Tree h)} {ka kc : KeyType}
    {k1 k2 : KeyType} {A1 B1 A2 B2 : Tree h}
    (h1 : Rep pages (h + 1) (ANode.mk id max (X ++ (ka, A1) :: (k1, B1) :: Y)) parent)
    (h2 : Rep pages (h + 1) (ANode.mk id max (X ++ (kc, A2) :: (k2, B2) :: Y)) parent) :
    A1 = A2 ∧ k1 = k2 ∧ B1 = B2 := by
  have h3 := Rep.unique (h + 1) _ _ _ _ h1 h2 rfl
  have h4 : X ++ (ka, A1) :: (k1, B1) :: Y = X ++ (kc, A2) :: (k2, B2) :: Y :=
    congrArg ANode.kids h3
  have h5 := List.append_cancel_left h4
  simp only [List.cons.injEq, Prod.mk.injEq, and_true] at h5
  exact ⟨h5.1.2, h5.2.1, h5.2.2⟩

theorem Rep.unique_one {pages : page_id_t → Option BPlusTreePage} {h : Nat} {id : page_id_t}
    {max : Nat} {parent : page_id_t} {X Y : List (KeyType × Tree h)} {ka kc : KeyType}
    {A1 A2 : Tree h}
    (h1 : Rep pages (h + 1) (ANode.mk id max (X ++ (ka, A1) :: Y)) parent)
    (h2 : Rep pages (h + 1) (ANode.mk id max (X ++ (kc, A2) :: Y)) parent) :
    A1 = A2 := by
  have h3 := Rep.unique (h + 1) _ _ _ _ h1 h2 rfl
  have h4 : X ++ (ka, A1) :: Y = X ++ (kc, A2) :: Y := congrArg ANode.kids h3
  have h5 := List.append_cancel_left h4
  simp only [List.cons.injEq, Prod.mk.injEq, and_true] at h5
  exact h5.2

/-- The sizes after `Redistribute` for a node `B` with its left sibling `A`. -/
theorem Redistribute_left_wide {s s2 : State} :
    ∀ (h : Nat) {P : ANode (Tree h)} {parent : page_id_t} {X Y : List (KeyType × Tree h)}
      {ka kb : KeyType} {A B : Tree h}, P.kids = X ++ (ka, A) :: (kb, B) :: Y →
      Rep s.pages (h + 1) P parent → (Tree.ids (h + 1) P).Nodup → 1 ≤ Tree.size h A →
      Redistribute s (Tree.pid h A) (Tree.pid h B) (X.length + 1) = .ok s2 →
      ∃ (A1 B1 : Tree h) (k1 : KeyType),
        Rep s2.pages (h + 1) (ANode.mk P.id P.max_size (X ++ (ka, A1) :: (k1, B1) :: Y))
          parent ∧
        Tree.size h A1 + 1 = Tree.size h A ∧ Tree.size h B1 = Tree.size h B + 1 ∧
        (Tree.KidsWide h A → Tree.KidsWide h B → Tree.KidsWide h A1 ∧ Tree.KidsWide h B1) ∧
        ∀ lm, Tree.All (LeafCap lm) h A → Tree.All (LeafCap lm) h B →
          (h = 0 → Tree.size h B + 1 ≤ lm) →
          Tree.All (LeafCap lm) h A1 ∧ Tree.All (LeafCap lm) h B1
  | 0, P, parent, X, Y, ka, kb, A, B, hk, hr, hnd, hsz, hred => by
    rcases List.eq_nil_or_concat (A : ALeaf).arr with hnil | ⟨init, e, hcat⟩
    · have : Tree.size 0 A = 0 := by rw [Tree.size_zero, hnil]; rfl
      omega
    rw [List.concat_eq_append] at hcat
    obtain ⟨s3, hred3, hrep⟩ := Redistribute_leaf_left_ok hk hr hnd hcat
    obtain rfl : s3 = s2 := Except.ok.inj (hred3.symm.trans hred)
    refine ⟨_, _, e.1, hrep, ?_, ?_, fun _ _ => ⟨trivial, trivial⟩, fun lm hA hB hroom => ?_⟩
    · show init.length + 1 = (A : ALeaf).arr.length
      rw [hcat]; simp
    · show (e :: (B : ALeaf).arr).length = (B : ALeaf).arr.length + 1
      simp
    · have hA1 : (A : ALeaf).max_size = lm ∧ (A : ALeaf).arr.length ≤ lm := hA
      have hB1 : (B : ALeaf).max_size = lm ∧ (B : ALeaf).arr.length ≤ lm := hB
      have hroom1 : (B : ALeaf).arr.length + 1 ≤ lm := hroom rfl
      have hlen : (A : ALeaf).arr.length = init.length + 1 := by rw [hcat]; simp
      refine ⟨?_, ?_⟩
      · show (A : ALeaf).max_size = lm ∧ init.length ≤ lm
        exact ⟨hA1.1, by omega⟩
      · show (B : ALeaf).max_size = lm ∧ (e :: (B : ALeaf).arr).length ≤ lm
        exact ⟨hB1.1, by simpa using hroom1⟩
  | h + 1, P, parent, X, Y, ka, kb, A, B, hk, hr, hnd, hsz, hred => by
    obtain ⟨init, e, hcat, hrep, -⟩ := Redistribute_node_left hk hr hnd hred
    refine ⟨_, _, e.1, hrep, ?_, ?_,
      fun hA hB => ⟨⟨hA.1, fun c hc => ?_⟩, ⟨hB.1, fun c hc => ?_⟩⟩,
      fun lm hA hB _ => ⟨fun c hc => ?_, fun c hc => ?_⟩⟩
    · rw [Tree.size_succ, Tree.size_succ, hcat]; simp
    · rw [Tree.size_succ, Tree.size_succ]; simp [rekey_length]
    · exact hA.2 c (by rw [hcat]; exact List.mem_append_left _ hc)
    · rcases List.mem_cons.1 hc with rfl | hc1
      · exact hA.2 c (by rw [hcat]; simp)
      · obtain ⟨c0, hc0, heq⟩ := rekey_snd kb hc1
        rw [heq]
        exact hB.2 c0 hc0
    · exact hA c (by rw [hcat]; exact List.mem_append_left _ hc)
    · rcases List.mem_cons.1 hc with rfl | hc1
      · exact hA c (by rw [hcat]; simp)
      · obtain ⟨c0, hc0, heq⟩ := rekey_snd kb hc1
        rw [heq]
        exact hB c0 hc0

/-- The sizes after `Redistribute` for the first child `A` with its right sibling `B`. -/
theorem Redistribute_right_wide {s s2 : State} :
    ∀ (h : Nat) {P : ANode (Tree h)} {parent : page_id_t} {Y : List (KeyType × Tree h)}
      {ka kb : KeyType} {A B : Tree h}, P.kids = (ka, A) :: (kb, B) :: Y →
      Rep s.pages (h + 1) P parent → (Tree.ids (h + 1) P).Nodup → 2 ≤ Tree.size h B →
      Redistribute s (Tree.pid h B) (Tree.pid h A) 0 = .ok s2 →
      ∃ (A1 B1 : Tree h) (k1 : KeyType),
        Rep s2.pages (h + 1) (ANode.mk P.id P.max_size ((ka, A1) :: (k1, B1) :: Y)) parent ∧
        Tree.size h A1 = Tree.size h A + 1 ∧ Tree.size h B1 + 1 = Tree.size h B ∧
        (Tree.KidsWide h A → Tree.KidsWide h B → Tree.KidsWide h A1 ∧ Tree.KidsWide h B1) ∧
        ∀ lm, Tree.All (LeafCap lm) h A → Tree.All (LeafCap lm) h B →
          (h = 0 → Tree.size h A + 1 ≤ lm) →
          Tree.All (LeafCap lm) h A1 ∧ Tree.All (LeafCap lm) h B1
  | 0, P, parent, Y, ka, kb, A, B, hk, hr, hnd, hsz, hred => by
    have hlen : 2 ≤ (B : ALeaf).arr.length := by
      rw [← Tree.size_zero]; exact hsz
    obtain ⟨e, e2, rest, hB0⟩ : ∃ e e2 rest, (B : ALeaf).arr = e :: e2 :: rest := by
      match hB : (B : ALeaf).arr, hlen with
      | [], hl => simp [hB] at hl
      | [_], hl => simp [hB] at hl
      | e :: e2 :: rest, _ => exact ⟨e, e2, rest, rfl⟩
    obtain ⟨s3, hred3, hrep⟩ := Redistribute_leaf_right_ok hk hr hnd hB0
    obtain rfl : s3 = s2 := Except.ok.inj (hred3.symm.trans hred)
    refine ⟨_, _, e2.1, hrep, ?_, ?_, fun _ _ => ⟨trivial, trivial⟩, fun lm hA hB hroom => ?_⟩
    · show ((A : ALeaf).arr ++ [e]).length = (A : ALeaf).arr.length + 1
      simp
    · show (e2 :: rest).length + 1 = (B : ALeaf).arr.length
      rw [hB0]; simp
    · have hA1 : (A : ALeaf).max_size = lm ∧ (A : ALeaf).arr.length ≤ lm := hA
      have hB1 : (B : ALeaf).max_size = lm ∧ (B : ALeaf).arr.length ≤ lm := hB
      have hroom1 : (A : ALeaf).arr.length + 1 ≤ lm := hroom rfl
      have hlenB : (B : ALeaf).arr.length = rest.length + 2 := by rw [hB0]; simp
      refine ⟨?_, ?_⟩
      · show (A : ALeaf).max_size = lm ∧ ((A : ALeaf).arr ++ [e]).length ≤ lm
        exact ⟨hA1.1, by simpa using hroom1⟩
      · show (B : ALeaf).max_size = lm ∧ (e2 :: rest).length ≤ lm
        exact ⟨hB1.1, by simp only [List.length_cons]; omega⟩
  | h + 1, P, parent, Y, ka, kb, A, B, hk, hr, hnd, hsz, hred => by
    obtain ⟨e, e2, rest, hB0, hrep, -⟩ := Redistribute_node_right hk hr hnd hred
    refine ⟨_, _, e2.1, hrep, ?_, ?_,
      fun hA hB => ⟨⟨hA.1, fun c hc => ?_⟩, ⟨hB.1, fun c hc => ?_⟩⟩,
      fun lm hA hB _ => ⟨fun c hc => ?_, fun c hc => ?_⟩⟩
    · rw [Tree.size_succ, Tree.size_succ]; simp
    · rw [Tree.size_succ, Tree.size_succ, hB0]; simp
    · rcases List.mem_append.1 hc with hc1 | hc1
      · exact hA.2 c hc1
      · simp only [List.mem_singleton] at hc1
        subst hc1
        exact hB.2 e (by rw [hB0]; simp)
    · exact hB.2 c (by rw [hB0]; exact List.mem_cons_of_mem _ hc)
    · rcases List.mem_append.1 hc with hc1 | hc1
      · exact hA c hc1
      · simp only [List.mem_singleton] at hc1
        subst hc1
        exact hB e (by rw [hB0]; simp)
    · exact hB c (by rw [hB0]; exact List.mem_cons_of_mem _ hc)

/-- `Redistribute` for a node `B` with its left sibling `A` of at least two slots, at any
height: the call returns, and the node `P` keeps its order, its pairs and its page ids. -/
theorem Redistribute_left_full {s : State} (h : Nat) {P : ANode (Tree h)} {parent : page_id_t}
    {X Y : List (KeyType × Tree h)} {ka kb : KeyType} {A B : Tree h} {lo hi : Option KeyType}
    (hk : P.kids = X ++ (ka, A) :: (kb, B) :: Y) (hr : Rep s.pages (h + 1) P parent)
    (hnd : (Tree.ids (h + 1) P).Nodup) (hok : Tree.Ok (h + 1) P)
    (ho : Tree.Ord (h + 1) P lo hi) (hsz : 2 ≤ Tree.size h A) :
    ∃ (s2 : State) (A1 B1 : Tree h) (k1 : KeyType),
      Redistribute s (Tree.pid h A) (Tree.pid h B) (X.length + 1) = .ok s2 ∧
      Rep s2.pages (h + 1) (ANode.mk P.id P.max_size (X ++ (ka, A1) :: (k1, B1) :: Y)) parent ∧
      (Tree.ids h A1 ++ Tree.ids h B1).Perm (Tree.ids h A ++ Tree.ids h B) ∧
      Tree.Ok h A1 ∧ Tree.Ok h B1 ∧
      (∀ x, x ∉ Tree.ids (h + 1) P → s2.pages x = s.pages x) ∧ s2.txn = s.txn ∧ Fixed s s2 ∧
      Tree.Ord (h + 1) (ANode.mk P.id P.max_size (X ++ (ka, A1) :: (k1, B1) :: Y)) lo hi ∧
      Tree.entries (h + 1) (ANode.mk P.id P.max_size (X ++ (ka, A1) :: (k1, B1) :: Y)) =
        Tree.entries (h + 1) P ∧
      Tree.size h A1 + 1 = Tree.size h A ∧ Tree.size h B1 = Tree.size h B + 1 ∧
      (Tree.KidsWide h A → Tree.KidsWide h B → Tree.KidsWide h A1 ∧ Tree.KidsWide h B1) ∧
      ∀ lm, Tree.All (LeafCap lm) h A → Tree.All (LeafCap lm) h B →
        (h = 0 → Tree.size h B + 1 ≤ lm) →
        Tree.All (LeafCap lm) h A1 ∧ Tree.All (LeafCap lm) h B1 := by
  obtain ⟨s2, A1, B1, e, hred, -, -, -, -, -, hrep, hord, -, -, hent⟩ :=
    Redistribute_left_sep h hk hr hnd hok ho hsz
  obtain ⟨A2, B2, k2, hrep2, hperm, hok2, hframe, htxn, hfix⟩ :=
    Redistribute_left_any h hk hr hnd hred
  obtain ⟨A3, B3, k3, hrep3, hs1, hs2, hwide, hcap⟩ :=
    Redistribute_left_wide h hk hr hnd (by omega) hred
  obtain ⟨rfl, rfl, rfl⟩ := Rep.unique_pair hrep2 hrep
  obtain ⟨rfl, rfl, rfl⟩ := Rep.unique_pair hrep3 hrep
  have hA : Tree.Ok h A := (Tree.ok_kids hok).2 (ka, A) (by rw [hk]; simp)
  have hB : Tree.Ok h B := (Tree.ok_kids hok).2 (kb, B) (by rw [hk]; simp)
  obtain ⟨ho1, ho2⟩ := hok2 (by omega) hA hB
  exact ⟨s2, _, _, _, hred, hrep, hperm, ho1, ho2, hframe, htxn, hfix, hord, hent, hs1, hs2,
    hwide, hcap⟩

/-- `Redistribute` for the first child `A` with its right sibling `B` of at least two
slots, at any height: the call returns, and the node `P` keeps its order, its pairs and its
page ids. -/
theorem Redistribute_right_full {s : State} (h : Nat) {P : ANode (Tree h)}
    {parent : page_id_t} {Y : List (KeyType × Tree h)} {ka kb : KeyType} {A B : Tree h}
    {lo hi : Option KeyType}
    (hk : P.kids = (ka, A) :: (kb, B) :: Y) (hr : Rep s.pages (h + 1) P parent)
    (hnd : (Tree.ids (h + 1) P).Nodup) (hok : Tree.Ok (h + 1) P)
    (ho : Tree.Ord (h + 1) P lo hi) (hsz : 2 ≤ Tree.size h B) :
    ∃ (s2 : State) (A1 B1 : Tree h) (k1 : KeyType),
      Redistribute s (Tree.pid h B) (Tree.pid h A) 0 = .ok s2 ∧
      Rep s2.pages (h + 1) (ANode.mk P.id P.max_size ((ka, A1) :: (k1, B1) :: Y)) parent ∧
      (Tree.ids h A1 ++ Tree.ids h B1).Perm (Tree.ids h A ++ Tree.ids h B) ∧
      Tree.Ok h A1 ∧ Tree.Ok h B1 ∧
      (∀ x, x ∉ Tree.ids (h + 1) P → s2.pages x = s.pages x) ∧ s2.txn = s.txn ∧ Fixed s s2 ∧
      Tree.Ord (h + 1) (ANode.mk P.id P.max_size ((ka, A1) :: (k1, B1) :: Y)) lo hi ∧
      Tree.entries (h + 1) (ANode.mk P.id P.max_size ((ka, A1) :: (k1, B1) :: Y)) =
        Tree.entries (h + 1) P ∧
      Tree.size h A1 = Tree.size h A + 1 ∧ Tree.size h B1 + 1 = Tree.size h B ∧
      (Tree.KidsWide h A → Tree.KidsWide h B → Tree.KidsWide h A1 ∧ Tree.KidsWide h B1) ∧
      ∀ lm, Tree.All (LeafCap lm) h A → Tree.All (LeafCap lm) h B →
        (h = 0 → Tree.size h A + 1 ≤ lm) →
        Tree.All (LeafCap lm) h A1 ∧ Tree.All (LeafCap lm) h B1 := by
  obtain ⟨s2, A1, B1, e, e2, hred, -, -, -, -, -, -, hrep, hord, -, -, hent⟩ :=
    Redistribute_right_sep h hk hr hnd hok ho hsz
  obtain ⟨A2, B2, k2, hrep2, hperm, hok2, hframe, htxn, hfix⟩ :=
    Redistribute_right_any h hk hr hnd hred
  obtain ⟨A3, B3, k3, hrep3, hs1, hs2, hwide, hcap⟩ :=
    Redistribute_right_wide h hk hr hnd hsz hred
  have hrepX : Rep s2.pages (h + 1)
      (ANode.mk P.id P.max_size ([] ++ (ka, A1) :: (e2.1, B1) :: Y)) parent := hrep
  have hrep2X : Rep s2.pages (h + 1)
      (ANode.mk P.id P.max_size ([] ++ (ka, A2) :: (k2, B2) :: Y)) parent := hrep2
  have hrep3X : Rep s2.pages (h + 1)
      (ANode.mk P.id P.max_size ([] ++ (ka, A3) :: (k3, B3) :: Y)) parent := hrep3
  obtain ⟨rfl, rfl, rfl⟩ := Rep.unique_pair hrep2X hrepX
  obtain ⟨rfl, rfl, rfl⟩ := Rep.unique_pair hrep3X hrepX
  have hA : Tree.Ok h A := (Tree.ok_kids hok).2 (ka, A) (by rw [hk]; simp)
  have hB : Tree.Ok h B := (Tree.ok_kids hok).2 (kb, B) (by rw [hk]; simp)
  obtain ⟨ho1, ho2⟩ := hok2 hA hB
  exact ⟨s2, _, _, _, hred, hrep, hperm, ho1, ho2, hframe, htxn, hfix, hord, hent, hs1, hs2,
    hwide, hcap⟩

/-- `Coalesce` of two neighbouring children `A`, `B` of the node `P`, at any height: the
survivor holds the slots of both, and the node `P` keeps its order and its pairs. -/
theorem Coalesce_full (recurse : State → page_id_t → Except Fault (Bool × State))
    {s : State} :
    ∀ (h : Nat) {P : ANode (Tree h)} {parent : page_id_t} {X Y : List (KeyType × Tree h)}
      {ka kb : KeyType} {A B : Tree h},
      P.kids = X ++ (ka, A) :: (kb, B) :: Y →
      Rep s.pages (h + 1) P parent → (Tree.ids (h + 1) P).Nodup →
      ∀ {neighbor_node node : page_id_t} {index : Nat},
      ((neighbor_node = Tree.pid h A ∧ node = Tree.pid h B ∧ index = X.length + 1) ∨
        (neighbor_node = Tree.pid h B ∧ node = Tree.pid h A ∧ index = 0 ∧ X = [])) →
      ∃ (A1 : Tree h) (s3 : State), Coalesce recurse true s neighbor_node node index =
          (if (X ++ (ka, A1) :: Y).length < (P.max_size + 1) / 2 then
            recurse s3 P.id else .ok (false, s3)) ∧
        Rep s3.pages (h + 1) (ANode.mk P.id P.max_size (X ++ (ka, A1) :: Y)) parent ∧
        Tree.pid h A1 = Tree.pid h A ∧ (Tree.ids h A1).Nodup ∧
        (∀ x ∈ Tree.ids h A1, x ∈ Tree.ids h A ∨ x ∈ Tree.ids h B) ∧
        Tree.pid h B ∉ Tree.ids h A1 ∧ (Tree.Ok h A → Tree.Ok h B → Tree.Ok h A1) ∧
        (∀ x, x ∉ Tree.ids (h + 1) P → s3.pages x = s.pages x) ∧
        s3.txn.page_set = s.txn.page_set ∧
        s3.txn.deleted_page_set = Tree.pid h B :: s.txn.deleted_page_set ∧ Fixed s s3 ∧
        (∀ lo hi, Tree.Ok (h + 1) P → Tree.Ord (h + 1) P lo hi →
          Tree.Ord (h + 1) (ANode.mk P.id P.max_size (X ++ (ka, A1) :: Y)) lo hi) ∧
        Tree.entries (h + 1) (ANode.mk P.id P.max_size (X ++ (ka, A1) :: Y)) =
          Tree.entries (h + 1) P ∧
        Tree.size h A1 = Tree.size h A + Tree.size h B ∧
        (Tree.KidsWide h A → Tree.KidsWide h B → Tree.KidsWide h A1) ∧
        ∀ lm, Tree.All (LeafCap lm) h A → Tree.All (LeafCap lm) h B →
          (h = 0 → Tree.size h A + Tree.size h B ≤ lm) → Tree.All (LeafCap lm) h A1
  | 0, P, parent, X, Y, ka, kb, A, B, hk, hr, hnd, neighbor_node, node, index, hargs => by
    have hargs1 : (neighbor_node = ALeaf.id A ∧ node = ALeaf.id B ∧ index = X.length + 1) ∨
        (neighbor_node = ALeaf.id B ∧ node = ALeaf.id A ∧ index = 0) := by
      rcases hargs with h1 | ⟨h1, h2, h3, -⟩
      · exact Or.inl h1
      · exact Or.inr ⟨h1, h2, h3⟩
    obtain ⟨s3, h1, h2, h3, h4, h5, h6⟩ := Coalesce_leaf recurse hk hr hnd hargs1
    obtain ⟨-, -, -, hAB, -, -⟩ := pair_leaf_facts hk hr hnd
    have hord : ∀ lo hi, Tree.Ok 1 P → Tree.Ord 1 P lo hi → _ := fun lo hi _ ho =>
      @Tree.Ord.merge_pair 0 P X Y ka kb A B
        (ALeaf.mk (A : ALeaf).id (A : ALeaf).max_size (B : ALeaf).next
          ((A : ALeaf).arr ++ (B : ALeaf).arr)) lo hi hk ho
        fun _ _ a1 a2 => leaf_merge_ord a1 a2
    refine ⟨_, s3, ?_, h2, rfl, ?_, ?_, ?_, fun _ _ => trivial, h3, h4, h5, h6, hord, ?_, ?_,
      fun _ _ => trivial, fun lm hA _ hroom => ?_⟩
    · simpa using h1
    · simp [Tree.ids_zero]
    · intro x hx
      simp only [Tree.ids_zero, List.mem_singleton] at hx ⊢
      exact Or.inl hx
    · simp only [Tree.ids_zero, List.mem_singleton, Tree.pid_zero]
      exact Ne.symm hAB
    · rw [Tree.entries_succ, Tree.entries_succ, hk]
      simp [Tree.entries_zero]
    · show ((A : ALeaf).arr ++ (B : ALeaf).arr).length =
        (A : ALeaf).arr.length + (B : ALeaf).arr.length
      simp
    · have hA1 : (A : ALeaf).max_size = lm ∧ (A : ALeaf).arr.length ≤ lm := hA
      have hroom1 : (A : ALeaf).arr.length + (B : ALeaf).arr.length ≤ lm := hroom rfl
      show (A : ALeaf).max_size = lm ∧ ((A : ALeaf).arr ++ (B : ALeaf).arr).length ≤ lm
      exact ⟨hA1.1, by simpa using hroom1⟩
  | h + 1, P, parent, X, Y, ka, kb, A, B, hk, hr, hnd, neighbor_node, node, index, hargs => by
    obtain ⟨s3, h1, h2, h3, h4, h5, h6⟩ := Coalesce_node recurse hk hr hnd hargs
    obtain ⟨-, -, -, -, -, hAB, -, -, hnA, hnB, hndA, hndB⟩ := pair_node_facts hk hr hnd
    have hord : ∀ lo hi, Tree.Ok (h + 2) P → Tree.Ord (h + 2) P lo hi → _ :=
      fun lo hi hok ho =>
        @Tree.Ord.merge_pair (h + 1) P X Y ka kb A B
          (ANode.mk (A : ANode (Tree h)).id (A : ANode (Tree h)).max_size
            ((A : ANode (Tree h)).kids ++ rekey kb (B : ANode (Tree h)).kids)) lo hi hk ho
          fun _ _ a1 a2 => node_merge_ord
            (Tree.ok_kids ((Tree.ok_kids hok).2 (ka, A) (by rw [hk]; simp))).1
            (Tree.ok_kids ((Tree.ok_kids hok).2 (kb, B) (by rw [hk]; simp))).1 a1 a2
    refine ⟨_, s3, ?_, h2, rfl, ?_, ?_, ?_, ?_, h3, h4, h5, h6, hord, ?_, ?_, ?_,
      fun lm hA hB _ c hc => ?_⟩
    · simpa using h1
    · rw [Tree.ids_succ, List.nodup_cons]
      simp only [kidsIds_append, kidsIds_rekey, List.mem_append, not_or, List.nodup_append,
        List.disjoint_left]
      exact ⟨⟨fun hx => (hnA _ hx).1 rfl, fun hx => (hnB _ hx).1 rfl⟩, hndA, hndB,
        fun x hx => (hnA x hx).2.2.2⟩
    · intro x hx
      rw [Tree.ids_succ] at hx
      simp only [kidsIds_append, kidsIds_rekey, List.mem_cons, List.mem_append] at hx
      rw [Tree.ids_succ, Tree.ids_succ]
      simp only [List.mem_cons]
      tauto
    · rw [Tree.ids_succ]
      simp only [kidsIds_append, kidsIds_rekey, List.mem_cons, List.mem_append, not_or,
        Tree.pid_succ]
      exact ⟨Ne.symm hAB, fun hx => (hnA _ hx).2.1 rfl, fun hx => (hnB _ hx).2.1 rfl⟩
    · intro hoA hoB
      refine ⟨?_, fun e he => ?_⟩
      · intro hnil
        exact hoA.1 (List.append_eq_nil.1 hnil).1
      · rcases List.mem_append.1 he with h7 | h7
        · exact hoA.2 e h7
        · obtain ⟨e0, he0, heq⟩ := mem_rekey h7
          rw [heq]
          exact hoB.2 e0 he0
    · rw [Tree.entries_succ, Tree.entries_succ, hk]
      simp [Tree.entries_succ, kidsEntries_rekey]
    · rw [Tree.size_succ, Tree.size_succ, Tree.size_succ]
      simp [rekey_length]
    · intro hA hB
      refine ⟨hA.1, fun c hc => ?_⟩
      rcases List.mem_append.1 hc with hc1 | hc1
      · exact hA.2 c hc1
      · obtain ⟨c0, hc0, heq⟩ := rekey_snd kb hc1
        rw [heq]
        exact hB.2 c0 hc0
    · rcases List.mem_append.1 hc with hc1 | hc1
      · exact hA c hc1
      · obtain ⟨c0, hc0, heq⟩ := rekey_snd kb hc1
        rw [heq]
        exact hB c0 hc0

theorem Tree.wide_of : ∀ {h : Nat} {t : Tree h}, Tree.KidsWide h t →
    (h ≠ 0 → 2 ≤ Tree.size h t) → Tree.Wide h t
  | 0, _, _, _ => trivial
  | h + 1, t, hw, hs => ⟨hw.1, by rw [← Tree.size_succ]; exact hs (Nat.succ_ne_zero h), hw.2⟩

theorem Tree.Ok.size_pos : ∀ {h : Nat} {t : Tree h}, Tree.Ok h t → h ≠ 0 → 1 ≤ Tree.size h t
  | 0, _, _, hne => absurd rfl hne
  | h + 1, t, hok, _ => by
    rw [Tree.size_succ]
    exact List.length_pos.2 hok.1

theorem Tree.KidsWide.max_ge : ∀ {h : Nat} {t : Tree h}, Tree.KidsWide h t → h ≠ 0 →
    4 ≤ Tree.maxSize h t
  | 0, _, _, hne => absurd rfl hne
  | _ + 1, _, hw, _ => hw.1

theorem Tree.Wide.size_ge : ∀ {h : Nat} {t : Tree h}, Tree.Wide h t → h ≠ 0 →
    2 ≤ Tree.size h t
  | 0, _, _, hne => absurd rfl hne
  | h + 1, t, hw, _ => by
    rw [Tree.size_succ]
    exact hw.2.1

/-- A leaf that has underflowed has room for one more pair. -/
theorem Tree.All.room {h : Nat} {t : Tree h} {lm : Nat} (hq : Tree.All (LeafCap lm) h t)
    (hsmall : Tree.size h t < Tree.minSize h t) : h = 0 → Tree.size h t + 1 ≤ lm := by
  intro h0
  subst h0
  have h1 := Tree.minSize_le 0 t
  have h2 : Tree.maxSize 0 t = lm := hq.1
  omega

theorem Tree.All.max {h : Nat} {t : Tree h} {lm : Nat} (hq : Tree.All (LeafCap lm) h t) :
    h = 0 → Tree.maxSize h t = lm := by
  intro h0
  subst h0
  exact hq.1

/-- The rest of `Remove` after a `CoalesceOrRedistribute` that has redistributed. -/
theorem remCont_redistributed {fuel fuel1 : Nat} {node parent : page_id_t} {s s2 : State}
    {b : Bool} (hcr : CoalesceOrRedistribute true fuel s node = .ok (b, s2)) :
    remCont fuel true node s = remCont fuel1 false parent s2 := by
  simp [remCont, hcr]

/-- The rest of `Remove` after a `CoalesceOrRedistribute` that has merged two nodes. -/
theorem remCont_coalesced {fuel : Nat} {node parent : page_id_t} {s s3 : State} {c : Prop}
    [Decidable c] {b : Bool}
    (hcr : CoalesceOrRedistribute true (fuel + 1) s node =
      ((if c then CoalesceOrRedistribute true fuel s3 parent else .ok (false, s3)) >>=
        fun r => pure (b, r.2))) :
    remCont (fuel + 1) true node s = remCont fuel (decide c) parent s3 := by
  by_cases hc : c
  · simp only [remCont, if_true, hcr, if_pos hc, decide_eq_true hc]
    cases CoalesceOrRedistribute true fuel s3 parent with
    | error e => rfl
    | ok r => rfl
  · simp only [remCont, if_true, hcr, if_neg hc, decide_eq_false hc, ok_bind, pure_eq_ok,
      Bool.false_eq_true, if_false]

/-- One step of the cascade for the first child of a node `P` that has a second child: the
step completes. -/
theorem cascade_fwd_first {s : State} {h : Nat} {P : ANode (Tree h)} {parent : page_id_t}
    {b : KeyType × Tree h} {Y : List (KeyType × Tree h)} {cur : KeyType × Tree h}
    {lo hi : Option KeyType} (fuel : Nat)
    (hk : P.kids = cur :: b :: Y) (hr : Rep s.pages (h + 1) P parent)
    (hnd : (Tree.ids (h + 1) P).Nodup) (hPid : P.id ≠ INVALID_PAGE_ID)
    (hok : Tree.Ok (h + 1) P) (hsmall : Tree.size h cur.2 < Tree.minSize h cur.2)
    (ho : Tree.Ord (h + 1) P lo hi) :
    ∃ (P1 : ANode (Tree h)) (s2 : State) (under1 : Bool) (sib : page_id_t),
      remCont (fuel + 1) true (Tree.pid h cur.2) s = remCont fuel under1 P.id s2 ∧
      StepPost s s2 h P P1 parent (Tree.pid h cur.2) sib under1 ∧
      Tree.Ord (h + 1) P1 lo hi ∧ Tree.entries (h + 1) P1 = Tree.entries (h + 1) P ∧
      (4 ≤ P.max_size → (∀ e ∈ b :: Y, Tree.Wide h e.2) → Tree.KidsWide h cur.2 →
        Tree.KidsWide (h + 1) P1 ∧ (under1 = false → 2 ≤ P1.kids.length)) ∧
      ∀ lm, Tree.All (LeafCap lm) (h + 1) P → Tree.All (LeafCap lm) (h + 1) P1 := by
  have hk0 : P.kids = [] ++ cur :: (b :: Y) := hk
  have hcr := CoalesceOrRedistribute_child hk0 hr hnd hPid fuel
  simp only [List.length_nil, if_true, Nat.zero_add] at hcr
  have hr1 := hr
  simp only [Rep] at hr1
  have hb : b ∈ P.kids := by rw [hk]; simp
  have hcur : cur ∈ P.kids := by rw [hk]; simp
  have hpb := Rep.page_eq h b.2 _ (hr1.2 b hb)
  have hval : InternalPage.ValueAt
      { parent_page_id := parent, max_size := P.max_size, array := slotsOf h P.kids } 1 =
      .ok (Tree.pid h b.2) := by
    simp [InternalPage.ValueAt, hk, slotsOf_cons]
  rw [hval] at hcr
  simp only [ok_bind, FetchPage_ok hpb, page_size] at hcr
  have hrs : Rep (AddIntoPageSet s (.frame (Tree.pid h b.2))).pages (h + 1) P parent := hr
  have hkc : P.kids = (cur.1, cur.2) :: (b.1, b.2) :: Y := hk
  have hmin := Tree.minSize_le h cur.2
  have hokc : Tree.Ok h cur.2 := hok.2 cur hcur
  have hokb : Tree.Ok h b.2 := hok.2 b hb
  by_cases hg : Tree.size h b.2 + Tree.size h cur.2 > Tree.maxSize h cur.2
  · rw [if_pos hg] at hcr
    have hsz : 2 ≤ Tree.size h b.2 := by omega
    obtain ⟨s2, A1, B1, k1, hred, hrep, hperm, hoA, hoB, hframe, htxn, hfix, hord, hent, hs1,
      hs2, hwide, hcap⟩ := Redistribute_right_full h hkc hrs hnd hok ho hsz
    rw [hred] at hcr
    simp only [ok_bind, pure_eq_ok] at hcr
    obtain ⟨hn1, hn2⟩ := @ids_surgery_perm h P [] Y [(cur.1, cur.2), (b.1, b.2)]
      [(cur.1, A1), (k1, B1)] ((cur.1, A1) :: (k1, B1) :: Y) (by simp [hk]) (by simp)
      (by simpa using hperm) hnd
    refine ⟨ANode.mk P.id P.max_size ((cur.1, A1) :: (k1, B1) :: Y), s2, false,
      Tree.pid h b.2, remCont_redistributed hcr, ⟨hrep, rfl, rfl, hn1, hn2, ?_, hframe,
      ⟨hfix.root, hfix.header, hfix.next, hfix.lmax, hfix.imax⟩, ?_, Or.inl ?_,
      fun hf => by cases hf⟩, hord, hent,
      fun hmax hw hwc => ⟨⟨hmax, fun e he => ?_⟩, fun _ => by simp⟩, fun lm hP => ?_⟩
    · refine ⟨List.cons_ne_nil _ _, fun e he => ?_⟩
      simp only [List.mem_cons] at he
      rcases he with rfl | rfl | he
      · exact hoA
      · exact hoB
      · exact hok.2 e (by rw [hk]; simp [he])
    · rw [htxn]
      rfl
    · rw [htxn]
      rfl
    · have hwb : Tree.Wide h b.2 := hw b (by simp)
      obtain ⟨hkw1, hkw2⟩ := hwide hwc hwb.kidsWide
      simp only [List.mem_cons] at he
      rcases he with rfl | rfl | he
      · refine Tree.wide_of hkw1 fun hne => ?_
        have := Tree.Ok.size_pos hokc hne
        show 2 ≤ Tree.size h A1
        omega
      · refine Tree.wide_of hkw2 fun hne => ?_
        have := Tree.KidsWide.max_ge hwc hne
        show 2 ≤ Tree.size h B1
        omega
      · exact hw e (by simp [he])
    · have hPk : ∀ e ∈ P.kids, Tree.All (LeafCap lm) h e.2 := hP
      obtain ⟨hc1, hc2⟩ := hcap lm (hPk cur hcur) (hPk b hb)
        (Tree.All.room (hPk cur hcur) hsmall)
      intro e he
      simp only [List.mem_cons] at he
      rcases he with rfl | rfl | he
      · exact hc1
      · exact hc2
      · exact hPk e (by rw [hk]; simp [he])
  · rw [if_neg hg] at hcr
    obtain ⟨A1, s3, h1, h2, h3, h4, h5, h6, h7, h8, h9, h10, h11, h12, h13, h14, h15, h16⟩ :=
      Coalesce_full (CoalesceOrRedistribute true fuel) h hkc hrs hnd
        (Or.inr ⟨rfl, rfl, rfl, rfl⟩)
    obtain ⟨hn1, hn2, hn3⟩ := @ids_surgery_sub h P [] Y [(cur.1, cur.2), (b.1, b.2)]
      [(cur.1, A1)] ((cur.1, A1) :: Y) (by simp [hk]) (by simp) (by simpa using h4)
      (by
        intro x hx
        simp only [kidsIds_cons, kidsIds_nil, List.append_nil] at hx ⊢
        exact List.mem_append.2 (h5 x hx)) hnd
    have hd3 := hn3 (Tree.pid h b.2)
      (by simp [kidsIds_cons, Tree.pid_mem_ids])
      (by simpa [kidsIds_cons] using h6)
    rw [h1] at hcr
    simp only [List.nil_append] at hcr h2 h12 h13
    refine ⟨ANode.mk P.id P.max_size ((cur.1, A1) :: Y), s3,
      decide (((cur.1, A1) :: Y).length < (P.max_size + 1) / 2), Tree.pid h b.2,
      remCont_coalesced hcr, ⟨h2, rfl, rfl, hn1, hn2, ?_, h8,
      ⟨h11.root, h11.header, h11.next, h11.lmax, h11.imax⟩, ?_,
      Or.inr ⟨Tree.pid h b.2, ?_, ?_, hd3, Or.inr rfl⟩, fun hf => ⟨of_decide_eq_true hf, ?_⟩⟩,
      h12 lo hi hok ho, h13, fun hmax hw hwc => ⟨⟨hmax, fun e he => ?_⟩, fun hf => ?_⟩,
      fun lm hP => ?_⟩
    · refine ⟨List.cons_ne_nil _ _, fun e he => ?_⟩
      simp only [List.mem_cons] at he
      rcases he with rfl | he
      · exact h7 hokc hokb
      · exact hok.2 e (by rw [hk]; simp [he])
    · rw [h9]
      rfl
    · rw [h10]
      rfl
    · exact Tree.ids_kid_subset P hb (Tree.pid_mem_ids h b.2)
    · rw [hk]
      simp
    · have hwb : Tree.Wide h b.2 := hw b (by simp)
      have hkw := h15 hwc hwb.kidsWide
      simp only [List.mem_cons] at he
      rcases he with rfl | he
      · refine Tree.wide_of hkw fun hne => ?_
        have := Tree.Wide.size_ge hwb hne
        show 2 ≤ Tree.size h A1
        omega
      · exact hw e (by simp [he])
    · have := of_decide_eq_false hf
      simp only at this ⊢
      omega
    · have hPk : ∀ e ∈ P.kids, Tree.All (LeafCap lm) h e.2 := hP
      have hc1 := h16 lm (hPk cur hcur) (hPk b hb) (fun h0 => by
        have := Tree.All.max (hPk cur hcur) h0
        omega)
      intro e he
      simp only [List.mem_cons] at he
      rcases he with rfl | he
      · exact hc1
      · exact hPk e (by rw [hk]; simp [he])

/-- One step of the cascade for a child of the node `P` that has a left sibling: the step
completes. -/
theorem cascade_fwd_later {s : State} {h : Nat} {P : ANode (Tree h)} {parent : page_id_t}
    {X post : List (KeyType × Tree h)} {a cur : KeyType × Tree h}
    {lo hi : Option KeyType} (fuel : Nat)
    (hk : P.kids = (X ++ [a]) ++ cur :: post) (hr : Rep s.pages (h + 1) P parent)
    (hnd : (Tree.ids (h + 1) P).Nodup) (hPid : P.id ≠ INVALID_PAGE_ID)
    (hok : Tree.Ok (h + 1) P) (hsmall : Tree.size h cur.2 < Tree.minSize h cur.2)
    (ho : Tree.Ord (h + 1) P lo hi) :
    ∃ (P1 : ANode (Tree h)) (s2 : State) (under1 : Bool) (sib : page_id_t),
      remCont (fuel + 1) true (Tree.pid h cur.2) s = remCont fuel under1 P.id s2 ∧
      StepPost s s2 h P P1 parent (Tree.pid h cur.2) sib under1 ∧
      Tree.Ord (h + 1) P1 lo hi ∧ Tree.entries (h + 1) P1 = Tree.entries (h + 1) P ∧
      (4 ≤ P.max_size → (∀ e ∈ (X ++ [a]) ++ post, Tree.Wide h e.2) →
        Tree.KidsWide h cur.2 →
        Tree.KidsWide (h + 1) P1 ∧ (under1 = false → 2 ≤ P1.kids.length)) ∧
      ∀ lm, Tree.All (LeafCap lm) (h + 1) P → Tree.All (LeafCap lm) (h + 1) P1 := by
  have hcr := CoalesceOrRedistribute_child hk hr hnd hPid fuel
  have hlen : (X ++ [a]).length = X.length + 1 := by simp
  simp only [hlen, Nat.succ_ne_zero, if_false, Nat.add_sub_cancel] at hcr
  have hkc : P.kids = X ++ (a.1, a.2) :: (cur.1, cur.2) :: post := by
    rw [hk]
    simp
  have hr1 := hr
  simp only [Rep] at hr1
  have ha : a ∈ P.kids := by rw [hkc]; simp
  have hcur : cur ∈ P.kids := by rw [hkc]; simp
  have hpa := Rep.page_eq h a.2 _ (hr1.2 a ha)
  have hval : InternalPage.ValueAt
      { parent_page_id := parent, max_size := P.max_size, array := slotsOf h P.kids }
      X.length = .ok (Tree.pid h a.2) := by
    simp only [InternalPage.ValueAt]
    rw [hkc, get?_slots_at h (a.1, a.2) _ X]
  rw [hval] at hcr
  simp only [ok_bind, FetchPage_ok hpa, page_size] at hcr
  have hrs : Rep (AddIntoPageSet s (.frame (Tree.pid h a.2))).pages (h + 1) P parent := hr
  have hmin := Tree.minSize_le h cur.2
  have hokc : Tree.Ok h cur.2 := hok.2 cur hcur
  have hoka : Tree.Ok h a.2 := hok.2 a ha
  by_cases hg : Tree.size h a.2 + Tree.size h cur.2 > Tree.maxSize h cur.2
  · rw [if_pos hg] at hcr
    have hsz : 2 ≤ Tree.size h a.2 := by omega
    obtain ⟨s2, A1, B1, k1, hred, hrep, hperm, hoA, hoB, hframe, htxn, hfix, hord, hent, hs1,
      hs2, hwide, hcap⟩ := Redistribute_left_full h hkc hrs hnd hok ho hsz
    rw [hred] at hcr
    simp only [ok_bind, pure_eq_ok] at hcr
    obtain ⟨hn1, hn2⟩ := @ids_surgery_perm h P X post [(a.1, a.2), (cur.1, cur.2)]
      [(a.1, A1), (k1, B1)] (X ++ (a.1, A1) :: (k1, B1) :: post) (by simp [hkc]) (by simp)
      (by simpa using hperm) hnd
    refine ⟨ANode.mk P.id P.max_size (X ++ (a.1, A1) :: (k1, B1) :: post), s2, false,
      Tree.pid h a.2, remCont_redistributed hcr, ⟨hrep, rfl, rfl, hn1, hn2, ?_, hframe,
      ⟨hfix.root, hfix.header, hfix.next, hfix.lmax, hfix.imax⟩, ?_, Or.inl ?_,
      fun hf => by cases hf⟩, hord, hent,
      fun hmax hw hwc => ⟨⟨hmax, fun e he => ?_⟩, fun _ => by
        simp only [List.length_append, List.length_cons]
        omega⟩, fun lm hP => ?_⟩
    · refine ⟨by simp, fun e he => ?_⟩
      simp only [List.mem_append, List.mem_cons] at he
      rcases he with he | rfl | rfl | he
      · exact hok.2 e (by rw [hkc]; simp [he])
      · exact hoA
      · exact hoB
      · exact hok.2 e (by rw [hkc]; simp [he])
    · rw [htxn]
      rfl
    · rw [htxn]
      rfl
    · have hwa : Tree.Wide h a.2 := hw a (by simp)
      obtain ⟨hkw1, hkw2⟩ := hwide hwa.kidsWide hwc
      simp only [List.mem_append, List.mem_cons] at he
      rcases he with he | rfl | rfl | he
      · exact hw e (by simp [he])
      · refine Tree.wide_of hkw1 fun hne => ?_
        have := Tree.KidsWide.max_ge hwc hne
        show 2 ≤ Tree.size h A1
        omega
      · refine Tree.wide_of hkw2 fun hne => ?_
        have := Tree.Ok.size_pos hokc hne
        show 2 ≤ Tree.size h B1
        omega
      · exact hw e (by simp [he])
    · have hPk : ∀ e ∈ P.kids, Tree.All (LeafCap lm) h e.2 := hP
      obtain ⟨hc1, hc2⟩ := hcap lm (hPk a ha) (hPk cur hcur)
        (Tree.All.room (hPk cur hcur) hsmall)
      intro e he
      simp only [List.mem_append, List.mem_cons] at he
      rcases he with he | rfl | rfl | he
      · exact hPk e (by rw [hkc]; simp [he])
      · exact hc1
      · exact hc2
      · exact hPk e (by rw [hkc]; simp [he])
  · rw [if_neg hg] at hcr
    obtain ⟨A1, s3, h1, h2, h3, h4, h5, h6, h7, h8, h9, h10, h11, h12, h13, h14, h15, h16⟩ :=
      Coalesce_full (CoalesceOrRedistribute true fuel) h hkc hrs hnd
        (Or.inl ⟨rfl, rfl, rfl⟩)
    obtain ⟨hn1, hn2, hn3⟩ := @ids_surgery_sub h P X post [(a.1, a.2), (cur.1, cur.2)]
      [(a.1, A1)] (X ++ (a.1, A1) :: post) (by simp [hkc]) (by simp) (by simpa using h4)
      (by
        intro x hx
        simp only [kidsIds_cons, kidsIds_nil, List.append_nil] at hx ⊢
        exact List.mem_append.2 (h5 x hx)) hnd
    have hd3 := hn3 (Tree.pid h cur.2)
      (by simp [kidsIds_cons, Tree.pid_mem_ids])
      (by simpa [kidsIds_cons] using h6)
    rw [h1] at hcr
    refine ⟨ANode.mk P.id P.max_size (X ++ (a.1, A1) :: post), s3,
      decide ((X ++ (a.1, A1) :: post).length < (P.max_size + 1) / 2), Tree.pid h a.2,
      remCont_coalesced hcr, ⟨h2, rfl, rfl, hn1, hn2, ?_, h8,
      ⟨h11.root, h11.header, h11.next, h11.lmax, h11.imax⟩, ?_,
      Or.inr ⟨Tree.pid h cur.2, ?_, ?_, hd3, Or.inl rfl⟩,
      fun hf => ⟨of_decide_eq_true hf, ?_⟩⟩,
      h12 lo hi hok ho, h13, fun hmax hw hwc => ⟨⟨hmax, fun e he => ?_⟩, fun hf => ?_⟩,
      fun lm hP => ?_⟩
    · refine ⟨by simp, fun e he => ?_⟩
      simp only [List.mem_append, List.mem_cons] at he
      rcases he with he | rfl | he
      · exact hok.2 e (by rw [hkc]; simp [he])
      · exact h7 hoka hokc
      · exact hok.2 e (by rw [hkc]; simp [he])
    · rw [h9]
      rfl
    · rw [h10]
      rfl
    · exact Tree.ids_kid_subset P hcur (Tree.pid_mem_ids h cur.2)
    · rw [hkc]
      simp only [List.length_append, List.length_cons]
      omega
    · have hwa : Tree.Wide h a.2 := hw a (by simp)
      have hkw := h15 hwa.kidsWide hwc
      simp only [List.mem_append, List.mem_cons] at he
      rcases he with he | rfl | he
      · exact hw e (by simp [he])
      · refine Tree.wide_of hkw fun hne => ?_
        have := Tree.Wide.size_ge hwa hne
        show 2 ≤ Tree.size h A1
        omega
      · exact hw e (by simp [he])
    · have := of_decide_eq_false hf
      simp only at this ⊢
      omega
    · have hPk : ∀ e ∈ P.kids, Tree.All (LeafCap lm) h e.2 := hP
      have hc1 := h16 lm (hPk a ha) (hPk cur hcur) (fun h0 => by
        have := Tree.All.max (hPk cur hcur) h0
        omega)
      intro e he
      simp only [List.mem_append, List.mem_cons] at he
      rcases he with he | rfl | he
      · exact hPk e (by rw [hkc]; simp [he])
      · exact hc1
      · exact hPk e (by rw [hkc]; simp [he])

/-- One step of the cascade of `Remove`: when the node `P` has at least two children,
`CoalesceOrRedistribute` on the child `cur` that has underflowed completes: it leaves a
state that represents a node `P1` in the place of `P`, with the order and the pairs of `P`;
the children of `P1` are wide when `P` has a maximum size of at least 4 and the other
children of `P` are wide. -/
theorem cascade_fwd {s : State} {h : Nat} {P : ANode (Tree h)} {parent : page_id_t}
    {pre post : List (KeyType × Tree h)} {cur : KeyType × Tree h}
    {lo hi : Option KeyType} (fuel : Nat)
    (hk : P.kids = pre ++ cur :: post) (hr : Rep s.pages (h + 1) P parent)
    (hnd : (Tree.ids (h + 1) P).Nodup) (hPid : P.id ≠ INVALID_PAGE_ID)
    (hok : Tree.Ok (h + 1) P) (hsmall : Tree.size h cur.2 < Tree.minSize h cur.2)
    (ho : Tree.Ord (h + 1) P lo hi) (hlen : 2 ≤ P.kids.length) :
    ∃ (P1 : ANode (Tree h)) (s2 : State) (under1 : Bool) (sib : page_id_t),
      remCont (fuel + 1) true (Tree.pid h cur.2) s = remCont fuel under1 P.id s2 ∧
      StepPost s s2 h P P1 parent (Tree.pid h cur.2) sib under1 ∧
      Tree.Ord (h + 1) P1 lo hi ∧ Tree.entries (h + 1) P1 = Tree.entries (h + 1) P ∧
      (4 ≤ P.max_size → (∀ e ∈ pre ++ post, Tree.Wide h e.2) → Tree.KidsWide h cur.2 →
        Tree.KidsWide (h + 1) P1 ∧ (under1 = false → 2 ≤ P1.kids.length)) ∧
      ∀ lm, Tree.All (LeafCap lm) (h + 1) P → Tree.All (LeafCap lm) (h + 1) P1 := by
  rcases List.eq_nil_or_concat pre with rfl | ⟨X, a, rfl⟩
  · cases post with
    | nil =>
      rw [hk] at hlen
      simp at hlen
    | cons b Y => exact cascade_fwd_first fuel hk hr hnd hPid hok hsmall ho
  · rw [List.concat_eq_append] at hk
    simp only [List.concat_eq_append]
    exact cascade_fwd_later fuel hk hr hnd hPid hok hsmall ho

/-- One step of the cascade of `Remove` for the only child of a node `P`: the source reads
`ValueAt(1)` of the parent for the sibling (line 291), a slot past its size, and the model
stops there. -/
theorem cascade_stale {s : State} {h : Nat} {P : ANode (Tree h)} {parent : page_id_t}
    {cur : KeyType × Tree h} (fuel : Nat) (hk : P.kids = [cur])
    (hr : Rep s.pages (h + 1) P parent) (hnd : (Tree.ids (h + 1) P).Nodup)
    (hPid : P.id ≠ INVALID_PAGE_ID) :
    remCont (fuel + 1) true (Tree.pid h cur.2) s = .error .out_of_range := by
  have hk0 : P.kids = [] ++ cur :: [] := hk
  have hcr := CoalesceOrRedistribute_child hk0 hr hnd hPid fuel
  simp only [List.length_nil, if_true, Nat.zero_add] at hcr
  have hval : InternalPage.ValueAt
      { parent_page_id := parent, max_size := P.max_size, array := slotsOf h P.kids } 1 =
      .error .out_of_range := by
    simp [InternalPage.ValueAt, hk, slotsOf_cons]
  rw [hval] at hcr
  simp only [error_bind] at hcr
  simp only [remCont, if_true, hcr]

theorem RemoveIn_key_ne (key : KeyType) :
    ∀ arr : List MappingType, (arr.map (·.1)).Pairwise (· < ·) →
      ∀ e ∈ LeafPage.RemoveIn key arr, e.1 ≠ key
  | [], _, e, he => absurd he (List.not_mem_nil _)
  | a :: es, hp, e, he => by
    simp only [List.map_cons, List.pairwise_cons, List.mem_map, forall_exists_index,
      and_imp] at hp
    simp only [LeafPage.RemoveIn] at he
    split at he
    · rename_i hak
      have := hp.1 e.1 e he rfl
      rw [hak] at this
      exact ne_of_gt this
    · rename_i hak
      rcases List.mem_cons.1 he with rfl | he1
      · exact hak
      · exact RemoveIn_key_ne key es hp.2 e he1

theorem RemoveIn_leafOrd (key : KeyType) {arr : List MappingType} {lo hi : Option KeyType}
    (ho : LeafOrd arr lo hi) : LeafOrd (LeafPage.RemoveIn key arr) lo hi :=
  ⟨List.Pairwise.sublist ((RemoveIn_sublist key arr).map _) ho.1,
    fun e he => ho.2 e ((RemoveIn_sublist key arr).subset he)⟩

/-- The cascade of `Remove` from the leaf up to the root of a subtree. Either it completes,
and what it leaves in the place of the subtree keeps the order, has no pair with the key and
no pair that was not there (and is wide but for its root node when the subtree is wide); or
it comes to a child that has underflowed under a parent with no other child, where the
source reads a slot past the size of the parent (line 291) and the model stops. The second
case does not arise in a wide subtree. -/
theorem rem_fwd (key : KeyType) :
    ∀ (h : Nat) (t : Tree h) (parent : page_id_t) (s0 : State) (ps : List PageRef) (L : ALeaf)
      (lp : LeafPage) (lo hi : Option KeyType),
      Rep s0.pages h t parent → (Tree.ids h t).Nodup → Tree.Ok h t →
      (∀ x ∈ Tree.ids h t, x ≠ INVALID_PAGE_ID) →
      s0.txn.deleted_page_set = [] → s0.txn.page_set = Tree.held .DELETE key false h t ps →
      PageRef.frame (Tree.pid h t) ∈ ps →
      Tree.findLeaf key false h t = some L → s0.pages L.id = some (.leaf lp) →
      Tree.Ord h t lo hi → LoOk lo key → HiOk hi key →
      ∀ (fuel : Nat),
        (∃ (t1 : Tree h) (s3 : State) (under : Bool),
          remCont (fuel + h) (decide ((lp.RemoveAndDeleteRecord key).GetSize <
              (lp.RemoveAndDeleteRecord key).GetMinSize)) L.id
            (WriteLeaf s0 L.id (lp.RemoveAndDeleteRecord key)) =
            remCont fuel under (Tree.pid h t) s3 ∧
          Up s0 s3 h t t1 parent ps under ∧ Tree.Ord h t1 lo hi ∧
          (∀ e ∈ Tree.entries h t1, e ∈ Tree.entries h t ∧ e.1 ≠ key) ∧
          (Tree.Wide h t → Tree.KidsWide h t1 ∧ (under = false → Tree.Wide h t1)) ∧
          ∀ lm, Tree.All (LeafCap lm) h t → Tree.All (LeafCap lm) h t1) ∨
        (¬ Tree.Wide h t ∧
          remCont (fuel + h) (decide ((lp.RemoveAndDeleteRecord key).GetSize <
              (lp.RemoveAndDeleteRecord key).GetMinSize)) L.id
            (WriteLeaf s0 L.id (lp.RemoveAndDeleteRecord key)) = .error .out_of_range)
  | 0, t, parent, s0, ps, L, lp, lo, hi, hr, hnd, hok, hid, hd, hps, hfr, hL, hlp, ho, hlo,
      hhi, fuel => by
    simp only [Tree.findLeaf, Option.some.injEq] at hL
    subst hL
    simp only [Rep] at hr
    rw [hr] at hlp
    simp only [Option.some.injEq, BPlusTreePage.leaf.injEq] at hlp
    subst hlp
    refine Or.inl ⟨ALeaf.mk (ALeaf.id t) (ALeaf.max_size t) (ALeaf.next t)
      (LeafPage.RemoveIn key (ALeaf.arr t)), _, _, rfl, ?_, ⟨ho.1, RemoveIn_leafOrd key ho.2⟩,
      fun e he => ⟨(RemoveIn_sublist key _).subset he, RemoveIn_key_ne key _ ho.2.1 e he⟩,
      fun _ => ⟨trivial, fun _ => trivial⟩,
      fun lm hq => ⟨hq.1, le_trans (RemoveIn_sublist key _).length_le hq.2⟩⟩
    refine ⟨?_, rfl, rfl, ?_, ?_, trivial, ?_, ⟨rfl, rfl, rfl, rfl, rfl⟩, ⟨[], ?_⟩, ?_, ?_, ?_, ?_⟩
    · simp [Rep, WriteLeaf, LeafPage.RemoveAndDeleteRecord]
    · simp [Tree.ids_zero]
    · intro x hx
      simpa [Tree.ids_zero] using hx
    · intro x hx
      simp only [Tree.ids_zero, List.mem_singleton] at hx
      simp [WriteLeaf, hx]
    · simp [WriteLeaf]
    · intro x hx
      simp only [WriteLeaf, setPage_txn, hd, List.not_mem_nil] at hx
    · intro _
      exact ⟨[], by simpa [WriteLeaf, Tree.held] using hps⟩
    · intro hu
      simpa [LeafPage.RemoveAndDeleteRecord, LeafPage.GetSize, LeafPage.GetMinSize] using hu
    · intro hu
      have h1 : (LeafPage.RemoveIn key (ALeaf.arr t)).length < (ALeaf.max_size t - 1 + 1) / 2 := by
        simpa [LeafPage.RemoveAndDeleteRecord, LeafPage.GetSize, LeafPage.GetMinSize] using hu
      have h2 := RemoveIn_length key (ALeaf.arr t)
      simp only [Tree.safe, IsSafe, Tree.page, BPlusTreePage.GetSize, BPlusTreePage.GetMinSize,
        LeafPage.GetSize, LeafPage.GetMinSize, decide_eq_false_iff_not, not_lt, gt_iff_lt]
      omega
  | h + 1, P, parent, s0, ps, L, lp, lo, hi, hr, hnd, hok, hid, hd, hps, hfr, hL, hlp, ho, hlo,
      hhi, fuel => by
    cases hc : choose key false P.kids with
    | none => simp [Tree.findLeaf, hc] at hL
    | some r0 =>
      obtain ⟨pre, cur, post⟩ := r0
      have hk := choose_eq hc
      have hcur : cur ∈ P.kids := by rw [hk]; simp
      have hL1 : Tree.findLeaf key false h cur.2 = some L := by
        simpa [Tree.findLeaf, hc] using hL
      have hr1 := hr
      simp only [Rep] at hr1
      have hndc : (Tree.ids h cur.2).Nodup := by
        rw [Tree.ids_succ, List.nodup_cons] at hnd
        exact kidsIds_nodup_kid hnd.2 hcur
      have hps1 : s0.txn.page_set = Tree.held .DELETE key false h cur.2
          (heldAfter (Tree.safe .DELETE h cur.2) ps (Tree.pid h cur.2)) := by
        rw [hps]
        simp [Tree.held, hc]
      obtain ⟨hEpre, hEpost, hlo1, hhi1⟩ := choose_sides hc ho.2 hlo hhi
      have hz := ho.2
      rw [hk, KidsOrd.zip] at hz
      have hfuel : fuel + (h + 1) = fuel + 1 + h := by omega
      rcases rem_fwd key h cur.2 P.id s0
          (heldAfter (Tree.safe .DELETE h cur.2) ps (Tree.pid h cur.2)) L lp _ _
          (hr1.2 cur hcur) hndc
          (hok.2 cur hcur) (fun x hx => hid x (Tree.ids_kid_subset P hcur hx)) hd hps1
          (heldAfter_mem _ _ _) hL1 hlp hz.2.1 hlo1 hhi1 (fuel + 1) with
        ⟨t1, s3, under, hcont1, hup, hord1, hent1, hwide1, hcap1⟩ | ⟨hnw, herr⟩
      swap
      · exact Or.inr ⟨fun hw => hnw (hw.2.2 cur hcur), by rw [hfuel]; exact herr⟩
      rw [hfuel, hcont1]
      obtain ⟨hrep, hnd1, hsub1, hdel1, hok1, hframe1⟩ := Up.lift hk hr hnd hok hup
      have hordP : Tree.Ord (h + 1)
          ({ P with kids := pre ++ (cur.1, t1) :: post } : ANode (Tree h)) lo hi := by
        refine ⟨ho.1, ?_⟩
        show KidsOrd (Tree.Ord h) lo hi (pre ++ (cur.1, t1) :: post)
        rw [KidsOrd.zip]
        exact ⟨hz.1, hord1, hz.2.2⟩
      have hentP : ∀ e ∈ Tree.entries (h + 1)
          ({ P with kids := pre ++ (cur.1, t1) :: post } : ANode (Tree h)),
          e ∈ Tree.entries (h + 1) P ∧ e.1 ≠ key := by
        intro e he
        rw [Tree.entries_succ] at he ⊢
        rw [hk]
        simp only [kidsEntries_append, kidsEntries_cons, List.mem_append] at he ⊢
        rcases he with he | he | he
        · exact ⟨Or.inl he, ne_of_lt (hEpre e he)⟩
        · exact ⟨Or.inr (Or.inl (hent1 e he).1), (hent1 e he).2⟩
        · exact ⟨Or.inr (Or.inr he), ne_of_gt (hEpost e he)⟩
      have hlenP : (pre ++ (cur.1, t1) :: post).length = P.kids.length := by
        rw [hk]
        simp
      have hcapP : ∀ lm, Tree.All (LeafCap lm) (h + 1) P → Tree.All (LeafCap lm) (h + 1)
          ({ P with kids := pre ++ (cur.1, t1) :: post } : ANode (Tree h)) := by
        intro lm hP e he
        have hPk : ∀ e ∈ P.kids, Tree.All (LeafCap lm) h e.2 := hP
        simp only [List.mem_append, List.mem_cons] at he
        rcases he with he | rfl | he
        · exact hPk e (by rw [hk]; simp [he])
        · exact hcap1 lm (hPk cur hcur)
        · exact hPk e (by rw [hk]; simp [he])
      have hwsib : Tree.Wide (h + 1) P → ∀ e ∈ pre ++ post, Tree.Wide h e.2 := fun hw e he =>
        hw.2.2 e (by
          rw [hk]
          rcases List.mem_append.1 he with h1 | h1
          · exact List.mem_append_left _ h1
          · exact List.mem_append_right _ (List.mem_cons_of_mem _ h1))
      cases under with
      | false =>
        have hkwP : Tree.Wide (h + 1) P → Tree.KidsWide (h + 1)
            ({ P with kids := pre ++ (cur.1, t1) :: post } : ANode (Tree h)) := by
          intro hw
          refine ⟨hw.1, fun e he => ?_⟩
          simp only [List.mem_append, List.mem_cons] at he
          rcases he with he | rfl | he
          · exact hwsib hw e (List.mem_append_left _ he)
          · exact (hwide1 (hw.2.2 cur hcur)).2 rfl
          · exact hwsib hw e (List.mem_append_right _ he)
        refine Or.inl ⟨({ P with kids := pre ++ (cur.1, t1) :: post } : ANode (Tree h)), s3,
          false, ?_, ⟨hrep, rfl, rfl, hnd1, hsub1, hok1, hframe1, hup.fixed, hup.grows, ?_,
          fun hf => (by cases hf), fun hf => (by cases hf), fun hf => (by cases hf)⟩,
          hordP, hentP, fun hw => ⟨hkwP hw, fun _ => ⟨(hkwP hw).1, ?_, (hkwP hw).2⟩⟩, hcapP⟩
        · rw [remCont_false, remCont_false]
        · intro x hx
          obtain ⟨h1, h2, h3⟩ := hup.deleted x hx
          exact ⟨Tree.ids_kid_subset P hcur h1, hdel1 x h1 h2, h3⟩
        · show 2 ≤ (pre ++ (cur.1, t1) :: post).length
          rw [hlenP]
          exact hw.2.1
      | true =>
        have hPid : P.id ≠ INVALID_PAGE_ID := hid P.id (by simp [Tree.ids_succ])
        by_cases hlen2 : 2 ≤ P.kids.length
        · obtain ⟨P1, s4, under1, sib, hcont3, hsp, hordP1, hentP1, hwideP1, hcapP1⟩ :=
            @cascade_fwd s3 h ({ P with kids := pre ++ (cur.1, t1) :: post } : ANode (Tree h))
              parent pre post (cur.1, t1) lo hi fuel rfl hrep hnd1 hPid hok1 (hup.small rfl)
              hordP (by show 2 ≤ (pre ++ (cur.1, t1) :: post).length; rw [hlenP]; exact hlen2)
          have hcont4 : remCont (fuel + 1) true (Tree.pid h cur.2) s3 =
              remCont fuel under1 P.id s4 := by
            rw [← hup.pid]
            exact hcont3
          obtain ⟨e1, he1⟩ := hup.held rfl
          have hps3 : s3.txn.page_set = ps ++ ([PageRef.frame (Tree.pid h cur.2)] ++ e1) := by
            rw [he1, heldAfter, hup.notSafe rfl]
            simp
          have hwP1 : Tree.Wide (h + 1) P →
              Tree.KidsWide (h + 1) P1 ∧ (under1 = false → 2 ≤ P1.kids.length) := fun hw =>
            hwideP1 hw.1 (hwsib hw) (hwide1 (hw.2.2 cur hcur)).1
          refine Or.inl ⟨P1, s4, under1, hcont4, ⟨hsp.rep, hsp.id, hsp.max, hsp.nodup,
            fun x hx => hsub1 x (hsp.sub x hx), hsp.ok, ?_, ?_, ?_, ?_, ?_, ?_, ?_⟩, hordP1,
            fun e he => hentP e (by rw [← hentP1]; exact he),
            fun hw => ⟨(hwP1 hw).1, fun hf => ⟨(hwP1 hw).1.1, (hwP1 hw).2 hf, (hwP1 hw).1.2⟩⟩,
            fun lm hP => hcapP1 lm (hcapP lm hP)⟩
          · intro x hx
            rw [hsp.frame x fun hm => hx (hsub1 x hm)]
            exact hframe1 x hx
          · exact Fixed.trans_fixed hup.fixed hsp.fixed
          · obtain ⟨e0, he0⟩ := hup.grows
            exact ⟨e0 ++ [PageRef.frame sib], by rw [hsp.page_set, he0, List.append_assoc]⟩
          · have hold : ∀ x ∈ s3.txn.deleted_page_set, x ∈ Tree.ids (h + 1) P ∧
                x ∉ Tree.ids (h + 1) P1 ∧ PageRef.frame x ∈ s4.txn.page_set := by
              intro x hx
              obtain ⟨h1, h2, h3⟩ := hup.deleted x hx
              refine ⟨Tree.ids_kid_subset P hcur h1, fun hm => hdel1 x h1 h2 (hsp.sub x hm), ?_⟩
              rw [hsp.page_set]
              exact List.mem_append_left _ h3
            intro x hx
            rcases hsp.deleted with heq | ⟨d, heq, hdP, hdP1, hdor⟩
            · rw [heq] at hx
              exact hold x hx
            · rw [heq] at hx
              rcases List.mem_cons.1 hx with rfl | hx1
              · refine ⟨hsub1 x hdP, hdP1, ?_⟩
                rw [hsp.page_set]
                rcases hdor with rfl | rfl
                · refine List.mem_append_left _ ?_
                  rw [hps3, hup.pid]
                  simp
                · simp
              · exact hold x hx1
          · intro _
            exact ⟨[PageRef.frame (Tree.pid h cur.2)] ++ e1 ++ [PageRef.frame sib], by
              rw [hsp.page_set, hps3]
              simp⟩
          · intro hu
            have := (hsp.small hu).1
            rw [Tree.size_succ, Tree.minSize_succ, hsp.max]
            exact this
          · intro hu
            obtain ⟨h1, h2⟩ := hsp.small hu
            simp only [hlenP] at h2
            simp only at h1
            simp only [Tree.safe, IsSafe, Tree.page, BPlusTreePage.GetSize,
              BPlusTreePage.GetMinSize, InternalPage.GetSize, InternalPage.GetMinSize,
              slotsOf_length, decide_eq_false_iff_not, not_lt, gt_iff_lt]
            omega
        · refine Or.inr ⟨fun hw => hlen2 hw.2.1, ?_⟩
          have hone : pre ++ (cur.1, t1) :: post = [(cur.1, t1)] := by
            have hl : (pre ++ cur :: post).length < 2 := by
              rw [← hk]
              omega
            simp only [List.length_append, List.length_cons] at hl
            have hpre : pre = [] := List.eq_nil_of_length_eq_zero (by omega)
            have hpost : post = [] := List.eq_nil_of_length_eq_zero (by omega)
            rw [hpre, hpost]
            rfl
          have hst := @cascade_stale s3 h
            ({ P with kids := pre ++ (cur.1, t1) :: post } : ANode (Tree h)) parent (cur.1, t1)
            fuel hone hrep hnd1 hPid
          rw [← hup.pid]
          exact hst

/-- The order invariant does not depend on an upper bound that is given up. -/
theorem KidsOrd.kids_drop_hi {α : Type} {P : α → Option KeyType → Option KeyType → Prop}
    (hP : ∀ c lo hi, P c lo hi → P c lo none) :
    ∀ (kids : List (KeyType × α)) (lo hi : Option KeyType),
      KidsOrd P lo hi kids → KidsOrd P lo none kids
  | [], _, _, _ => trivial
  | [_], _, _, ho => hP _ _ _ ho
  | _ :: e1 :: rest, _, hi, ho => ⟨ho.1, KidsOrd.kids_drop_hi hP (e1 :: rest) _ hi ho.2⟩

theorem Tree.Ord.drop_hi : ∀ (h : Nat) (t : Tree h) (lo hi : Option KeyType),
    Tree.Ord h t lo hi → Tree.Ord h t lo none
  | 0, _, _, _, ho =>
    ⟨fun _ _ _ hu => (by cases hu),
      ⟨ho.2.1, fun e he => ⟨(ho.2.2 e he).1, fun _ hu => (by cases hu)⟩⟩⟩
  | h + 1, t, lo, hi, ho =>
    ⟨fun _ _ _ hu => (by cases hu), KidsOrd.kids_drop_hi (Tree.Ord.drop_hi h) t.kids lo hi ho.2⟩

/-- `Remove` after the descent is the cascade from the leaf. -/
theorem Remove_eq_remCont {s s0 : State} {fuel : Nat} {key : KeyType} {page_id : page_id_t}
    {lp : LeafPage} (hne : s.root_page_id_ ≠ INVALID_PAGE_ID)
    (hfind : FindLeafPage fuel key false true .DELETE s = .ok (some page_id, s0))
    (hlp : s0.pages page_id = some (.leaf lp)) :
    Remove fuel key true s =
      remCont fuel (decide ((lp.RemoveAndDeleteRecord key).GetSize <
        (lp.RemoveAndDeleteRecord key).GetMinSize)) page_id
      (WriteLeaf s0 page_id (lp.RemoveAndDeleteRecord key)) := by
  simp only [Remove, IsEmpty, beq_iff_eq, hne, if_false, Bool.false_eq_true, hfind, ok_bind,
    FetchLeaf_ok hlp, if_true]
  by_cases hsm : (lp.RemoveAndDeleteRecord key).GetSize < (lp.RemoveAndDeleteRecord key).GetMinSize
  · rw [if_neg (by omega)]
    simp only [hsm, decide_True, remCont, if_true]
    cases CoalesceOrRedistribute true fuel (WriteLeaf s0 page_id (lp.RemoveAndDeleteRecord key))
        page_id with
    | error e => rfl
    | ok r => rfl
  · rw [if_pos (by omega)]
    simp only [hsm, decide_False, remCont_false]

/-- The cascade has reached a root leaf that has underflowed: `AdjustRoot` empties the
tree. -/
theorem root_fwd_leaf {s3 : State} {t1 : Tree 0} (hrep : Rep s3.pages 0 t1 INVALID_PAGE_ID)
    (hdom : Dom s3) (hnn : 0 ≤ s3.next_page_id)
    (hfr : PageRef.frame (Tree.pid 0 t1) ∈ s3.txn.page_set)
    (hdel : ∀ x ∈ s3.txn.deleted_page_set,
      x ∉ Tree.ids 0 t1 ∧ PageRef.frame x ∈ s3.txn.page_set) (fuel : Nat) :
    ∃ s1, remCont (fuel + 1) true (Tree.pid 0 t1) s3 = .ok s1 ∧ HoldsEmpty s1 ∧
      s1.leaf_max_size_ = s3.leaf_max_size_ ∧
      s1.internal_max_size_ = s3.internal_max_size_ := by
  simp only [Rep] at hrep
  obtain ⟨sX, hcr, hXpages, hXps, hXdel, hXroot, hXnext, hXl, hXi⟩ :
      ∃ sX, CoalesceOrRedistribute true (fuel + 1) s3 (Tree.pid 0 t1) = .ok (true, sX) ∧
        sX.pages = s3.pages ∧ sX.txn.page_set = s3.txn.page_set ∧
        sX.txn.deleted_page_set = ALeaf.id t1 :: s3.txn.deleted_page_set ∧
        sX.root_page_id_ = INVALID_PAGE_ID ∧ sX.next_page_id = s3.next_page_id ∧
        sX.leaf_max_size_ = s3.leaf_max_size_ ∧
        sX.internal_max_size_ = s3.internal_max_size_ := by
    simp only [CoalesceOrRedistribute, Tree.pid_zero, FetchPage_ok hrep, ok_bind,
      BPlusTreePage.IsRootPage, BPlusTreePage.GetParentPageId, beq_self_eq_true, if_true,
      AdjustRoot, pure_eq_ok]
    exact ⟨_, rfl, by simp [AddIntoDeletedPageSet], by simp [AddIntoDeletedPageSet],
      by simp [AddIntoDeletedPageSet], by simp [AddIntoDeletedPageSet],
      by simp [AddIntoDeletedPageSet], by simp [AddIntoDeletedPageSet],
      by simp [AddIntoDeletedPageSet]⟩
  obtain ⟨s2, hun2, hpages, hps2, hd2, hnext, -, hroot2, hl2, hi2⟩ :=
    Unlock_deleting .DELETE sX (by
      rw [hXps]
      exact List.ne_nil_of_mem hfr) (by
      intro x hx
      rw [hXdel] at hx
      rw [hXps]
      rcases List.mem_cons.1 hx with rfl | hx
      · exact hfr
      · exact (hdel x hx).2)
  refine ⟨s2, ?_, ⟨hroot2.trans hXroot, ?_, ?_, hps2, hd2⟩, hl2.trans hXl, hi2.trans hXi⟩
  · rw [@remCont_redistributed (fuel + 1) 0 _ INVALID_PAGE_ID _ _ _ hcr, remCont_false]
    exact hun2
  · intro x hx
    rw [hnext, hXnext]
    refine hdom x fun hnone => hx ?_
    rw [hpages x, hXpages, hnone]
    simp
  · rw [hnext, hXnext]
    exact hnn

/-- The cascade has reached an internal root that has underflowed: `AdjustRoot` makes its
first child the root. -/
theorem root_fwd_node {s3 : State} {h : Nat} {t1 : Tree (h + 1)}
    (hrep : Rep s3.pages (h + 1) t1 INVALID_PAGE_ID) (hnd : (Tree.ids (h + 1) t1).Nodup)
    (hok : Tree.Ok (h + 1) t1) (hdom : Dom s3)
    (hfr : PageRef.frame (Tree.pid (h + 1) t1) ∈ s3.txn.page_set)
    (hdel : ∀ x ∈ s3.txn.deleted_page_set,
      x ∉ Tree.ids (h + 1) t1 ∧ PageRef.frame x ∈ s3.txn.page_set) (fuel : Nat) :
    ∃ (s1 : State) (e : KeyType × Tree h) (es : List (KeyType × Tree h)),
      remCont (fuel + 1) true (Tree.pid (h + 1) t1) s3 = .ok s1 ∧
      ANode.kids t1 = e :: es ∧ Holds s1 h e.2 ∧
      s1.leaf_max_size_ = s3.leaf_max_size_ ∧
      s1.internal_max_size_ = s3.internal_max_size_ := by
  simp only [Rep] at hrep
  cases hkids : ANode.kids t1 with
  | nil => exact absurd hkids hok.1
  | cons e es =>
    have he : e ∈ ANode.kids t1 := by rw [hkids]; simp
    have hpe := Rep.page_eq h e.2 _ (hrep.2 e he)
    have hval : InternalPage.ValueAt
        { parent_page_id := INVALID_PAGE_ID, max_size := ANode.max_size t1,
          array := slotsOf h (ANode.kids t1) } 0 = .ok (Tree.pid h e.2) := by
      simp [InternalPage.ValueAt, hkids, slotsOf_cons]
    obtain ⟨sX, hcr, hXpages, hXps, hXdel, hXroot, hXnext, hXl, hXi⟩ :
        ∃ sX, CoalesceOrRedistribute true (fuel + 1) s3 (Tree.pid (h + 1) t1) =
            .ok (true, sX) ∧
          (∀ x, sX.pages x = if x = Tree.pid h e.2 then
            some (Tree.page h e.2 INVALID_PAGE_ID) else s3.pages x) ∧
          sX.txn.page_set = s3.txn.page_set ∧
          sX.txn.deleted_page_set = ANode.id t1 :: s3.txn.deleted_page_set ∧
          sX.root_page_id_ = Tree.pid h e.2 ∧ sX.next_page_id = s3.next_page_id ∧
          sX.leaf_max_size_ = s3.leaf_max_size_ ∧
          sX.internal_max_size_ = s3.internal_max_size_ := by
      simp only [CoalesceOrRedistribute, Tree.pid_succ, FetchPage_ok hrep.1, ok_bind,
        BPlusTreePage.IsRootPage, BPlusTreePage.GetParentPageId, beq_self_eq_true, if_true,
        AdjustRoot, hval, SetParent, UpdateRootPageId_pages, UpdateRootPageId_root, hpe,
        pure_eq_ok, SetParentPageId_page]
      exact ⟨_, rfl, fun x => by simp [AddIntoDeletedPageSet], by simp [AddIntoDeletedPageSet],
        by simp [AddIntoDeletedPageSet], by simp [AddIntoDeletedPageSet],
        by simp [AddIntoDeletedPageSet], by simp [AddIntoDeletedPageSet],
        by simp [AddIntoDeletedPageSet]⟩
    rw [Tree.ids_succ, List.nodup_cons] at hnd
    obtain ⟨s2, hun2, -, -, -, -, -, -, hl2, hi2⟩ :=
      Unlock_deleting .DELETE sX (by
        rw [hXps]
        exact List.ne_nil_of_mem hfr) (by
        intro x hx
        rw [hXdel] at hx
        rw [hXps]
        rcases List.mem_cons.1 hx with rfl | hx
        · exact hfr
        · exact (hdel x hx).2)
    refine ⟨s2, e, es, ?_, rfl, @Unlock_holds sX s2 h e.2 ?_ hXroot
      (kidsIds_nodup_kid hnd.2 he) (hok.2 e he) ?_ ?_ ?_ hun2, hl2.trans hXl, hi2.trans hXi⟩
    · rw [@remCont_redistributed (fuel + 1) 0 _ INVALID_PAGE_ID _ _ _ hcr, remCont_false]
      exact hun2
    · refine Rep.repoint h e.2 _ _ (hrep.2 e he) (kidsIds_nodup_kid hnd.2 he) ?_ ?_
      · rw [hXpages, if_pos rfl]
      · intro x _ hxne
        rw [hXpages, if_neg hxne]
    · intro x hx
      rw [hXnext]
      refine hdom x fun hnone => hx ?_
      rw [hXpages]
      split
      · rename_i heq
        rw [heq, hpe] at hnone
        cases hnone
      · exact hnone
    · rw [hXps]
      exact List.ne_nil_of_mem hfr
    · intro x hx
      rw [hXdel] at hx
      rw [hXps]
      rcases List.mem_cons.1 hx with rfl | hx
      · exact ⟨fun hm => hnd.1 (mem_kidsIds.2 ⟨e, he, hm⟩), hfr⟩
      · refine ⟨fun hm => (hdel x hx).1 ?_, (hdel x hx).2⟩
        rw [Tree.ids_succ]
        exact List.mem_cons_of_mem _ (mem_kidsIds.2 ⟨e, he, hm⟩)

/-- `Remove` (with a transaction) on a state that holds a tree with the order invariant.
Either the call returns, and the state holds the empty tree or a tree with the order
invariant again, with no pair of the key and no pair that was not there (a wide tree when
the tree was wide, and leaves of at most `lm` pairs stay so); or the call comes to a child
that has underflowed under a parent with no other child, where the source reads a slot past
the size of the parent (line 291) and the model stops. The second case does not arise on a
wide tree. -/
theorem Remove_fwd {s : State} {h : Nat} {t : Tree h} (hs : Holds s h t)
    (ho : Tree.Ord h t none none) (key : KeyType) {fuel : Nat} (hf : h < fuel) :
    (∃ s1, Remove fuel key true s = .ok s1 ∧
      s1.leaf_max_size_ = s.leaf_max_size_ ∧ s1.internal_max_size_ = s.internal_max_size_ ∧
      (HoldsEmpty s1 ∨ ∃ (h1 : Nat) (t1 : Tree h1), Holds s1 h1 t1 ∧
        Tree.Ord h1 t1 none none ∧ h1 ≤ h ∧
        (∀ e ∈ Tree.entries h1 t1, e ∈ Tree.entries h t ∧ e.1 ≠ key) ∧
        (Tree.Wide h t → Tree.Wide h1 t1) ∧
        ∀ lm, Tree.All (LeafCap lm) h t → Tree.All (LeafCap lm) h1 t1)) ∨
      (¬ Tree.Wide h t ∧ Remove fuel key true s = .error .out_of_range) := by
  have hne := hs.root_ne
  obtain ⟨L, hL⟩ := Tree.findLeaf_some key false h t hs.ok
  obtain ⟨⟨p, hLr⟩, -⟩ := Tree.findLeaf_rep key false h t _ hs.rep L hL
  simp only [Rep] at hLr
  have hfind := FindLeafPage_latched hs key false .DELETE hL hf
  rw [Remove_eq_remCont hne hfind (by simpa using hLr)]
  obtain ⟨f1, rfl⟩ : ∃ f1, fuel = f1 + 1 + h := ⟨fuel - h - 1, by omega⟩
  have hid : ∀ x ∈ Tree.ids h t, x ≠ INVALID_PAGE_ID := fun x hx =>
    hs.dom.ne_invalid (Rep.page_some h t _ hs.rep x hx)
  rcases rem_fwd key h t
    INVALID_PAGE_ID (s.withPageSet (Tree.heldRoot .DELETE key false h t))
    (heldAfter (Tree.safe .DELETE h t) [.virtual_root_page] (Tree.pid h t)) L _ none none
    (by simpa using hs.rep) hs.nodup hs.ok hid (by simpa using hs.deleted) rfl
    (heldAfter_mem _ _ _) hL (by simpa using hLr) ho (fun _ hl => by cases hl)
    (fun _ hu => by cases hu) (f1 + 1) with
    ⟨t1, s3, under, hcont1, hup, hord1, hent1, hwide1, hcap1⟩ | ⟨hnw, herr⟩
  swap
  · exact Or.inr ⟨hnw, herr⟩
  refine Or.inl ?_
  rw [hcont1]
  have hdom3 : Dom s3 := hup.dom (by simpa using hs.rep) (hs.dom.withPageSet_dom _)
  have hroot3 : s3.root_page_id_ = Tree.pid h t1 := by
    rw [hup.fixed.root, hup.pid]
    exact hs.root
  have hdel3 : ∀ x ∈ s3.txn.deleted_page_set,
      x ∉ Tree.ids h t1 ∧ PageRef.frame x ∈ s3.txn.page_set := fun x hx =>
    ⟨(hup.deleted x hx).2.1, (hup.deleted x hx).2.2⟩
  have hl3 : s3.leaf_max_size_ = s.leaf_max_size_ := hup.fixed.lmax
  have hi3 : s3.internal_max_size_ = s.internal_max_size_ := hup.fixed.imax
  cases under with
  | false =>
    rw [remCont_false]
    obtain ⟨extra, hex⟩ := hup.grows
    have hps3 : s3.txn.page_set ≠ [] := by
      rw [hex]
      simp only [withPageSet_page_set]
      intro hnil
      exact Tree.heldRoot_ne_nil .DELETE key false h t (List.append_eq_nil.1 hnil).1
    obtain ⟨s1, hun, -, -, -, -, -, -, hl1, hi1⟩ :=
      Unlock_deleting .DELETE s3 hps3 fun x hx => (hdel3 x hx).2
    exact ⟨s1, hun, hl1.trans hl3, hi1.trans hi3, Or.inr ⟨h, t1,
      Unlock_holds hup.rep hroot3 hup.nodup hup.ok hdom3 hps3 hdel3 hun, hord1,
      le_refl _, hent1, fun hw => (hwide1 hw).2 rfl, hcap1⟩⟩
  | true =>
    obtain ⟨extra, hex⟩ := hup.held rfl
    have hfr3 : PageRef.frame (Tree.pid h t1) ∈ s3.txn.page_set := by
      rw [hex, hup.pid]
      exact List.mem_append_left _ (heldAfter_mem _ _ _)
    rw [← hup.pid]
    cases h with
    | zero =>
      have hnn : 0 ≤ s3.next_page_id := by
        rw [hup.fixed.next]
        have h1 := hs.dom _ (Rep.page_some 0 t _ hs.rep _ (Tree.pid_mem_ids 0 t))
        simp only [withPageSet_next]
        exact le_trans h1.1 (le_of_lt h1.2)
      obtain ⟨s1, hrun, hemp, hl1, hi1⟩ := root_fwd_leaf hup.rep hdom3 hnn hfr3 hdel3 f1
      exact ⟨s1, hrun, hl1.trans hl3, hi1.trans hi3, Or.inl hemp⟩
    | succ h =>
      obtain ⟨s1, e, es, hrun, hkids, hholds, hl1, hi1⟩ :=
        root_fwd_node hup.rep hup.nodup hup.ok hdom3 hfr3 hdel3 f1
      have he : e ∈ ANode.kids t1 := by rw [hkids]; simp
      have hordk : KidsOrd (Tree.Ord h) none none (ANode.kids t1) := hord1.2
      rw [hkids, KidsOrd.zip_nil] at hordk
      refine ⟨s1, hrun, hl1.trans hl3, hi1.trans hi3, Or.inr ⟨h, e.2, hholds,
        Tree.Ord.drop_hi h e.2 _ _ hordk.1, Nat.le_succ h, fun x hx => ?_,
        fun hw => (hwide1 hw).1.2 e he, fun lm hq => hcap1 lm hq e he⟩⟩
      refine hent1 x ?_
      rw [Tree.entries_succ, hkids, kidsEntries_cons]
      exact List.mem_append_left _ hx

theorem Tree.ins_wide (lmax imax : Nat) (key : KeyType) (value : ValueType)
    (himax : 4 ≤ imax) :
    ∀ (h : Nat) (t : Tree h) (next : page_id_t), Tree.Wide h t →
      match (Tree.ins lmax imax key value h t next).1 with
      | .done t1 => Tree.Wide h t1
      | .split l _ r => Tree.Wide h l ∧ Tree.Wide h r
  | 0, t, next, _ => by
    simp only [Tree.ins, ALeaf.ins]
    split <;> simp [Tree.Wide]
  | h + 1, t, next, hw => by
    obtain ⟨hmax, hlen, hkids⟩ := hw
    cases hc : choose key false t.kids with
    | none =>
      simp only [Tree.ins, hc]
      exact ⟨hmax, hlen, hkids⟩
    | some r0 =>
      obtain ⟨pre, cur, post⟩ := r0
      have hk := choose_eq hc
      have hmem : cur ∈ t.kids := by rw [hk]; simp
      have ih := Tree.ins_wide lmax imax key value himax h cur.2 next (hkids cur hmem)
      have hpre : ∀ e ∈ pre, Tree.Wide h e.2 := fun e he =>
        hkids e (by rw [hk]; exact List.mem_append_left _ he)
      have hpost : ∀ e ∈ post, Tree.Wide h e.2 := fun e he =>
        hkids e (by rw [hk]; exact List.mem_append_right _ (List.mem_cons_of_mem _ he))
      have hlen0 : t.kids.length = pre.length + post.length + 1 := by
        rw [hk]
        simp only [List.length_append, List.length_cons]
        omega
      cases hres : Tree.ins lmax imax key value h cur.2 next with
      | mk res next1 =>
        rw [hres] at ih
        cases res with
        | done c =>
          simp only [Tree.ins, hc, hres]
          simp only at ih
          refine ⟨hmax, ?_, fun e he => ?_⟩
          · simp only [List.length_append, List.length_cons]
            omega
          · simp only [List.mem_append, List.mem_cons] at he
            rcases he with he | rfl | he
            · exact hpre e he
            · exact ih
            · exact hpost e he
        | split l sep r =>
          simp only at ih
          have hall : ∀ e ∈ pre ++ (cur.1, l) :: (sep, r) :: post, Tree.Wide h e.2 := by
            intro e he
            simp only [List.mem_append, List.mem_cons] at he
            rcases he with he | rfl | rfl | he
            · exact hpre e he
            · exact ih.1
            · exact ih.2
            · exact hpost e he
          have hlen1 : (pre ++ (cur.1, l) :: (sep, r) :: post).length = t.kids.length + 1 := by
            simp only [List.length_append, List.length_cons]
            omega
          by_cases hfull : t.kids.length < t.max_size - 1
          · simp only [Tree.ins, hc, hres, if_pos hfull]
            exact ⟨hmax, by rw [hlen1]; omega, hall⟩
          · simp only [Tree.ins, hc, hres, if_neg hfull]
            refine ⟨⟨hmax, ?_, fun e he => hall e (List.mem_of_mem_take he)⟩,
              ⟨himax, ?_, fun e he => hall e (List.mem_of_mem_drop he)⟩⟩
            · rw [List.length_take, hlen1]
              omega
            · rw [List.length_drop, hlen1]
              omega

theorem Tree.insRoot_wide (lmax imax : Nat) (key : KeyType) (value : ValueType)
    (himax : 4 ≤ imax) (h : Nat) (t : Tree h) (next : page_id_t) (hw : Tree.Wide h t) :
    Tree.Wide (Tree.insRoot lmax imax key value h t next).1.1
      (Tree.insRoot lmax imax key value h t next).1.2 := by
  have h1 := Tree.ins_wide lmax imax key value himax h t next hw
  simp only [Tree.insRoot]
  cases hres : Tree.ins lmax imax key value h t next with
  | mk res next1 =>
    rw [hres] at h1
    cases res with
    | done t1 => exact h1
    | split l sep r =>
      simp only at h1 ⊢
      refine ⟨himax, by simp, fun e he => ?_⟩
      simp only [List.mem_cons, List.mem_singleton, List.not_mem_nil, or_false] at he
      rcases he with rfl | rfl
      · exact h1.1
      · exact h1.2

/-- `Insert` (with a transaction) on a well-formed state with wide nodes returns, and the
state is well formed with wide nodes again. -/
theorem Insert_wellFormedWide {s : State} {es : List MappingType} {levels : Nat}
    (hw : WellFormedWide s es levels) (key : KeyType) (value : ValueType) {fuel : Nat}
    (hf : levels ≤ fuel) :
    ∃ (inserted : Bool) (s1 : State) (es1 : List MappingType) (levels1 : Nat),
      Insert fuel key value true s = .ok (inserted, s1) ∧ WellFormedWide s1 es1 levels1 ∧
      levels1 ≤ levels + 1 ∧ s1.leaf_max_size_ = s.leaf_max_size_ ∧
      s1.internal_max_size_ = s.internal_max_size_ := by
  obtain ⟨himax, hcase⟩ := hw
  rcases hcase with ⟨he, rfl, rfl⟩ | ⟨h, t, hs, ho, hwide, rfl, rfl⟩
  · obtain ⟨s1, h1, h2, -, h4, h5⟩ := Insert_empty he fuel key value
    refine ⟨true, s1, _, 1, h1, ⟨by rw [h5]; exact himax, Or.inr ⟨0, _, h2, ?_, trivial, rfl,
      rfl⟩⟩, le_refl _, h4, h5⟩
    exact ⟨fun _ _ hl => (by cases hl), (by simp), fun e _ => ⟨fun _ hl => (by cases hl),
      fun _ hu => (by cases hu)⟩⟩
  · obtain ⟨L, hL⟩ := Tree.findLeaf_some key false h t hs.ok
    cases hv : LeafPage.LookupIn key L.arr with
    | some v0 =>
      exact ⟨false, s, _, _,
        InsertIntoLeaf_duplicate hs key value true hL hv (Nat.lt_of_succ_le hf),
        ⟨himax, Or.inr ⟨h, t, hs, ho, hwide, rfl, rfl⟩⟩, Nat.le_succ _, rfl, rfl⟩
    | none =>
      obtain ⟨s1, h1, h2, -, h4, h5⟩ := Insert_new hs key value hL hv (Nat.lt_of_succ_le hf)
      obtain ⟨hO, hE, hH⟩ := Tree.insRoot_ord s.leaf_max_size_ s.internal_max_size_ key value
        h t s.next_page_id ho hL hv
      exact ⟨true, s1, _, _, h1, ⟨by rw [h5]; exact himax, Or.inr ⟨_, _, h2, hO,
        Tree.insRoot_wide _ _ key value himax h t _ hwide, rfl, rfl⟩⟩,
        Nat.succ_le_succ hH, h4, h5⟩

/-- `Remove` (with a transaction) on a well-formed state with wide nodes returns, and the
state is well formed with wide nodes again, with no pair of the key and no pair that was not
there. -/
theorem Remove_wellFormedWide {s : State} {es : List MappingType} {levels : Nat}
    (hw : WellFormedWide s es levels) (key : KeyType) {fuel : Nat} (hf : levels ≤ fuel) :
    ∃ (s1 : State) (es1 : List MappingType) (levels1 : Nat),
      Remove fuel key true s = .ok s1 ∧ WellFormedWide s1 es1 levels1 ∧
      levels1 ≤ levels ∧ (∀ e ∈ es1, e ∈ es ∧ e.1 ≠ key) ∧
      s1.leaf_max_size_ = s.leaf_max_size_ ∧
      s1.internal_max_size_ = s.internal_max_size_ := by
  obtain ⟨himax, hcase⟩ := hw
  rcases hcase with ⟨he, rfl, rfl⟩ | ⟨h, t, hs, ho, hwide, rfl, rfl⟩
  · exact ⟨s, [], 0, Remove_empty he fuel key true, ⟨himax, Or.inl ⟨he, rfl, rfl⟩⟩, le_refl _,
      fun e he0 => absurd he0 (List.not_mem_nil _), rfl, rfl⟩
  · rcases Remove_fwd hs ho key (Nat.lt_of_succ_le hf) with
      ⟨s1, hrem, hl, hi, hres⟩ | ⟨hnw, -⟩
    swap
    · exact absurd hwide hnw
    rcases hres with hemp | ⟨h1, t1, hs1, ho1, hle, hent, hw1, -⟩
    · exact ⟨s1, [], 0, hrem, ⟨by rw [hi]; exact himax, Or.inl ⟨hemp, rfl, rfl⟩⟩,
        Nat.zero_le _, fun e he0 => absurd he0 (List.not_mem_nil _), hl, hi⟩
    · exact ⟨s1, _, _, hrem, ⟨by rw [hi]; exact himax, Or.inr ⟨h1, t1, hs1, ho1, hw1 hwide, rfl,
        rfl⟩⟩, Nat.succ_le_succ hle, hent, hl, hi⟩

/-- On a well-formed state with wide nodes every call of `Remove` and of `Insert` (with a
transaction) returns, given fuel for the levels of the tree. -/
theorem WellFormedWide.total {s : State} {es : List MappingType} {levels : Nat}
    (hw : WellFormedWide s es levels) {fuel : Nat} (hf : levels ≤ fuel) (key : KeyType) :
    (∃ s1, Remove fuel key true s = .ok s1) ∧
      ∀ value, ∃ r, Insert fuel key value true s = .ok r := by
  refine ⟨?_, fun value => ?_⟩
  · obtain ⟨s1, -, -, h1, -⟩ := Remove_wellFormedWide hw key hf
    exact ⟨s1, h1⟩
  · obtain ⟨b, s1, -, -, h1, -⟩ := Insert_wellFormedWide hw key value hf
    exact ⟨(b, s1), h1⟩

/-- With an internal maximum size of at least 4, every state that the calls reach is well
formed with wide nodes. -/
theorem Reachable.wellFormedWide {leaf_max_size internal_max_size : Nat} {s : State}
    (hr : Reachable leaf_max_size internal_max_size s) (him : 4 ≤ internal_max_size) :
    ∃ es levels, WellFormedWide s es levels := by
  induction hr with
  | new => exact ⟨[], 0, him, Or.inl ⟨State.new_holdsEmpty _ _, rfl, rfl⟩⟩
  | @insert s s1 fuel key value inserted _ hins ih =>
    obtain ⟨es, levels, hw⟩ := ih
    by_cases hf : levels ≤ fuel
    · obtain ⟨b, s2, es1, levels1, h1, hw1, -⟩ := Insert_wellFormedWide hw key value hf
      rw [h1] at hins
      simp only [Except.ok.injEq, Prod.mk.injEq] at hins
      rw [← hins.2]
      exact ⟨es1, levels1, hw1⟩
    · exfalso
      rcases hw.2 with ⟨-, -, rfl⟩ | ⟨h, t, hs, -, -, -, rfl⟩
      · exact hf (Nat.zero_le _)
      · have hfail := FindLeafPage_fuel hs key false .INSERT (by omega : fuel ≤ h)
        simp [Insert, IsEmpty, hs.root_ne, InsertIntoLeaf, hfail] at hins
  | @remove s s1 fuel key _ hrem ih =>
    obtain ⟨es, levels, hw⟩ := ih
    by_cases hf : levels ≤ fuel
    · obtain ⟨s2, es1, levels1, h1, hw1, -⟩ := Remove_wellFormedWide hw key hf
      rw [h1] at hrem
      simp only [Except.ok.injEq] at hrem
      rw [← hrem]
      exact ⟨es1, levels1, hw1⟩
    · exfalso
      rcases hw.2 with ⟨-, -, rfl⟩ | ⟨h, t, hs, -, -, -, rfl⟩
      · exact hf (Nat.zero_le _)
      · have hfail := FindLeafPage_fuel hs key false .DELETE (by omega : fuel ≤ h)
        simp [Remove, IsEmpty, hs.root_ne, hfail] at hrem

/-- The insertion keeps every leaf below its maximum size: a leaf of `lm - 1` pairs that
takes one more is split into two leaves of at most `lm - 1` pairs. -/
theorem Tree.ins_all (lm imax : Nat) (key : KeyType) (value : ValueType) (hlm : 2 ≤ lm) :
    ∀ (h : Nat) (t : Tree h) (next : page_id_t),
      Tree.All (fun L => L.max_size = lm ∧ L.arr.length + 1 ≤ lm) h t →
      match (Tree.ins lm imax key value h t next).1 with
      | .done t1 => Tree.All (fun L => L.max_size = lm ∧ L.arr.length + 1 ≤ lm) h t1
      | .split l _ r => Tree.All (fun L => L.max_size = lm ∧ L.arr.length + 1 ≤ lm) h l ∧
          Tree.All (fun L => L.max_size = lm ∧ L.arr.length + 1 ≤ lm) h r
  | 0, t, next, hq => by
    have hq1 : (t : ALeaf).max_size = lm ∧ (t : ALeaf).arr.length + 1 ≤ lm := hq
    have hlen := InsertIn_length key value (t : ALeaf).arr
    by_cases hroom : (t : ALeaf).arr.length < (t : ALeaf).max_size - 1
    · simp only [Tree.ins, ALeaf.ins, if_pos hroom]
      show (t : ALeaf).max_size = lm ∧
        (LeafPage.InsertIn key value (t : ALeaf).arr).length + 1 ≤ lm
      exact ⟨hq1.1, by omega⟩
    · simp only [Tree.ins, ALeaf.ins, if_neg hroom]
      refine ⟨?_, ?_⟩
      · show (t : ALeaf).max_size = lm ∧ (List.take _ _).length + 1 ≤ lm
        refine ⟨hq1.1, ?_⟩
        rw [List.length_take, hlen]
        omega
      · show lm = lm ∧ (List.drop _ _).length + 1 ≤ lm
        refine ⟨rfl, ?_⟩
        rw [List.length_drop, hlen]
        omega
  | h + 1, t, next, hq => by
    have hkids : ∀ e ∈ (t : ANode (Tree h)).kids,
        Tree.All (fun L => L.max_size = lm ∧ L.arr.length + 1 ≤ lm) h e.2 := hq
    cases hc : choose key false t.kids with
    | none =>
      simp only [Tree.ins, hc]
      exact hq
    | some r0 =>
      obtain ⟨pre, cur, post⟩ := r0
      have hk := choose_eq hc
      have hmem : cur ∈ t.kids := by rw [hk]; simp
      have ih := Tree.ins_all lm imax key value hlm h cur.2 next (hkids cur hmem)
      have hpre : ∀ e ∈ pre,
          Tree.All (fun L => L.max_size = lm ∧ L.arr.length + 1 ≤ lm) h e.2 := fun e he =>
        hkids e (by rw [hk]; exact List.mem_append_left _ he)
      have hpost : ∀ e ∈ post,
          Tree.All (fun L => L.max_size = lm ∧ L.arr.length + 1 ≤ lm) h e.2 := fun e he =>
        hkids e (by rw [hk]; exact List.mem_append_right _ (List.mem_cons_of_mem _ he))
      cases hres : Tree.ins lm imax key value h cur.2 next with
      | mk res next1 =>
        rw [hres] at ih
        cases res with
        | done c =>
          simp only [Tree.ins, hc, hres]
          simp only at ih
          intro e he
          simp only [List.mem_append, List.mem_cons] at he
          rcases he with he | rfl | he
          · exact hpre e he
          · exact ih
          · exact hpost e he
        | split l sep r =>
          simp only at ih
          have hall : ∀ e ∈ pre ++ (cur.1, l) :: (sep, r) :: post,
              Tree.All (fun L => L.max_size = lm ∧ L.arr.length + 1 ≤ lm) h e.2 := by
            intro e he
            simp only [List.mem_append, List.mem_cons] at he
            rcases he with he | rfl | rfl | he
            · exact hpre e he
            · exact ih.1
            · exact ih.2
            · exact hpost e he
          by_cases hfull : t.kids.length < t.max_size - 1
          · simp only [Tree.ins, hc, hres, if_pos hfull]
            exact hall
          · simp only [Tree.ins, hc, hres, if_neg hfull]
            exact ⟨fun e he => hall e (List.mem_of_mem_take he),
              fun e he => hall e (List.mem_of_mem_drop he)⟩

theorem Tree.insRoot_all (lm imax : Nat) (key : KeyType) (value : ValueType) (hlm : 2 ≤ lm)
    (h : Nat) (t : Tree h) (next : page_id_t)
    (hq : Tree.All (fun L => L.max_size = lm ∧ L.arr.length + 1 ≤ lm) h t) :
    Tree.All (fun L => L.max_size = lm ∧ L.arr.length + 1 ≤ lm)
      (Tree.insRoot lm imax key value h t next).1.1
      (Tree.insRoot lm imax key value h t next).1.2 := by
  have h1 := Tree.ins_all lm imax key value hlm h t next hq
  simp only [Tree.insRoot]
  cases hres : Tree.ins lm imax key value h t next with
  | mk res next1 =>
    rw [hres] at h1
    cases res with
    | done t1 => exact h1
    | split l sep r =>
      simp only at h1 ⊢
      intro e he
      simp only [List.mem_cons, List.mem_singleton, List.not_mem_nil, or_false] at he
      rcases he with rfl | rfl
      · exact h1.1
      · exact h1.2

/-- With a leaf maximum size of at least 2, a state that calls of `Insert` alone reach
holds the empty tree, or a tree whose leaves all have the leaf maximum size of the tree and
at most that many pairs less one. -/
theorem InsertReachable.leaves {leaf_max_size internal_max_size : Nat} {s : State}
    (hr : InsertReachable leaf_max_size internal_max_size s) (hlm : 2 ≤ leaf_max_size) :
    s.leaf_max_size_ = leaf_max_size ∧
      (HoldsEmpty s ∨ ∃ (h : Nat) (t : Tree h), Holds s h t ∧
        Tree.All (fun L => L.max_size = leaf_max_size ∧ L.arr.length + 1 ≤ leaf_max_size)
          h t) := by
  induction hr with
  | new => exact ⟨rfl, Or.inl (State.new_holdsEmpty _ _)⟩
  | @insert s s1 fuel key value inserted _ hins ih =>
    obtain ⟨hl, hcase⟩ := ih
    rcases hcase with he | ⟨h, t, hs, hq⟩
    · obtain ⟨s2, h1, h2, -, h4, -⟩ := Insert_empty he fuel key value
      rw [h1] at hins
      simp only [Except.ok.injEq, Prod.mk.injEq] at hins
      rw [← hins.2]
      refine ⟨h4.trans hl, Or.inr ⟨0, _, h2, ?_⟩⟩
      show s.leaf_max_size_ = leaf_max_size ∧ [(key, value)].length + 1 ≤ leaf_max_size
      exact ⟨hl, by simpa using hlm⟩
    · by_cases hf : h < fuel
      · obtain ⟨L, hL⟩ := Tree.findLeaf_some key false h t hs.ok
        cases hv : LeafPage.LookupIn key L.arr with
        | some v0 =>
          rw [InsertIntoLeaf_duplicate hs key value true hL hv hf] at hins
          simp only [Except.ok.injEq, Prod.mk.injEq] at hins
          rw [← hins.2]
          exact ⟨hl, Or.inr ⟨h, t, hs, hq⟩⟩
        | none =>
          obtain ⟨s2, h1, h2, -, h4, -⟩ := Insert_new hs key value hL hv hf
          rw [h1] at hins
          simp only [Except.ok.injEq, Prod.mk.injEq] at hins
          rw [← hins.2]
          refine ⟨h4.trans hl, Or.inr ⟨_, _, h2, ?_⟩⟩
          rw [hl]
          exact Tree.insRoot_all leaf_max_size _ key value hlm h t _ hq
      · have hfail := FindLeafPage_fuel hs key false .INSERT (Nat.le_of_not_lt hf)
        simp [Insert, IsEmpty, hs.root_ne, InsertIntoLeaf, hfail] at hins

/-- The insertion keeps every leaf within its maximum size: a leaf of `lm` pairs that takes
one more is split into two leaves of at most `lm` pairs. -/
theorem Tree.ins_cap (lm imax : Nat) (key : KeyType) (value : ValueType) (hlm : 2 ≤ lm) :
    ∀ (h : Nat) (t : Tree h) (next : page_id_t), Tree.All (LeafCap lm) h t →
      match (Tree.ins lm imax key value h t next).1 with
      | .done t1 => Tree.All (LeafCap lm) h t1
      | .split l _ r => Tree.All (LeafCap lm) h l ∧ Tree.All (LeafCap lm) h r
  | 0, t, next, hq => by
    have hq1 : (t : ALeaf).max_size = lm ∧ (t : ALeaf).arr.length ≤ lm := hq
    have hlen := InsertIn_length key value (t : ALeaf).arr
    by_cases hroom : (t : ALeaf).arr.length < (t : ALeaf).max_size - 1
    · simp only [Tree.ins, ALeaf.ins, if_pos hroom]
      show (t : ALeaf).max_size = lm ∧
        (LeafPage.InsertIn key value (t : ALeaf).arr).length ≤ lm
      exact ⟨hq1.1, by omega⟩
    · simp only [Tree.ins, ALeaf.ins, if_neg hroom]
      refine ⟨?_, ?_⟩
      · show (t : ALeaf).max_size = lm ∧ (List.take _ _).length ≤ lm
        refine ⟨hq1.1, ?_⟩
        rw [List.length_take, hlen]
        omega
      · show lm = lm ∧ (List.drop _ _).length ≤ lm
        refine ⟨rfl, ?_⟩
        rw [List.length_drop, hlen]
        omega
  | h + 1, t, next, hq => by
    have hkids : ∀ e ∈ (t : ANode (Tree h)).kids, Tree.All (LeafCap lm) h e.2 := hq
    cases hc : choose key false t.kids with
    | none =>
      simp only [Tree.ins, hc]
      exact hq
    | some r0 =>
      obtain ⟨pre, cur, post⟩ := r0
      have hk := choose_eq hc
      have hmem : cur ∈ t.kids := by rw [hk]; simp
      have ih := Tree.ins_cap lm imax key value hlm h cur.2 next (hkids cur hmem)
      have hpre : ∀ e ∈ pre, Tree.All (LeafCap lm) h e.2 := fun e he =>
        hkids e (by rw [hk]; exact List.mem_append_left _ he)
      have hpost : ∀ e ∈ post, Tree.All (LeafCap lm) h e.2 := fun e he =>
        hkids e (by rw [hk]; exact List.mem_append_right _ (List.mem_cons_of_mem _ he))
      cases hres : Tree.ins lm imax key value h cur.2 next with
      | mk res next1 =>
        rw [hres] at ih
        cases res with
        | done c =>
          simp only [Tree.ins, hc, hres]
          simp only at ih
          intro e he
          simp only [List.mem_append, List.mem_cons] at he
          rcases he with he | rfl | he
          · exact hpre e he
          · exact ih
          · exact hpost e he
        | split l sep r =>
          simp only at ih
          have hall : ∀ e ∈ pre ++ (cur.1, l) :: (sep, r) :: post,
              Tree.All (LeafCap lm) h e.2 := by
            intro e he
            simp only [List.mem_append, List.mem_cons] at he
            rcases he with he | rfl | rfl | he
            · exact hpre e he
            · exact ih.1
            · exact ih.2
            · exact hpost e he
          by_cases hfull : t.kids.length < t.max_size - 1
          · simp only [Tree.ins, hc, hres, if_pos hfull]
            exact hall
          · simp only [Tree.ins, hc, hres, if_neg hfull]
            exact ⟨fun e he => hall e (List.mem_of_mem_take he),
              fun e he => hall e (List.mem_of_mem_drop he)⟩

theorem Tree.insRoot_cap (lm imax : Nat) (key : KeyType) (value : ValueType) (hlm : 2 ≤ lm)
    (h : Nat) (t : Tree h) (next : page_id_t) (hq : Tree.All (LeafCap lm) h t) :
    Tree.All (LeafCap lm) (Tree.insRoot lm imax key value h t next).1.1
      (Tree.insRoot lm imax key value h t next).1.2 := by
  have h1 := Tree.ins_cap lm imax key value hlm h t next hq
  simp only [Tree.insRoot]
  cases hres : Tree.ins lm imax key value h t next with
  | mk res next1 =>
    rw [hres] at h1
    cases res with
    | done t1 => exact h1
    | split l sep r =>
      simp only at h1 ⊢
      intro e he
      simp only [List.mem_cons, List.mem_singleton, List.not_mem_nil, or_false] at he
      rcases he with rfl | rfl
      · exact h1.1
      · exact h1.2

/-- A state that calls of `Insert` and `Remove` reach holds the empty tree, or a tree with
the order invariant; the tree is wide when the internal maximum size is at least 4, and
with a leaf maximum size of at least 2 its leaves all have the leaf maximum size of the tree
and at most that many pairs. -/
theorem Reachable.inv {leaf_max_size internal_max_size : Nat} {s : State}
    (hr : Reachable leaf_max_size internal_max_size s) :
    s.leaf_max_size_ = leaf_max_size ∧ s.internal_max_size_ = internal_max_size ∧
      (HoldsEmpty s ∨ ∃ (h : Nat) (t : Tree h), Holds s h t ∧ Tree.Ord h t none none ∧
        (4 ≤ internal_max_size → Tree.Wide h t) ∧
        (2 ≤ leaf_max_size → Tree.All (LeafCap leaf_max_size) h t)) := by
  induction hr with
  | new => exact ⟨rfl, rfl, Or.inl (State.new_holdsEmpty _ _)⟩
  | @insert s s1 fuel key value inserted _ hins ih =>
    obtain ⟨hl, hi, hcase⟩ := ih
    rcases hcase with he | ⟨h, t, hs, ho, hw, hq⟩
    · obtain ⟨s2, h1, h2, -, h4, h5⟩ := Insert_empty he fuel key value
      rw [h1] at hins
      simp only [Except.ok.injEq, Prod.mk.injEq] at hins
      rw [← hins.2]
      refine ⟨h4.trans hl, h5.trans hi, Or.inr ⟨0, _, h2, ?_, fun _ => trivial, fun hlm => ?_⟩⟩
      · exact ⟨fun _ _ hl => (by cases hl), (by simp), fun e _ => ⟨fun _ hl => (by cases hl),
          fun _ hu => (by cases hu)⟩⟩
      · show s.leaf_max_size_ = leaf_max_size ∧ [(key, value)].length ≤ leaf_max_size
        exact ⟨hl, by simp only [List.length_singleton]; omega⟩
    · by_cases hf : h < fuel
      · obtain ⟨L, hL⟩ := Tree.findLeaf_some key false h t hs.ok
        cases hv : LeafPage.LookupIn key L.arr with
        | some v0 =>
          rw [InsertIntoLeaf_duplicate hs key value true hL hv hf] at hins
          simp only [Except.ok.injEq, Prod.mk.injEq] at hins
          rw [← hins.2]
          exact ⟨hl, hi, Or.inr ⟨h, t, hs, ho, hw, hq⟩⟩
        | none =>
          obtain ⟨s2, h1, h2, -, h4, h5⟩ := Insert_new hs key value hL hv hf
          obtain ⟨hO, -, -⟩ := Tree.insRoot_ord s.leaf_max_size_ s.internal_max_size_ key
            value h t s.next_page_id ho hL hv
          rw [h1] at hins
          simp only [Except.ok.injEq, Prod.mk.injEq] at hins
          rw [← hins.2]
          refine ⟨h4.trans hl, h5.trans hi, Or.inr ⟨_, _, h2, hO, fun him => ?_,
            fun hlm => ?_⟩⟩
          · exact Tree.insRoot_wide _ _ key value (by rw [hi]; exact him) h t _ (hw him)
          · rw [hl]
            exact Tree.insRoot_cap leaf_max_size _ key value hlm h t _ (hq hlm)
      · have hfail := FindLeafPage_fuel hs key false .INSERT (Nat.le_of_not_lt hf)
        simp [Insert, IsEmpty, hs.root_ne, InsertIntoLeaf, hfail] at hins
  | @remove s s1 fuel key _ hrem ih =>
    obtain ⟨hl, hi, hcase⟩ := ih
    rcases hcase with he | ⟨h, t, hs, ho, hw, hq⟩
    · rw [Remove_empty he fuel key true] at hrem
      simp only [Except.ok.injEq] at hrem
      rw [← hrem]
      exact ⟨hl, hi, Or.inl he⟩
    · by_cases hf : h < fuel
      · rcases Remove_fwd hs ho key hf with ⟨s2, h1, h2, h3, hres⟩ | ⟨-, herr⟩
        swap
        · rw [herr] at hrem
          cases hrem
        rw [h1] at hrem
        simp only [Except.ok.injEq] at hrem
        rw [← hrem]
        refine ⟨h2.trans hl, h3.trans hi, ?_⟩
        rcases hres with hemp | ⟨h1, t1, hs1, ho1, -, -, hw1, hcap⟩
        · exact Or.inl hemp
        · exact Or.inr ⟨h1, t1, hs1, ho1, fun him => hw1 (hw him), fun hlm => hcap _ (hq hlm)⟩
      · have hfail := FindLeafPage_fuel hs key false .DELETE (Nat.le_of_not_lt hf)
        simp [Remove, IsEmpty, hs.root_ne, hfail] at hrem

/-- Every state that calls of `Insert` and `Remove` reach is well formed. -/
theorem Reachable.ordered {leaf_max_size internal_max_size : Nat} {s : State}
    (hr : Reachable leaf_max_size internal_max_size s) :
    ∃ es levels, WellFormed s es levels := by
  obtain ⟨-, -, hcase⟩ := hr.inv
  rcases hcase with he | ⟨h, t, hs, ho, -, -⟩
  · exact ⟨[], 0, Or.inl ⟨he, rfl, rfl⟩⟩
  · exact ⟨_, _, Or.inr ⟨h, t, hs, ho, rfl, rfl⟩⟩

/-- `Insert` (with a transaction) on a well-formed state returns, given fuel for the levels
of the tree, and the state is well formed again. -/
theorem Insert_returns {s : State} {es : List MappingType} {levels : Nat}
    (hw : WellFormed s es levels) (key : KeyType) (value : ValueType) {fuel : Nat}
    (hf : levels ≤ fuel) :
    ∃ (inserted : Bool) (s1 : State) (es1 : List MappingType) (levels1 : Nat),
      Insert fuel key value true s = .ok (inserted, s1) ∧ WellFormed s1 es1 levels1 ∧
      levels1 ≤ levels + 1 := by
  rcases hw with ⟨he, rfl, rfl⟩ | ⟨h, t, hs, ho, rfl, rfl⟩
  · obtain ⟨s1, h1, h2, -⟩ := Insert_empty he fuel key value
    refine ⟨true, s1, _, 1, h1, Or.inr ⟨0, _, h2, ?_, rfl, rfl⟩, le_refl _⟩
    exact ⟨fun _ _ hl => (by cases hl), (by simp), fun e _ => ⟨fun _ hl => (by cases hl),
      fun _ hu => (by cases hu)⟩⟩
  · obtain ⟨L, hL⟩ := Tree.findLeaf_some key false h t hs.ok
    cases hv : LeafPage.LookupIn key L.arr with
    | some v0 =>
      exact ⟨false, s, _, _,
        InsertIntoLeaf_duplicate hs key value true hL hv (Nat.lt_of_succ_le hf),
        Or.inr ⟨h, t, hs, ho, rfl, rfl⟩, Nat.le_succ _⟩
    | none =>
      obtain ⟨s1, h1, h2, -⟩ := Insert_new hs key value hL hv (Nat.lt_of_succ_le hf)
      obtain ⟨hO, hE, hH⟩ := Tree.insRoot_ord s.leaf_max_size_ s.internal_max_size_ key value
        h t s.next_page_id ho hL hv
      exact ⟨true, s1, _, _, h1, Or.inr ⟨_, _, h2, hO, rfl, rfl⟩, Nat.succ_le_succ hH⟩

/-- The calls on a state that calls of `Insert` and `Remove` reach, given fuel for the
levels of the tree: `Insert` returns; `Remove` returns or comes to the read of a slot past
the size of a parent with one child (line 291), where the model stops; with an internal
maximum size of at least 4 `Remove` returns. -/
theorem Reachable.calls {leaf_max_size internal_max_size : Nat} {s : State}
    (hr : Reachable leaf_max_size internal_max_size s) :
    ∃ levels, ∀ fuel, levels ≤ fuel → ∀ key,
      (∀ value, ∃ r, Insert fuel key value true s = .ok r) ∧
      ((∃ s1, Remove fuel key true s = .ok s1) ∨
        Remove fuel key true s = .error .out_of_range) ∧
      (4 ≤ internal_max_size → ∃ s1, Remove fuel key true s = .ok s1) := by
  obtain ⟨-, -, hcase⟩ := hr.inv
  rcases hcase with he | ⟨h, t, hs, ho, hw, -⟩
  · refine ⟨0, fun fuel _ key => ⟨fun value => ?_, Or.inl ⟨s, Remove_empty he fuel key true⟩,
      fun _ => ⟨s, Remove_empty he fuel key true⟩⟩⟩
    obtain ⟨s1, h1, -⟩ := Insert_empty he fuel key value
    exact ⟨_, h1⟩
  · refine ⟨h + 1, fun fuel hf key => ⟨fun value => ?_, ?_, fun him => ?_⟩⟩
    · obtain ⟨b, s1, -, -, h1, -⟩ := Insert_returns (Or.inr ⟨h, t, hs, ho, rfl, rfl⟩) key
        value hf
      exact ⟨_, h1⟩
    · rcases Remove_fwd hs ho key (Nat.lt_of_succ_le hf) with ⟨s1, h1, -⟩ | ⟨-, herr⟩
      · exact Or.inl ⟨s1, h1⟩
      · exact Or.inr herr
    · rcases Remove_fwd hs ho key (Nat.lt_of_succ_le hf) with ⟨s1, h1, -⟩ | ⟨hnw, -⟩
      · exact ⟨s1, h1⟩
      · exact absurd (hw him) hnw

end BPlusTree

namespace BPlusTree

/-! ## The claims -/

/-- Claim C1: on every well-formed state (the empty tree, or a tree with the order
invariant) and for every key that is not among its pairs, `Insert(key, value)` with a
transaction returns true, a following `GetValue(key)` returns true and appends exactly the
one value `value`, and a second `Insert(key, value1)` returns false. -/
theorem Insert_GetValue_Insert {s : State} {es : List MappingType} {levels : Nat}
    (hw : WellFormed s es levels) (key : KeyType) (value value1 : ValueType)
    (habs : ∀ e ∈ es, e.1 ≠ key) (result : List ValueType) (transaction transaction1 : Bool)
    {fuel : Nat} (hf : levels < fuel) :
    ∃ s1, Insert fuel key value true s = .ok (true, s1) ∧
      GetValue fuel key result transaction s1 = .ok (true, result ++ [value], s1) ∧
      Insert fuel key value1 transaction1 s1 = .ok (false, s1) := by
  obtain ⟨s1, levels1, h1, hw1, -, hle, -, -⟩ :=
    Insert_wellFormed hw key value habs (Nat.le_of_lt hf)
  have hf1 : levels1 ≤ fuel := le_trans hle hf
  have hlook := LookupIn_InsertIn key value es hw.sorted habs
  refine ⟨s1, h1, ?_, Insert_duplicate_wellFormed hw1 key value1 transaction1 hlook hf1⟩
  rw [GetValue_wellFormed hw1 key result transaction hf1, hlook]

/-- The instance of C1 on the empty tree with leaf and internal maximum size 4, the key 7
and the values 70 and 71. -/
theorem Insert_GetValue_Insert_witness :
    WellFormed (State.new 4 4) [] 0 ∧
      ∃ s1, Insert 5 7 70 true (State.new 4 4) = .ok (true, s1) ∧
        GetValue 5 7 [] true s1 = .ok (true, [] ++ [70], s1) ∧
        Insert 5 7 71 true s1 = .ok (false, s1) :=
  ⟨State.new_wellFormed 4 4,
    Insert_GetValue_Insert (State.new_wellFormed 4 4) 7 70 71
      (fun _ he => absurd he (List.not_mem_nil _)) [] true true (by decide)⟩

/-- Claim C2: on every well-formed state that holds the pair `(key, v0)`, `Insert(key,
value)` returns false and leaves the whole state as it was (root page id, page table with
every node, header record), and `GetValue(key)` still yields the stored value `v0`. -/
theorem Insert_present_key_no_change {s : State} {es : List MappingType} {levels : Nat}
    (hw : WellFormed s es levels) (key : KeyType) (value v0 : ValueType)
    (hv : (key, v0) ∈ es) (result : List ValueType) (transaction transaction1 : Bool)
    {fuel : Nat} (hf : levels ≤ fuel) :
    Insert fuel key value transaction s = .ok (false, s) ∧
      GetValue fuel key result transaction1 s = .ok (true, result ++ [v0], s) := by
  have hlook := LookupIn_some hw.sorted hv
  refine ⟨Insert_duplicate_wellFormed hw key value transaction hlook hf, ?_⟩
  rw [GetValue_wellFormed hw key result transaction1 hf, hlook]

/-- The example of the specification for C2: `Insert(10, 1)` returns true, `Insert(10, 2)`
returns false without a change, and `GetValue(10)` yields 1. -/
theorem Insert_present_key_no_change_witness :
    ∃ s, Insert 5 10 1 true (State.new 4 4) = .ok (true, s) ∧
      Insert 5 10 2 true s = .ok (false, s) ∧
      GetValue 5 10 [] true s = .ok (true, [] ++ [1], s) := by
  obtain ⟨s, levels, h1, hw, -, hle, -, -⟩ :=
    Insert_wellFormed (State.new_wellFormed 4 4) 10 1
      (fun _ he => absurd he (List.not_mem_nil _)) (Nat.zero_le 5)
  exact ⟨s, h1, Insert_present_key_no_change hw 10 2 1 (List.mem_singleton.2 rfl) [] true true
    (le_trans hle (by decide))⟩

/-- The second case of C3 for an internal maximum size below 4: with leaf maximum size 2
and internal maximum size 3, `Insert(10)` after the keys 53 and 55 splits the root into an
internal node with one slot and one with two, and `Remove(10)` reads `ValueAt(1)` of the
one-slot parent for the sibling (line 291), a slot past its size. The source goes on with
what the slot holds; the model has no value for it and stops. -/
theorem Remove_one_child_parent :
    (InsertAll 8 true [(53, 1), (55, 2)] (State.new 2 3) >>= fun s =>
      Insert 8 10 3 true s >>= fun r =>
      Remove 8 10 true r.2 >>= fun s1 => Find 8 10 true s1) = .error .out_of_range := rfl

/-- Claim C4 fails on the code: with leaf maximum size 4 and the keys 1 and 2 in the root
leaf, `GetValue(2)` finds the value 20 before `Remove(1)`; afterwards the tree is empty and
`GetValue(2)` returns false. -/
theorem Remove_loses_other_key :
    (InsertAll 8 true [(1, 10), (2, 20)] (State.new 4 4) >>= fun s =>
      Find 8 2 true s >>= fun before =>
      Remove 8 1 true s >>= fun s1 =>
      Find 8 2 true s1 >>= fun after => pure (before, after, s1.root_page_id_)) =
      .ok ((true, [20]), (false, []), INVALID_PAGE_ID) := rfl

/-- Claim C5 fails on the code: with leaf maximum size 4 and the key 1 alone in the root
leaf (page 1), `Remove(5)` of the absent key 5 sets the root page id to `INVALID_PAGE_ID`,
and `GetValue(1)` returns false afterwards. -/
theorem Remove_absent_key_empties_tree :
    (InsertAll 8 true [(1, 10)] (State.new 4 4) >>= fun s =>
      Find 8 5 true s >>= fun absent =>
      Remove 8 5 true s >>= fun s1 =>
      Find 8 1 true s1 >>= fun after =>
      pure (absent, s.root_page_id_, s1.root_page_id_, after)) =
      .ok ((false, []), 1, INVALID_PAGE_ID, (false, [])) := rfl

/-- Claim C6 fails on the code for the empty set of keys: `begin()` on the empty tree uses
the null page that `FindLeafPage` returns, so the walk does not start. With keys, the walk
yields them in increasing order, as for 3, 1, 2, 5, 4. -/
theorem Walk_empty_tree_null_pointer :
    (InsertAll 8 true [] (State.new 4 4) >>= Walk 8) = .error .null_pointer ∧
      (InsertAll 8 true [(3, 3), (1, 1), (2, 2), (5, 5), (4, 4)] (State.new 2 3) >>= Walk 8) =
        .ok [1, 2, 3, 4, 5] := ⟨rfl, rfl⟩

/-- Claim C7: a call of `GetValue` that returns has appended exactly one value and returned
true, or has left the result as it was and returned false; on the empty tree it returns
false with the result unchanged; on a state that holds a tree it returns, with the value
that `Lookup` finds for the key in the leaf of the descent appended, or with false and the
result unchanged when `Lookup` finds none. -/
theorem GetValue_appends_at_most_one (fuel : Nat) (key : KeyType) (result : List ValueType)
    (transaction : Bool) (s : State) :
    (∀ found res s1, GetValue fuel key result transaction s = .ok (found, res, s1) →
      (found = true ∧ ∃ v, res = result ++ [v]) ∨ (found = false ∧ res = result)) ∧
    (s.root_page_id_ = INVALID_PAGE_ID →
      GetValue fuel key result transaction s = .ok (false, result, s)) ∧
    (∀ (h : Nat) (t : Tree h), Holds s h t → h < fuel →
      ∃ L, Tree.findLeaf key false h t = some L ∧
        GetValue fuel key result transaction s =
          .ok (match LeafPage.LookupIn key L.arr with
            | some v => (true, result ++ [v], s)
            | none => (false, result, s))) := by
  refine ⟨fun found res s1 hg => GetValue_shape fuel key result transaction s hg,
    fun hroot => GetValue_empty hroot fuel key result transaction, fun h t hs hf => ?_⟩
  obtain ⟨L, hL⟩ := Tree.findLeaf_some key false h t hs.ok
  exact ⟨L, hL, GetValue_holds hs key result transaction hL hf⟩

/-- The instances of C7 on the empty tree and on the tree that holds the pair `(7, 70)`. -/
theorem GetValue_appends_at_most_one_witness :
    GetValue 5 7 [1] true (State.new 4 4) = .ok (false, [1], State.new 4 4) ∧
      ∃ s, Insert 5 7 70 true (State.new 4 4) = .ok (true, s) ∧
        GetValue 5 7 [1] true s = .ok (true, [1] ++ [70], s) := by
  refine ⟨(GetValue_appends_at_most_one 5 7 [1] true (State.new 4 4)).2.1 rfl, ?_⟩
  obtain ⟨s, h1, hs, -⟩ := Insert_empty (State.new_holdsEmpty 4 4) 5 7 70
  obtain ⟨L, hL, hg⟩ := (GetValue_appends_at_most_one 5 7 [1] true s).2.2 0 _ hs (by decide)
  have hLe : L.arr = [(7, 70)] := by
    simp only [Tree.findLeaf, Option.some.injEq] at hL
    rw [← hL]
  rw [hLe] at hg
  exact ⟨s, h1, hg⟩

/-- Claim C8 fails on the code: with leaf maximum size 2 and internal maximum size 3, after
`Insert` of 1, 2 and 3 the page 3 is an internal node that is not the root (its parent is
the root, page 6) and has size 1, below its minimum size 2. -/
theorem Insert_internal_node_below_min_size :
    (InsertAll 8 true [(1, 1), (2, 2), (3, 3)] (State.new 2 3) >>= fun s =>
      FetchPage s 3 >>= fun p =>
      pure (s.root_page_id_, p.IsLeafPage, p.GetParentPageId, p.GetSize, p.GetMinSize)) =
      .ok (6, false, 6, 1, 2) := rfl

/-- Claim C10 fails on the code: `AdjustRoot` of a root leaf of size 1 returns true and sets
the root page id to `INVALID_PAGE_ID`, and `AdjustRoot` of an internal root of size 2
returns true and makes its first child (page 3) the root. -/
theorem AdjustRoot_never_keeps :
    (InsertAll 8 true [(1, 10)] (State.new 4 4) >>= fun s =>
      FetchPage s s.root_page_id_ >>= fun p =>
      AdjustRoot s s.root_page_id_ >>= fun r =>
      pure (p.IsLeafPage, p.GetSize, r.1, s.root_page_id_, r.2.root_page_id_)) =
      .ok (true, 1, true, 1, INVALID_PAGE_ID) ∧
    (InsertAll 8 true [(1, 1), (2, 2), (3, 3)] (State.new 2 3) >>= fun s =>
      FetchPage s s.root_page_id_ >>= fun p =>
      AdjustRoot s s.root_page_id_ >>= fun r =>
      pure (p.IsLeafPage, p.GetSize, r.1, s.root_page_id_, r.2.root_page_id_)) =
      .ok (false, 2, true, 6, 3) := ⟨rfl, rfl⟩

end BPlusTree

namespace BPlusTree

/-- Claim C11, as it holds on the code: on a tree whose root `P` has the two leaves `A` and
`B` and a maximum size of at least 3 (so that one child is below its minimum size), with the
order invariant, a `Remove(key)` after which the leaf of the descent is below its minimum
size and fits into one node with its sibling completes, and afterwards the tree is the
single leaf `A` (one level less) with the remaining pairs of both leaves in key order:
`root_page_id_` is the id of `A`, its parent pointer is `INVALID_PAGE_ID`, its next pointer
is that of `B`, and the pages of the old root and of `B`, scheduled for deletion, are gone
after the `Unlock` that ends the call. -/
theorem Remove_merge_collapses_root {s : State} {P : ANode (Tree 0)} {k0 kb : KeyType}
    {A B : ALeaf} (hs : Holds s 1 P) (ho : Tree.Ord 1 P none none)
    (hk : P.kids = [((k0, A) : KeyType × Tree 0), ((kb, B) : KeyType × Tree 0)])
    (key : KeyType) (hroot : 3 ≤ P.max_size)
    (hunder : (LeafPage.RemoveIn key (if kb ≤ key then B else A).arr).length <
      ((if kb ≤ key then B else A).max_size - 1 + 1) / 2)
    (hmerge : (if kb ≤ key then A else B).arr.length +
      (LeafPage.RemoveIn key (if kb ≤ key then B else A).arr).length ≤
        (if kb ≤ key then B else A).max_size)
    {fuel : Nat} (hf : 1 < fuel) :
    ∃ s1, Remove fuel key true s = .ok s1 ∧
      WellFormed s1 (LeafPage.RemoveIn key (A.arr ++ B.arr)) 1 ∧
      s1.root_page_id_ = A.id ∧
      s1.pages A.id = some (.leaf
        { parent_page_id := INVALID_PAGE_ID, max_size := A.max_size, next_page_id := B.next,
          array := LeafPage.RemoveIn key (A.arr ++ B.arr) }) ∧
      s1.pages P.id = none ∧ s1.pages B.id = none := by
  have harr := RemoveIn_two_leaves hk ho key
  have hsorted : ((LeafPage.RemoveIn key (A.arr ++ B.arr)).map (·.1)).Pairwise (· < ·) := by
    have h1 := Tree.Ord.entries_sorted 1 P none none ho
    have h2 : Tree.entries 1 P = A.arr ++ B.arr := by
      rw [Tree.entries_succ, hk]
      simp [Tree.entries_zero]
    rw [h2] at h1
    exact h1.sublist ((RemoveIn_sublist key _).map _)
  obtain ⟨s1, hrem, hh, hp, hb⟩ : ∃ s1, Remove fuel key true s = .ok s1 ∧
      Holds s1 0 (ALeaf.mk A.id A.max_size B.next (LeafPage.RemoveIn key (A.arr ++ B.arr))) ∧
      s1.pages P.id = none ∧ s1.pages B.id = none := by
    rw [← harr]
    by_cases hc : kb ≤ key
    · simp only [hc, if_true] at hunder hmerge ⊢
      exact Remove_two_leaves hs hk key hroot (Or.inl ⟨hc, rfl, rfl, rfl, rfl⟩) hunder hmerge hf
    · simp only [hc, if_false] at hunder hmerge ⊢
      exact Remove_two_leaves hs hk key hroot (Or.inr ⟨hc, rfl, rfl, rfl, rfl⟩) hunder hmerge hf
  refine ⟨s1, hrem, Or.inr ⟨0, _, hh, ?_, rfl, rfl⟩, hh.root, hh.rep, hp, hb⟩
  show Bnd none none ∧ LeafOrd (LeafPage.RemoveIn key (A.arr ++ B.arr)) none none
  exact ⟨fun _ _ h => (by cases h), hsorted,
    fun e _ => ⟨fun _ h => (by cases h), fun _ h => (by cases h)⟩⟩

/-- The scenario S4 of the specification as an instance of C11: leaf and internal maximum
size 4, the leaves `[1, 2]` (page 1) and `[3, 4]` (page 2) under the root `[_, 3]` (page 3);
`Remove(4)` gives the single root leaf `[1, 2, 3]` on page 1, and the pages 2 and 3 are
deleted. -/
theorem Remove_merge_collapses_root_witness :
    ∃ s1, Remove 8 4 true
        (State.ofList
          [(1, .leaf { parent_page_id := 3, max_size := 4, next_page_id := 2,
                       array := [(1, 1), (2, 2)] }),
           (2, .leaf { parent_page_id := 3, max_size := 4, next_page_id := -1,
                       array := [(3, 3), (4, 4)] }),
           (3, .internal { parent_page_id := -1, max_size := 4, array := [(0, 1), (3, 2)] })]
          3 4 4 4) = .ok s1 ∧
      WellFormed s1 [(1, 1), (2, 2), (3, 3)] 1 ∧ s1.root_page_id_ = 1 ∧
      s1.pages 1 = some (.leaf
        { parent_page_id := -1, max_size := 4, next_page_id := -1,
          array := [(1, 1), (2, 2), (3, 3)] }) ∧
      s1.pages 3 = none ∧ s1.pages 2 = none :=
  @Remove_merge_collapses_root _
    (ANode.mk 3 4 [((0, ALeaf.mk 1 4 2 [(1, 1), (2, 2)]) : KeyType × Tree 0),
      ((3, ALeaf.mk 2 4 (-1) [(3, 3), (4, 4)]) : KeyType × Tree 0)])
    0 3 (ALeaf.mk 1 4 2 [(1, 1), (2, 2)]) (ALeaf.mk 2 4 (-1) [(3, 3), (4, 4)])
    (State.ofList_holds rfl
      (by simp [Rep, lookupPage, slotsOf, Tree.pid, INVALID_PAGE_ID])
      (by simp [Tree.ids]) (by simp [Tree.Ok]) (by simp))
    (by simp [Tree.Ord, KidsOrd, LeafOrd, Bnd, LoOk, HiOk])
    rfl 4 (by decide) (by decide) (by decide) 8 (by decide)

/-- Claim C11 as stated fails on the code: with leaf maximum size 4 and internal maximum
size 2, the keys 1 to 4 give the leaves `[1, 2]` and `[3, 4]` under the root of page 3;
`Remove(4)` merges the leaves into `[1, 2, 3]`, but a root with one child is not below its
minimum size 1, so `AdjustRoot` is not called: the root is still the internal page 3, now
with the one slot of page 1, and page 1 still has the parent 3. -/
theorem Remove_merge_keeps_one_child_root :
    (InsertAll 8 true [(1, 1), (2, 2), (3, 3), (4, 4)] (State.new 4 2) >>= fun s =>
      Remove 8 4 true s >>= fun s1 =>
      pure ([1, 2, 3].map s.pages, s1.root_page_id_, [1, 2, 3].map s1.pages)) =
      .ok ([some (.leaf { parent_page_id := 3, max_size := 4, next_page_id := 2,
                          array := [(1, 1), (2, 2)] }),
            some (.leaf { parent_page_id := 3, max_size := 4, next_page_id := -1,
                          array := [(3, 3), (4, 4)] }),
            some (.internal { parent_page_id := -1, max_size := 2,
                              array := [(0, 1), (3, 2)] })],
        3,
        [some (.leaf { parent_page_id := 3, max_size := 4, next_page_id := -1,
                       array := [(1, 1), (2, 2), (3, 3)] }),
         none,
         some (.internal { parent_page_id := -1, max_size := 2, array := [(0, 1)] })]) := rfl

/-- Claim C12 fails on the code: in the scenario S3 (leaf and internal maximum size 4, the
leaves `[1, 2]` and `[3, 4, 5]` under the root `[_, 3]`), after `Remove(1)` the root page is
a leaf, not the internal node with the separator 4. -/
theorem Remove_S3_root_is_leaf :
    (InsertAll 8 true [(1, 1), (2, 2), (3, 3), (4, 4), (5, 5)] (State.new 4 4) >>= fun s =>
      Remove 8 1 true s >>= fun s1 => FetchPage s1 s1.root_page_id_) =
      .ok (.leaf { parent_page_id := -1, max_size := 4, next_page_id := -1,
                   array := [(2, 2), (3, 3), (4, 4), (5, 5)] }) := rfl

/-- Claim C12, as it holds on the code. In the scenario S3 the leaf `[2]` and its sibling
`[3, 4, 5]` hold 4 pairs together, which is not more than the maximum size 4, so
`Remove(1)` merges them and the root collapses: the tree is the root leaf `[2, 3, 4, 5]` on
page 1, and the pages 2 and 3 are deleted. A borrow needs more pairs than the maximum size:
with leaf maximum size 6 and the leaves `[1, 2, 3]` and `[4, 5, 6, 7, 8]` under the root
`[_, 4]`, `Remove(1)` moves the pair of 4 to the left leaf, the leaves are `[2, 3, 4]` and
`[5, 6, 7, 8]`, and the root is still the internal page 3, with the separator 5. -/
theorem Remove_S3_merges :
    (InsertAll 8 true [(1, 1), (2, 2), (3, 3), (4, 4), (5, 5)] (State.new 4 4) >>= fun s =>
      Remove 8 1 true s >>= fun s1 =>
      pure ([1, 2, 3].map s.pages, s1.root_page_id_, [1, 2, 3].map s1.pages)) =
      .ok ([some (.leaf { parent_page_id := 3, max_size := 4, next_page_id := 2,
                          array := [(1, 1), (2, 2)] }),
            some (.leaf { parent_page_id := 3, max_size := 4, next_page_id := -1,
                          array := [(3, 3), (4, 4), (5, 5)] }),
            some (.internal { parent_page_id := -1, max_size := 4,
                              array := [(0, 1), (3, 2)] })],
        1,
        [some (.leaf { parent_page_id := -1, max_size := 4, next_page_id := -1,
                       array := [(2, 2), (3, 3), (4, 4), (5, 5)] }), none, none]) ∧
    (InsertAll 8 true [(1, 1), (2, 2), (3, 3), (4, 4), (5, 5), (6, 6), (7, 7), (8, 8)]
        (State.new 6 4) >>= fun s =>
      Remove 8 1 true s >>= fun s1 =>
      pure ([1, 2, 3].map s.pages, s1.root_page_id_, [1, 2, 3].map s1.pages)) =
      .ok ([some (.leaf { parent_page_id := 3, max_size := 6, next_page_id := 2,
                          array := [(1, 1), (2, 2), (3, 3)] }),
            some (.leaf { parent_page_id := 3, max_size := 6, next_page_id := -1,
                          array := [(4, 4), (5, 5), (6, 6), (7, 7), (8, 8)] }),
            some (.internal { parent_page_id := -1, max_size := 4,
                              array := [(0, 1), (4, 2)] })],
        3,
        [some (.leaf { parent_page_id := 3, max_size := 6, next_page_id := 2,
                       array := [(2, 2), (3, 3), (4, 4)] }),
         some (.leaf { parent_page_id := 3, max_size := 6, next_page_id := -1,
                       array := [(5, 5), (6, 6), (7, 7), (8, 8)] }),
         some (.internal { parent_page_id := -1, max_size := 4,
                           array := [(0, 1), (5, 2)] })]) :=
  ⟨rfl, rfl⟩

/-- Claim C13: on a tree that is a root leaf `L` with `max_size - 1` pairs, `Insert` of a
key that is not there (with a transaction) returns true and splits the leaf: the lower half
of the pairs stays on the page of `L`, the upper half (not empty, first pair `e`) is on the
new page `next_page_id`, and the page after it is the new root, an internal node with the
two slots `(unused key, id of L)` and `(key of e, new leaf)`; both leaves have the new root
as parent, `root_page_id_` is the new root, the next pointer of the left leaf is the new
leaf and the next pointer of the new leaf is the old one of `L`. -/
theorem Insert_splits_root_leaf {s : State} {L : ALeaf} (hs : Holds s 0 L) (key : KeyType)
    (value : ValueType) (habs : LeafPage.LookupIn key L.arr = none)
    (hfull : L.arr.length = L.max_size - 1) {fuel : Nat} (hf : 0 < fuel) :
    ∃ (s1 : State) (e : MappingType) (rest : List MappingType),
      Insert fuel key value true s = .ok (true, s1) ∧
      (LeafPage.InsertIn key value L.arr).drop
        ((LeafPage.InsertIn key value L.arr).length / 2) = e :: rest ∧
      s1.root_page_id_ = s.next_page_id + 1 ∧
      s1.pages (s.next_page_id + 1) = some (.internal
        { parent_page_id := INVALID_PAGE_ID, max_size := s.internal_max_size_,
          array := [(0, L.id), (e.1, s.next_page_id)] }) ∧
      s1.pages L.id = some (.leaf
        { parent_page_id := s.next_page_id + 1, max_size := L.max_size,
          next_page_id := s.next_page_id,
          array := (LeafPage.InsertIn key value L.arr).take
            ((LeafPage.InsertIn key value L.arr).length / 2) }) ∧
      s1.pages s.next_page_id = some (.leaf
        { parent_page_id := s.next_page_id + 1, max_size := s.leaf_max_size_,
          next_page_id := L.next, array := e :: rest }) := by
  have hnot : ¬ L.arr.length < L.max_size - 1 := by omega
  obtain ⟨s1, hins, hh, -, -, -⟩ := @Insert_new s 0 L hs key value L rfl habs fuel hf
  rw [insRoot_full_leaf _ _ key value L _ hnot] at hh
  have hlen := InsertIn_length key value L.arr
  obtain ⟨e, rest, hdrop⟩ : ∃ e rest, (LeafPage.InsertIn key value L.arr).drop
      ((LeafPage.InsertIn key value L.arr).length / 2) = e :: rest := by
    cases hd : (LeafPage.InsertIn key value L.arr).drop
        ((LeafPage.InsertIn key value L.arr).length / 2) with
    | nil =>
      have := congrArg List.length hd
      simp only [List.length_drop, List.length_nil] at this
      omega
    | cons e rest => exact ⟨e, rest, rfl⟩
  have hrep := hh.rep
  simp only [Rep, hdrop, firstKey] at hrep
  refine ⟨s1, e, rest, hins, hdrop, hh.root, ?_, ?_, ?_⟩
  · simpa [slotsOf, Tree.pid] using hrep.1
  · have := hrep.2 _ (List.mem_cons_self _ _)
    simpa [Rep] using this
  · have := hrep.2 _ (List.mem_cons_of_mem _ (List.mem_cons_self _ _))
    simpa [Rep] using this

/-- The scenario S1 of the specification as an instance of C13: leaf maximum size 4 and the
root leaf `[1, 2, 3]` on page 1; `Insert(4)` gives the root `[_, 3]` on page 3 over the
leaves `[1, 2]` (page 1) and `[3, 4]` (page 2). -/
theorem Insert_splits_root_leaf_witness :
    ∃ s1, Insert 8 4 4 true
        (State.ofList
          [(1, .leaf { parent_page_id := -1, max_size := 4, next_page_id := -1,
                       array := [(1, 1), (2, 2), (3, 3)] })] 1 2 4 4) = .ok (true, s1) ∧
      s1.root_page_id_ = 3 ∧
      s1.pages 3 = some (.internal
        { parent_page_id := -1, max_size := 4, array := [(0, 1), (3, 2)] }) ∧
      s1.pages 1 = some (.leaf
        { parent_page_id := 3, max_size := 4, next_page_id := 2,
          array := [(1, 1), (2, 2)] }) ∧
      s1.pages 2 = some (.leaf
        { parent_page_id := 3, max_size := 4, next_page_id := -1,
          array := [(3, 3), (4, 4)] }) := by
  obtain ⟨s1, e, rest, h1, hdrop, hroot, hp3, hp1, hp2⟩ :=
    @Insert_splits_root_leaf
      (State.ofList
        [(1, .leaf { parent_page_id := -1, max_size := 4, next_page_id := -1,
                     array := [(1, 1), (2, 2), (3, 3)] })] 1 2 4 4)
      (ALeaf.mk 1 4 (-1) [(1, 1), (2, 2), (3, 3)])
      (State.ofList_holds rfl (by simp [Rep, lookupPage, INVALID_PAGE_ID])
        (by simp [Tree.ids]) trivial (by simp)) 4 4 rfl rfl 8 (by decide)
  have hd : [((3, 3) : MappingType), (4, 4)] = e :: rest := hdrop
  cases hd
  exact ⟨s1, h1, hroot, hp3, hp1, hp2⟩

/-- Claim C14 fails on the code: after the keys 1 to 9 in ascending order (leaf and internal
maximum size 4) the root has the two slots `[_, 5]`, not the separators `[_, 3, 5, 7, 9]`
(five slots do not fit into a node of maximum size 4). -/
theorem Insert_1_to_9_root :
    (InsertAll 8 true [(1, 1), (2, 2), (3, 3), (4, 4), (5, 5), (6, 6), (7, 7), (8, 8), (9, 9)]
        (State.new 4 4) >>= fun s => FetchPage s s.root_page_id_) =
      .ok (.internal { parent_page_id := -1, max_size := 4, array := [(0, 3), (5, 6)] }) := rfl

/-- Claim C14, as it holds on the code: after the keys 1 to 9 in ascending order the tree
has three levels: the root `[_, 5]` (page 7) over the internal nodes `[_, 3]` (page 3) and
`[_, 7]` (page 6, slot 0 keeps the key 5), over the leaves `[1, 2]`, `[3, 4]`, `[5, 6]` and
`[7, 8, 9]`; the walk of the iterator from `begin()` yields 1 to 9. -/
theorem Insert_1_to_9_tree :
    (InsertAll 8 true [(1, 1), (2, 2), (3, 3), (4, 4), (5, 5), (6, 6), (7, 7), (8, 8), (9, 9)]
        (State.new 4 4) >>= fun s =>
      Walk 20 s >>= fun keys =>
      pure (s.root_page_id_, [7, 3, 6, 1, 2, 4, 5].map s.pages, keys)) =
      .ok (7,
        [some (.internal { parent_page_id := -1, max_size := 4, array := [(0, 3), (5, 6)] }),
         some (.internal { parent_page_id := 7, max_size := 4, array := [(0, 1), (3, 2)] }),
         some (.internal { parent_page_id := 7, max_size := 4, array := [(5, 4), (7, 5)] }),
         some (.leaf { parent_page_id := 3, max_size := 4, next_page_id := 2,
                       array := [(1, 1), (2, 2)] }),
         some (.leaf { parent_page_id := 3, max_size := 4, next_page_id := 4,
                       array := [(3, 3), (4, 4)] }),
         some (.leaf { parent_page_id := 6, max_size := 4, next_page_id := 5,
                       array := [(5, 5), (6, 6)] }),
         some (.leaf { parent_page_id := 6, max_size := 4, next_page_id := -1,
                       array := [(7, 7), (8, 8), (9, 9)] })],
        [1, 2, 3, 4, 5, 6, 7, 8, 9]) := rfl

/-- Claim C15: `IsSafe` is true for `SEARCH` on every node; for `INSERT` it is true exactly
when `size < max_size - 1` (over the integers, as in the source); for `DELETE` it is true
exactly when `size > min_size`. -/
theorem IsSafe_exact :
    (∀ node : BPlusTreePage, IsSafe .SEARCH node = true) ∧
    (∀ node : BPlusTreePage,
      IsSafe .INSERT node = true ↔ (node.GetSize : Int) < (node.GetMaxSize : Int) - 1) ∧
    (∀ node : BPlusTreePage, IsSafe .DELETE node = true ↔ node.GetSize > node.GetMinSize) := by
  refine ⟨fun _ => rfl, fun node => ?_, fun node => ?_⟩
  · simp only [IsSafe, decide_eq_true_eq]
    omega
  · simp only [IsSafe, decide_eq_true_eq]

/-- Claim C16 fails on the code: after the keys 10, 20, ..., 100 (leaf and internal maximum
size 4) the walk from `Begin(35)` yields 40, 50, ..., 100, but `Begin(45)` is the iterator
on the leaf `[30, 40]` (page 2, next leaf 4) at the slot 2, which is the size of the leaf
and not a slot in use: the dereference does not yield 50, and the walk yields nothing. -/
theorem Begin_past_last_key_of_leaf :
    (InsertAll 8 true [(10, 10), (20, 20), (30, 30), (40, 40), (50, 50), (60, 60), (70, 70),
        (80, 80), (90, 90), (100, 100)] (State.new 4 4) >>= fun s =>
      Begin 8 35 s >>= fun it35 =>
      walkFrom 20 s it35 >>= fun from35 =>
      Begin 8 45 s >>= fun it45 =>
      FetchLeaf s 2 >>= fun leaf =>
      pure (from35.map (·.1), it45, leaf.array, leaf.next_page_id,
        (it45.deref s).toOption, (walkFrom 20 s it45).toOption)) =
      .ok ([40, 50, 60, 70, 80, 90, 100],
        { leaf_page := some 2, index := 2, max_size := 4 },
        [(30, 30), (40, 40)], 4, none, none) := rfl

/-- Claim C17: the step function of the iterator, with the calls to the buffer pool that
it makes. `isEnd` holds exactly when the leaf is null. `operator++` does nothing on a null
leaf; on the leaf `p` it moves to the next slot when `index < size - 1`, otherwise it
unpins `p` and either fetches the next leaf and stands at its slot 0, or, when the next
page id is `INVALID_PAGE_ID`, becomes the end iterator. Every step that returns keeps the
balance of pins: the pins minus the unpins of the step make up for the change of the one
pin that a non-end iterator holds on its leaf. The iterators that `begin()` and
`Begin(key)` return are not the end iterator, and their calls leave exactly one pin, on
the leaf of the iterator. -/
theorem iterator_step (s : State) (it : IndexIterator) :
    (it.isEnd = true ↔ it.leaf_page = none) ∧
    (it.leaf_page = none → Traced.next s it = .ok (it, [])) ∧
    (∀ (p : page_id_t) (l : LeafPage), it.leaf_page = some p → s.pages p = some (.leaf l) →
      (it.index < (l.GetSize : Int) - 1 →
        Traced.next s it = .ok ({ it with index := it.index + 1 }, [])) ∧
      (¬ it.index < (l.GetSize : Int) - 1 → l.next_page_id ≠ INVALID_PAGE_ID →
        ∀ l2 : LeafPage, s.pages l.next_page_id = some (.leaf l2) →
          Traced.next s it =
            .ok ({ leaf_page := some l.next_page_id, index := 0, max_size := l2.max_size },
              [.UnpinPage p true, .FetchPage l.next_page_id])) ∧
      (¬ it.index < (l.GetSize : Int) - 1 → l.next_page_id = INVALID_PAGE_ID →
        Traced.next s it =
          .ok ({ it with leaf_page := none, index := 0 }, [.UnpinPage p true]))) ∧
    (∀ (it1 : IndexIterator) (calls : List PoolCall), Traced.next s it = .ok (it1, calls) →
      IndexIterator.next s it = .ok it1 ∧
      ∀ q, pins q calls + it.pinsOn q = unpins q calls + it1.pinsOn q) ∧
    (∀ (fuel : Nat) (it0 : IndexIterator) (calls : List PoolCall),
      Traced.begin fuel s = .ok (it0, calls) →
      begin fuel s = .ok it0 ∧ it0.isEnd = false ∧
        ∀ q, pins q calls = unpins q calls + it0.pinsOn q) ∧
    (∀ (fuel : Nat) (key : KeyType) (it0 : IndexIterator) (calls : List PoolCall),
      Traced.Begin fuel key s = .ok (it0, calls) →
      Begin fuel key s = .ok it0 ∧ it0.isEnd = false ∧
        ∀ q, pins q calls = unpins q calls + it0.pinsOn q) := by
  refine ⟨?_, ?_, ?_, ?_, ?_, ?_⟩
  · simp [IndexIterator.isEnd, Option.isNone_iff_eq_none]
  · intro h
    simp [Traced.next, h, pure, Except.pure]
  · intro p l hp hl
    refine ⟨fun h1 => ?_, fun h1 h2 l2 hl2 => ?_, fun h1 h2 => ?_⟩
    · simp [Traced.next, hp, FetchLeaf_ok hl, h1, pure, Except.pure]
    · simp [Traced.next, hp, FetchLeaf_ok hl, h1, h2, FetchLeaf_ok hl2, pure, Except.pure]
    · simp [Traced.next, hp, FetchLeaf_ok hl, h1, h2, pure, Except.pure]
  · intro it1 calls h
    simp only [Traced.next] at h
    simp only [IndexIterator.next]
    cases hp : it.leaf_page with
    | none =>
      simp only [hp, pure, Except.pure, Except.ok.injEq, Prod.mk.injEq] at h
      obtain ⟨rfl, rfl⟩ := h
      exact ⟨rfl, fun q => rfl⟩
    | some p =>
      simp only [hp] at h ⊢
      cases hf : FetchLeaf s p with
      | error e => simp [hf] at h
      | ok l =>
        simp only [hf, ok_bind] at h ⊢
        split at h
        · rename_i h1
          simp only [pure, Except.pure, Except.ok.injEq, Prod.mk.injEq] at h
          obtain ⟨rfl, rfl⟩ := h
          refine ⟨by simp [h1, pure, Except.pure], fun q => ?_⟩
          simp [IndexIterator.pinsOn, hp, pins, unpins]
        · rename_i h1
          split at h
          · rename_i h2
            cases hf2 : FetchLeaf s l.next_page_id with
            | error e => simp [hf2] at h
            | ok l2 =>
              simp only [hf2, ok_bind, pure, Except.pure, Except.ok.injEq,
                Prod.mk.injEq] at h
              obtain ⟨rfl, rfl⟩ := h
              refine ⟨by simp [h1, h2, pure, Except.pure], fun q => ?_⟩
              simp only [IndexIterator.pinsOn, hp, pins, unpins, Option.some.injEq]
              by_cases hq1 : p = q <;> by_cases hq2 : l.next_page_id = q <;>
                simp only [hq1, hq2, if_true, if_false]
          · rename_i h2
            simp only [pure, Except.pure, Except.ok.injEq, Prod.mk.injEq] at h
            obtain ⟨rfl, rfl⟩ := h
            refine ⟨by simp [h1, h2, pure, Except.pure], fun q => ?_⟩
            simp only [IndexIterator.pinsOn, hp, pins, unpins, Option.some.injEq]
            by_cases hq1 : p = q <;> simp [hq1]
  · intro fuel it0 calls h
    simp only [Traced.begin] at h
    split at h
    · simp at h
    · rename_i hemp
      cases hu : Traced.unlatched 0 true fuel s s.root_page_id_ [.FetchPage s.root_page_id_] with
      | error e => simp [hu] at h
      | ok r =>
        obtain ⟨leaf, calls1⟩ := r
        obtain ⟨h1, h2⟩ := Traced.start_spec 0 true hu
        simp only [hu, ok_bind] at h
        cases hf : FetchLeaf s leaf with
        | error e => simp [hf] at h
        | ok l =>
          simp only [hf, ok_bind, pure, Except.pure, Except.ok.injEq, Prod.mk.injEq] at h
          obtain ⟨rfl, rfl⟩ := h
          refine ⟨?_, rfl, fun q => ?_⟩
          · simp [begin, FindLeafPage, hemp, h1, hf, pure, Except.pure]
          · rw [h2 q]
            simp [IndexIterator.pinsOn]
  · intro fuel key it0 calls h
    simp only [Traced.Begin] at h
    split at h
    · simp at h
    · rename_i hemp
      cases hu : Traced.unlatched key false fuel s s.root_page_id_
          [.FetchPage s.root_page_id_] with
      | error e => simp [hu] at h
      | ok r =>
        obtain ⟨leaf, calls1⟩ := r
        obtain ⟨h1, h2⟩ := Traced.start_spec key false hu
        simp only [hu, ok_bind] at h
        cases hf : FetchLeaf s leaf with
        | error e => simp [hf] at h
        | ok l =>
          simp only [hf, ok_bind, pure, Except.pure, Except.ok.injEq, Prod.mk.injEq] at h
          obtain ⟨rfl, rfl⟩ := h
          refine ⟨?_, rfl, fun q => ?_⟩
          · simp [Begin, FindLeafPage, hemp, h1, hf, pure, Except.pure]
          · rw [h2 q]
            simp [IndexIterator.pinsOn]

/-- Claim C17 on the tree of the leaves `[1, 2]` (page 1) and `[3, 4]` (page 2): the step
inside page 1, the step from page 1 to page 2 (unpin 1, fetch 2), the step off the last
leaf (unpin 2), the step of the end iterator, and the balance of pins of the step between
the leaves and of `begin()`. -/
theorem iterator_step_witness :
    Traced.next State.twoLeaves { leaf_page := some 1, index := 0, max_size := 4 } =
      .ok ({ leaf_page := some 1, index := 1, max_size := 4 }, []) ∧
    Traced.next State.twoLeaves { leaf_page := some 1, index := 1, max_size := 4 } =
      .ok ({ leaf_page := some 2, index := 0, max_size := 4 },
        [.UnpinPage 1 true, .FetchPage 2]) ∧
    Traced.next State.twoLeaves { leaf_page := some 2, index := 1, max_size := 4 } =
      .ok ({ leaf_page := none, index := 0, max_size := 4 }, [.UnpinPage 2 true]) ∧
    Traced.next State.twoLeaves { leaf_page := none, index := 0, max_size := 4 } =
      .ok ({ leaf_page := none, index := 0, max_size := 4 }, []) ∧
    (IndexIterator.next State.twoLeaves { leaf_page := some 1, index := 1, max_size := 4 } =
        .ok { leaf_page := some 2, index := 0, max_size := 4 } ∧
      ∀ q, pins q [.UnpinPage 1 true, .FetchPage 2] +
          IndexIterator.pinsOn { leaf_page := some 1, index := 1, max_size := 4 } q =
        unpins q [.UnpinPage 1 true, .FetchPage 2] +
          IndexIterator.pinsOn { leaf_page := some 2, index := 0, max_size := 4 } q) ∧
    (begin 8 State.twoLeaves = .ok { leaf_page := some 1, index := 0, max_size := 4 } ∧
      ∀ q, pins q [.FetchPage 3, .UnpinPage 3 false, .FetchPage 1] =
        unpins q [.FetchPage 3, .UnpinPage 3 false, .FetchPage 1] +
          IndexIterator.pinsOn { leaf_page := some 1, index := 0, max_size := 4 } q) :=
  ⟨((iterator_step State.twoLeaves { leaf_page := some 1, index := 0, max_size := 4 }).2.2.1
      1 _ rfl rfl).1 (by decide),
    ((iterator_step State.twoLeaves { leaf_page := some 1, index := 1, max_size := 4 }).2.2.1
      1 _ rfl rfl).2.1 (by decide) (by decide) _ rfl,
    ((iterator_step State.twoLeaves { leaf_page := some 2, index := 1, max_size := 4 }).2.2.1
      2 _ rfl rfl).2.2 (by decide) rfl,
    (iterator_step State.twoLeaves { leaf_page := none, index := 0, max_size := 4 }).2.1 rfl,
    (iterator_step State.twoLeaves { leaf_page := some 1, index := 1, max_size := 4 }).2.2.2.1
      _ _ rfl,
    ⟨((iterator_step State.twoLeaves { leaf_page := none, index := 0, max_size := 4 }).2.2.2.2.1
      8 _ _ rfl).1,
    ((iterator_step State.twoLeaves { leaf_page := none, index := 0, max_size := 4 }).2.2.2.2.1
      8 _ _ rfl).2.2⟩⟩

/-- Claim C18 fails on the code: `Remove` with a transaction unpins the sibling that
`CoalesceOrRedistribute` fetches once (line 296) twice, in `Coalesce` (line 350) or
`Redistribute` (line 400) and again in `Unlock` (line 583), which drains the page set that
the sibling was added to (line 298). First part: leaf and internal maximum size 4, the
leaves `[1, 2]` (page 1) and `[3, 4]` (page 2); `Remove(4)` merges, and its calls pin the
sibling page 1 twice (once as the sibling, once as the new root in `AdjustRoot`) and unpin
it three times. Second part: leaf maximum size 6, the leaves `[1, 2, 3]` (page 1) and
`[4, 5, 6, 7, 8]` (page 2); `Remove(1)` borrows, and its calls pin the sibling page 2 once
and unpin it twice. Third part: on the first tree the calls of `GetValue(3)`, of
`Insert(5)` and of the `Insert(6)` that splits are balanced on every page. In each part the
traced run ends in the state of the plain run. -/
theorem Remove_unpins_sibling_twice :
    (InsertAll 8 true [(1, 1), (2, 2), (3, 3), (4, 4)] (State.new 4 4) >>= fun s =>
      Traced.Remove 8 4 true s >>= fun r =>
      Remove 8 4 true s >>= fun s1 =>
      pure (r.2, pins 1 r.2, unpins 1 r.2,
        (r.1.root_page_id_, [1, 2, 3].map r.1.pages) ==
          (s1.root_page_id_, [1, 2, 3].map s1.pages))) =
      .ok ([.FetchPage 3, .FetchPage 2, .FetchPage 2, .FetchPage 3, .UnpinPage 3 false,
          .FetchPage 1, .FetchPage 3, .UnpinPage 2 true, .UnpinPage 1 true, .FetchPage 0,
          .UnpinPage 0 true, .FetchPage 1, .UnpinPage 1 true, .UnpinPage 3 true,
          .UnpinPage 3 true, .DeletePage 3, .UnpinPage 2 true, .DeletePage 2,
          .UnpinPage 1 true], 2, 3, true) ∧
    (InsertAll 8 true [(1, 1), (2, 2), (3, 3), (4, 4), (5, 5), (6, 6), (7, 7), (8, 8)]
        (State.new 6 4) >>= fun s =>
      Traced.Remove 8 1 true s >>= fun r =>
      Remove 8 1 true s >>= fun s1 =>
      pure (r.2, pins 2 r.2, unpins 2 r.2,
        (r.1.root_page_id_, [1, 2, 3].map r.1.pages) ==
          (s1.root_page_id_, [1, 2, 3].map s1.pages))) =
      .ok ([.FetchPage 3, .FetchPage 1, .FetchPage 1, .FetchPage 3, .UnpinPage 3 false,
          .FetchPage 2, .FetchPage 3, .UnpinPage 3 true, .UnpinPage 2 true,
          .UnpinPage 1 true, .UnpinPage 3 true, .UnpinPage 1 true, .UnpinPage 2 true],
        1, 2, true) ∧
    (InsertAll 8 true [(1, 1), (2, 2), (3, 3), (4, 4)] (State.new 4 4) >>= fun s =>
      Traced.GetValue 8 3 [] true s >>= fun g =>
      Traced.Insert 8 5 5 true s >>= fun i5 =>
      Traced.Insert 8 6 6 true i5.2.1 >>= fun i6 =>
      Insert 8 5 5 true s >>= fun j5 =>
      Insert 8 6 6 true j5.2 >>= fun j6 =>
      pure (g.2.2.2, i5.2.2, i6.2.2,
        [0, 1, 2, 3, 4].map (fun q => pins q g.2.2.2 == unpins q g.2.2.2),
        [0, 1, 2, 3, 4].map (fun q => pins q i5.2.2 == unpins q i5.2.2),
        [0, 1, 2, 3, 4].map (fun q => pins q i6.2.2 == unpins q i6.2.2),
        (i6.2.1.root_page_id_, [1, 2, 3, 4].map i6.2.1.pages) ==
          (j6.2.root_page_id_, [1, 2, 3, 4].map j6.2.pages))) =
      .ok ([.FetchPage 3, .FetchPage 2, .UnpinPage 3 false, .FetchPage 2,
          .UnpinPage 2 false, .UnpinPage 2 false],
        [.FetchPage 3, .FetchPage 2, .UnpinPage 3 true, .FetchPage 2, .UnpinPage 2 true,
          .UnpinPage 2 true],
        [.FetchPage 3, .FetchPage 2, .FetchPage 2, .NewPage 4, .FetchPage 3,
          .UnpinPage 4 true, .UnpinPage 2 true, .UnpinPage 3 true, .UnpinPage 3 true,
          .UnpinPage 2 true],
        [true, true, true, true, true], [true, true, true, true, true],
        [true, true, true, true, true], true) :=
  ⟨rfl, rfl, rfl⟩

/-- Claim C19 fails on the code: on every tree, for every key whose removal leaves the
leaf below its minimum size, `Remove` without a transaction does not return: it ends in a
fault of the code (not in the end of the fuel of the model), because
`CoalesceOrRedistribute` calls `transaction->AddIntoPageSet` (line 298) and `Remove` calls
`Unlock(ActionType::DELETE, transaction)` (line 260) without the test for a null
transaction that the lines 254 and 275 make. -/
theorem Remove_without_transaction_faults {s : State} {h : Nat} {t : Tree h}
    (hs : Holds s h t) (key : KeyType) {L : ALeaf}
    (hL : Tree.findLeaf key false h t = some L)
    (hunder : (LeafPage.RemoveIn key L.arr).length < (L.max_size - 1 + 1) / 2)
    {fuel : Nat} (hf : h < fuel) :
    ∃ e, Remove fuel key false s = .error e ∧ e ≠ .out_of_fuel := by
  obtain ⟨p, hp⟩ := (Tree.findLeaf_rep key false h t _ hs.rep L hL).1
  simp only [Rep] at hp
  have hfl : FetchLeaf s L.id = .ok _ := FetchLeaf_ok hp
  have hne : IsEmpty s = false := by
    simp [IsEmpty, hs.root_ne]
  simp only [Remove, hne, Bool.false_eq_true, if_false,
    FindLeafPage_unlatched hs key false .DELETE hL hf, ok_bind, hfl]
  have hlt : ¬ ((LeafPage.RemoveAndDeleteRecord
      { parent_page_id := p, max_size := L.max_size, next_page_id := L.next, array := L.arr }
      key).GetSize ≥ (LeafPage.RemoveAndDeleteRecord
      { parent_page_id := p, max_size := L.max_size, next_page_id := L.next, array := L.arr }
      key).GetMinSize) := by
    simp only [LeafPage.RemoveAndDeleteRecord, LeafPage.GetSize, LeafPage.GetMinSize]
    omega
  simp only [hlt, if_false]
  obtain ⟨f, rfl⟩ : ∃ f, fuel = f + 1 := ⟨fuel - 1, by omega⟩
  cases hc : CoalesceOrRedistribute false (f + 1) _ L.id with
  | error e =>
    refine ⟨e, by simp, fun he => ?_⟩
    rw [he] at hc
    exact CoalesceOrRedistribute_fuel f _ L.id hc
  | ok r => exact ⟨.null_pointer, by simp [Unlock], by simp⟩

/-- Claim C19 fails at these inputs. On the leaves `[1, 2]` and `[3, 4]` under the root
`[_, 3]` (maximum sizes 4), `Remove(4)` without a transaction leaves the leaf `[3]` below
its minimum size 2 and faults on the null transaction at line 298. On the root leaf
`[1, 2]`, `Remove(1)` without a transaction faults on the null transaction at line 260. -/
theorem Remove_without_transaction_faults_witness :
    (∃ e, Remove 8 4 false State.twoLeaves = .error e ∧ e ≠ .out_of_fuel) ∧
    Remove 8 4 false State.twoLeaves = .error .null_pointer ∧
    Remove 8 1 false
      (State.ofList
        [(1, .leaf { parent_page_id := -1, max_size := 4, next_page_id := -1,
                     array := [(1, 1), (2, 2)] })]
        1 2 4 4) = .error .null_pointer :=
  ⟨@Remove_without_transaction_faults _ _ _ State.twoLeaves_holds 4
      (ALeaf.mk 2 4 (-1) [(3, 3), (4, 4)]) rfl (by decide) 8 (by decide),
    rfl, rfl⟩

/-- Claim C20: `Redistribute` on two neighbouring children `A` (left) and `B` (right) of a
node `P` of an ordered tree, at any height; the slots of a leaf are its pairs, the slots of
an internal node its keys with the page ids of its children. The sibling has at least two
slots, as it has whenever `CoalesceOrRedistribute` calls `Redistribute`.
First part (`index != 0`, the node is `B` and the sibling the left neighbour `A`): the call
returns, the last slot `e` of `A` is taken off `A` and is the first slot of `B`, and the
key of the slot of `B` in the parent is the key of `e`.
Second part (`index == 0`, the node is the first child `A` and the sibling the right
neighbour `B` with the first slots `e` and `e2`): the call returns, the first slot of `B`
is taken off `B` and is the last slot of `A` (for a leaf the pair `e`; for an internal
node the child of `e` under the former separator, the key of slot 0 being unused), and the
key of the slot of `B` in the parent is the key of `e2`, the new first key of `B`.
In both parts the page table represents the parent with the new children and the new
separator, that tree is ordered within the same bounds, every key in the left child is
below the new separator, every key in the right child is at least the new separator, and
the pairs of the tree are the same as before. -/
theorem Redistribute_keeps_separator {s : State} (h : Nat) (P : ANode (Tree h))
    (parent : page_id_t) (X Y : List (KeyType × Tree h)) (ka kb : KeyType) (A B : Tree h)
    (lo hi : Option KeyType) (hk : P.kids = X ++ (ka, A) :: (kb, B) :: Y)
    (hr : Rep s.pages (h + 1) P parent) (hnd : (Tree.ids (h + 1) P).Nodup)
    (hok : Tree.Ok (h + 1) P) (ho : Tree.Ord (h + 1) P lo hi) :
    (2 ≤ Tree.size h A →
      ∃ (s2 : State) (A1 B1 : Tree h) (e : KeyType × Int),
        Redistribute s (Tree.pid h A) (Tree.pid h B) (X.length + 1) = .ok s2 ∧
        Tree.pid h A1 = Tree.pid h A ∧ Tree.pid h B1 = Tree.pid h B ∧
        (Tree.slots h A).getLast? = some e ∧
        Tree.slots h A1 = (Tree.slots h A).dropLast ∧
        (Tree.slots h B1).head? = some e ∧
        Rep s2.pages (h + 1)
          (ANode.mk P.id P.max_size (X ++ (ka, A1) :: (e.1, B1) :: Y)) parent ∧
        Tree.Ord (h + 1) (ANode.mk P.id P.max_size (X ++ (ka, A1) :: (e.1, B1) :: Y)) lo hi ∧
        (∀ x ∈ Tree.entries h A1, x.1 < e.1) ∧ (∀ x ∈ Tree.entries h B1, e.1 ≤ x.1) ∧
        Tree.entries (h + 1) (ANode.mk P.id P.max_size (X ++ (ka, A1) :: (e.1, B1) :: Y)) =
          Tree.entries (h + 1) P) ∧
    (X = [] → 2 ≤ Tree.size h B →
      ∃ (s2 : State) (A1 B1 : Tree h) (e e2 : KeyType × Int),
        Redistribute s (Tree.pid h B) (Tree.pid h A) 0 = .ok s2 ∧
        Tree.pid h A1 = Tree.pid h A ∧ Tree.pid h B1 = Tree.pid h B ∧
        (Tree.slots h B).head? = some e ∧ (Tree.slots h B).tail.head? = some e2 ∧
        Tree.slots h B1 = (Tree.slots h B).tail ∧
        Tree.slots h A1 = Tree.slots h A ++ [(if h = 0 then e.1 else kb, e.2)] ∧
        Rep s2.pages (h + 1) (ANode.mk P.id P.max_size ((ka, A1) :: (e2.1, B1) :: Y)) parent ∧
        Tree.Ord (h + 1) (ANode.mk P.id P.max_size ((ka, A1) :: (e2.1, B1) :: Y)) lo hi ∧
        (∀ x ∈ Tree.entries h A1, x.1 < e2.1) ∧
        (∀ x ∈ Tree.entries h B1, e2.1 ≤ x.1) ∧
        Tree.entries (h + 1) (ANode.mk P.id P.max_size ((ka, A1) :: (e2.1, B1) :: Y)) =
          Tree.entries (h + 1) P) := by
  refine ⟨Redistribute_left_sep h hk hr hnd hok ho, fun hX => ?_⟩
  subst hX
  exact Redistribute_right_sep h hk hr hnd hok ho

/-- Claim C20 on the tree of the leaves `[1, 2]` (page 1) and `[3, 4]` (page 2) under the
root `[_, 3]` (page 3). With page 2 as the node and page 1 as its left sibling the pair of
the key 2 moves: the leaves are `[1]` and `[2, 3, 4]` and the root is `[_, 2]`. With page 1
as the node and page 2 as its right sibling the pair of the key 3 moves: the leaves are
`[1, 2, 3]` and `[4]` and the root is `[_, 4]`. Last part, internal nodes: after the keys
1 to 11 the root `[_, 5]` (page 7) has the children `[_, 3]` (page 3) and `[_, 7, 9]`
(page 6, slot 0 with the unused key 5); with page 3 as the node and page 6 as its right
sibling the first child of page 6 (page 4) moves under the former separator 5, the root
is `[_, 7]`, and page 4 has the parent 3. -/
theorem Redistribute_keeps_separator_witness :
    (∃ (s2 : State) (A1 B1 : Tree 0) (e : KeyType × Int),
      Redistribute State.twoLeaves 1 2 1 = .ok s2 ∧
      Tree.pid 0 A1 = 1 ∧ Tree.pid 0 B1 = 2 ∧
      [((1 : KeyType), (1 : Int)), (2, 2)].getLast? = some e ∧
      Tree.slots 0 A1 = [((1 : KeyType), (1 : Int)), (2, 2)].dropLast ∧
      (Tree.slots 0 B1).head? = some e ∧
      Rep s2.pages 1 (ANode.mk 3 4 [(0, A1), (e.1, B1)]) INVALID_PAGE_ID ∧
      Tree.Ord 1 (ANode.mk 3 4 [(0, A1), (e.1, B1)]) none none ∧
      (∀ x ∈ Tree.entries 0 A1, x.1 < e.1) ∧ (∀ x ∈ Tree.entries 0 B1, e.1 ≤ x.1) ∧
      Tree.entries 1 (ANode.mk 3 4 [(0, A1), (e.1, B1)]) =
        Tree.entries 1 Tree.twoLeaves) ∧
    (∃ (s2 : State) (A1 B1 : Tree 0) (e e2 : KeyType × Int),
      Redistribute State.twoLeaves 2 1 0 = .ok s2 ∧
      Tree.pid 0 A1 = 1 ∧ Tree.pid 0 B1 = 2 ∧
      [((3 : KeyType), (3 : Int)), (4, 4)].head? = some e ∧
      [((3 : KeyType), (3 : Int)), (4, 4)].tail.head? = some e2 ∧
      Tree.slots 0 B1 = [((3 : KeyType), (3 : Int)), (4, 4)].tail ∧
      Tree.slots 0 A1 = [((1 : KeyType), (1 : Int)), (2, 2)] ++ [(e.1, e.2)] ∧
      Rep s2.pages 1 (ANode.mk 3 4 [(0, A1), (e2.1, B1)]) INVALID_PAGE_ID ∧
      Tree.Ord 1 (ANode.mk 3 4 [(0, A1), (e2.1, B1)]) none none ∧
      (∀ x ∈ Tree.entries 0 A1, x.1 < e2.1) ∧ (∀ x ∈ Tree.entries 0 B1, e2.1 ≤ x.1) ∧
      Tree.entries 1 (ANode.mk 3 4 [(0, A1), (e2.1, B1)]) =
        Tree.entries 1 Tree.twoLeaves) ∧
    (Redistribute State.twoLeaves 1 2 1 >>= fun s2 => pure ([1, 2, 3].map s2.pages)) =
      .ok [some (.leaf { parent_page_id := 3, max_size := 4, next_page_id := 2,
                         array := [(1, 1)] }),
           some (.leaf { parent_page_id := 3, max_size := 4, next_page_id := -1,
                         array := [(2, 2), (3, 3), (4, 4)] }),
           some (.internal { parent_page_id := -1, max_size := 4,
                             array := [(0, 1), (2, 2)] })] ∧
    (Redistribute State.twoLeaves 2 1 0 >>= fun s2 => pure ([1, 2, 3].map s2.pages)) =
      .ok [some (.leaf { parent_page_id := 3, max_size := 4, next_page_id := 2,
                         array := [(1, 1), (2, 2), (3, 3)] }),
           some (.leaf { parent_page_id := 3, max_size := 4, next_page_id := -1,
                         array := [(4, 4)] }),
           some (.internal { parent_page_id := -1, max_size := 4,
                             array := [(0, 1), (4, 2)] })] ∧
    (InsertAll 8 true [(1, 1), (2, 2), (3, 3), (4, 4), (5, 5), (6, 6), (7, 7), (8, 8),
        (9, 9), (10, 10), (11, 11)] (State.new 4 4) >>= fun s =>
      Redistribute s 6 3 0 >>= fun s2 =>
      pure ([3, 6, 7].map s.pages, [3, 6, 7].map s2.pages,
        (s2.pages 4).map (·.GetParentPageId))) =
      .ok ([some (.internal { parent_page_id := 7, max_size := 4,
                              array := [(0, 1), (3, 2)] }),
            some (.internal { parent_page_id := 7, max_size := 4,
                              array := [(5, 4), (7, 5), (9, 8)] }),
            some (.internal { parent_page_id := -1, max_size := 4,
                              array := [(0, 3), (5, 6)] })],
           [some (.internal { parent_page_id := 7, max_size := 4,
                              array := [(0, 1), (3, 2), (5, 4)] }),
            some (.internal { parent_page_id := 7, max_size := 4,
                              array := [(7, 5), (9, 8)] }),
            some (.internal { parent_page_id := -1, max_size := 4,
                              array := [(0, 3), (7, 6)] })],
           some 3) :=
  ⟨(@Redistribute_keeps_separator State.twoLeaves 0 Tree.twoLeaves INVALID_PAGE_ID [] []
      0 3 (ALeaf.mk 1 4 2 [(1, 1), (2, 2)]) (ALeaf.mk 2 4 (-1) [(3, 3), (4, 4)]) none none
      rfl State.twoLeaves_holds.rep State.twoLeaves_holds.nodup State.twoLeaves_holds.ok
      (by simp [Tree.twoLeaves, Tree.Ord, KidsOrd, LeafOrd, Bnd, LoOk, HiOk])).1 (by decide),
    (@Redistribute_keeps_separator State.twoLeaves 0 Tree.twoLeaves INVALID_PAGE_ID [] []
      0 3 (ALeaf.mk 1 4 2 [(1, 1), (2, 2)]) (ALeaf.mk 2 4 (-1) [(3, 3), (4, 4)]) none none
      rfl State.twoLeaves_holds.rep State.twoLeaves_holds.nodup State.twoLeaves_holds.ok
      (by simp [Tree.twoLeaves, Tree.Ord, KidsOrd, LeafOrd, Bnd, LoOk, HiOk])).2 rfl
      (by decide),
    rfl, rfl, rfl⟩

end BPlusTree

namespace BPlusTree

/-- Claim C21: `Coalesce` (with a transaction) on two neighbouring children `A` (left) and
`B` (right) of a node `P`, at any height, called for the node `B` with its left sibling `A`
(`index` the slot of `B`) or for the first child `A` with its right sibling `B`
(`index == 0`, the roles are swapped). The call is the recursion on the parent when the
parent is below its minimum size, and returns false otherwise, in the state `s3` in which:
the survivor is the page of `A`, with the slots of `A` followed by the slots of `B` (for
internal nodes the first child of `B` under the separator of `B`, the key of slot 0 being
unused); for leaves its next page id is the one of `B`; the parent has lost the slot of `B`
and no other, and the children are represented below it; the id of `B` is added to the
deleted-page set; the page set, the pages outside of `P` and the other fields are left
alone. The pairs of the tree are the same, and the tree is ordered when it was. -/
theorem Coalesce_merges_into_left (recurse : State → page_id_t → Except Fault (Bool × State))
    {s : State} (h : Nat) (P : ANode (Tree h)) (parent : page_id_t)
    (X Y : List (KeyType × Tree h)) (ka kb : KeyType) (A B : Tree h)
    (neighbor_node node : page_id_t) (index : Nat)
    (hk : P.kids = X ++ (ka, A) :: (kb, B) :: Y) (hr : Rep s.pages (h + 1) P parent)
    (hnd : (Tree.ids (h + 1) P).Nodup)
    (hargs : (neighbor_node = Tree.pid h A ∧ node = Tree.pid h B ∧ index = X.length + 1) ∨
      (neighbor_node = Tree.pid h B ∧ node = Tree.pid h A ∧ index = 0 ∧ X = [])) :
    ∃ (A1 : Tree h) (s3 : State),
      Coalesce recurse true s neighbor_node node index =
        (if (slotsOf h P.kids).length - 1 < (P.max_size + 1) / 2 then recurse s3 P.id
          else .ok (false, s3)) ∧
      Tree.pid h A1 = Tree.pid h A ∧
      Tree.slots h A1 = Tree.slots h A ++
        (if h = 0 then Tree.slots h B else InternalPage.SetKeyAtIn kb 0 (Tree.slots h B)) ∧
      s3.pages (Tree.pid h A) = some (Tree.page h A1 P.id) ∧
      (∀ a b : LeafPage, Tree.page h A1 P.id = .leaf a → Tree.page h B P.id = .leaf b →
        a.next_page_id = b.next_page_id) ∧
      s.pages P.id = some (.internal
        { parent_page_id := parent, max_size := P.max_size, array := slotsOf h P.kids }) ∧
      s3.pages P.id = some (.internal
        { parent_page_id := parent, max_size := P.max_size,
          array := (slotsOf h P.kids).eraseIdx (X.length + 1) }) ∧
      (slotsOf h P.kids).get? (X.length + 1) = some (kb, Tree.pid h B) ∧
      Rep s3.pages (h + 1) (ANode.mk P.id P.max_size (X ++ (ka, A1) :: Y)) parent ∧
      s3.txn.deleted_page_set = Tree.pid h B :: s.txn.deleted_page_set ∧
      s3.txn.page_set = s.txn.page_set ∧
      (∀ x, x ∉ Tree.ids (h + 1) P → s3.pages x = s.pages x) ∧ Fixed s s3 ∧
      Tree.entries (h + 1) (ANode.mk P.id P.max_size (X ++ (ka, A1) :: Y)) =
        Tree.entries (h + 1) P ∧
      (∀ lo hi, Tree.Ok (h + 1) P → Tree.Ord (h + 1) P lo hi →
        Tree.Ord (h + 1) (ANode.mk P.id P.max_size (X ++ (ka, A1) :: Y)) lo hi) := by
  obtain ⟨A1, s3, h1, h2, h3, h4, h5, h6, h7, h8, h9, h10, h11⟩ :=
    Coalesce_slots recurse h hk hr hnd hargs
  have hr0 := hr
  have hr3 := h5
  simp only [Rep] at hr0 hr3
  have hslots : slotsOf h (X ++ (ka, A1) :: Y) =
      (slotsOf h P.kids).eraseIdx (X.length + 1) := by
    rw [hk, eraseIdx_slots]
    simp [slotsOf_append, slotsOf_cons, h2]
  refine ⟨A1, s3, ?_, h2, h3, ?_, h4, hr0.1, ?_, ?_, h5, h10, h9, h8, h11, h7, h6⟩
  · rw [h1]
    have : (X ++ (ka, A1) :: Y).length = (slotsOf h P.kids).length - 1 := by
      rw [hk]
      simp
    rw [this]
  · rw [← h2]
    exact Rep.page_eq h A1 _ (hr3.2 (ka, A1) (by simp))
  · rw [← hslots]
    exact hr3.1
  · rw [hk]
    exact get?_slots_second h (ka, A) (kb, B) Y X

/-- Claim C21 on the tree of the leaves `[1, 2]` (page 1) and `[3, 4]` (page 2) under the
root `[_, 3]` (page 3), with a recursion that returns at once: called for page 2 with its
left sibling page 1 (`index` 1), and called for page 1 with its right sibling page 2
(`index` 0), `Coalesce` leaves page 1 with `[1, 2, 3, 4]` and no next page, page 2 empty,
the root with the one slot of page 1, and page 2 in the deleted-page set. -/
theorem Coalesce_merges_into_left_witness :
    (∃ (A1 : Tree 0) (s3 : State),
      Coalesce (fun s1 _ => .ok (true, s1)) true State.twoLeaves 1 2 1 = .ok (true, s3) ∧
      Tree.slots 0 A1 = [(1, 1), (2, 2), (3, 3), (4, 4)] ∧
      s3.pages 1 = some (Tree.page 0 A1 3) ∧
      s3.txn.deleted_page_set = [2]) ∧
    (∃ (A1 : Tree 0) (s3 : State),
      Coalesce (fun s1 _ => .ok (true, s1)) true State.twoLeaves 2 1 0 = .ok (true, s3) ∧
      Tree.slots 0 A1 = [(1, 1), (2, 2), (3, 3), (4, 4)] ∧
      s3.pages 1 = some (Tree.page 0 A1 3) ∧
      s3.txn.deleted_page_set = [2]) ∧
    (Coalesce (fun s1 _ => .ok (true, s1)) true State.twoLeaves 1 2 1).map
        (fun r => ([1, 2, 3].map r.2.pages, r.2.txn.deleted_page_set)) =
      .ok ([some (.leaf { parent_page_id := 3, max_size := 4, next_page_id := -1,
                          array := [(1, 1), (2, 2), (3, 3), (4, 4)] }),
            some (.leaf { parent_page_id := 3, max_size := 4, next_page_id := -1,
                          array := [] }),
            some (.internal { parent_page_id := -1, max_size := 4, array := [(0, 1)] })],
        [2]) ∧
    (Coalesce (fun s1 _ => .ok (true, s1)) true State.twoLeaves 2 1 0).map
        (fun r => ([1, 2, 3].map r.2.pages, r.2.txn.deleted_page_set)) =
      .ok ([some (.leaf { parent_page_id := 3, max_size := 4, next_page_id := -1,
                          array := [(1, 1), (2, 2), (3, 3), (4, 4)] }),
            some (.leaf { parent_page_id := 3, max_size := 4, next_page_id := -1,
                          array := [] }),
            some (.internal { parent_page_id := -1, max_size := 4, array := [(0, 1)] })],
        [2]) :=
  ⟨match @Coalesce_merges_into_left (fun s1 _ => .ok (true, s1)) State.twoLeaves 0
      Tree.twoLeaves INVALID_PAGE_ID [] [] 0 3 (ALeaf.mk 1 4 2 [(1, 1), (2, 2)])
      (ALeaf.mk 2 4 (-1) [(3, 3), (4, 4)]) 1 2 1 rfl State.twoLeaves_holds.rep
      State.twoLeaves_holds.nodup (Or.inl ⟨rfl, rfl, rfl⟩) with
    | ⟨A1, s3, h1, _, h3, h4, _, _, _, _, _, h10, _⟩ => ⟨A1, s3, h1, h3, h4, h10⟩,
    match @Coalesce_merges_into_left (fun s1 _ => .ok (true, s1)) State.twoLeaves 0
      Tree.twoLeaves INVALID_PAGE_ID [] [] 0 3 (ALeaf.mk 1 4 2 [(1, 1), (2, 2)])
      (ALeaf.mk 2 4 (-1) [(3, 3), (4, 4)]) 2 1 0 rfl State.twoLeaves_holds.rep
      State.twoLeaves_holds.nodup (Or.inr ⟨rfl, rfl, rfl, rfl⟩) with
    | ⟨A1, s3, h1, _, h3, h4, _, _, _, _, _, h10, _⟩ => ⟨A1, s3, h1, h3, h4, h10⟩,
    rfl, rfl⟩

/-- Claim C22: latch crabbing. On a state that holds a tree, latched `FindLeafPage` returns
the leaf `L` of the key, and the page set of the transaction is then the one that the
specification gives for the path from the root to `L`: oldest first, the pages from the
deepest node that `IsSafe` accepted down to the leaf, or the virtual root and the whole
path when no node is safe. The path starts at the root page and ends at `L`, and no page is
twice in the page set. For `SEARCH` the page set is `[L]`. Every page (the virtual root
among them) is latched as often as unlatched, and once more when it is in the page set;
every page is pinned as often as unpinned, once more when it is in the page set, and the
leaf once more for the second fetch: so every node above the page set has been unlatched
and unpinned. -/
theorem FindLeafPage_crabbing {s : State} {h : Nat} {t : Tree h} (hs : Holds s h t)
    (key : KeyType) (leftMost : Bool) (action_type : ActionType) {fuel : Nat} (hf : h < fuel) :
    ∃ (L : ALeaf) (events : List Event),
      Tree.findLeaf key leftMost h t = some L ∧
      FindLeafPage fuel key leftMost true action_type s =
        .ok (some L.id,
          s.withPageSet (crabbed (Tree.path action_type key leftMost h t))) ∧
      Latched.FindLeafPage fuel key leftMost action_type s [] =
        .ok (some L.id,
          s.withPageSet (crabbed (Tree.path action_type key leftMost h t)), events) ∧
      ((Tree.path action_type key leftMost h t).map (·.1)).head? = some s.root_page_id_ ∧
      ((Tree.path action_type key leftMost h t).map (·.1)).getLast? = some L.id ∧
      (crabbed (Tree.path action_type key leftMost h t)).Nodup ∧
      (crabbed (Tree.path action_type key leftMost h t)).getLast? = some (.frame L.id) ∧
      (action_type = .SEARCH →
        crabbed (Tree.path action_type key leftMost h t) = [.frame L.id]) ∧
      (∀ x, latches x events =
        unlatches x events + (crabbed (Tree.path action_type key leftMost h t)).count x) ∧
      (∀ q, pins q (poolCalls events) =
        unpins q (poolCalls events) +
          (crabbed (Tree.path action_type key leftMost h t)).count (.frame q) +
          (if L.id = q then 1 else 0)) := by
  obtain ⟨L, hL⟩ := Tree.findLeaf_some key leftMost h t hs.ok
  obtain ⟨events, h1, h2, h3⟩ := Latched.FindLeafPage_holds hs key leftMost action_type hL hf
  have hlast := Tree.path_last action_type key leftMost h t L hL
  obtain ⟨c1, c2, -⟩ := crabbed_facts (Tree.path action_type key leftMost h t)
    (((Tree.path_sublist action_type key leftMost h t).nodup hs.nodup)) L.id hlast
  refine ⟨L, events, hL, ?_, h1, ?_, hlast, c1, c2, ?_, h2, h3⟩
  · rw [FindLeafPage_latched hs key leftMost action_type hL hf, Tree.heldRoot_eq_crabbed]
  · rw [Tree.path_cons, hs.root]
    rfl
  · intro ha
    subst ha
    rw [crabbed, fromDeepestSafe_all_safe _ L.id (Tree.path_search key leftMost h t) hlast]
    rfl

/-- Claim C22 on the tree of the leaves `[1, 2]` (page 1) and `[3, 4]` (page 2) under the
root `[_, 3]` (page 3), maximum sizes 4, for the key 4. For `DELETE` no node of the path is
safe, and the page set is the virtual root, page 3 and page 2; for `INSERT` and `SEARCH`
the leaf is safe, and the page set is page 2, the virtual root and page 3 having been
unlatched and page 3 unpinned when the leaf was locked. -/
theorem FindLeafPage_crabbing_witness :
    (∃ (L : ALeaf) (events : List Event),
      Tree.findLeaf 4 false 1 Tree.twoLeaves = some L ∧
      FindLeafPage 8 4 false true .DELETE State.twoLeaves =
        .ok (some L.id,
          State.twoLeaves.withPageSet (crabbed (Tree.path .DELETE 4 false 1 Tree.twoLeaves))) ∧
      Latched.FindLeafPage 8 4 false .DELETE State.twoLeaves [] =
        .ok (some L.id,
          State.twoLeaves.withPageSet (crabbed (Tree.path .DELETE 4 false 1 Tree.twoLeaves)),
          events) ∧
      ((Tree.path .DELETE 4 false 1 Tree.twoLeaves).map (·.1)).head? =
        some State.twoLeaves.root_page_id_ ∧
      ((Tree.path .DELETE 4 false 1 Tree.twoLeaves).map (·.1)).getLast? = some L.id ∧
      (crabbed (Tree.path .DELETE 4 false 1 Tree.twoLeaves)).Nodup ∧
      (crabbed (Tree.path .DELETE 4 false 1 Tree.twoLeaves)).getLast? = some (.frame L.id) ∧
      (ActionType.DELETE = .SEARCH →
        crabbed (Tree.path .DELETE 4 false 1 Tree.twoLeaves) = [.frame L.id]) ∧
      (∀ x, latches x events =
        unlatches x events + (crabbed (Tree.path .DELETE 4 false 1 Tree.twoLeaves)).count x) ∧
      (∀ q, pins q (poolCalls events) =
        unpins q (poolCalls events) +
          (crabbed (Tree.path .DELETE 4 false 1 Tree.twoLeaves)).count (.frame q) +
          (if L.id = q then 1 else 0))) ∧
    Tree.path .DELETE 4 false 1 Tree.twoLeaves = [(3, false), (2, false)] ∧
    (Latched.FindLeafPage 8 4 false .DELETE State.twoLeaves []).map
        (fun r => (r.1, r.2.1.txn.page_set, r.2.2)) =
      .ok (some 2, [.virtual_root_page, .frame 3, .frame 2],
        [.WLatch .virtual_root_page, .pool (.FetchPage 3), .WLatch (.frame 3),
          .pool (.FetchPage 2), .WLatch (.frame 2), .pool (.FetchPage 2)]) ∧
    Tree.path .INSERT 4 false 1 Tree.twoLeaves = [(3, true), (2, true)] ∧
    (Latched.FindLeafPage 8 4 false .INSERT State.twoLeaves []).map
        (fun r => (r.1, r.2.1.txn.page_set, r.2.2)) =
      .ok (some 2, [.frame 2],
        [.WLatch .virtual_root_page, .pool (.FetchPage 3), .WLatch (.frame 3),
          .WUnlatch .virtual_root_page, .pool (.FetchPage 2), .WLatch (.frame 2),
          .WUnlatch (.frame 3), .pool (.UnpinPage 3 true), .pool (.FetchPage 2)]) ∧
    (Latched.FindLeafPage 8 4 false .SEARCH State.twoLeaves []).map
        (fun r => (r.1, r.2.1.txn.page_set, r.2.2)) =
      .ok (some 2, [.frame 2],
        [.RLatch .virtual_root_page, .pool (.FetchPage 3), .RLatch (.frame 3),
          .RUnlatch .virtual_root_page, .pool (.FetchPage 2), .RLatch (.frame 2),
          .RUnlatch (.frame 3), .pool (.UnpinPage 3 false), .pool (.FetchPage 2)]) :=
  ⟨FindLeafPage_crabbing State.twoLeaves_holds 4 false .DELETE (by decide), rfl, rfl, rfl, rfl,
    rfl⟩

/-- Claim C23: `Unlock` with its events. First part, on a page set that is not empty:
`Unlock` returns, and its events are the ones of the specification, oldest first: the
virtual root, if it is first, is unlatched without an unpin; every other page is unlatched
and then unpinned, and then deleted when its id is scheduled, which takes the id off the
schedule. Afterwards the page set is empty, the schedule has lost the ids of the released
pages, and the pool has lost the pages that were scheduled and released. The events
unlatch every page as often as it is in the page set and unpin every page as often as the
loop runs over it; every `DeletePage` is for a scheduled id and comes right after the
unlatch and the unpin of a released page of that id. Second part: when `Remove` with a
transaction returns on a state that holds a tree, the page set and the schedule of
deletions are empty. -/
theorem Unlock_releases (action_type : ActionType) (s : State) (events : List Event) :
    (s.txn.page_set ≠ [] →
      ∃ s1, Unlock action_type true s = .ok s1 ∧
        Latched.Unlock action_type true s events =
          .ok (s1, events ++ unlockEvents action_type s.txn.page_set s.txn.deleted_page_set) ∧
        s1.txn.page_set = [] ∧
        (∀ x, x ∈ s1.txn.deleted_page_set ↔
          x ∈ s.txn.deleted_page_set ∧ x ∉ (released s.txn.page_set).map PageRef.GetPageId) ∧
        (∀ x, s1.pages x =
          if x ∈ s.txn.deleted_page_set ∧ x ∈ (released s.txn.page_set).map PageRef.GetPageId
          then none else s.pages x) ∧
        (∀ x, unlatches x
            (unlockEvents action_type s.txn.page_set s.txn.deleted_page_set) =
          s.txn.page_set.count x) ∧
        (∀ q, unpins q (poolCalls
            (unlockEvents action_type s.txn.page_set s.txn.deleted_page_set)) =
          ((released s.txn.page_set).map PageRef.GetPageId).count q) ∧
        (∀ (pre post : List Event) (q : page_id_t),
          unlockEvents action_type s.txn.page_set s.txn.deleted_page_set =
            pre ++ .pool (.DeletePage q) :: post →
          q ∈ s.txn.deleted_page_set ∧
          ∃ (pre1 : List Event) (page : PageRef), page ∈ released s.txn.page_set ∧
            page.GetPageId = q ∧
            pre = pre1 ++ [if action_type = .SEARCH then .RUnlatch page else .WUnlatch page,
              .pool (.UnpinPage q (action_type != .SEARCH))])) ∧
    (∀ (h : Nat) (t : Tree h) (fuel : Nat) (key : KeyType) (s1 : State), Holds s h t →
      Remove fuel key true s = .ok s1 →
      s1.txn.page_set = [] ∧ s1.txn.deleted_page_set = []) := by
  refine ⟨fun hps => ?_, fun h t fuel key s1 hs hrem => ?_⟩
  · obtain ⟨s1, h1, h2, h3, h4, h5⟩ := Unlock_nonempty action_type s events hps
    refine ⟨s1, h1, h2, h3, h4, h5, fun x => ?_, fun q => ?_, fun pre post q hq => ?_⟩
    · exact (unlockEvents_count action_type 0 x _ _).2.2.2
    · exact (unlockEvents_count action_type q .virtual_root_page _ _).2.1
    · exact unlockEvents_delete action_type _ _ pre post q hq
  · rcases Remove_holds hs hrem with he | ⟨h1, t1, hs1⟩
    · exact ⟨he.page_set, he.deleted⟩
    · exact ⟨hs1.page_set, hs1.deleted⟩

/-- Claim C23 at concrete inputs. `Unlock` for `DELETE` on the page set of the virtual root
and the pages 3, 2, 1, with the pages 3 and 2 scheduled: the virtual root is unlatched;
page 3 is unlatched, unpinned and deleted; page 2 likewise; page 1 is unlatched and
unpinned; the page set and the schedule are empty, and the pages 3 and 2 have left the
pool. `Remove(4)` on the leaves `[1, 2]` and `[3, 4]` merges the leaves and returns with an
empty page set and an empty schedule. -/
theorem Unlock_releases_witness :
    (Latched.Unlock .DELETE true
        { State.twoLeaves with
          txn := { page_set := [.virtual_root_page, .frame 3, .frame 2, .frame 1],
                   deleted_page_set := [2, 3] } } []).map
        (fun r => (r.2, r.1.txn.page_set, r.1.txn.deleted_page_set,
          [1, 2, 3].map (fun q => (r.1.pages q).isSome))) =
      .ok ([.WUnlatch .virtual_root_page,
          .WUnlatch (.frame 3), .pool (.UnpinPage 3 true), .pool (.DeletePage 3),
          .WUnlatch (.frame 2), .pool (.UnpinPage 2 true), .pool (.DeletePage 2),
          .WUnlatch (.frame 1), .pool (.UnpinPage 1 true)], [], [], [true, false, false]) ∧
    (∃ s1, Unlock .DELETE true
        { State.twoLeaves with
          txn := { page_set := [.virtual_root_page, .frame 3, .frame 2, .frame 1],
                   deleted_page_set := [2, 3] } } = .ok s1 ∧ s1.txn.page_set = []) ∧
    (∃ s1, Remove 8 4 true State.twoLeaves = .ok s1 ∧
      s1.txn.page_set = [] ∧ s1.txn.deleted_page_set = []) :=
  ⟨rfl,
    match (Unlock_releases .DELETE
      { State.twoLeaves with
        txn := { page_set := [.virtual_root_page, .frame 3, .frame 2, .frame 1],
                 deleted_page_set := [2, 3] } } []).1 (by simp) with
    | ⟨s1, h1, _, h3, _⟩ => ⟨s1, h1, h3⟩,
    match hr : Remove 8 4 true State.twoLeaves with
    | .ok s1 =>
      ⟨s1, rfl, (Unlock_releases .DELETE State.twoLeaves []).2 1 Tree.twoLeaves 8 4 s1
        State.twoLeaves_holds hr⟩
    | .error e => by
      have h0 : (Remove 8 4 true State.twoLeaves).toBool = true := rfl
      rw [hr] at h0
      cases h0⟩

/-- Claim C24 fails on the code: `StartNewTree` calls `UpdateRootPageId(1)` (insert mode)
every time, also when the index has its record in the header page already, and an insert
for a name that has a record does not overwrite it. First part: on every empty tree whose
header record is `INVALID_PAGE_ID` (as `AdjustRoot` leaves it when `Remove` empties the
tree), `Insert` returns with the new root page in `root_page_id_` and the header record
still `INVALID_PAGE_ID`. Second part: with maximum sizes 4, after `Insert(1)` the record
and the root are page 1; after `Remove(1)` both are `INVALID_PAGE_ID`; after `Insert(2)`
the root is page 2 and the record is `INVALID_PAGE_ID`. -/
theorem Insert_after_emptying_keeps_old_header :
    (∀ (s : State) (fuel : Nat) (key : KeyType) (value : ValueType), HoldsEmpty s →
      s.header_record = some INVALID_PAGE_ID →
      ∃ s1, Insert fuel key value true s = .ok (true, s1) ∧
        s1.root_page_id_ = s.next_page_id ∧ s1.header_record = some INVALID_PAGE_ID ∧
        s1.header_record ≠ some s1.root_page_id_) ∧
    (Insert 8 1 1 true (State.new 4 4) >>= fun r1 =>
      Remove 8 1 true r1.2 >>= fun s2 =>
      Insert 8 2 2 true s2 >>= fun r3 =>
      pure ((r1.2.header_record, r1.2.root_page_id_), (s2.header_record, s2.root_page_id_),
        (r3.1, r3.2.header_record, r3.2.root_page_id_))) =
      .ok ((some 1, 1), (some (-1), -1), (true, some (-1), 2)) := by
  refine ⟨fun s fuel key value hs hh => ?_, rfl⟩
  obtain ⟨s1, h1, h2, h3⟩ := Insert_emptied hs hh fuel key value
  refine ⟨s1, h1, h2, h3, ?_⟩
  rw [h3, h2]
  intro h
  simp only [Option.some.injEq] at h
  have := hs.next_nonneg
  rw [← h] at this
  exact absurd this (by decide)

/-- Claim C26: on a state that holds a tree, `FindLeafPage` with a transaction and without
one return the same leaf, the leaf `L` that the descent by internal `Lookup(key)` (or by
child 0 when `leftMost`) reaches from the root, for every action. Without a transaction
the state is unchanged and the calls leave one pin, on the leaf. With a transaction the
state differs in the page set only, and the calls leave two pins on the leaf (one held
through the page set, one of the second fetch) and one pin on every other page of the page
set. -/
theorem FindLeafPage_latched_unlatched {s : State} {h : Nat} {t : Tree h} (hs : Holds s h t)
    (key : KeyType) (leftMost : Bool) (action_type : ActionType) {fuel : Nat} (hf : h < fuel) :
    ∃ (L : ALeaf) (page_set : List PageRef) (events : List Event) (calls : List PoolCall),
      Tree.findLeaf key leftMost h t = some L ∧
      FindLeafPage fuel key leftMost true action_type s =
        .ok (some L.id, s.withPageSet page_set) ∧
      FindLeafPage fuel key leftMost false action_type s = .ok (some L.id, s) ∧
      Latched.FindLeafPage fuel key leftMost action_type s [] =
        .ok (some L.id, s.withPageSet page_set, events) ∧
      Traced.FindLeafPage fuel key leftMost false action_type s [] =
        .ok (some L.id, s, calls) ∧
      pins L.id (poolCalls events) = unpins L.id (poolCalls events) + 2 ∧
      (∀ q, q ≠ L.id → pins q (poolCalls events) =
        unpins q (poolCalls events) + (if PageRef.frame q ∈ page_set then 1 else 0)) ∧
      pins L.id calls = unpins L.id calls + 1 ∧
      (∀ q, q ≠ L.id → pins q calls = unpins q calls) := by
  obtain ⟨L, hL⟩ := Tree.findLeaf_some key leftMost h t hs.ok
  obtain ⟨events, h1, -, h3⟩ := Latched.FindLeafPage_holds hs key leftMost action_type hL hf
  have hlast := Tree.path_last action_type key leftMost h t L hL
  obtain ⟨c1, c2, -⟩ := crabbed_facts (Tree.path action_type key leftMost h t)
    (((Tree.path_sublist action_type key leftMost h t).nodup hs.nodup)) L.id hlast
  have hun := FindLeafPage_unlatched hs key leftMost action_type hL hf
  have hne := hs.root_ne
  have hdesc := unlatched_descent s key leftMost h t _ hs.rep L hL fuel hf
  rw [← hs.root] at hdesc
  have hfst := Traced.unlatched_fst key leftMost fuel s s.root_page_id_
    [.FetchPage s.root_page_id_]
  rw [hdesc] at hfst
  obtain ⟨r, hr, hr2⟩ := map_eq_ok hfst
  obtain ⟨leaf, calls⟩ := r
  simp only at hr2
  subst hr2
  obtain ⟨-, hpin⟩ := Traced.start_spec key leftMost hr
  have hmem : PageRef.frame L.id ∈ crabbed (Tree.path action_type key leftMost h t) :=
    List.mem_of_getLast?_eq_some c2
  refine ⟨L, _, events, calls, hL, ?_, hun, h1, ?_, ?_, fun q hq => ?_, ?_, fun q hq => ?_⟩
  · rw [FindLeafPage_latched hs key leftMost action_type hL hf, Tree.heldRoot_eq_crabbed]
  · simp [Traced.FindLeafPage, IsEmpty, hne, hr]
  · rw [h3 L.id, List.count_eq_one_of_mem c1 hmem]
    simp
  · rw [h3 q, if_neg (Ne.symm hq)]
    by_cases hq2 : PageRef.frame q ∈ crabbed (Tree.path action_type key leftMost h t)
    · rw [List.count_eq_one_of_mem c1 hq2, if_pos hq2]
    · rw [List.count_eq_zero_of_not_mem hq2, if_neg hq2]
  · rw [hpin L.id]
    simp
  · rw [hpin q, if_neg (Ne.symm hq)]
    rfl

/-- Claim C26 on the tree of the leaves `[1, 2]` (page 1) and `[3, 4]` (page 2) under the
root `[_, 3]` (page 3), for the key 4 and `DELETE`: both descents return page 2; with a
transaction the page set is the virtual root and the pages 3 and 2, and page 2 is fetched
twice; without one the calls fetch page 3, unpin it and fetch page 2. -/
theorem FindLeafPage_latched_unlatched_witness :
    (∃ (L : ALeaf) (page_set : List PageRef) (events : List Event) (calls : List PoolCall),
      Tree.findLeaf 4 false 1 Tree.twoLeaves = some L ∧
      FindLeafPage 8 4 false true .DELETE State.twoLeaves =
        .ok (some L.id, State.twoLeaves.withPageSet page_set) ∧
      FindLeafPage 8 4 false false .DELETE State.twoLeaves = .ok (some L.id, State.twoLeaves) ∧
      Latched.FindLeafPage 8 4 false .DELETE State.twoLeaves [] =
        .ok (some L.id, State.twoLeaves.withPageSet page_set, events) ∧
      Traced.FindLeafPage 8 4 false false .DELETE State.twoLeaves [] =
        .ok (some L.id, State.twoLeaves, calls) ∧
      pins L.id (poolCalls events) = unpins L.id (poolCalls events) + 2 ∧
      (∀ q, q ≠ L.id → pins q (poolCalls events) =
        unpins q (poolCalls events) + (if PageRef.frame q ∈ page_set then 1 else 0)) ∧
      pins L.id calls = unpins L.id calls + 1 ∧
      (∀ q, q ≠ L.id → pins q calls = unpins q calls)) ∧
    (Latched.FindLeafPage 8 4 false .DELETE State.twoLeaves []).map
        (fun r => (r.1, r.2.1.txn.page_set, poolCalls r.2.2)) =
      .ok (some 2, [.virtual_root_page, .frame 3, .frame 2],
        [.FetchPage 3, .FetchPage 2, .FetchPage 2]) ∧
    (Traced.FindLeafPage 8 4 false false .DELETE State.twoLeaves []).map
        (fun r => (r.1, r.2.2)) =
      .ok (some 2, [.FetchPage 3, .UnpinPage 3 false, .FetchPage 2]) :=
  ⟨FindLeafPage_latched_unlatched State.twoLeaves_holds 4 false .DELETE (by decide), rfl, rfl⟩

/-- Claim C27 fails on the code: on the empty tree `Insert` calls
`Lock(ActionType::INSERT, &virtual_root_page, transaction)` (line 83), and `Lock` calls
`transaction->AddIntoPageSet` on the virtual root (line 555) without a test for a null
transaction: without a transaction the call faults on the null pointer, for every key and
value. -/
theorem Insert_empty_without_transaction_faults (s : State) (fuel : Nat) (key : KeyType)
    (value : ValueType) (hempty : s.root_page_id_ = INVALID_PAGE_ID) :
    Insert fuel key value false s = .error .null_pointer := by
  simp [Insert, IsEmpty, hempty, Lock]

/-- Claim C27 fails at this input: `Insert(1)` without a transaction into the empty tree of
the constructor faults on the null pointer; with a transaction it returns true with the
root leaf `[1]`, and on that tree `Insert(2)` without a transaction returns true with the
root leaf `[1, 2]`. -/
theorem Insert_empty_without_transaction_faults_witness :
    (State.new 4 4).root_page_id_ = INVALID_PAGE_ID ∧
    Insert 8 1 1 false (State.new 4 4) = .error .null_pointer ∧
    (Insert 8 1 1 true (State.new 4 4) >>= fun r1 =>
      Insert 8 2 2 false r1.2 >>= fun r2 =>
      pure (r1.1, r1.2.pages 1, r2.1, r2.2.root_page_id_, r2.2.pages 1)) =
      .ok (true,
        some (.leaf { parent_page_id := -1, max_size := 4, next_page_id := -1,
                      array := [(1, 1)] }),
        true, 1,
        some (.leaf { parent_page_id := -1, max_size := 4, next_page_id := -1,
                      array := [(1, 1), (2, 2)] })) :=
  ⟨rfl, Insert_empty_without_transaction_faults (State.new 4 4) 8 1 1 rfl, rfl⟩

/-- Claim C28 fails on the code: on the empty tree `FindLeafPage` returns `nullptr` (lines
493-494), and `begin()` (line 446) and `Begin(key)` (line 457) call `GetData()` on the
result without a test: both fault on the null pointer instead of returning the end
iterator, which `end()` does return. -/
theorem begin_empty_tree_faults (s : State) (fuel : Nat) (key : KeyType)
    (hempty : s.root_page_id_ = INVALID_PAGE_ID) :
    begin fuel s = .error .null_pointer ∧ Begin fuel key s = .error .null_pointer ∧
      (endIterator s).isEnd = true := by
  simp [begin, Begin, FindLeafPage, IsEmpty, hempty, endIterator, IndexIterator.isEnd]

/-- Claim C28 fails at this input: the empty tree of the constructor. -/
theorem begin_empty_tree_faults_witness :
    (State.new 4 4).root_page_id_ = INVALID_PAGE_ID ∧
    begin 8 (State.new 4 4) = .error .null_pointer ∧
    Begin 8 3 (State.new 4 4) = .error .null_pointer ∧
    (endIterator (State.new 4 4)).isEnd = true :=
  ⟨rfl, begin_empty_tree_faults (State.new 4 4) 8 3 rfl⟩

end BPlusTree
